import Mathlib

/-!
# noah-lang semantic analysis: kind resolver and declaration pre-compiler

A shallow embedding of `internal/compiler/compile_kind.go` and
`internal/compiler/compile_stmt.go`.

* Go pointers to mutable records become indices into an explicit store:
  `KindRef` is the address of a cell of `Compiler.kinds`, a `*Module` is an
  index into `Compiler.modules`.
* Go maps become association lists (`mapGet`, `mapSet`, `mapHas`).
* A run of the compiler is a function `Compiler → Res α`; a fatal diagnostic
  (`unexpectedPos`) and a Go run-time panic both end the run, and the store
  reached at that moment is kept in the result.
* `float64` literal values are the finite ones, represented exactly as rationals.
-/

namespace Noah

/-! ## Syntax tree (package `ast`, as used by the compiler) -/

namespace ast

/-- Identifier node: a name and the offset it starts at. -/
structure Identifier where
  Name : String
  Start : Nat
deriving DecidableEq, Repr

/-- Expression node variants, the cases of the switch in `inferKind`.
Operands of the composite forms are read by none of the embedded functions. -/
inductive ExprNode where
  | CallExpr
  | MemberExpr
  | BinaryExpr
  | BinaryTypeExpr
  | UnaryExpr
  | FuncExpr
  | StructExpr
  | ArrayExpr
  | IdentifierLiteral (Name : String)
  | NumberLiteral (Value : ℚ)
  | BoolLiteral (Value : Bool)
  | NullLiteral
  | StringLiteral (Value : String)
  | CharLiteral (Value : Char)
deriving DecidableEq, Repr

mutual
/-- Type expression with its source offset (`*ast.KindExpr`; a nil pointer is `none`). -/
inductive KindExpr : Type where
  | mk (Node : KindNode) (Start : Nat)
/-- Variants of a type expression node, the cases of the switch in `compileKindExpr`. -/
inductive KindNode : Type where
  | TNumber
  | TByte
  | TChar
  | TString
  | TBool
  | TAny
  | TSelf
  | TArray (t : TArray)
  | TIdentifier (Name : Identifier)
  | TMemberKind (Object : Identifier) (Property : Identifier)
  | TFuncKind (t : TFuncKind)
  | TStructKind (t : TStructKind)
/-- Array type expression: element type and optional length expression. -/
inductive TArray : Type where
  | mk (Kind : Option KindExpr) (Len : Option Expr)
/-- Function type expression. -/
inductive TFuncKind : Type where
  | mk (Arguments : List Argument) (Return : Option KindExpr)
/-- Parameter of a function type expression. -/
inductive Argument : Type where
  | mk (Kind : Option KindExpr) (Rest : Bool) (Start : Nat)
/-- Struct type expression. -/
inductive TStructKind : Type where
  | mk (Extends : List KindExpr) (Properties : List KindProperty)
/-- One `key: kind` pair of a struct or interface. -/
inductive KindProperty : Type where
  | mk (Key : Identifier) (Kind : Option KindExpr) (Start : Nat)
/-- Expression with its source offset and the memo slot of `inferKind`. -/
inductive Expr : Type where
  | mk (Node : ExprNode) (Start : Nat) (InferKind : Option KindNode)
end

def KindExpr.Node : KindExpr → KindNode
  | .mk n _ => n

def KindExpr.Start : KindExpr → Nat
  | .mk _ p => p

def TArray.Kind : TArray → Option KindExpr
  | .mk k _ => k

def TArray.Len : TArray → Option Expr
  | .mk _ l => l

/-- Source `TypeArray.IsVector` (`internal/ast/kind_expr.go`): no length expression. -/
def TArray.IsVector (t : TArray) : Bool :=
  t.Len.isNone

def TFuncKind.Arguments : TFuncKind → List Argument
  | .mk a _ => a

def TFuncKind.Return : TFuncKind → Option KindExpr
  | .mk _ r => r

def Argument.Kind : Argument → Option KindExpr
  | .mk k _ _ => k

def Argument.Rest : Argument → Bool
  | .mk _ r _ => r

def Argument.Start : Argument → Nat
  | .mk _ _ p => p

def TStructKind.Extends : TStructKind → List KindExpr
  | .mk e _ => e

def TStructKind.Properties : TStructKind → List KindProperty
  | .mk _ p => p

def KindProperty.Key : KindProperty → Identifier
  | .mk k _ _ => k

def KindProperty.Kind : KindProperty → Option KindExpr
  | .mk _ k _ => k

def KindProperty.Start : KindProperty → Nat
  | .mk _ _ p => p

def Expr.Node : Expr → ExprNode
  | .mk n _ _ => n

def Expr.Start : Expr → Nat
  | .mk _ p _ => p

def Expr.InferKind : Expr → Option KindNode
  | .mk _ _ k => k

structure ImportDecl where
  Paths : List Identifier
  Local : Option Identifier
  Package : Option Identifier

structure FuncDecl where
  Name : Identifier
  Kind : Option KindExpr
  Pub : Bool

structure VarDecl where
  Id : Identifier
  Kind : Option KindExpr
  Const : Bool
  Pub : Bool

structure TAliasDecl where
  Name : Identifier
  Kind : Option KindExpr
  Pub : Bool

structure TInterfaceDecl where
  Name : Identifier
  Properties : List KindProperty
  Pub : Bool

structure TStructDecl where
  Name : Identifier
  Kind : KindExpr
  Pub : Bool

structure TEnumDecl where
  Name : Identifier
  Choices : List Identifier
  Pub : Bool

mutual
/-- Statement with its source offset. -/
inductive Stmt : Type where
  | mk (Node : StmtNode) (Start : Nat)
/-- Statement node variants, the cases of the switches in `preCompile` and `compileStmt`.
A function declaration is its header record `d` together with its body. -/
inductive StmtNode : Type where
  | ImportDecl (d : ImportDecl)
  | FuncDecl (d : FuncDecl) (Body : List Stmt)
  | ImplDecl (Target : KindExpr) (Interface : Option KindExpr) (Body : List Stmt)
  | VarDecl (d : VarDecl)
  | TAliasDecl (d : TAliasDecl)
  | TInterfaceDecl (d : TInterfaceDecl)
  | TStructDecl (d : TStructDecl)
  | TEnumDecl (d : TEnumDecl)
  | BlockStmt (Body : List Stmt)
  | ReturnStmt
  | ExprStmt
  | IfStmt
  | ForStmt
  | BreakStmt
  | ContinueStmt
end

def Stmt.Node : Stmt → StmtNode
  | .mk n _ => n

def Stmt.Start : Stmt → Nat
  | .mk _ p => p

/-- Parsed file: `Ast.Body`. -/
structure File where
  Body : List Stmt

end ast

/-! ## Kinds, values, scopes, modules -/

/-- Address of a `KindRef` cell in `Compiler.kinds`. -/
abbrev KindRef := Nat

/-- Function value: name and signature kind. -/
structure FuncValue where
  Name : String
  Kind : KindRef
deriving DecidableEq, Repr

/-- Method table attached to a kind (`newImpl()` is the empty table). -/
abbrev Impl := List FuncValue

/-- Kind variants; every kind-valued field is the address of a cell. -/
inductive Kind where
  | TNumber (Impl : Impl)
  | TByte (Impl : Impl)
  | TChar (Impl : Impl)
  | TString (Impl : Impl)
  | TBool (Impl : Impl)
  | TAny
  | TSelf (KindRef : KindRef)
  | TArray (KindRef : KindRef) (Len : Int) (Impl : Impl)
  | TFunc (Arguments : List KindRef) (Return : KindRef) (RestArgument : Bool) (Impl : Impl)
  | TStruct (Extends : List KindRef) (Properties : List (String × KindRef)) (Impl : Impl)
  | TInterface (Properties : List (String × KindRef)) (Refers : List KindRef)
  | TEnum (Choices : List (String × Nat))
  | TCustom (Kind : KindRef) (Impl : Impl)
deriving DecidableEq, Repr

structure VarValue where
  Name : String
  Kind : KindRef
  Const : Bool
deriving DecidableEq, Repr

/-- Module value: `Module` is the index of the referenced module object. -/
structure ModuleValue where
  Name : String
  Module : Nat
deriving DecidableEq, Repr

inductive Value where
  | Func (v : FuncValue)
  | Var (v : VarValue)
  | Module (v : ModuleValue)
deriving DecidableEq, Repr

/-! ### Go maps as association lists -/

/-- Map read `m[k]` (with presence). -/
def mapGet {β : Type} : List (String × β) → String → Option β
  | [], _ => none
  | (k, v) :: rest, key => if k = key then some v else mapGet rest key

/-- Map presence test, the second result of `_, has := m[k]`. -/
def mapHas {β : Type} (m : List (String × β)) (key : String) : Bool :=
  (mapGet m key).isSome

/-- Map write `m[k] = v`: overwrite an existing entry, else add one. -/
def mapSet {β : Type} : List (String × β) → String → β → List (String × β)
  | [], key, v => [(key, v)]
  | (k, w) :: rest, key, v => if k = key then (k, v) :: rest else (k, w) :: mapSet rest key v

/-- Keys of a map. -/
def mapKeys {β : Type} (m : List (String × β)) : List String :=
  m.map Prod.fst

/-- Modelled from the spec: one lexical frame of the scope stack (§3 Scope, §4.2):
the two mappings names→Value and names→Kind, and the self-kind binding that
`putSelfKind` places in the frame opened for an impl or interface body. -/
structure Scope where
  values : List (String × Value)
  kinds : List (String × KindRef)
  self : Option KindRef
deriving DecidableEq, Repr

def Scope.empty : Scope := { values := [], kinds := [], self := none }

/-- Modelled from the spec: the Module record (§3 Module): its syntax tree, its
scope stack (innermost frame first), its exports table, and `compiled`, the
mark that makes a module compile exactly once. `runs` counts how many times the
body of `Module.compile` was entered. -/
structure Module where
  Ast : ast.File
  packageName : String
  moduleId : String
  scopes : List Scope
  exports : Scope
  compiled : Bool
  runs : Nat

/-- Modelled from the spec: the virtual file system collaborator (§6): a root and
the readable files; a file's bytes are identified with the syntax tree the
parser collaborator builds from them. -/
structure VirtualFS where
  Root : String
  files : List (String × ast.File)

/-- The compiler object together with the store it works on: `kinds` holds the
`KindRef` cells, `modules` the module objects, `Modules` is the module cache
(module identifier ↦ module object), `reads` logs the paths given to
`VirtualFS.ReadFile`. -/
structure Compiler where
  kinds : List (Option Kind)
  modules : List Module
  Modules : List (String × Nat)
  VirtualFS : VirtualFS
  reads : List String

/-! ## Runs -/

/-- Ways a run ends early. -/
inductive Fault where
  | compileError (pos : Nat) (msg : String)
  | typeAssertion
  | nilDereference
  | indexOutOfRange
  | readError (path : String)
  | diverges
deriving DecidableEq, Repr

/-- Outcome of a run, with the store reached. -/
inductive Res (α : Type) where
  | ok (val : α) (s : Compiler)
  | fail (f : Fault) (s : Compiler)

/-- Final store of an outcome. -/
def Res.state {α : Type} : Res α → Compiler
  | .ok _ s => s
  | .fail _ s => s

/-- Fault of an outcome, if it ended early. -/
def Res.fault {α : Type} : Res α → Option Fault
  | .ok _ _ => none
  | .fail f _ => some f

/-- Value of an outcome, if it completed. -/
def Res.val {α : Type} : Res α → Option α
  | .ok a _ => some a
  | .fail _ _ => none

/-- Computation over the compiler store. -/
def M (α : Type) : Type := Compiler → Res α

def M.pure {α : Type} (a : α) : M α := fun s => .ok a s

def M.bind {α β : Type} (x : M α) (f : α → M β) : M β := fun s =>
  match x s with
  | .ok a s1 => f a s1
  | .fail e s1 => .fail e s1

instance : Monad M where
  pure := M.pure
  bind := M.bind

/-- End the run with a fault. -/
def abort {α : Type} (f : Fault) : M α := fun s => .fail f s

/-- Modelled from the spec: `Module.unexpectedPos` (§6 diagnostics sink, §7): report
the message with its source position and stop the run. -/
def unexpectedPos (pos : Nat) (msg : String) : M Unit :=
  abort (.compileError pos msg)

/-! ### Store primitives -/

/-- `&KindRef{}`: a fresh cell with no kind in it. -/
def newKindRef : M KindRef := fun s =>
  .ok s.kinds.length { s with kinds := s.kinds ++ [none] }

/-- `kind.Ref = k`. -/
def setRef (r : KindRef) (k : Kind) : M Unit := fun s =>
  .ok () { s with kinds := s.kinds.set r (some k) }

/-- Read `r.Ref`; `none` is the nil kind. -/
def getRef (r : KindRef) : M (Option Kind) := fun s =>
  match s.kinds[r]? with
  | some c => .ok c s
  | none => .fail .nilDereference s

/-- Read the module object `m` points to. -/
def getModule (m : Nat) : M Module := fun s =>
  match s.modules[m]? with
  | some md => .ok md s
  | none => .fail .nilDereference s

/-- Overwrite the module object `m` points to. -/
def setModule (m : Nat) (md : Module) : M Unit := fun s =>
  .ok () { s with modules := s.modules.set m md }

/-! ### Scope stack (modelled from the spec, §4.2) -/

/-- Modelled from the spec: `scopes.push`, open a lexical frame. -/
def scopesPush (m : Nat) : M Unit := do
  let md ← getModule m
  setModule m { md with scopes := Scope.empty :: md.scopes }

/-- Modelled from the spec: `scopes.pop`, close the innermost frame. -/
def scopesPop (m : Nat) : M Unit := do
  let md ← getModule m
  match md.scopes with
  | [] => abort .indexOutOfRange
  | _ :: rest => setModule m { md with scopes := rest }

/-- Modelled from the spec: `putValue`, bind a name in the innermost frame; a
duplicate binding in the same frame is a compile error when `required`. -/
def putValue (m : Nat) (name : ast.Identifier) (v : Value) (required : Bool) : M Unit := do
  let md ← getModule m
  match md.scopes with
  | [] => abort .indexOutOfRange
  | fr :: rest =>
    if mapHas fr.values name.Name then
      if required then unexpectedPos name.Start ("Duplicate declaration: " ++ name.Name)
      else pure ()
    else
      setModule m { md with scopes := { fr with values := mapSet fr.values name.Name v } :: rest }

/-- Modelled from the spec: `putKind`, bind a kind name in the innermost frame; a
duplicate binding in the same frame is a compile error when `required`. -/
def putKind (m : Nat) (name : ast.Identifier) (k : KindRef) (required : Bool) : M Unit := do
  let md ← getModule m
  match md.scopes with
  | [] => abort .indexOutOfRange
  | fr :: rest =>
    if mapHas fr.kinds name.Name then
      if required then unexpectedPos name.Start ("Duplicate declaration: " ++ name.Name)
      else pure ()
    else
      setModule m { md with scopes := { fr with kinds := mapSet fr.kinds name.Name k } :: rest }

/-- Modelled from the spec: `putSelfKind`, bind the self kind in the innermost frame. -/
def putSelfKind (m : Nat) (k : KindRef) : M Unit := do
  let md ← getModule m
  match md.scopes with
  | [] => abort .indexOutOfRange
  | fr :: rest => setModule m { md with scopes := { fr with self := some k } :: rest }

/-- Search the frames, innermost first, for a value. -/
def lookupValue : List Scope → String → Option Value
  | [], _ => none
  | fr :: rest, name =>
    match mapGet fr.values name with
    | some v => some v
    | none => lookupValue rest name

/-- Search the frames, innermost first, for a kind. -/
def lookupKind : List Scope → String → Option KindRef
  | [], _ => none
  | fr :: rest, name =>
    match mapGet fr.kinds name with
    | some k => some k
    | none => lookupKind rest name

/-- Search the frames, innermost first, for a self-kind binding. -/
def lookupSelf : List Scope → Option KindRef
  | [] => none
  | fr :: rest =>
    match fr.self with
    | some k => some k
    | none => lookupSelf rest

/-- Modelled from the spec: `findValue(name, true)`, innermost to outermost; a miss
is a fatal compile error at the name. -/
def findValue (m : Nat) (name : ast.Identifier) : M Value := do
  let md ← getModule m
  match lookupValue md.scopes name.Name with
  | some v => pure v
  | none => abort (.compileError name.Start ("Cannot found: " ++ name.Name))

/-- Modelled from the spec: `scopes.findIdentifierKind(name, true)`, innermost to
outermost; a miss is a fatal compile error at the name. -/
def findIdentifierKind (m : Nat) (name : ast.Identifier) : M KindRef := do
  let md ← getModule m
  match lookupKind md.scopes name.Name with
  | some k => pure k
  | none => abort (.compileError name.Start ("Cannot found: " ++ name.Name))

/-- Modelled from the spec: `scopes.findMemberKind(kindExpr, true)` for a member path
`Object.Property`: the object is looked up as a value in the frames, and the
property in the exports of the module it refers to; a miss is a fatal compile error. -/
def findMemberKind (m : Nat) (object property : ast.Identifier) (pos : Nat) : M KindRef := do
  let md ← getModule m
  match lookupValue md.scopes object.Name with
  | some (.Module mv) =>
    let target ← getModule mv.Module
    match mapGet target.exports.kinds property.Name with
    | some k => pure k
    | none => abort (.compileError pos ("Cannot found: " ++ object.Name ++ "." ++ property.Name))
  | _ => abort (.compileError pos ("Cannot found: " ++ object.Name ++ "." ++ property.Name))

/-- Modelled from the spec: `scopes.findSelfKind(kindExpr, true)`, the innermost
active self-kind binding; none is a fatal compile error at the expression. -/
def findSelfKind (m : Nat) (pos : Nat) : M KindRef := do
  let md ← getModule m
  match lookupSelf md.scopes with
  | some k => pure k
  | none => abort (.compileError pos "Cannot found: Self")

/-! ## compile_kind.go -/

/-- Go conversion `int(v)` of a finite `float64` on a 64-bit target: truncation
toward zero; a value outside the `int` range converts to the most negative `int`. -/
def intOfFloat64 (v : ℚ) : Int :=
  let t : Int := if 0 ≤ v then ⌊v⌋ else ⌈v⌉
  if -(2 : Int) ^ 63 ≤ t ∧ t < (2 : Int) ^ 63 then t else -(2 : Int) ^ 63

mutual
/-- Source `compileKindExpr`; `none` is the nil expression. -/
def compileKindExpr (m : Nat) : Option ast.KindExpr → M KindRef
  | none => newKindRef
  | some e => compileKindExprNode m e
/-- Source `compileKindExpr` past the nil test: the switch on the node. -/
def compileKindExprNode (m : Nat) : ast.KindExpr → M KindRef
  | .mk node start => do
    let kind ← newKindRef
    match node with
    | .TNumber => do setRef kind (.TNumber []); pure kind
    | .TByte => do setRef kind (.TByte []); pure kind
    | .TChar => do setRef kind (.TChar []); pure kind
    | .TString => do setRef kind (.TString []); pure kind
    | .TBool => do setRef kind (.TBool []); pure kind
    | .TAny => do setRef kind .TAny; pure kind
    | .TSelf => do
      let self ← findSelfKind m start
      setRef kind (.TSelf self)
      pure kind
    | .TArray t => compileArrayKind m t
    | .TIdentifier name => findIdentifierKind m name
    | .TMemberKind object property => findMemberKind m object property start
    | .TFuncKind t => compileFuncKind m t
    | .TStructKind t => compileStructKind m t
/-- Source `compileArrayKind`. -/
def compileArrayKind (m : Nat) : ast.TArray → M KindRef
  | .mk elem len => do
    let kind ← newKindRef
    let size : Int ← (match len with
      | none => pure (-1)
      | some e =>
        match e.Node with
        | .NumberLiteral rawVal => do
          if rawVal < 0 ∨ ((⌊rawVal⌋ : Int) : ℚ) ≠ rawVal then
            unexpectedPos e.Start "Expect be a positive integer"
          pure (intOfFloat64 rawVal)
        | _ => abort .typeAssertion)
    let ref ← compileKindExpr m elem
    setRef kind (.TArray ref size [])
    pure kind
/-- Loop of `compileFuncKind` over `t.Arguments`: `n` is `len(t.Arguments)`, `i` the index. -/
def compileFuncKindArgs (m : Nat) (n : Nat) :
    List ast.Argument → Nat → Bool → List KindRef → M (Bool × List KindRef)
  | [], _, rest, arguments => pure (rest, arguments)
  | (.mk argKind argRest argStart) :: more, i, rest, arguments => do
    let rest1 ← (if argRest then
        (if (i : Int) = (n : Int) - 1 then pure true
         else do
          unexpectedPos argStart "The rest arguments should be placed last"
          pure rest)
      else pure rest)
    let k ← compileKindExpr m argKind
    compileFuncKindArgs m n more (i + 1) rest1 (arguments ++ [k])
/-- Source `compileFuncKind`. -/
def compileFuncKind (m : Nat) : ast.TFuncKind → M KindRef
  | .mk args ret => do
    let kind ← newKindRef
    let (rest, arguments) ← compileFuncKindArgs m args.length args 0 false []
    let r ← compileKindExpr m ret
    setRef kind (.TFunc arguments r rest [])
    pure kind
/-- First loop of `compileStructKind`, over `t.Properties`. -/
def compileStructProps (m : Nat) :
    List ast.KindProperty → List (String × KindRef) → M (List (String × KindRef))
  | [], props => pure props
  | (.mk key propKind start) :: more, props => do
    if mapHas props key.Name then
      unexpectedPos start ("Duplicate key: " ++ key.Name)
    let k ← compileKindExpr m propKind
    compileStructProps m more (mapSet props key.Name k)
/-- Second loop of `compileStructKind`, over `t.Extends`. -/
def compileStructExtends (m : Nat) : List ast.KindExpr → List KindRef → M (List KindRef)
  | [], exts => pure exts
  | item :: more, exts => do
    let k ← compileKindExprNode m item
    compileStructExtends m more (exts ++ [k])
/-- Source `compileStructKind`. -/
def compileStructKind (m : Nat) : ast.TStructKind → M KindRef
  | .mk extendsE properties => do
    let kind ← newKindRef
    let props ← compileStructProps m properties []
    let exts ← compileStructExtends m extendsE []
    setRef kind (.TStruct exts props [])
    pure kind
end

/-- Source `inferKind`: the expression node after the call. The function returns the
pointer `&expr.InferKind`, which designates the memo slot of that node. -/
def inferKind (expr : ast.Expr) : ast.Expr :=
  match expr.InferKind with
  | none =>
    match expr.Node with
    | .NumberLiteral _ => .mk expr.Node expr.Start (some .TNumber)
    | .BoolLiteral _ => .mk expr.Node expr.Start (some .TBool)
    | .StringLiteral _ => .mk expr.Node expr.Start (some .TString)
    | .CharLiteral _ => .mk expr.Node expr.Start (some .TChar)
    | _ => expr
  | some _ => expr

/-! ### Kind comparison (modelled from the spec, §4.5) -/

/-- Entries of `a` all present in `b` with values related by `eq`. -/
def mapSubsetBy {β : Type} (eq : β → β → Bool) : List (String × β) → List (String × β) → Bool
  | [], _ => true
  | (k, v) :: rest, b =>
    match mapGet b k with
    | none => false
    | some w => eq v w && mapSubsetBy eq rest b

/-- Pointwise comparison of two sequences of the same length. -/
def listAllBy {β : Type} (eq : β → β → Bool) : List β → List β → Bool
  | [], [] => true
  | a :: as, b :: bs => eq a b && listAllBy eq as bs
  | _, _ => false

/-- Modelled from the spec: `compareKind(a, b, strict)` (§4.5), a decision on two
kinds. Strict mode: the same variant, the same element, parameter and return
kinds in the same order, the same variadic flag, the same array length, the same
property and choice names. The relaxed mode is left open by the spec and is
taken to be the strict one. The depth of the comparison is bounded by `fuel`. -/
def compareKindFuel (kinds : List (Option Kind)) (strict : Bool) : Nat → KindRef → KindRef → Bool
  | 0, _, _ => false
  | fuel + 1, a, b =>
    match kinds[a]?, kinds[b]? with
    | some (some ka), some (some kb) =>
      match ka, kb with
      | .TNumber _, .TNumber _ => true
      | .TByte _, .TByte _ => true
      | .TChar _, .TChar _ => true
      | .TString _, .TString _ => true
      | .TBool _, .TBool _ => true
      | .TAny, .TAny => true
      | .TSelf x, .TSelf y => x = y || compareKindFuel kinds strict fuel x y
      | .TArray x lx _, .TArray y ly _ =>
        decide (lx = ly) && compareKindFuel kinds strict fuel x y
      | .TFunc xs rx vx _, .TFunc ys ry vy _ =>
        decide (vx = vy) && listAllBy (compareKindFuel kinds strict fuel) xs ys
          && compareKindFuel kinds strict fuel rx ry
      | .TStruct ex px _, .TStruct ey py _ =>
        listAllBy (compareKindFuel kinds strict fuel) ex ey && decide (px.length = py.length)
          && mapSubsetBy (compareKindFuel kinds strict fuel) px py
      | .TInterface px _, .TInterface py _ =>
        decide (px.length = py.length) && mapSubsetBy (compareKindFuel kinds strict fuel) px py
      | .TEnum cx, .TEnum cy =>
        decide (cx.length = cy.length) && cx.all (fun c => mapGet cy c.1 == some c.2)
      | .TCustom x _, .TCustom y _ => compareKindFuel kinds strict fuel x y
      | _, _ => false
    | some none, some none => true
    | _, _ => false

/-- Comparison depth that no comparison of two kinds of the store exceeds unless it
revisits a pair of cells. -/
def compareDepth (kinds : List (Option Kind)) : Nat :=
  kinds.length * kinds.length + 1

/-- Modelled from the spec: `compareKind(a, b, strict)` on the current store. -/
def compareKind (a b : KindRef) (strict : Bool) : M Bool := fun s =>
  .ok (compareKindFuel s.kinds strict (compareDepth s.kinds) a b) s

/-! ### Method tables -/

/-- Modelled from the spec: `getImpl()`, the implementation record a kind carries
(§4.1); the Any, Self, interface and enum kinds are built without one. -/
def Kind.getImpl : Kind → Option Impl
  | .TNumber i => some i
  | .TByte i => some i
  | .TChar i => some i
  | .TString i => some i
  | .TBool i => some i
  | .TArray _ _ i => some i
  | .TFunc _ _ _ i => some i
  | .TStruct _ _ i => some i
  | .TCustom _ i => some i
  | .TAny => none
  | .TSelf _ => none
  | .TInterface _ _ => none
  | .TEnum _ => none

/-- The kind with its implementation record replaced. -/
def Kind.setImpl : Kind → Impl → Kind
  | .TNumber _, i => .TNumber i
  | .TByte _, i => .TByte i
  | .TChar _, i => .TChar i
  | .TString _, i => .TString i
  | .TBool _, i => .TBool i
  | .TArray r l _, i => .TArray r l i
  | .TFunc a r v _, i => .TFunc a r v i
  | .TStruct e p _, i => .TStruct e p i
  | .TCustom k _, i => .TCustom k i
  | k, _ => k

/-- Modelled from the spec: `Impl.getFunc(name)`, the method of that name. -/
def Impl.getFunc (i : Impl) (name : String) : Option FuncValue :=
  i.find? (fun f => f.Name = name)

/-- Modelled from the spec: `Impl.hasFunc(name)`. -/
def Impl.hasFunc (i : Impl) (name : String) : Bool :=
  (Impl.getFunc i name).isSome

/-- Modelled from the spec: `Impl.addFunc(value)`, attach a method. -/
def Impl.addFunc (i : Impl) (v : FuncValue) : Impl :=
  i ++ [v]

/-- `target.getImpl()` through the cell `target`: the kind in the cell and its
implementation record; a nil kind or a kind without a record cannot be used. -/
def getImplOf (target : KindRef) : M (Kind × Impl) := do
  let c ← getRef target
  match c with
  | none => abort .nilDereference
  | some k =>
    match k.getImpl with
    | none => abort .nilDereference
    | some i => pure (k, i)

/-- Modelled from the spec: `exports.setValue(name, value)`. -/
def exportsSetValue (m : Nat) (name : String) (v : Value) : M Unit := do
  let md ← getModule m
  setModule m { md with exports := { md.exports with values := mapSet md.exports.values name v } }

/-- Modelled from the spec: `exports.setKind(name, kind)`. -/
def exportsSetKind (m : Nat) (name : String) (k : KindRef) : M Unit := do
  let md ← getModule m
  setModule m { md with exports := { md.exports with kinds := mapSet md.exports.kinds name k } }

/-! ## compile_stmt.go -/

/-- Source `compileFuncDecl`; `target` is `none` for the nil target. -/
def compileFuncDecl (m : Nat) (node : ast.FuncDecl) (target : Option KindRef)
    (isPrecompile : Bool) : M (Option FuncValue) := do
  let name := node.Name.Name
  if isPrecompile then
    let k ← compileKindExpr m node.Kind
    let value : FuncValue := { Name := name, Kind := k }
    match target with
    | some t =>
      let (_, impl) ← getImplOf t
      if Impl.hasFunc impl name then
        unexpectedPos node.Name.Start ("Duplicate key: " ++ name)
      let (tk, impl1) ← getImplOf t
      setRef t (tk.setImpl (Impl.addFunc impl1 value))
    | none =>
      putValue m node.Name (.Func value) true
      if node.Pub then
        exportsSetValue m name (.Func value)
    pure (some value)
  else
    match target with
    | some t =>
      let (_, impl) ← getImplOf t
      pure (Impl.getFunc impl name)
    | none =>
      let v ← findValue m node.Name
      match v with
      | .Func f => pure (some f)
      | _ => abort .typeAssertion

/-- Loop of `compileImplDecl` over `node.Body`, building `implValues` and `implDecls`. -/
def compileImplBody (m : Nat) (target : KindRef) (isPrecompile : Bool) :
    List ast.Stmt → List (String × FuncValue) → List (String × ast.Stmt) →
    M (List (String × FuncValue) × List (String × ast.Stmt))
  | [], implValues, implDecls => pure (implValues, implDecls)
  | stmt :: more, implValues, implDecls => do
    match stmt.Node with
    | .FuncDecl d _ =>
      let val ← compileFuncDecl m d (some target) isPrecompile
      if isPrecompile then
        match val with
        | none => abort .nilDereference
        | some v =>
          compileImplBody m target isPrecompile more (mapSet implValues v.Name v)
            (mapSet implDecls v.Name stmt)
      else
        compileImplBody m target isPrecompile more implValues implDecls
    | _ => abort .typeAssertion

/-- Loop of `compileImplDecl` over `t.Properties`. Go visits the entries of a map
in an unspecified order; the order of the association list is the order of the run. -/
def checkImplMethods (targetStart : Nat) (implValues : List (String × FuncValue))
    (implDecls : List (String × ast.Stmt)) : List (String × KindRef) → M Unit
  | [] => pure ()
  | (key, kind) :: more => do
    if (mapGet implValues key).isNone then
      unexpectedPos targetStart ("No implement method: " ++ key)
    match mapGet implValues key with
    | none => abort .nilDereference
    | some v =>
      let same ← compareKind kind v.Kind true
      if !same then
        match mapGet implDecls key with
        | none => abort .nilDereference
        | some d => unexpectedPos d.Start ("Unable to match interface method signature: " ++ key)
      checkImplMethods targetStart implValues implDecls more

/-- Modelled from the spec: `getKindExprId`, the name that identifies a type
expression in a diagnostic. -/
def getKindExprId (e : ast.KindExpr) : String :=
  match e.Node with
  | .TIdentifier n => n.Name
  | .TMemberKind o p => o.Name ++ "." ++ p.Name
  | .TNumber => "Number"
  | .TByte => "Byte"
  | .TChar => "Char"
  | .TString => "String"
  | .TBool => "Bool"
  | .TAny => "Any"
  | .TSelf => "Self"
  | _ => ""

/-- Source `compileImplDecl`. The type switch on `target` and the type assertion on
the interface look at the kind held by the returned cell. After a failed
assertion `t, ok := x.(*TInterface)` the variable `t` is nil. -/
def compileImplDecl (m : Nat) (nodeTarget : ast.KindExpr) (nodeInterface : Option ast.KindExpr)
    (nodeBody : List ast.Stmt) (isPrecompile : Bool) : M Unit := do
  let target ← compileKindExpr m (some nodeTarget)
  scopesPush m
  putSelfKind m target
  let tk ← getRef target
  match tk with
  | some (.TInterface _ _) =>
    unexpectedPos nodeTarget.Start "Cannot implements for interface type"
  | some .TAny =>
    unexpectedPos nodeTarget.Start "Cannot implements for any type"
  | some (.TSelf _) =>
    unexpectedPos nodeTarget.Start "Cannot implements for self type"
  | _ => pure ()
  let (implValues, implDecls) ← compileImplBody m target isPrecompile nodeBody [] []
  if isPrecompile then
    match nodeInterface with
    | some iface =>
      let t ← compileKindExpr m (some iface)
      let ik ← getRef t
      match ik with
      | some (.TInterface properties refers) =>
        setRef t (.TInterface properties (refers ++ [target]))
        checkImplMethods nodeTarget.Start implValues implDecls properties
      | _ =>
        unexpectedPos iface.Start ("Cannot found: " ++ getKindExprId iface)
        unexpectedPos iface.Start "Expect be an interface type"
    | none => pure ()
  scopesPop m

/-- Source `compileVarDecl`. -/
def compileVarDecl (m : Nat) (node : ast.VarDecl) (isPrecompile : Bool) : M Unit := do
  let name := node.Id.Name
  if isPrecompile then
    let k ← compileKindExpr m node.Kind
    let scope : VarValue := { Name := name, Kind := k, Const := node.Const }
    putValue m node.Id (.Var scope) true
    if node.Pub then
      exportsSetValue m name (.Var scope)
  else
    pure ()

/-- Source `compileTAliasDecl`. -/
def compileTAliasDecl (m : Nat) (node : ast.TAliasDecl) : M Unit := do
  let inner ← compileKindExpr m node.Kind
  let kind ← newKindRef
  setRef kind (.TCustom inner [])
  putKind m node.Name kind true
  if node.Pub then
    exportsSetKind m node.Name.Name kind

/-- Loop of `compileTInterfaceDecl` over `node.Properties`; `kind` is the cell of
the interface under construction. -/
def compileInterfaceProps (m : Nat) (kind : KindRef) : List ast.KindProperty → M Unit
  | [] => pure ()
  | pair :: more => do
    let key := pair.Key.Name
    let c ← getRef kind
    match c with
    | some (.TInterface properties _) =>
      if mapHas properties key then
        unexpectedPos pair.Key.Start ("Duplicate key: " ++ key)
      else
        match key.data with
        | [] => abort .indexOutOfRange
        | c0 :: _ =>
          if c0 = '_' then
            unexpectedPos pair.Key.Start ("Should not be private method: " ++ key)
      let k ← compileKindExpr m pair.Kind
      let c1 ← getRef kind
      match c1 with
      | some (.TInterface properties1 refers1) =>
        setRef kind (.TInterface (mapSet properties1 key k) refers1)
        compileInterfaceProps m kind more
      | _ => abort .nilDereference
    | _ => abort .nilDereference

/-- Source `compileTInterfaceDecl`. -/
def compileTInterfaceDecl (m : Nat) (node : ast.TInterfaceDecl) : M Unit := do
  let kind ← newKindRef
  setRef kind (.TInterface [] [])
  scopesPush m
  putSelfKind m kind
  compileInterfaceProps m kind node.Properties
  scopesPop m
  putKind m node.Name kind true
  if node.Pub then
    exportsSetKind m node.Name.Name kind

/-- Source `compileTStructDecl`. -/
def compileTStructDecl (m : Nat) (node : ast.TStructDecl) : M Unit := do
  let kind ← (match node.Kind.Node with
    | .TStructKind t => compileStructKind m t
    | _ => abort .typeAssertion)
  putKind m node.Name kind true
  if node.Pub then
    exportsSetKind m node.Name.Name kind

/-- Loop of `compileTEnumDecl` over `node.Choices`; `i` is the index. -/
def compileEnumChoices : List ast.Identifier → Nat → List (String × Nat) → M (List (String × Nat))
  | [], _, choices => pure choices
  | item :: more, i, choices => do
    let name := item.Name
    if mapHas choices name then
      unexpectedPos item.Start ("Duplicate item: " ++ name)
    compileEnumChoices more (i + 1) (mapSet choices name i)

/-- Source `compileTEnumDecl`. -/
def compileTEnumDecl (m : Nat) (node : ast.TEnumDecl) : M Unit := do
  let choices ← compileEnumChoices node.Choices 0 []
  let kind ← newKindRef
  setRef kind (.TEnum choices)
  putKind m node.Name kind true
  if node.Pub then
    exportsSetKind m node.Name.Name kind

/-! ### Imports and the module cache -/

/-- The `strings.Builder` loop of `compileImportDecl`: the names, a `/` after each
but the last. -/
def buildPathId : List ast.Identifier → String
  | [] => ""
  | [item] => item.Name
  | item :: next :: more => item.Name ++ "/" ++ buildPathId (next :: more)

/-- Library `filepath.Join` on a root and a relative path without `.` or `..` segments. -/
def filepathJoin (root rel : String) : String :=
  if root.length = 0 then rel else root ++ "/" ++ rel

/-- Modelled from the spec: `Modules.get(moduleId)`, the cached module or nil. -/
def modulesGet (moduleId : String) : M (Option Nat) := fun s =>
  .ok (mapGet s.Modules moduleId) s

/-- Modelled from the spec: `Modules.add(module)`, register under its identifier. -/
def modulesAdd (p : Nat) : M Unit := do
  let md ← getModule p
  fun s => .ok () { s with Modules := mapSet s.Modules md.moduleId p }

/-- Modelled from the spec: `VirtualFS.ReadFile(path)` (§6), followed by the
caller's `panic(err)` on an unreadable path. -/
def readFile (path : String) : M ast.File := fun s =>
  let s1 := { s with reads := s.reads ++ [path] }
  match mapGet s.VirtualFS.files path with
  | some code => .ok code s1
  | none => .fail (.readError path) s1

/-- Modelled from the spec: `NewModule(compiler, code, packageName, moduleId)`, a
fresh module object owning its syntax tree, an empty scope stack and an empty
exports table (§3 Module). -/
def NewModule (code : ast.File) (packageName moduleId : String) : M Nat := fun s =>
  .ok s.modules.length { s with modules := s.modules ++
    [{ Ast := code, packageName := packageName, moduleId := moduleId, scopes := [],
       exports := Scope.empty, compiled := false, runs := 0 }] }

/-- Source `compileImportDecl`; `compile` is `module.compile()`. -/
def compileImportDecl (compile : Nat → M Unit) (m : Nat) (node : ast.ImportDecl) : M Unit := do
  let md ← getModule m
  let root ← (fun s => .ok s.VirtualFS.Root s : M String)
  let paths := node.Paths
  let packageName := (match node.Package with
    | some p => p.Name
    | none => md.packageName)
  let loc ← (match node.Local with
    | some l => pure l
    | none =>
      match paths.getLast? with
      | some l => pure l
      | none => abort .indexOutOfRange)
  let pathId := buildPathId paths
  let moduleId := packageName ++ ":" ++ pathId
  let cached ← modulesGet moduleId
  let module ← (match cached with
    | some p => pure p
    | none => do
      let modulePath := if packageName.length = 0 then
          filepathJoin root (pathId ++ ".noah") else ""
      let code ← readFile modulePath
      let p ← NewModule code packageName moduleId
      modulesAdd p
      pure p)
  putValue m loc (.Module { Name := loc.Name, Module := module }) true
  compile module

/-- Loop of `preCompile` over `m.Ast.Body`. -/
def preCompileBody (compile : Nat → M Unit) (m : Nat) : List ast.Stmt → M Unit
  | [] => pure ()
  | stmt :: more => do
    match stmt.Node with
    | .ImportDecl d => compileImportDecl compile m d
    | .FuncDecl d _ => do
      let _ ← compileFuncDecl m d none true
      pure ()
    | .ImplDecl target iface body => compileImplDecl m target iface body true
    | .VarDecl d => compileVarDecl m d true
    | .TAliasDecl d => compileTAliasDecl m d
    | .TInterfaceDecl d => compileTInterfaceDecl m d
    | .TStructDecl d => compileTStructDecl m d
    | .TEnumDecl d => compileTEnumDecl m d
    | _ => pure ()
    preCompileBody compile m more

/-- Source `preCompile`. -/
def preCompile (compile : Nat → M Unit) (m : Nat) : M Unit := do
  scopesPush m
  let md ← getModule m
  preCompileBody compile m md.Ast.Body

/-- Source `compileStmt`: every case of the switch is empty. -/
def compileStmt (_m : Nat) (_stmt : ast.Stmt) : M Unit :=
  pure ()

/-- Loop of `compileFile`. -/
def compileFileBody (m : Nat) : List ast.Stmt → M Unit
  | [] => pure ()
  | stmt :: more => do
    compileStmt m stmt
    compileFileBody m more

/-- Source `compileFile`. -/
def compileFile (m : Nat) : M Unit := do
  let md ← getModule m
  compileFileBody m md.Ast.Body

/-- Modelled from the spec: `Module.compile()` (§3 Module lifecycle, §4.4): a module
is compiled exactly once, precompile then compile; a call on a module whose
compilation has started returns at once. `fuel` bounds the depth of nested
module compilations; running out of it stands for a run that does not return. -/
def Module.compile : Nat → Nat → M Unit
  | 0, _ => abort .diverges
  | fuel + 1, m => do
    let md ← getModule m
    if md.compiled then
      pure ()
    else
      setModule m { md with compiled := true, runs := md.runs + 1 }
      preCompile (Module.compile fuel) m
      compileFile m

/-! ## Vocabulary of the statements -/

/-- Every run of `x` relates its initial store to its final store by `R`. -/
structure Preserves (R : Compiler → Compiler → Prop) {α : Type} (x : M α) : Prop where
  run : ∀ s, R s (x s).state

/-- Store relations used as frame conditions: reflexive and transitive. -/
structure IsFrame (R : Compiler → Compiler → Prop) : Prop where
  refl : ∀ s, R s s
  trans : ∀ {a b c}, R a b → R b c → R a c

/-- Frame of the kind resolver: only the kind store changes, and it never shrinks. -/
def KindsFrame (s t : Compiler) : Prop :=
  t.modules = s.modules ∧ t.Modules = s.Modules ∧ t.VirtualFS = s.VirtualFS ∧ t.reads = s.reads ∧
  s.kinds.length ≤ t.kinds.length

/-- Resolution of a list of type expressions one after the other, each in the store
the previous one left, as the loops of the resolver do. -/
def resolveAll (m : Nat) : List (Option ast.KindExpr) → M (List KindRef)
  | [] => pure []
  | e :: more => do
    let k ← compileKindExpr m e
    let ks ← resolveAll m more
    pure (k :: ks)

/-- The store after `&KindRef{}`. -/
def allocated (s : Compiler) : Compiler :=
  { s with kinds := s.kinds ++ [none] }

/-- The store with the cell `r` filled with `k`. -/
def filled (s : Compiler) (r : KindRef) (k : Kind) : Compiler :=
  { s with kinds := s.kinds.set r (some k) }

/-- `RestArgument` as the claim states it: the last parameter is marked variadic. -/
def lastIsRest (args : List ast.Argument) : Bool :=
  match args.getLast? with
  | some a => a.Rest
  | none => false

/-- Name of a `key: kind` pair. -/
def propName (p : ast.KindProperty) : String :=
  p.Key.Name

/-- Declared choice names of an enum, in order. -/
def choiceNames (node : ast.TEnumDecl) : List String :=
  node.Choices.map ast.Identifier.Name

/-- The map that sends the `i`-th of `names` to `i`. -/
def ordinals (names : List String) : List (String × Nat) :=
  names.zip (List.range names.length)

/-- A function named `k` is declared in the body of an impl block. -/
def declaresMethod (body : List ast.Stmt) (k : String) : Prop :=
  ∃ stmt d b, stmt ∈ body ∧ stmt.Node = .FuncDecl d b ∧ d.Name.Name = k

/-- The impl's method table `implValues` has a method named `p.1` whose signature kind is
strictly equal (`compareKind(_, _, true)`) to the required kind `p.2`, in the kind
store `kinds`. -/
def conformsTo (kinds : List (Option Kind)) (implValues : List (String × FuncValue))
    (p : String × KindRef) : Bool :=
  match mapGet implValues p.1 with
  | none => false
  | some v => compareKindFuel kinds true (compareDepth kinds) p.2 v.Kind

/-- The store in which the body of an impl block is compiled: the store `s` reached by
resolving the target, with a frame opened in module `m` (whose record in `s` is `md`)
and the self kind bound to the target `tref`. -/
def implScope (s : Compiler) (m : Nat) (md : Module) (tref : KindRef) : Compiler :=
  { s with modules := (s.modules.set m
      { md with scopes := ({ Scope.empty with self := some tref } : Scope) :: md.scopes }) }

/-- The kind `tk` held by the target cell is one an impl block may extend: not an
interface, not Any, not Self. -/
def legalTarget (tk : Option Kind) : Prop :=
  (∀ p r, tk ≠ some (.TInterface p r)) ∧ tk ≠ some .TAny ∧ ∀ r, tk ≠ some (.TSelf r)

/-- Package an import declaration refers to, in a module whose package is `pkg`. -/
def importPackage (pkg : String) (node : ast.ImportDecl) : String :=
  match node.Package with
  | some p => p.Name
  | none => pkg

/-- Module identifier an import declaration computes, in a module whose package is `pkg`. -/
def importModuleId (pkg : String) (node : ast.ImportDecl) : String :=
  (importPackage pkg node) ++ ":" ++ buildPathId node.Paths

/-- Local identifier an import declaration binds: the alias, else the last path segment. -/
def importLocal (node : ast.ImportDecl) : Option ast.Identifier :=
  match node.Local with
  | some l => some l
  | none => node.Paths.getLast?

/-- Frame of the declaration compilers run in module `p`: the cache, the file system,
the read log and every other module are untouched, and module `p` keeps its
syntax tree, package, identifier and compilation marks. -/
def ScopesOnly (p : Nat) (s t : Compiler) : Prop :=
  t.Modules = s.Modules ∧ t.VirtualFS = s.VirtualFS ∧ t.reads = s.reads ∧
  t.modules.length = s.modules.length ∧
  (∀ q, q ≠ p → t.modules[q]? = s.modules[q]?) ∧
  (∀ md, s.modules[p]? = some md → ∃ md1, t.modules[p]? = some md1 ∧ md1.Ast = md.Ast ∧
    md1.packageName = md.packageName ∧ md1.moduleId = md.moduleId ∧
    md1.compiled = md.compiled ∧ md1.runs = md.runs)

/-- Every module object has been run once if its compilation has started, never otherwise. -/
def CountsOk (s : Compiler) : Prop :=
  ∀ (p : Nat) (md : Module), s.modules[p]? = some md → md.runs = if md.compiled then 1 else 0

/-- The store `t` is reached from `s` by compiling: the file system is the same, every
cache entry of `s` is still there and refers to the same module object, a
module whose compilation had started is still so marked, and the run counts
stay consistent. -/
def Later (s t : Compiler) : Prop :=
  t.VirtualFS = s.VirtualFS ∧
  (∀ id p, mapGet s.Modules id = some p → mapGet t.Modules id = some p) ∧
  (∀ (p : Nat) (md : Module), s.modules[p]? = some md → md.compiled = true →
    ∃ md1, t.modules[p]? = some md1 ∧ md1.compiled = true) ∧
  (CountsOk s → CountsOk t)

/-- The module object `q`, if its compilation has started in `s`, is the same in `t`. -/
def Frozen (q : Nat) (s t : Compiler) : Prop :=
  (∃ md, s.modules[q]? = some md ∧ md.compiled = true) → t.modules[q]? = s.modules[q]?

/-- Path an import declaration reads on a cache miss, in a module whose package is `pkg`. -/
def importPath (root pkg : String) (node : ast.ImportDecl) : String :=
  if (importPackage pkg node).length = 0 then
    filepathJoin root (buildPathId node.Paths ++ ".noah")
  else ""

/-- The module object `NewModule` constructs. -/
def freshModule (code : ast.File) (pkg id : String) : Module :=
  { Ast := code, packageName := pkg, moduleId := id, scopes := [], exports := Scope.empty,
    compiled := false, runs := 0 }

/-- The store after a cache miss has read `path`, constructed the module and registered
it in the cache under `id`. -/
def registered (s : Compiler) (path : String) (code : ast.File) (pkg id : String) : Compiler :=
  { s with reads := s.reads ++ [path], modules := s.modules ++ [freshModule code pkg id],
           Modules := mapSet s.Modules id s.modules.length }

/-- What a store relation needs for the compilation of module `m` to respect it: it is
a frame, it contains the declaration compilers' frame for `m`, and it contains
the steps of an import and the start of the compilation of `m`. -/
structure ImportFrame (R : Compiler → Compiler → Prop) (m : Nat) : Prop where
  frame : IsFrame R
  scopes : ∀ s t, ScopesOnly m s t → R s t
  reads : ∀ (s : Compiler) (path : String), R s { s with reads := s.reads ++ [path] }
  registered : ∀ (s : Compiler) (path : String) (code : ast.File) (pkg id : String),
    mapGet s.Modules id = none → R s (registered s path code pkg id)
  started : ∀ (s : Compiler) (md : Module), s.modules[m]? = some md → md.compiled = false →
    R s { s with modules := s.modules.set m { md with compiled := true, runs := md.runs + 1 } }


/-! ### Termination of the module graph -/

/-- No run of `x` is cut off by the bound on nested module compilations. -/
structure Halts {α : Type} (x : M α) : Prop where
  run : ∀ s, (x s).fault ≠ some .diverges

/-- Every run of `x` from a store in `I` ends in a store in `I` and is not cut off. -/
structure Safe (I : Compiler → Prop) {α : Type} (x : M α) : Prop where
  run : ∀ s, I s → I (x s).state ∧ (x s).fault ≠ some .diverges

/-- The import declarations `preCompile` meets in a file body. -/
def importsOf : List ast.Stmt → List ast.ImportDecl
  | [] => []
  | stmt :: more =>
    match stmt.Node with
    | .ImportDecl d => d :: importsOf more
    | _ => importsOf more

/-- Whatever the package of the importing module, the import names a package of `P`
and a module identifier of `U`. -/
def GoodImport (U P : List String) (d : ast.ImportDecl) : Prop :=
  ∀ pkg, pkg ∈ P → importPackage pkg d ∈ P ∧ importModuleId pkg d ∈ U

/-- Every import of the file is good. -/
def GoodFile (U P : List String) (code : ast.File) : Prop :=
  ∀ d, d ∈ importsOf code.Body → GoodImport U P d

/-- The packages `P` and module identifiers `U` cover everything the store can import:
the modules it holds and the files it can read. -/
def Closed (U P : List String) (s : Compiler) : Prop :=
  (∀ (p : Nat) (md : Module), s.modules[p]? = some md →
    md.packageName ∈ P ∧ GoodFile U P md.Ast) ∧
  (∀ (path : String) (code : ast.File), mapGet s.VirtualFS.files path = some code →
    GoodFile U P code)

/-- Work left in the module graph: identifiers of `U` not yet in the cache, plus module
objects whose compilation has not started. -/
def pending (U : List String) (s : Compiler) : Nat :=
  (U.filter (fun id => (mapGet s.Modules id).isNone)).length +
  (s.modules.map (fun md => md.compiled)).count false

/-- Syntax trees the store holds: those of its modules and of its files. -/
def allFiles (s : Compiler) : List ast.File :=
  s.modules.map (fun md => md.Ast) ++ s.VirtualFS.files.map (fun kv => kv.2)

/-- Import declarations of the trees the store holds. -/
def allImports : List ast.File → List ast.ImportDecl
  | [] => []
  | code :: more => importsOf code.Body ++ allImports more

/-- Package names an import declaration of the list spells out. -/
def namedPackages : List ast.ImportDecl → List String
  | [] => []
  | d :: more =>
    match d.Package with
    | some p => p.Name :: namedPackages more
    | none => namedPackages more

/-- Package names a compilation of the store can meet. -/
def packages (s : Compiler) : List String :=
  s.modules.map (fun md => md.packageName) ++ namedPackages (allImports (allFiles s))

/-- Identifiers an import of the list computes in one of the packages. -/
def idsOf (ds : List ast.ImportDecl) : List String → List String
  | [] => []
  | pkg :: more => ds.map (importModuleId pkg) ++ idsOf ds more

/-- Module identifiers a compilation of the store can meet. -/
def moduleIds (s : Compiler) : List String :=
  idsOf (allImports (allFiles s)) (packages s)

/-- Bound on the work a compilation of the store can do: see `pending`. -/
def workBound (s : Compiler) : Nat :=
  pending (moduleIds s) s

/-- Invariant of the termination argument: the store is covered by `U` and `P`, and at
most `B` units of work are left. -/
def Bounded (U P : List String) (B : Nat) (s : Compiler) : Prop :=
  Closed U P s ∧ pending U s ≤ B

/-- Every run of `x` that is not cut off is also the run of `y`. -/
def Extends {α : Type} (y x : M α) : Prop :=
  ∀ s, (x s).fault ≠ some .diverges → y s = x s

/-! ### Module identifiers -/

/-- The import the spec describes (§4.4) for a package name `pkg`, path segment names
`names` and local identifier `loc`: the module identifier is `pkg`, a colon and
the names joined by `/`; the cache is asked for it; on a miss the file is read,
the module constructed and registered; the module is bound under `loc` and compiled. -/
def importAs (compile : Nat → M Unit) (m : Nat) (pkg : String) (names : List String)
    (loc : ast.Identifier) : M Unit := do
  let root ← (fun s => .ok s.VirtualFS.Root s : M String)
  let cached ← modulesGet (pkg ++ ":" ++ "/".intercalate names)
  let module ← (match cached with
    | some p => pure p
    | none => do
      let code ← readFile (if pkg.length = 0 then
          filepathJoin root ("/".intercalate names ++ ".noah") else "")
      let p ← NewModule code pkg (pkg ++ ":" ++ "/".intercalate names)
      modulesAdd p
      pure p)
  putValue m loc (.Module { Name := loc.Name, Module := module }) true
  compile module

/-- Names of the path segments of an import. -/
def pathNames (node : ast.ImportDecl) : List String :=
  node.Paths.map (fun i => i.Name)

/-! ### Primitive kinds -/

/-- The primitive Kind variant the spec assigns to a primitive type expression (§4.1),
with the empty implementation record of `newImpl()`; `none` for the other expressions. -/
def primitiveKind : ast.KindNode → Option Kind
  | .TNumber => some (.TNumber [])
  | .TByte => some (.TByte [])
  | .TChar => some (.TChar [])
  | .TString => some (.TString [])
  | .TBool => some (.TBool [])
  | .TAny => some .TAny
  | _ => none

/-- The primitive Kind the spec assigns to a literal expression (§4.5); `none` for the
other expressions. -/
def literalKind : ast.ExprNode → Option ast.KindNode
  | .NumberLiteral _ => some .TNumber
  | .BoolLiteral _ => some .TBool
  | .StringLiteral _ => some .TString
  | .CharLiteral _ => some .TChar
  | _ => none

/-! ### Illegal impl targets -/

/-- No run of `x` ends with a compile error whose message begins with `Cannot i`, as
the three illegal-target messages "Cannot implements for ..." do. -/
structure Quiet {α : Type} (x : M α) : Prop where
  run : ∀ s pos msg, (x s).fault = some (.compileError pos msg) →
    msg.data.take 8 ≠ "Cannot i".data

/-! ### Interface declarations -/

/-- The first `n` cells of the kind store, if there are that many, are the same in `t`
as in `s`. -/
def Kept (n : Nat) (s t : Compiler) : Prop :=
  n ≤ s.kinds.length → n ≤ t.kinds.length ∧ ∀ r, r < n → t.kinds[r]? = s.kinds[r]?

/-- One turn of the loop of `compileTInterfaceDecl`, for the pair `pair`. -/
def interfaceStep (m : Nat) (kind : KindRef) (pair : ast.KindProperty) : M Unit := do
  let key := pair.Key.Name
  let c ← getRef kind
  match c with
  | some (.TInterface properties _) =>
    if mapHas properties key then
      unexpectedPos pair.Key.Start ("Duplicate key: " ++ key)
    else
      match key.data with
      | [] => abort .indexOutOfRange
      | c0 :: _ =>
        if c0 = '_' then
          unexpectedPos pair.Key.Start ("Should not be private method: " ++ key)
    let k ← compileKindExpr m pair.Kind
    let c1 ← getRef kind
    match c1 with
    | some (.TInterface properties1 refers1) =>
      setRef kind (.TInterface (mapSet properties1 key k) refers1)
    | _ => abort .nilDereference
  | _ => abort .nilDereference

/-- The name begins with the private marker `_`. -/
def isPrivate (name : String) : Bool :=
  name.data.head? == some '_'

/-! ### What a declaration leaves in its module -/

/-- The module record after a kind named `name` has been declared in its innermost
frame, and exported if `pub`. -/
def withKind (md : Module) (name : String) (k : KindRef) (pub : Bool) : Module :=
  match md.scopes with
  | fr :: rest =>
    { md with
      scopes := { fr with kinds := mapSet fr.kinds name k } :: rest,
      exports := if pub then { md.exports with kinds := mapSet md.exports.kinds name k }
        else md.exports }
  | [] => md

/-- The module record after a value named `name` has been declared in its innermost
frame, and exported if `pub`. -/
def withValue (md : Module) (name : String) (v : Value) (pub : Bool) : Module :=
  match md.scopes with
  | fr :: rest =>
    { md with
      scopes := { fr with values := mapSet fr.values name v } :: rest,
      exports := if pub then { md.exports with values := mapSet md.exports.values name v }
        else md.exports }
  | [] => md

/-- The name is not bound as a kind in the innermost frame. -/
def freshKind (md : Module) (name : String) : Prop :=
  ∃ fr rest, md.scopes = fr :: rest ∧ mapHas fr.kinds name = false

/-- The name is not bound as a value in the innermost frame. -/
def freshValue (md : Module) (name : String) : Prop :=
  ∃ fr rest, md.scopes = fr :: rest ∧ mapHas fr.values name = false

/-- Name and public mark of a top-level declaration that declares a value. -/
def declaredValue : ast.StmtNode → Option (ast.Identifier × Bool)
  | .FuncDecl d _ => some (d.Name, d.Pub)
  | .VarDecl d => some (d.Id, d.Pub)
  | _ => none

/-- Name and public mark of a top-level declaration that declares a kind. -/
def declaredKind : ast.StmtNode → Option (ast.Identifier × Bool)
  | .TAliasDecl d => some (d.Name, d.Pub)
  | .TInterfaceDecl d => some (d.Name, d.Pub)
  | .TStructDecl d => some (d.Name, d.Pub)
  | .TEnumDecl d => some (d.Name, d.Pub)
  | _ => none

/-! ### Names a type expression refers to -/

mutual
/-- The plain type names a type expression looks up when it is resolved. -/
def kindExprNames : ast.KindExpr → List String
  | .mk node _ => kindNodeNames node
/-- The plain type names a type expression node looks up. -/
def kindNodeNames : ast.KindNode → List String
  | .TIdentifier n => [n.Name]
  | .TArray t => arrayNames t
  | .TFuncKind t => funcNames t
  | .TStructKind t => structNames t
  | _ => []
/-- The names of an array type expression: those of its element type. -/
def arrayNames : ast.TArray → List String
  | .mk (some e) _ => kindExprNames e
  | .mk none _ => []
/-- The names of a function type expression: those of its parameters and return type. -/
def funcNames : ast.TFuncKind → List String
  | .mk args (some ret) => argsNames args ++ kindExprNames ret
  | .mk args none => argsNames args
/-- The names of a parameter list. -/
def argsNames : List ast.Argument → List String
  | [] => []
  | (.mk (some e) _ _) :: more => kindExprNames e ++ argsNames more
  | (.mk none _ _) :: more => argsNames more
/-- The names of a struct type expression: those of its properties and extends entries. -/
def structNames : ast.TStructKind → List String
  | .mk exts props => propsNames props ++ extsNames exts
/-- The names of a property list. -/
def propsNames : List ast.KindProperty → List String
  | [] => []
  | (.mk _ (some e) _) :: more => kindExprNames e ++ propsNames more
  | (.mk _ none _) :: more => propsNames more
/-- The names of an extends list. -/
def extsNames : List ast.KindExpr → List String
  | [] => []
  | e :: more => kindExprNames e ++ extsNames more
end

/-- The names of an optional type expression. -/
def optNames : Option ast.KindExpr → List String
  | some e => kindExprNames e
  | none => []

/-- Every name of `names` is bound to a kind in the frames of module `m`. -/
def Bound (m : Nat) (names : List String) (s : Compiler) : Prop :=
  ∀ md, s.modules[m]? = some md → ∀ name, name ∈ names → lookupKind md.scopes name ≠ none

/-- A run of `x` completes only from a store in `P`. -/
structure Needs (P : Compiler → Prop) {α : Type} (x : M α) : Prop where
  run : ∀ s a t, x s = .ok a t → P s

/-- The type expression a top-level declaration resolves when it is precompiled. -/
def declaredType : ast.StmtNode → Option (Option ast.KindExpr)
  | .FuncDecl d _ => some d.Kind
  | .VarDecl d => some d.Kind
  | .TAliasDecl d => some d.Kind
  | .TStructDecl d => some (some d.Kind)
  | _ => none

/-- The type expression of a function, variable or alias declaration. -/
def directType : ast.StmtNode → Option (Option ast.KindExpr)
  | .FuncDecl d _ => some d.Kind
  | .VarDecl d => some d.Kind
  | .TAliasDecl d => some d.Kind
  | _ => none

/-! ### Bindings that last through precompilation -/

/-- Every completed run of `x` from a store in `P` ends in a store in `Q`. -/
structure Leads (P : Compiler → Prop) {α : Type} (x : M α) (Q : Compiler → Prop) : Prop where
  run : ∀ s a t, P s → x s = .ok a t → Q t

/-- The name `name` is bound to `v` in the innermost frame of module `m`, whose
compilation has started. -/
def Holds (m : Nat) (name : String) (v : Value) (s : Compiler) : Prop :=
  ∃ md fr rest, s.modules[m]? = some md ∧ md.compiled = true ∧ md.scopes = fr :: rest ∧
    mapGet fr.values name = some v

/-- Names of the functions a list of top-level statements declares, in order. -/
def funcDeclNames : List ast.Stmt → List String
  | [] => []
  | stmt :: more =>
    match stmt.Node with
    | .FuncDecl d _ => d.Name.Name :: funcDeclNames more
    | _ => funcDeclNames more

/-- The store after `preCompile` has opened the frame of module `m`. -/
def opened (s : Compiler) (m : Nat) (md : Module) : Compiler :=
  { s with modules := (s.modules.set m { md with scopes := Scope.empty :: md.scopes }) }
/-! ## Concrete inputs -/

/-- A module object with one open frame and nothing bound. -/
def exampleModule : Module :=
  { Ast := ⟨[]⟩, packageName := "", moduleId := ":main", scopes := [Scope.empty],
    exports := Scope.empty, compiled := true, runs := 1 }

/-- A store with no kinds and the single module `exampleModule`. -/
def exampleStore : Compiler :=
  { kinds := [], modules := [exampleModule], Modules := [(":main", 0)],
    VirtualFS := ⟨"root", []⟩, reads := [] }

/-- The type expression `Number`. -/
def numberExpr : ast.KindExpr := .mk .TNumber 1

/-- The type expression `String`. -/
def stringExpr : ast.KindExpr := .mk .TString 1

/-- The array type expression `[Number; len]` with the length expression at offset 9. -/
def arrayOf (len : ast.ExprNode) : ast.TArray :=
  .mk (some numberExpr) (some (.mk len 9 none))

/-- The type expression `fn() -> ret`. -/
def fnReturning (ret : ast.KindExpr) : ast.KindExpr :=
  .mk (.TFuncKind (.mk [] (some ret))) 26

/-- The declaration `interface Shape { area: fn() -> Number }`. -/
def shapeDecl : ast.TInterfaceDecl :=
  { Name := ⟨"Shape", 10⟩,
    Properties := [.mk ⟨"area", 20⟩ (some (fnReturning numberExpr)) 20],
    Pub := false }

/-- The declaration `struct Circle { r: Number }`. -/
def circleDecl : ast.TStructDecl :=
  { Name := ⟨"Circle", 50⟩,
    Kind := .mk (.TStructKind (.mk [] [.mk ⟨"r", 60⟩ (some numberExpr) 60])) 57,
    Pub := false }

/-- The store after precompiling `shapeDecl` and `circleDecl` in `exampleStore`. -/
def shapesStore : Compiler :=
  (compileTStructDecl 0 circleDecl (compileTInterfaceDecl 0 shapeDecl exampleStore).state).state

/-- The type expression `Shape`. -/
def shapeExpr : ast.KindExpr := .mk (.TIdentifier ⟨"Shape", 80⟩) 80

/-- The type expression `Circle`. -/
def circleExpr : ast.KindExpr := .mk (.TIdentifier ⟨"Circle", 90⟩) 90

/-- The method declaration `fn area() -> ret`. -/
def areaDecl (ret : ast.KindExpr) : ast.Stmt :=
  .mk (.FuncDecl { Name := ⟨"area", 100⟩, Kind := some (fnReturning ret), Pub := false } []) 97

/-- The store after resolving the impl target `Circle` in `shapesStore`. -/
def circleStore : Compiler :=
  (compileKindExpr 0 (some circleExpr) shapesStore).state

/-- The record of module 0 in `circleStore`. -/
def circleModule : Module :=
  (circleStore.modules[0]?).getD exampleModule

/-- The method loop of `impl Shape for Circle { body }`, run in the frame of the block. -/
def circleMethods (body : List ast.Stmt) :
    Res (List (String × FuncValue) × List (String × ast.Stmt)) :=
  compileImplBody 0 4 true body [] [] (implScope circleStore 0 circleModule 4)

/-- `implValues` of `impl Shape for Circle { body }`. -/
def circleValues (body : List ast.Stmt) : List (String × FuncValue) :=
  ((circleMethods body).val.getD ([], [])).1

/-- `implDecls` of `impl Shape for Circle { body }`. -/
def circleDecls (body : List ast.Stmt) : List (String × ast.Stmt) :=
  ((circleMethods body).val.getD ([], [])).2

/-- The store after resolving the interface expression `Shape` of the impl block. -/
def shapeStore (body : List ast.Stmt) : Compiler :=
  (compileKindExpr 0 (some shapeExpr) (circleMethods body).state).state

/-- The declaration `enum Color { Red, Green, Blue }`. -/
def colorDecl : ast.TEnumDecl :=
  { Name := ⟨"Color", 5⟩, Choices := [⟨"Red", 12⟩, ⟨"Green", 17⟩, ⟨"Blue", 24⟩], Pub := false }

/-- The declaration `enum Color { Red, Green, Red }`. -/
def colorTwice : ast.TEnumDecl :=
  { Name := ⟨"Color", 5⟩, Choices := [⟨"Red", 12⟩, ⟨"Green", 17⟩, ⟨"Red", 24⟩], Pub := false }

/-- The properties `a: Number, b: String`. -/
def propsAB : List ast.KindProperty :=
  [.mk ⟨"a", 3⟩ (some numberExpr) 3, .mk ⟨"b", 14⟩ (some stringExpr) 14]

/-- The properties `a: Number, a: String`. -/
def propsAA : List ast.KindProperty :=
  [.mk ⟨"a", 3⟩ (some numberExpr) 3, .mk ⟨"a", 14⟩ (some stringExpr) 14]

/-- The parameters `(x: Number, ...y: String)`. -/
def restLast : List ast.Argument :=
  [.mk (some numberExpr) false 4, .mk (some stringExpr) true 15]

/-- The parameters `(...x: Number, y: String)`. -/
def restFirst : List ast.Argument :=
  [.mk (some numberExpr) true 4, .mk (some stringExpr) false 15]

/-- The entry module while it is being precompiled: marked, with its frame open. -/
def mainModule : Module :=
  { Ast := ⟨[]⟩, packageName := "", moduleId := ":main", scopes := [Scope.empty],
    exports := Scope.empty, compiled := true, runs := 1 }

/-- The declaration `import a`. -/
def importA : ast.ImportDecl := { Paths := [⟨"a", 7⟩], Local := none, Package := none }

/-- The declaration `import b`. -/
def importB : ast.ImportDecl := { Paths := [⟨"b", 7⟩], Local := none, Package := none }

/-- The declaration `import a as x`. -/
def importAasX : ast.ImportDecl :=
  { Paths := [⟨"a", 7⟩], Local := some ⟨"x", 12⟩, Package := none }

/-- A project in which `a` imports `b` and `b` imports `a`, and the store of a run
whose entry module is being precompiled. -/
def cycleStore : Compiler :=
  { kinds := [], modules := [mainModule], Modules := [(":main", 0)],
    VirtualFS := ⟨"root", [("root/a.noah", ⟨[.mk (.ImportDecl importB) 0]⟩),
                           ("root/b.noah", ⟨[.mk (.ImportDecl importA) 0]⟩)]⟩,
    reads := [] }

/-- The store after the entry module has processed `import a`. -/
def cycleStoreA : Compiler :=
  (compileImportDecl (Module.compile 3) 0 importA cycleStore).state

/-- The store after the entry module has then processed `import b`. -/
def cycleStoreB : Compiler :=
  (compileImportDecl (Module.compile 3) 0 importB cycleStoreA).state

/-- The record of module `b` (object 2) in `cycleStoreB`. -/
def cycleModuleB : Module :=
  (cycleStoreB.modules[2]?).getD mainModule

/-- The store after module `b` has then processed `import a as x`. -/
def cycleStoreX : Compiler :=
  (compileImportDecl (Module.compile 1) 2 importAasX cycleStoreB).state

/-- A project whose entry module `a` imports `b`, while the file of `b` imports `a`:
the store before the entry module is compiled. -/
def ringEntry : Compiler :=
  { kinds := [],
    modules := [{ Ast := ⟨[.mk (.ImportDecl importB) 0]⟩, packageName := "", moduleId := ":a",
                  scopes := [], exports := Scope.empty, compiled := false, runs := 0 }],
    Modules := [(":a", 0)],
    VirtualFS := ⟨"root", [("root/b.noah", ⟨[.mk (.ImportDecl importA) 0]⟩)]⟩,
    reads := [] }

/-- The project of `ringEntry` with `a` marked as under compilation and its frame open:
a store in which `a` can process its `import b`. -/
def ringOuter : Compiler :=
  { ringEntry with
    modules := [{ Ast := ⟨[.mk (.ImportDecl importB) 0]⟩, packageName := "", moduleId := ":a",
                  scopes := [Scope.empty], exports := Scope.empty, compiled := true,
                  runs := 1 }] }

/-- The project of `ringEntry` with `b` registered and bound in `a`, and both modules
marked as under compilation: a store in which `b` can process its `import a`. -/
def ringInner : Compiler :=
  { ringEntry with
    modules := [{ Ast := ⟨[.mk (.ImportDecl importB) 0]⟩, packageName := "", moduleId := ":a",
                  scopes := [{ Scope.empty with values := [("b", .Module ⟨"b", 1⟩)] }],
                  exports := Scope.empty, compiled := true, runs := 1 },
                { Ast := ⟨[.mk (.ImportDecl importA) 0]⟩, packageName := "", moduleId := ":b",
                  scopes := [Scope.empty], exports := Scope.empty, compiled := true,
                  runs := 1 }],
    Modules := [(":a", 0), (":b", 1)],
    reads := ["root/b.noah"] }

/-- A store whose module 0 belongs to the package `lib` and is under compilation; the
cache knows the module `lib:a` (object 1, compiled) and no file can be read. -/
def libStore : Compiler :=
  { kinds := [],
    modules := [{ Ast := ⟨[]⟩, packageName := "lib", moduleId := "lib:main",
                  scopes := [Scope.empty], exports := Scope.empty, compiled := true,
                  runs := 1 },
                { Ast := ⟨[]⟩, packageName := "lib", moduleId := "lib:a",
                  scopes := [Scope.empty], exports := Scope.empty, compiled := true,
                  runs := 1 }],
    Modules := [("lib:main", 0), ("lib:a", 1)],
    VirtualFS := ⟨"root", []⟩,
    reads := [] }

/-- The type expression `Circle` in the interface position of an impl block. -/
def circleIface : ast.KindExpr := .mk (.TIdentifier ⟨"Circle", 120⟩) 120

/-- The type expression `Shape` in the target position of an impl block. -/
def shapeTarget : ast.KindExpr := .mk (.TIdentifier ⟨"Shape", 90⟩) 90

/-- The store after resolving the interface expression `Circle` of the block
`impl Circle for Circle {}`. -/
def circleIfaceStore : Compiler :=
  (compileKindExpr 0 (some circleIface) (circleMethods []).state).state

/-- The store after resolving the impl target `Shape` in `shapesStore`. -/
def shapeTargetStore : Compiler :=
  (compileKindExpr 0 (some shapeTarget) shapesStore).state

/-- The record of module 0 in `shapeTargetStore`. -/
def shapeTargetModule : Module :=
  (shapeTargetStore.modules[0]?).getD exampleModule

/-- The declaration `interface Hidden { _area: fn() -> Number }`. -/
def hiddenDecl : ast.TInterfaceDecl :=
  { Name := ⟨"Hidden", 10⟩,
    Properties := [.mk ⟨"_area", 20⟩ (some (fnReturning numberExpr)) 20],
    Pub := false }

/-- The declaration `interface Twice { area: fn() -> Number, area: fn() -> String }`. -/
def twiceDecl : ast.TInterfaceDecl :=
  { Name := ⟨"Twice", 10⟩,
    Properties := [.mk ⟨"area", 20⟩ (some (fnReturning numberExpr)) 20,
                   .mk ⟨"area", 45⟩ (some (fnReturning stringExpr)) 45],
    Pub := false }

/-- The store in which the second pair of `twiceDecl` is processed. -/
def twiceStore : Compiler :=
  (compileInterfaceProps 0 0 [.mk ⟨"area", 20⟩ (some (fnReturning numberExpr)) 20]
    (implScope (filled (allocated exampleStore) 0 (.TInterface [] [])) 0 exampleModule 0)).state

/-- The declaration `pub let x: Number`. -/
def pubVar : ast.Stmt :=
  .mk (.VarDecl { Id := ⟨"x", 8⟩, Kind := some numberExpr, Const := false, Pub := true }) 0

/-- The declaration `struct Circle { r: Number }` as a statement. -/
def circleStmt : ast.Stmt := .mk (.TStructDecl circleDecl) 50


/-- The declaration `type Round = Circle`. -/
def roundStmt : ast.Stmt :=
  .mk (.TAliasDecl { Name := ⟨"Round", 5⟩, Kind := some circleExpr, Pub := false }) 0

/-- A store whose only module, not yet precompiled, has the body
`type Round = Circle` followed by `struct Circle { r: Number }`. -/
def forwardStore : Compiler :=
  { exampleStore with
    modules := [{ exampleModule with Ast := ⟨[roundStmt, circleStmt]⟩, scopes := [] }] }

/-- A store whose only module, not yet precompiled, has the body
`struct Circle { r: Number }` followed by `type Round = Circle`. -/
def backwardStore : Compiler :=
  { exampleStore with
    modules := [{ exampleModule with Ast := ⟨[circleStmt, roundStmt]⟩, scopes := [] }] }

/-- The store after `struct Circle { r: Number }` has been precompiled in `exampleStore`. -/
def circleDeclared : Compiler :=
  (preCompileBody (Module.compile 0) 0 [circleStmt] exampleStore).state

/-- The record of module 0 in `circleDeclared`. -/
def circleDeclaredModule : Module :=
  (circleDeclared.modules[0]?).getD exampleModule

/-- The declaration `fn f() -> Number { g() }`, whose body calls `g`. -/
def callerDecl : ast.Stmt :=
  .mk (.FuncDecl { Name := ⟨"f", 3⟩, Kind := some (fnReturning numberExpr), Pub := false }
    [.mk .ExprStmt 20]) 0

/-- The declaration `fn g() -> Number { return ... }`. -/
def calleeDecl : ast.Stmt :=
  .mk (.FuncDecl { Name := ⟨"g", 43⟩, Kind := some (fnReturning numberExpr), Pub := false }
    [.mk .ReturnStmt 60]) 40

/-- The record of a module under compilation whose body declares `f`, which calls
`g`, and then `g`. -/
def callModule : Module :=
  { exampleModule with Ast := ⟨[callerDecl, calleeDecl]⟩, scopes := [] }

/-- A store whose only module is `callModule`. -/
def callStore : Compiler :=
  { exampleStore with modules := [callModule] }
/-! ## Runs: basic facts -/

@[simp] theorem pure_apply {α : Type} (a : α) (s : Compiler) : (pure a : M α) s = .ok a s := rfl

@[simp] theorem bind_apply {α β : Type} (x : M α) (f : α → M β) (s : Compiler) :
    (x >>= f) s = match x s with
      | .ok a s1 => f a s1
      | .fail e s1 => .fail e s1 := rfl

@[simp] theorem abort_apply {α : Type} (f : Fault) (s : Compiler) :
    (abort f : M α) s = .fail f s := rfl

@[simp] theorem unexpectedPos_apply (pos : Nat) (msg : String) (s : Compiler) :
    unexpectedPos pos msg s = .fail (.compileError pos msg) s := rfl

@[simp] theorem newKindRef_apply (s : Compiler) :
    newKindRef s = .ok s.kinds.length (allocated s) := rfl

@[simp] theorem setRef_apply (r : KindRef) (k : Kind) (s : Compiler) :
    setRef r k s = .ok () (filled s r k) := rfl

@[simp] theorem getModule_apply (m : Nat) (s : Compiler) :
    getModule m s = match s.modules[m]? with
      | some md => .ok md s
      | none => .fail .nilDereference s := rfl

@[simp] theorem getRef_apply (r : Nat) (s : Compiler) :
    getRef r s = match s.kinds[r]? with
      | some c => .ok c s
      | none => .fail .nilDereference s := rfl

theorem Res.eq_ok_of_fault_none {r : Res Unit} (h : r.fault = none) : r = .ok () r.state := by
  cases r with
  | ok a s => rfl
  | fail f s => simp [Res.fault] at h

theorem Res.eq_ok_of_val {α : Type} {r : Res α} {a : α} (h : r.val = some a) :
    r = .ok a r.state := by
  cases r with
  | ok b s =>
    simp only [Res.val, Option.some.injEq] at h
    subst h
    rfl
  | fail f s => simp [Res.val] at h

theorem Res.eq_fail_of_fault {α : Type} {r : Res α} {f : Fault} (h : r.fault = some f) :
    r = .fail f r.state := by
  cases r with
  | ok b s => simp [Res.fault] at h
  | fail g s =>
    simp only [Res.fault, Option.some.injEq] at h
    subst h
    rfl

theorem preserves_pure {R : Compiler → Compiler → Prop} (hR : IsFrame R) {α : Type} (a : α) :
    Preserves R (pure a : M α) := ⟨fun s => hR.refl s⟩

theorem preserves_abort {R : Compiler → Compiler → Prop} (hR : IsFrame R) {α : Type}
    (f : Fault) : Preserves R (abort f : M α) := ⟨fun s => hR.refl s⟩

theorem preserves_unexpectedPos {R : Compiler → Compiler → Prop} (hR : IsFrame R)
    (pos : Nat) (msg : String) : Preserves R (unexpectedPos pos msg) := ⟨fun s => hR.refl s⟩

theorem preserves_bind {R : Compiler → Compiler → Prop} (hR : IsFrame R) {α β : Type}
    {x : M α} {f : α → M β} (hx : Preserves R x) (hf : ∀ a, Preserves R (f a)) :
    Preserves R (x >>= f) := by
  constructor
  intro s
  have h1 := hx.run s
  simp only [bind_apply]
  cases hxs : x s with
  | ok a s1 =>
    rw [hxs] at h1
    exact hR.trans h1 ((hf a).run s1)
  | fail e s1 =>
    rw [hxs] at h1
    exact h1

theorem preserves_mono {R Q : Compiler → Compiler → Prop} (h : ∀ s t, R s t → Q s t)
    {α : Type} {x : M α} (hx : Preserves R x) : Preserves Q x :=
  ⟨fun s => h _ _ (hx.run s)⟩

theorem preserves_getModule {R : Compiler → Compiler → Prop} (hR : IsFrame R) (m : Nat) :
    Preserves R (getModule m) := by
  constructor
  intro s
  simp only [getModule_apply]
  cases s.modules[m]? <;> exact hR.refl s

theorem preserves_getRef {R : Compiler → Compiler → Prop} (hR : IsFrame R) (r : Nat) :
    Preserves R (getRef r) := by
  constructor
  intro s
  simp only [getRef_apply]
  cases s.kinds[r]? <;> exact hR.refl s

theorem preserves_findSelfKind {R : Compiler → Compiler → Prop} (hR : IsFrame R) (m pos : Nat) :
    Preserves R (findSelfKind m pos) := by
  unfold findSelfKind
  repeat' first
    | exact preserves_pure hR _
    | exact preserves_abort hR _
    | exact preserves_getModule hR _
    | apply preserves_bind hR
    | intro _
    | split

theorem preserves_findIdentifierKind {R : Compiler → Compiler → Prop} (hR : IsFrame R) (m : Nat)
    (name : ast.Identifier) : Preserves R (findIdentifierKind m name) := by
  unfold findIdentifierKind
  repeat' first
    | exact preserves_pure hR _
    | exact preserves_abort hR _
    | exact preserves_getModule hR _
    | apply preserves_bind hR
    | intro _
    | split

theorem preserves_findMemberKind {R : Compiler → Compiler → Prop} (hR : IsFrame R) (m : Nat)
    (o p : ast.Identifier) (pos : Nat) : Preserves R (findMemberKind m o p pos) := by
  unfold findMemberKind
  repeat' first
    | exact preserves_pure hR _
    | exact preserves_abort hR _
    | exact preserves_getModule hR _
    | apply preserves_bind hR
    | intro _
    | split

theorem preserves_findValue {R : Compiler → Compiler → Prop} (hR : IsFrame R) (m : Nat)
    (name : ast.Identifier) : Preserves R (findValue m name) := by
  unfold findValue
  repeat' first
    | exact preserves_pure hR _
    | exact preserves_abort hR _
    | exact preserves_getModule hR _
    | apply preserves_bind hR
    | intro _
    | split

theorem preserves_compareKind {R : Compiler → Compiler → Prop} (hR : IsFrame R)
    (a b : KindRef) (strict : Bool) : Preserves R (compareKind a b strict) :=
  ⟨fun s => hR.refl s⟩

/-! ## The kind resolver leaves everything but the kind store alone -/

theorem kindsFrame_isFrame : IsFrame KindsFrame where
  refl := fun _ => ⟨rfl, rfl, rfl, rfl, le_refl _⟩
  trans := by
    intro a b c ⟨h1, h2, h3, h4, h5⟩ ⟨g1, g2, g3, g4, g5⟩
    exact ⟨g1.trans h1, g2.trans h2, g3.trans h3, g4.trans h4, le_trans h5 g5⟩

theorem newKindRef_frame : Preserves KindsFrame newKindRef := by
  constructor
  intro s
  simp [Res.state, KindsFrame, allocated]

theorem setRef_frame (r : Nat) (k : Kind) : Preserves KindsFrame (setRef r k) := by
  constructor
  intro s
  simp [Res.state, KindsFrame, filled]

mutual
theorem compileKindExpr_frame (m : Nat) : ∀ (e : Option ast.KindExpr),
    Preserves KindsFrame (compileKindExpr m e)
  | none => by
    simp only [compileKindExpr]
    exact newKindRef_frame
  | some e => by
    simp only [compileKindExpr]
    exact compileKindExprNode_frame m e
theorem compileKindExprNode_frame (m : Nat) : ∀ (e : ast.KindExpr),
    Preserves KindsFrame (compileKindExprNode m e)
  | .mk .TNumber start | .mk .TByte start | .mk .TChar start | .mk .TString start
  | .mk .TBool start | .mk .TAny start | .mk .TSelf start | .mk (.TIdentifier _) start
  | .mk (.TMemberKind _ _) start => by
    simp only [compileKindExprNode]
    repeat' first
      | exact preserves_pure kindsFrame_isFrame _
      | exact newKindRef_frame
      | exact setRef_frame _ _
      | exact preserves_findSelfKind kindsFrame_isFrame _ _
      | exact preserves_findIdentifierKind kindsFrame_isFrame _ _
      | exact preserves_findMemberKind kindsFrame_isFrame _ _ _ _
      | apply preserves_bind kindsFrame_isFrame
      | intro _
  | .mk (.TArray t) start => by
    simp only [compileKindExprNode]
    exact preserves_bind kindsFrame_isFrame newKindRef_frame (fun _ => compileArrayKind_frame m t)
  | .mk (.TFuncKind t) start => by
    simp only [compileKindExprNode]
    exact preserves_bind kindsFrame_isFrame newKindRef_frame (fun _ => compileFuncKind_frame m t)
  | .mk (.TStructKind t) start => by
    simp only [compileKindExprNode]
    exact preserves_bind kindsFrame_isFrame newKindRef_frame
      (fun _ => compileStructKind_frame m t)
theorem compileArrayKind_frame (m : Nat) : ∀ (t : ast.TArray),
    Preserves KindsFrame (compileArrayKind m t)
  | .mk elem len => by
    have ih := compileKindExpr_frame m elem
    simp only [compileArrayKind]
    repeat' first
      | exact preserves_pure kindsFrame_isFrame _
      | exact preserves_abort kindsFrame_isFrame _
      | exact preserves_unexpectedPos kindsFrame_isFrame _ _
      | exact newKindRef_frame
      | exact setRef_frame _ _
      | exact ih
      | apply preserves_bind kindsFrame_isFrame
      | intro _
      | split
theorem compileFuncKindArgs_frame (m n : Nat) : ∀ (l : List ast.Argument) (i : Nat) (rest : Bool)
    (acc : List KindRef), Preserves KindsFrame (compileFuncKindArgs m n l i rest acc)
  | [], i, rest, acc => by
    simp only [compileFuncKindArgs]
    exact preserves_pure kindsFrame_isFrame _
  | (.mk argKind argRest argStart) :: more, i, rest, acc => by
    have ih1 := compileKindExpr_frame m argKind
    have ih2 := fun r a => compileFuncKindArgs_frame m n more (i + 1) r a
    simp only [compileFuncKindArgs]
    repeat' first
      | exact preserves_pure kindsFrame_isFrame _
      | exact preserves_abort kindsFrame_isFrame _
      | exact preserves_unexpectedPos kindsFrame_isFrame _ _
      | exact ih1
      | exact ih2 _ _
      | apply preserves_bind kindsFrame_isFrame
      | intro _
      | split
theorem compileFuncKind_frame (m : Nat) : ∀ (t : ast.TFuncKind),
    Preserves KindsFrame (compileFuncKind m t)
  | .mk args ret => by
    have ih1 := compileKindExpr_frame m ret
    have ih2 := compileFuncKindArgs_frame m args.length args 0 false []
    simp only [compileFuncKind]
    repeat' first
      | exact preserves_pure kindsFrame_isFrame _
      | exact newKindRef_frame
      | exact setRef_frame _ _
      | exact ih1
      | exact ih2
      | apply preserves_bind kindsFrame_isFrame
      | intro _
theorem compileStructProps_frame (m : Nat) : ∀ (l : List ast.KindProperty)
    (props : List (String × KindRef)), Preserves KindsFrame (compileStructProps m l props)
  | [], props => by
    simp only [compileStructProps]
    exact preserves_pure kindsFrame_isFrame _
  | (.mk key propKind start) :: more, props => by
    have ih1 := compileKindExpr_frame m propKind
    have ih2 := fun p => compileStructProps_frame m more p
    simp only [compileStructProps]
    repeat' first
      | exact preserves_pure kindsFrame_isFrame _
      | exact preserves_unexpectedPos kindsFrame_isFrame _ _
      | exact ih1
      | exact ih2 _
      | apply preserves_bind kindsFrame_isFrame
      | intro _
      | split
theorem compileStructExtends_frame (m : Nat) : ∀ (l : List ast.KindExpr) (exts : List KindRef),
    Preserves KindsFrame (compileStructExtends m l exts)
  | [], exts => by
    simp only [compileStructExtends]
    exact preserves_pure kindsFrame_isFrame _
  | item :: more, exts => by
    have ih1 := compileKindExprNode_frame m item
    have ih2 := fun e => compileStructExtends_frame m more e
    simp only [compileStructExtends]
    repeat' first
      | exact preserves_pure kindsFrame_isFrame _
      | exact ih1
      | exact ih2 _
      | apply preserves_bind kindsFrame_isFrame
      | intro _
theorem compileStructKind_frame (m : Nat) : ∀ (t : ast.TStructKind),
    Preserves KindsFrame (compileStructKind m t)
  | .mk exts props => by
    have ih1 := compileStructProps_frame m props []
    have ih2 := compileStructExtends_frame m exts []
    simp only [compileStructKind]
    repeat' first
      | exact preserves_pure kindsFrame_isFrame _
      | exact newKindRef_frame
      | exact setRef_frame _ _
      | exact ih1
      | exact ih2
      | apply preserves_bind kindsFrame_isFrame
      | intro _
end

/-- Resolving a type expression allocates at least one cell, whatever the outcome. -/
theorem compileKindExpr_allocates (m : Nat) (e : Option ast.KindExpr) (s : Compiler) :
    s.kinds.length < (compileKindExpr m e s).state.kinds.length := by
  cases e with
  | none => simp [compileKindExpr, Res.state, allocated]
  | some e =>
    obtain ⟨node, start⟩ := e
    have key : ∀ g : KindRef → M KindRef, (∀ k, Preserves KindsFrame (g k)) →
        s.kinds.length < ((newKindRef >>= g) s).state.kinds.length := by
      intro g hg
      have h := ((hg s.kinds.length).run (allocated s)).2.2.2.2
      have h2 : (allocated s).kinds.length = s.kinds.length + 1 := by simp [allocated]
      simp only [bind_apply, newKindRef_apply]
      omega
    simp only [compileKindExpr]
    cases node with
    | TArray t =>
      simp only [compileKindExprNode]
      exact key _ (fun _ => compileArrayKind_frame m t)
    | TFuncKind t =>
      simp only [compileKindExprNode]
      exact key _ (fun _ => compileFuncKind_frame m t)
    | TStructKind t =>
      simp only [compileKindExprNode]
      exact key _ (fun _ => compileStructKind_frame m t)
    | _ =>
      simp only [compileKindExprNode]
      apply key
      intro k
      repeat' first
        | exact preserves_pure kindsFrame_isFrame _
        | exact setRef_frame _ _
        | exact preserves_findSelfKind kindsFrame_isFrame _ _
        | exact preserves_findIdentifierKind kindsFrame_isFrame _ _
        | exact preserves_findMemberKind kindsFrame_isFrame _ _ _ _
        | apply preserves_bind kindsFrame_isFrame
        | intro _

/-! ## Array type expressions -/

/-- The length test of `compileArrayKind`, on rationals. -/
theorem length_test_iff (v : ℚ) :
    (v < 0 ∨ ((⌊v⌋ : Int) : ℚ) ≠ v) ↔ (v < 0 ∨ ¬ ∃ n : ℤ, (n : ℚ) = v) := by
  constructor
  · rintro (h | h)
    · exact Or.inl h
    · right
      rintro ⟨n, rfl⟩
      exact h (by simp)
  · rintro (h | h)
    · exact Or.inl h
    · exact Or.inr (fun hh => h ⟨_, hh⟩)

/-- `compileArrayKind` on a number-literal length that passes the test. -/
theorem compileArrayKind_accepted (m : Nat) (elem : Option ast.KindExpr) (v : ℚ) (pos : Nat)
    (ik : Option ast.KindNode) (s : Compiler) (h : ¬ (v < 0 ∨ ((⌊v⌋ : Int) : ℚ) ≠ v)) :
    compileArrayKind m (.mk elem (some (.mk (.NumberLiteral v) pos ik))) s =
      match compileKindExpr m elem (allocated s) with
      | .ok ref s2 => .ok s.kinds.length (filled s2 s.kinds.length (.TArray ref (intOfFloat64 v) []))
      | .fail f s2 => .fail f s2 := by
  cases hk : compileKindExpr m elem (allocated s) <;>
    simp [compileArrayKind, ast.Expr.Node, ast.Expr.Start, h, hk]

/-- `compileArrayKind` on an array type expression with no length. -/
theorem compileArrayKind_vector (m : Nat) (elem : Option ast.KindExpr) (s : Compiler) :
    compileArrayKind m (.mk elem none) s =
      match compileKindExpr m elem (allocated s) with
      | .ok ref s2 => .ok s.kinds.length (filled s2 s.kinds.length (.TArray ref (-1) []))
      | .fail f s2 => .fail f s2 := by
  cases hk : compileKindExpr m elem (allocated s) <;>
    simp [compileArrayKind, hk]

/-- `compileArrayKind` on a number-literal length that fails the test. -/
theorem compileArrayKind_rejected (m : Nat) (elem : Option ast.KindExpr) (v : ℚ) (pos : Nat)
    (ik : Option ast.KindNode) (s : Compiler) (h : v < 0 ∨ ((⌊v⌋ : Int) : ℚ) ≠ v) :
    compileArrayKind m (.mk elem (some (.mk (.NumberLiteral v) pos ik))) s =
      .fail (.compileError pos "Expect be a positive integer") (allocated s) := by
  simp only [compileArrayKind, bind_apply, newKindRef_apply, ast.Expr.Node, ast.Expr.Start]
  simp [h]

/-- C5: for an array type expression whose length is the number literal `v`,
`compileArrayKind` stops with the diagnostic "Expect be a positive integer" at the
start of the length expression, right after allocating the result cell, if and
only if `v` is negative or not an integer; and when `v` is a non-negative integer
(0 included) no length error is reported: every fault of the run is a fault of
resolving the element type. -/
theorem compileArrayKind_length_error_iff (m : Nat) (elem : Option ast.KindExpr) (v : ℚ)
    (pos : Nat) (ik : Option ast.KindNode) (s : Compiler) :
    (compileArrayKind m (.mk elem (some (.mk (.NumberLiteral v) pos ik))) s
        = .fail (.compileError pos "Expect be a positive integer") (allocated s)
      ↔ (v < 0 ∨ ¬ ∃ n : ℤ, (n : ℚ) = v)) ∧
    ((0 ≤ v ∧ ∃ n : ℤ, (n : ℚ) = v) →
      ∀ f s1, compileArrayKind m (.mk elem (some (.mk (.NumberLiteral v) pos ik))) s = .fail f s1 →
        compileKindExpr m elem (allocated s) = .fail f s1) := by
  constructor
  · rw [← length_test_iff]
    constructor
    · intro hrun
      by_contra hgood
      rw [compileArrayKind_accepted m elem v pos ik s hgood] at hrun
      have hlen := compileKindExpr_allocates m elem (allocated s)
      cases hk : compileKindExpr m elem (allocated s) with
      | ok ref s2 => rw [hk] at hrun; simp at hrun
      | fail f s2 =>
        rw [hk] at hrun hlen
        simp only [Res.fail.injEq] at hrun
        rw [hrun.2] at hlen
        simp [Res.state] at hlen
    · exact compileArrayKind_rejected m elem v pos ik s
  · rintro ⟨h0, hn⟩ f s1 hrun
    have hgood : ¬ (v < 0 ∨ ((⌊v⌋ : Int) : ℚ) ≠ v) := by
      rw [length_test_iff]
      rintro (h | h)
      · exact absurd h0 (not_le.mpr h)
      · exact h hn
    rw [compileArrayKind_accepted m elem v pos ik s hgood] at hrun
    cases hk : compileKindExpr m elem (allocated s) with
    | ok ref s2 => rw [hk] at hrun; simp at hrun
    | fail g s2 => rw [hk] at hrun; simpa using hrun

/-- C5 at concrete lengths: `-1` and `3/2` are rejected at offset 9, `0` and `3` are not. -/
theorem compileArrayKind_length_error_iff_witness :
    compileArrayKind 0 (arrayOf (.NumberLiteral (-1))) exampleStore
      = .fail (.compileError 9 "Expect be a positive integer") (allocated exampleStore) ∧
    compileArrayKind 0 (arrayOf (.NumberLiteral (3 / 2))) exampleStore
      = .fail (.compileError 9 "Expect be a positive integer") (allocated exampleStore) ∧
    (compileArrayKind 0 (arrayOf (.NumberLiteral 0)) exampleStore).fault = none ∧
    (compileArrayKind 0 (arrayOf (.NumberLiteral 3)) exampleStore).fault = none := by
  refine ⟨?_, ?_, by decide, by decide⟩
  · exact (compileArrayKind_length_error_iff 0 (some numberExpr) (-1) 9 none exampleStore).1.mpr
      (Or.inl (by norm_num))
  · refine (compileArrayKind_length_error_iff 0 (some numberExpr) (3 / 2) 9 none exampleStore).1.mpr
      (Or.inr ?_)
    rintro ⟨n, hn⟩
    have h2 : (2 : ℚ) * n = 3 := by rw [hn]; norm_num
    have h3 : (2 : ℤ) * n = 3 := by exact_mod_cast h2
    omega

/-- C6: when the length expression of an array type expression is present and is not a
number literal, `compileArrayKind` ends in the fault of the failed type assertion
`t.Len.Node.(*ast.NumberLiteral)`, right after allocating the result cell; no
compile error is reported. -/
theorem compileArrayKind_length_not_literal (m : Nat) (elem : Option ast.KindExpr)
    (node : ast.ExprNode) (pos : Nat) (ik : Option ast.KindNode) (s : Compiler)
    (h : ∀ v, node ≠ .NumberLiteral v) :
    compileArrayKind m (.mk elem (some (.mk node pos ik))) s
      = .fail .typeAssertion (allocated s) := by
  simp only [compileArrayKind, bind_apply, newKindRef_apply, ast.Expr.Node]
  cases node <;> simp_all

/-- C6 at the lengths `n` (an identifier) and `"3"` (a string literal). -/
theorem compileArrayKind_length_not_literal_witness :
    compileArrayKind 0 (arrayOf (.IdentifierLiteral "n")) exampleStore
      = .fail .typeAssertion (allocated exampleStore) ∧
    compileArrayKind 0 (arrayOf (.StringLiteral "3")) exampleStore
      = .fail .typeAssertion (allocated exampleStore) :=
  ⟨compileArrayKind_length_not_literal 0 (some numberExpr) (.IdentifierLiteral "n") 9 none
      exampleStore (by intro v h; cases h),
   compileArrayKind_length_not_literal 0 (some numberExpr) (.StringLiteral "3") 9 none
      exampleStore (by intro v h; cases h)⟩

/-- `int(v)` of a non-negative integer below `2^63` is that integer. -/
theorem intOfFloat64_of_nat (v : ℚ) (h0 : 0 ≤ v) (hi : ((⌊v⌋ : Int) : ℚ) = v)
    (hb : v < 2 ^ 63) : ((intOfFloat64 v : Int) : ℚ) = v ∧ 0 ≤ intOfFloat64 v := by
  have hf0 : (0 : Int) ≤ ⌊v⌋ := Int.floor_nonneg.mpr h0
  have hfb : ⌊v⌋ < (2 : Int) ^ 63 := by
    have : ((⌊v⌋ : Int) : ℚ) < ((2 ^ 63 : Int) : ℚ) := by rw [hi]; exact_mod_cast hb
    exact_mod_cast this
  have hlo : -(2 : Int) ^ 63 ≤ ⌊v⌋ := by
    have : (0 : Int) ≤ (2 : Int) ^ 63 := by positivity
    omega
  simp only [intOfFloat64, h0, if_true, hlo, hfb, and_self]
  exact ⟨hi, hf0⟩

/-- `int(v)` of a non-negative `v` is never the vector marker. -/
theorem intOfFloat64_ne_marker (v : ℚ) (h0 : 0 ≤ v) : intOfFloat64 v ≠ -1 := by
  have hf0 : (0 : Int) ≤ ⌊v⌋ := Int.floor_nonneg.mpr h0
  simp only [intOfFloat64, h0, if_true]
  split
  · omega
  · norm_num

/-- C7, amended: for an array type expression `t` that `compileArrayKind` accepts,
the result is the cell allocated first, holding a `TArray` whose element
reference is the resolution of the element type expression; its `Len` is the
vector marker `-1` if and only if `t` has no length (`IsVector`); and when the
length is a number literal `v` below `2^63`, `Len` equals `v` and is non-negative. -/
theorem compileArrayKind_len (m : Nat) (t : ast.TArray) (s : Compiler) (r : KindRef)
    (s1 : Compiler) (h : compileArrayKind m t s = .ok r s1) :
    ∃ ref s2 len, compileKindExpr m t.Kind (allocated s) = .ok ref s2 ∧
      r = s.kinds.length ∧ s1 = filled s2 r (.TArray ref len []) ∧
      s1.kinds[r]? = some (some (.TArray ref len [])) ∧
      (len = -1 ↔ t.IsVector = true) ∧
      (∀ v pos ik, t.Len = some (.mk (.NumberLiteral v) pos ik) → v < 2 ^ 63 →
        (len : ℚ) = v ∧ 0 ≤ len) := by
  obtain ⟨elem, len⟩ := t
  have hset : ∀ (s2 : Compiler) (k : Kind), KindsFrame (allocated s) s2 →
      (filled s2 s.kinds.length k).kinds[s.kinds.length]? = some (some k) := by
    intro s2 k hf
    have hl : s.kinds.length < s2.kinds.length := by
      have := hf.2.2.2.2
      simp [allocated] at this
      omega
    simp [filled, hl]
  have hfr := (compileKindExpr_frame m elem).run (allocated s)
  cases len with
  | none =>
    rw [compileArrayKind_vector] at h
    cases hk : compileKindExpr m elem (allocated s) with
    | fail f s2 => rw [hk] at h; simp at h
    | ok ref s2 =>
      rw [hk] at h hfr
      simp only [Res.ok.injEq] at h
      refine ⟨ref, s2, -1, hk, h.1.symm, ?_, ?_, ?_, ?_⟩
      · rw [← h.1]; exact h.2.symm
      · rw [← h.2, ← h.1]; exact hset s2 _ hfr
      · simp [ast.TArray.IsVector, ast.TArray.Len]
      · intro v pos ik hv
        simp [ast.TArray.Len] at hv
  | some e =>
    obtain ⟨node, pos, ik⟩ := e
    by_cases hlit : ∃ v, node = .NumberLiteral v
    · obtain ⟨v, rfl⟩ := hlit
      by_cases hbad : v < 0 ∨ ((⌊v⌋ : Int) : ℚ) ≠ v
      · rw [compileArrayKind_rejected m elem v pos ik s hbad] at h
        simp at h
      · rw [compileArrayKind_accepted m elem v pos ik s hbad] at h
        have h0 : 0 ≤ v := by
          by_contra hc
          exact hbad (Or.inl (not_le.mp hc))
        have hi : ((⌊v⌋ : Int) : ℚ) = v := by
          by_contra hc
          exact hbad (Or.inr hc)
        cases hk : compileKindExpr m elem (allocated s) with
        | fail f s2 => rw [hk] at h; simp at h
        | ok ref s2 =>
          rw [hk] at h hfr
          simp only [Res.ok.injEq] at h
          refine ⟨ref, s2, intOfFloat64 v, hk, h.1.symm, ?_, ?_, ?_, ?_⟩
          · rw [← h.1]; exact h.2.symm
          · rw [← h.2, ← h.1]; exact hset s2 _ hfr
          · simp [ast.TArray.IsVector, ast.TArray.Len, intOfFloat64_ne_marker v h0]
          · intro w pos1 ik1 hw hb
            simp only [ast.TArray.Len, Option.some.injEq, ast.Expr.mk.injEq,
              ast.ExprNode.NumberLiteral.injEq] at hw
            rw [← hw.1] at hb ⊢
            exact intOfFloat64_of_nat v h0 hi hb
    · rw [compileArrayKind_length_not_literal m elem node pos ik s
        (fun v hv => hlit ⟨v, hv⟩)] at h
      simp at h

/-- C7, amended, at `[Number; 3]` and at the vector `[Number]`. -/
theorem compileArrayKind_len_witness :
    (∃ ref s2 len, compileKindExpr 0 (some numberExpr) (allocated exampleStore) = .ok ref s2 ∧
      (0 : Nat) = exampleStore.kinds.length ∧
      (compileArrayKind 0 (arrayOf (.NumberLiteral 3)) exampleStore).state
        = filled s2 0 (.TArray ref len []) ∧
      (compileArrayKind 0 (arrayOf (.NumberLiteral 3)) exampleStore).state.kinds[0]?
        = some (some (.TArray ref len [])) ∧
      (len = -1 ↔ (arrayOf (.NumberLiteral 3)).IsVector = true) ∧
      (∀ v pos ik, (arrayOf (.NumberLiteral 3)).Len = some (.mk (.NumberLiteral v) pos ik) →
        v < 2 ^ 63 → (len : ℚ) = v ∧ 0 ≤ len)) ∧
    (compileArrayKind 0 (arrayOf (.NumberLiteral 3)) exampleStore).state.kinds
      = [some (.TArray 1 3 []), some (.TNumber [])] ∧
    (compileArrayKind 0 (.mk (some numberExpr) none) exampleStore).state.kinds
      = [some (.TArray 1 (-1) []), some (.TNumber [])] :=
  ⟨compileArrayKind_len 0 (arrayOf (.NumberLiteral 3)) exampleStore 0 _
      (Res.eq_ok_of_val (by decide)),
    by decide, by decide⟩

/-- C7 as stated fails at `[Number; 9223372036854775808]`: the length `2^63` is a
non-negative integer, the expression is accepted, and the recorded `Len` is
`-2^63`, neither the literal nor non-negative. -/
theorem compileArrayKind_len_overflow :
    (compileArrayKind 0 (arrayOf (.NumberLiteral 9223372036854775808)) exampleStore).val = some 0 ∧
    (compileArrayKind 0 (arrayOf (.NumberLiteral 9223372036854775808)) exampleStore).state.kinds
      = [some (.TArray 1 (-9223372036854775808) []), some (.TNumber [])] := by
  decide

/-! ## Function type expressions -/

theorem resolveAll_nil (m : Nat) (s : Compiler) : resolveAll m [] s = .ok [] s := rfl

theorem resolveAll_cons_ok (m : Nat) (e : Option ast.KindExpr) (more : List (Option ast.KindExpr))
    (s : Compiler) (refs : List KindRef) (s1 : Compiler)
    (h : resolveAll m (e :: more) s = .ok refs s1) :
    ∃ k s2 ks, compileKindExpr m e s = .ok k s2 ∧ resolveAll m more s2 = .ok ks s1 ∧
      refs = k :: ks := by
  simp only [resolveAll, bind_apply] at h
  cases hk : compileKindExpr m e s with
  | fail f s2 => rw [hk] at h; simp at h
  | ok k s2 =>
    rw [hk] at h
    simp only at h
    cases hr : resolveAll m more s2 with
    | fail f s3 => rw [hr] at h; simp at h
    | ok ks s3 =>
      rw [hr] at h
      simp only [pure_apply, Res.ok.injEq] at h
      exact ⟨k, s2, ks, rfl, by rw [hr, h.2], h.1.symm⟩

theorem resolveAll_length (m : Nat) : ∀ (l : List (Option ast.KindExpr)) (s : Compiler)
    (refs : List KindRef) (s1 : Compiler), resolveAll m l s = .ok refs s1 →
    refs.length = l.length
  | [], s, refs, s1, h => by
    simp only [resolveAll_nil, Res.ok.injEq] at h
    simp [← h.1]
  | e :: more, s, refs, s1, h => by
    obtain ⟨k, s2, ks, _, hr, rfl⟩ := resolveAll_cons_ok m e more s refs s1 h
    simp [resolveAll_length m more s2 ks s1 hr]

theorem lastIsRest_cons (a b : ast.Argument) (more : List ast.Argument) :
    lastIsRest (a :: b :: more) = lastIsRest (b :: more) := by
  simp [lastIsRest, List.getLast?_cons_cons]

/-- When only the last parameter may be variadic, some parameter is variadic exactly
when the last one is. -/
theorem any_rest_eq_last : ∀ (l : List ast.Argument),
    (∀ pre a post, l = pre ++ a :: post → post ≠ [] → a.Rest = false) →
    l.any ast.Argument.Rest = lastIsRest l
  | [], _ => rfl
  | [a], _ => by simp [lastIsRest]
  | a :: b :: more, h => by
    have ha : a.Rest = false := h [] a (b :: more) rfl (by simp)
    have ih := any_rest_eq_last (b :: more) (fun pre c post hc hp =>
      h (a :: pre) c post (by simp [hc]) hp)
    rw [lastIsRest_cons, ← ih]
    simp [ha]

/-- The parameter loop when no parameter but the last is variadic. -/
theorem compileFuncKindArgs_ok (m n : Nat) : ∀ (l : List ast.Argument) (i : Nat) (rest : Bool)
    (acc : List KindRef) (s : Compiler) (refs : List KindRef) (s1 : Compiler),
    i + l.length = n →
    (∀ pre a post, l = pre ++ a :: post → post ≠ [] → a.Rest = false) →
    resolveAll m (l.map ast.Argument.Kind) s = .ok refs s1 →
    compileFuncKindArgs m n l i rest acc s
      = .ok (rest || l.any ast.Argument.Rest, acc ++ refs) s1
  | [], i, rest, acc, s, refs, s1, _, _, hr => by
    simp only [List.map_nil, resolveAll_nil, Res.ok.injEq] at hr
    simp [compileFuncKindArgs, ← hr.1, ← hr.2]
  | (.mk k r p) :: more, i, rest, acc, s, refs, s1, hn, hlast, hr => by
    obtain ⟨k1, s2, ks, hk, hrest, rfl⟩ :=
      resolveAll_cons_ok m k (more.map ast.Argument.Kind) s refs s1 hr
    have ih := fun rest1 => compileFuncKindArgs_ok m n more (i + 1) rest1 (acc ++ [k1]) s2 ks s1
      (by simp only [List.length_cons] at hn; omega)
      (fun pre a post ha hp => hlast (.mk k r p :: pre) a post (by simp [ha]) hp) hrest
    cases r with
    | false =>
      simp only [compileFuncKindArgs, bind_apply, Bool.false_eq_true, if_false, pure_apply, hk,
        ih rest]
      simp [ast.Argument.Rest]
    | true =>
      have hmore : more = [] := by
        by_contra hne
        have := hlast [] (.mk k true p) more rfl hne
        simp [ast.Argument.Rest] at this
      have hi : (i : Int) = (n : Int) - 1 := by
        simp only [hmore, List.length_cons, List.length_nil] at hn
        omega
      simp only [compileFuncKindArgs, bind_apply, if_true, hi, pure_apply, hk, ih true]
      simp [ast.Argument.Rest]

/-- The parameter loop when a variadic parameter is followed by another parameter. -/
theorem compileFuncKindArgs_misplaced (m n : Nat) : ∀ (pre : List ast.Argument)
    (a : ast.Argument) (post : List ast.Argument) (i : Nat) (rest : Bool) (acc : List KindRef)
    (s : Compiler) (refs : List KindRef) (s1 : Compiler),
    i + pre.length + 1 < n → a.Rest = true → (∀ b ∈ pre, b.Rest = false) →
    resolveAll m (pre.map ast.Argument.Kind) s = .ok refs s1 →
    compileFuncKindArgs m n (pre ++ a :: post) i rest acc s
      = .fail (.compileError a.Start "The rest arguments should be placed last") s1
  | [], .mk k r p, post, i, rest, acc, s, refs, s1, hn, ha, _, hr => by
    simp only [List.map_nil, resolveAll_nil, Res.ok.injEq] at hr
    simp only [ast.Argument.Rest] at ha
    subst ha
    have hi : ¬ ((i : Int) = (n : Int) - 1) := by
      simp only [List.length_nil] at hn
      omega
    simp [compileFuncKindArgs, hi, ast.Argument.Start, ← hr.2]
  | (.mk k r p) :: pre, a, post, i, rest, acc, s, refs, s1, hn, ha, hpre, hr => by
    obtain ⟨k1, s2, ks, hk, hrest, rfl⟩ :=
      resolveAll_cons_ok m k (pre.map ast.Argument.Kind) s refs s1 hr
    have hr0 : r = false := by
      have := hpre (.mk k r p) (by simp)
      simpa [ast.Argument.Rest] using this
    subst hr0
    have ih := compileFuncKindArgs_misplaced m n pre a post (i + 1) rest (acc ++ [k1]) s2 ks s1
      (by simp only [List.length_cons] at hn; omega) ha
      (fun b hb => hpre b (by simp [hb])) hrest
    simp only [List.cons_append, compileFuncKindArgs, bind_apply, Bool.false_eq_true, if_false,
      pure_apply, hk]
    exact ih

/-- The parameter loop completes only when no parameter but the last is variadic. -/
theorem compileFuncKindArgs_ok_only (m n : Nat) : ∀ (l : List ast.Argument) (i : Nat)
    (rest : Bool) (acc : List KindRef) (s : Compiler) (x : Bool × List KindRef) (s1 : Compiler),
    i + l.length = n →
    compileFuncKindArgs m n l i rest acc s = .ok x s1 →
    ∀ pre a post, l = pre ++ a :: post → post ≠ [] → a.Rest = false
  | [], i, rest, acc, s, x, s1, _, _, pre, a, post, hl, _ => by
    simp at hl
  | (.mk k r p) :: more, i, rest, acc, s, x, s1, hn, hrun, pre, a, post, hl, hp => by
    have hhead : more ≠ [] → r = false := by
      intro hne
      by_contra hr
      have hr1 : r = true := by simpa using hr
      subst hr1
      have hi : ¬ ((i : Int) = (n : Int) - 1) := by
        have : 0 < more.length := List.length_pos.mpr hne
        simp only [List.length_cons] at hn
        omega
      simp [compileFuncKindArgs, hi] at hrun
    cases pre with
    | nil =>
      simp only [List.nil_append, List.cons.injEq] at hl
      rw [← hl.1]
      simp only [ast.Argument.Rest]
      exact hhead (by rw [hl.2]; exact hp)
    | cons b pre1 =>
      simp only [List.cons_append, List.cons.injEq] at hl
      have hne : more ≠ [] := by rw [hl.2]; simp
      have hr0 := hhead hne
      subst hr0
      simp only [compileFuncKindArgs, bind_apply, Bool.false_eq_true, if_false,
        pure_apply] at hrun
      cases hk : compileKindExpr m k s with
      | fail f s2 => rw [hk] at hrun; simp at hrun
      | ok k1 s2 =>
        rw [hk] at hrun
        exact compileFuncKindArgs_ok_only m n more (i + 1) rest (acc ++ [k1]) s2 x s1
          (by simp only [List.length_cons] at hn; omega) hrun pre1 a post hl.2 hp

/-- C8: for a function type expression with parameters `args` and return type `ret`:
(1) if a parameter marked variadic is followed by another parameter, and the types of
the parameters before the first such one resolve, `compileFuncKind` stops with the
diagnostic "The rest arguments should be placed last" at that parameter's start;
(2) if no parameter but the last is marked variadic and the parameter and return
types resolve, the result cell holds a `TFunc` whose `RestArgument` tells whether the
last parameter is variadic and whose `Arguments` are the resolutions of the parameter
types, one per parameter and in order;
(3) `compileFuncKind` completes only if no parameter but the last is marked variadic. -/
theorem compileFuncKind_rest (m : Nat) (args : List ast.Argument) (ret : Option ast.KindExpr)
    (s : Compiler) :
    (∀ pre a post refs s1, args = pre ++ a :: post → post ≠ [] → a.Rest = true →
      (∀ b ∈ pre, b.Rest = false) →
      resolveAll m (pre.map ast.Argument.Kind) (allocated s) = .ok refs s1 →
      compileFuncKind m (.mk args ret) s
        = .fail (.compileError a.Start "The rest arguments should be placed last") s1) ∧
    ((∀ pre a post, args = pre ++ a :: post → post ≠ [] → a.Rest = false) →
      ∀ refs s1 r s2, resolveAll m (args.map ast.Argument.Kind) (allocated s) = .ok refs s1 →
        compileKindExpr m ret s1 = .ok r s2 →
        compileFuncKind m (.mk args ret) s
          = .ok s.kinds.length (filled s2 s.kinds.length (.TFunc refs r (lastIsRest args) [])) ∧
        refs.length = args.length) ∧
    (∀ r s1, compileFuncKind m (.mk args ret) s = .ok r s1 →
      ∀ pre a post, args = pre ++ a :: post → post ≠ [] → a.Rest = false) := by
  refine ⟨?_, ?_, ?_⟩
  · intro pre a post refs s1 hargs hpost ha hpre hr
    have hn : 0 + pre.length + 1 < args.length := by
      have : 0 < post.length := List.length_pos.mpr hpost
      rw [hargs]
      simp only [List.length_append, List.length_cons]
      omega
    have h := compileFuncKindArgs_misplaced m args.length pre a post 0 false [] (allocated s)
      refs s1 hn ha hpre hr
    rw [← hargs] at h
    simp [compileFuncKind, h]
  · intro hlast refs s1 r s2 hr hret
    have h := compileFuncKindArgs_ok m args.length args 0 false [] (allocated s) refs s1
      (by simp) hlast hr
    refine ⟨?_, ?_⟩
    · simp [compileFuncKind, h, hret, any_rest_eq_last args hlast]
    · simpa using resolveAll_length m _ _ _ _ hr
  · intro r s1 hrun
    simp only [compileFuncKind, bind_apply, newKindRef_apply] at hrun
    cases hl : compileFuncKindArgs m args.length args 0 false [] (allocated s) with
    | fail f s2 => rw [hl] at hrun; simp at hrun
    | ok x s2 =>
      exact compileFuncKindArgs_ok_only m args.length args 0 false [] (allocated s) x s2
        (by simp) hl

/-! ## Maps as association lists -/

theorem mapHas_eq_false_iff {β : Type} (mp : List (String × β)) (key : String) :
    mapHas mp key = false ↔ key ∉ mapKeys mp := by
  induction mp with
  | nil => simp [mapHas, mapGet, mapKeys]
  | cons kv rest ih =>
    obtain ⟨k, v⟩ := kv
    by_cases hk : k = key
    · simp [mapHas, mapGet, mapKeys, hk]
    · have hk2 : ¬ key = k := fun h => hk h.symm
      simp only [mapHas, mapGet, hk, if_false, mapKeys, List.map_cons, List.mem_cons, hk2,
        false_or]
      simpa [mapHas, mapKeys] using ih

theorem mapHas_eq_true_iff {β : Type} (mp : List (String × β)) (key : String) :
    mapHas mp key = true ↔ key ∈ mapKeys mp := by
  rw [← not_iff_not]
  simp [mapHas_eq_false_iff]

theorem mapSet_of_not_mem {β : Type} (mp : List (String × β)) (key : String) (v : β)
    (h : key ∉ mapKeys mp) : mapSet mp key v = mp ++ [(key, v)] := by
  induction mp with
  | nil => rfl
  | cons kv rest ih =>
    obtain ⟨k, w⟩ := kv
    simp only [mapKeys, List.map_cons, List.mem_cons, not_or] at h
    have hk : ¬ k = key := fun hh => h.1 hh.symm
    simp only [mapSet, hk, if_false, List.cons_append, List.cons.injEq, true_and]
    exact ih h.2

theorem mapKeys_append {β : Type} (a b : List (String × β)) :
    mapKeys (a ++ b) = mapKeys a ++ mapKeys b := by
  simp [mapKeys]

theorem mapKeys_zip {β : Type} (names : List String) (vs : List β)
    (h : vs.length = names.length) : mapKeys (names.zip vs) = names := by
  simp only [mapKeys]
  rw [List.map_fst_zip]
  omega

/-- In a map built from distinct names, the `i`-th name is mapped to the `i`-th value. -/
theorem mapGet_zip_of_nodup {β : Type} : ∀ (names : List String) (vs : List β) (i : Nat)
    (name : String) (v : β), names.Nodup → names[i]? = some name → vs[i]? = some v →
    mapGet (names.zip vs) name = some v
  | [], _, i, name, v, _, hn, _ => by simp at hn
  | _ :: _, [], i, name, v, _, _, hv => by simp at hv
  | n :: names, w :: vs, 0, name, v, _, hn, hv => by
    simp only [List.getElem?_cons_zero, Option.some.injEq] at hn hv
    simp [mapGet, hn, hv]
  | n :: names, w :: vs, i + 1, name, v, hnd, hn, hv => by
    simp only [List.getElem?_cons_succ] at hn hv
    have hne : ¬ n = name := by
      intro h
      rw [List.nodup_cons] at hnd
      exact hnd.1 (h ▸ (List.mem_iff_getElem?.mpr ⟨i, hn⟩))
    simp only [List.zip_cons_cons, mapGet, hne, if_false]
    exact mapGet_zip_of_nodup names vs i name v (List.nodup_cons.mp hnd).2 hn hv

/-! ## Struct type expressions -/

/-- The property loop when the names are distinct and new. -/
theorem compileStructProps_ok (m : Nat) : ∀ (l : List ast.KindProperty)
    (props : List (String × KindRef)) (s : Compiler) (refs : List KindRef) (s1 : Compiler),
    (mapKeys props ++ l.map propName).Nodup →
    resolveAll m (l.map ast.KindProperty.Kind) s = .ok refs s1 →
    compileStructProps m l props s = .ok (props ++ (l.map propName).zip refs) s1
  | [], props, s, refs, s1, _, hr => by
    simp only [List.map_nil, resolveAll_nil, Res.ok.injEq] at hr
    simp [compileStructProps, ← hr.2]
  | (.mk key kind start) :: more, props, s, refs, s1, hnd, hr => by
    obtain ⟨k1, s2, ks, hk, hrest, rfl⟩ :=
      resolveAll_cons_ok m kind (more.map ast.KindProperty.Kind) s refs s1 hr
    have hkey : key.Name ∉ mapKeys props := by
      intro hmem
      have := List.disjoint_of_nodup_append hnd hmem
      exact this (by simp [propName, ast.KindProperty.Key])
    have hnd2 : (mapKeys (props ++ [(key.Name, k1)]) ++ more.map propName).Nodup := by
      simpa [mapKeys_append, mapKeys, propName, ast.KindProperty.Key] using hnd
    have ih := compileStructProps_ok m more (props ++ [(key.Name, k1)]) s2 ks s1 hnd2 hrest
    have hhas : mapHas props key.Name = false := (mapHas_eq_false_iff props key.Name).mpr hkey
    simp only [compileStructProps, bind_apply, hhas, Bool.false_eq_true, if_false, pure_apply, hk,
      mapSet_of_not_mem props key.Name k1 hkey, ih]
    simp [propName, ast.KindProperty.Key]

/-- The property loop when a name repeats an earlier one. -/
theorem compileStructProps_dup (m : Nat) : ∀ (pre : List ast.KindProperty)
    (p : ast.KindProperty) (post : List ast.KindProperty) (props : List (String × KindRef))
    (s : Compiler) (refs : List KindRef) (s1 : Compiler),
    (mapKeys props ++ pre.map propName).Nodup →
    propName p ∈ mapKeys props ++ pre.map propName →
    resolveAll m (pre.map ast.KindProperty.Kind) s = .ok refs s1 →
    compileStructProps m (pre ++ p :: post) props s
      = .fail (.compileError p.Start ("Duplicate key: " ++ propName p)) s1
  | [], .mk key kind start, post, props, s, refs, s1, _, hmem, hr => by
    simp only [List.map_nil, resolveAll_nil, Res.ok.injEq] at hr
    simp only [List.map_nil, List.append_nil, propName, ast.KindProperty.Key] at hmem
    have hhas : mapHas props key.Name = true := (mapHas_eq_true_iff props key.Name).mpr hmem
    simp [compileStructProps, hhas, propName, ast.KindProperty.Key, ast.KindProperty.Start,
      ← hr.2]
  | (.mk key kind start) :: pre, p, post, props, s, refs, s1, hnd, hmem, hr => by
    obtain ⟨k1, s2, ks, hk, hrest, rfl⟩ :=
      resolveAll_cons_ok m kind (pre.map ast.KindProperty.Kind) s refs s1 hr
    have hkey : key.Name ∉ mapKeys props := by
      intro hm
      have := List.disjoint_of_nodup_append hnd hm
      exact this (by simp [propName, ast.KindProperty.Key])
    have hnd2 : (mapKeys (props ++ [(key.Name, k1)]) ++ pre.map propName).Nodup := by
      simpa [mapKeys_append, mapKeys, propName, ast.KindProperty.Key] using hnd
    have hmem2 : propName p ∈ mapKeys (props ++ [(key.Name, k1)]) ++ pre.map propName := by
      simpa [mapKeys_append, mapKeys, propName, ast.KindProperty.Key] using hmem
    have ih := compileStructProps_dup m pre p post (props ++ [(key.Name, k1)]) s2 ks s1 hnd2
      hmem2 hrest
    have hhas : mapHas props key.Name = false := (mapHas_eq_false_iff props key.Name).mpr hkey
    simp only [List.cons_append, compileStructProps, bind_apply, hhas, Bool.false_eq_true,
      if_false, pure_apply, hk, mapSet_of_not_mem props key.Name k1 hkey]
    exact ih

/-- The property loop completes only when the names are distinct and new. -/
theorem compileStructProps_ok_only (m : Nat) : ∀ (l : List ast.KindProperty)
    (props : List (String × KindRef)) (s : Compiler) (x : List (String × KindRef))
    (s1 : Compiler), (mapKeys props).Nodup → compileStructProps m l props s = .ok x s1 →
    (mapKeys props ++ l.map propName).Nodup
  | [], props, s, x, s1, hnd, _ => by simpa using hnd
  | (.mk key kind start) :: more, props, s, x, s1, hnd, hrun => by
    have hkey : key.Name ∉ mapKeys props := by
      intro hm
      have hhas : mapHas props key.Name = true := (mapHas_eq_true_iff props key.Name).mpr hm
      simp [compileStructProps, hhas] at hrun
    have hhas : mapHas props key.Name = false := (mapHas_eq_false_iff props key.Name).mpr hkey
    simp only [compileStructProps, bind_apply, hhas, Bool.false_eq_true, if_false,
      pure_apply] at hrun
    cases hk : compileKindExpr m kind s with
    | fail f s2 => rw [hk] at hrun; simp at hrun
    | ok k1 s2 =>
      rw [hk] at hrun
      simp only [mapSet_of_not_mem props key.Name k1 hkey] at hrun
      have hnd2 : (mapKeys (props ++ [(key.Name, k1)])).Nodup := by
        rw [mapKeys_append]
        simp only [mapKeys, List.map_cons, List.map_nil]
        refine List.Nodup.append hnd (by simp) ?_
        intro a ha hb
        simp only [List.mem_singleton] at hb
        exact hkey (hb ▸ ha)
      have ih := compileStructProps_ok_only m more (props ++ [(key.Name, k1)]) s2 x s1 hnd2 hrun
      simpa [mapKeys_append, mapKeys, propName, ast.KindProperty.Key] using ih

/-- The extends loop resolves the entries in declaration order. -/
theorem compileStructExtends_eq (m : Nat) : ∀ (l : List ast.KindExpr) (exts : List KindRef)
    (s : Compiler), compileStructExtends m l exts s =
      match resolveAll m (l.map some) s with
      | .ok refs s1 => .ok (exts ++ refs) s1
      | .fail f s1 => .fail f s1
  | [], exts, s => by simp [compileStructExtends, resolveAll_nil]
  | item :: more, exts, s => by
    simp only [compileStructExtends, bind_apply, List.map_cons, resolveAll, compileKindExpr]
    cases hk : compileKindExprNode m item s with
    | fail f s2 => rfl
    | ok k s2 =>
      simp only [compileStructExtends_eq m more (exts ++ [k]) s2]
      cases resolveAll m (more.map some) s2 <;> simp

/-- C4: for a struct type expression with properties `props` and extends entries `exts`:
(1) if a property name repeats an earlier one, and the types of the properties before
the first such property resolve, `compileStructKind` stops with the diagnostic
"Duplicate key: " followed by the repeated name;
(2) if the property names are pairwise distinct and the property and extends types
resolve, the result cell holds a `TStruct` whose `Properties` map has exactly the
declared names as keys, each mapped to the resolution of its type expression, and
whose `Extends` list holds the resolutions of the extends entries in order;
(3) `compileStructKind` completes only if the property names are pairwise distinct. -/
theorem compileStructKind_properties (m : Nat) (exts : List ast.KindExpr)
    (props : List ast.KindProperty) (s : Compiler) :
    (∀ pre p post refs s1, props = pre ++ p :: post → (pre.map propName).Nodup →
      propName p ∈ pre.map propName →
      resolveAll m (pre.map ast.KindProperty.Kind) (allocated s) = .ok refs s1 →
      compileStructKind m (.mk exts props) s
        = .fail (.compileError p.Start ("Duplicate key: " ++ propName p)) s1) ∧
    ((props.map propName).Nodup →
      ∀ refsP s1 refsE s2,
        resolveAll m (props.map ast.KindProperty.Kind) (allocated s) = .ok refsP s1 →
        resolveAll m (exts.map some) s1 = .ok refsE s2 →
        compileStructKind m (.mk exts props) s
          = .ok s.kinds.length
              (filled s2 s.kinds.length (.TStruct refsE ((props.map propName).zip refsP) [])) ∧
        mapKeys ((props.map propName).zip refsP) = props.map propName ∧
        (∀ (i : Nat) name k, (props.map propName)[i]? = some name → refsP[i]? = some k →
          mapGet ((props.map propName).zip refsP) name = some k) ∧
        refsE.length = exts.length) ∧
    (∀ r s1, compileStructKind m (.mk exts props) s = .ok r s1 → (props.map propName).Nodup) := by
  refine ⟨?_, ?_, ?_⟩
  · intro pre p post refs s1 hprops hnd hmem hr
    have h := compileStructProps_dup m pre p post [] (allocated s) refs s1
      (by simpa [mapKeys] using hnd) (by simpa [mapKeys] using hmem) hr
    rw [← hprops] at h
    simp [compileStructKind, h]
  · intro hnd refsP s1 refsE s2 hrP hrE
    have h := compileStructProps_ok m props [] (allocated s) refsP s1
      (by simpa [mapKeys] using hnd) hrP
    have hlenP : refsP.length = (props.map propName).length := by
      simpa using resolveAll_length m _ _ _ _ hrP
    refine ⟨?_, mapKeys_zip _ _ hlenP, ?_, ?_⟩
    · simp [compileStructKind, h, compileStructExtends_eq, hrE]
    · intro i name k hn hk
      exact mapGet_zip_of_nodup _ _ i name k hnd hn hk
    · simpa using resolveAll_length m _ _ _ _ hrE
  · intro r s1 hrun
    simp only [compileStructKind, bind_apply, newKindRef_apply] at hrun
    cases hl : compileStructProps m props [] (allocated s) with
    | fail f s2 => rw [hl] at hrun; simp at hrun
    | ok x s2 =>
      have := compileStructProps_ok_only m props [] (allocated s) x s2 (by simp [mapKeys]) hl
      simpa [mapKeys] using this

/-! ## Enum declarations -/

theorem mapGet_mapSet_self {β : Type} (mp : List (String × β)) (key : String) (v : β) :
    mapGet (mapSet mp key v) key = some v := by
  induction mp with
  | nil => simp [mapSet, mapGet]
  | cons kv rest ih =>
    obtain ⟨k, w⟩ := kv
    by_cases hk : k = key
    · simp [mapSet, mapGet, hk]
    · simp [mapSet, mapGet, hk, ih]

theorem set_length_append {α : Type} (l : List α) (a b : α) :
    (l ++ [a]).set l.length b = l ++ [b] := by
  induction l with
  | nil => rfl
  | cons x xs ih => simp [ih]

theorem filled_allocated_kinds (s : Compiler) (k : Kind) :
    (filled (allocated s) s.kinds.length k).kinds = s.kinds ++ [some k] := by
  simp [filled, allocated, set_length_append]

/-- The choice loop when the names are distinct and new. -/
theorem compileEnumChoices_ok : ∀ (l : List ast.Identifier) (i : Nat)
    (choices : List (String × Nat)) (s : Compiler),
    (mapKeys choices ++ l.map ast.Identifier.Name).Nodup →
    compileEnumChoices l i choices s
      = .ok (choices ++ (l.map ast.Identifier.Name).zip (List.range' i l.length)) s
  | [], i, choices, s, _ => by simp [compileEnumChoices]
  | item :: more, i, choices, s, hnd => by
    have hkey : item.Name ∉ mapKeys choices := by
      intro hmem
      have := List.disjoint_of_nodup_append hnd hmem
      exact this (by simp)
    have hnd2 : (mapKeys (choices ++ [(item.Name, i)]) ++ more.map ast.Identifier.Name).Nodup := by
      simpa [mapKeys_append, mapKeys] using hnd
    have ih := compileEnumChoices_ok more (i + 1) (choices ++ [(item.Name, i)]) s hnd2
    have hhas : mapHas choices item.Name = false := (mapHas_eq_false_iff choices item.Name).mpr hkey
    simp only [compileEnumChoices, bind_apply, hhas, Bool.false_eq_true, if_false, pure_apply,
      mapSet_of_not_mem choices item.Name i hkey, ih]
    simp [List.range'_succ]

/-- The choice loop when a name repeats an earlier one. -/
theorem compileEnumChoices_dup : ∀ (pre : List ast.Identifier) (item : ast.Identifier)
    (post : List ast.Identifier) (i : Nat) (choices : List (String × Nat)) (s : Compiler),
    (mapKeys choices ++ pre.map ast.Identifier.Name).Nodup →
    item.Name ∈ mapKeys choices ++ pre.map ast.Identifier.Name →
    compileEnumChoices (pre ++ item :: post) i choices s
      = .fail (.compileError item.Start ("Duplicate item: " ++ item.Name)) s
  | [], item, post, i, choices, s, _, hmem => by
    simp only [List.map_nil, List.append_nil] at hmem
    have hhas : mapHas choices item.Name = true := (mapHas_eq_true_iff choices item.Name).mpr hmem
    simp [compileEnumChoices, hhas]
  | b :: pre, item, post, i, choices, s, hnd, hmem => by
    have hkey : b.Name ∉ mapKeys choices := by
      intro hm
      have := List.disjoint_of_nodup_append hnd hm
      exact this (by simp)
    have hnd2 : (mapKeys (choices ++ [(b.Name, i)]) ++ pre.map ast.Identifier.Name).Nodup := by
      simpa [mapKeys_append, mapKeys] using hnd
    have hmem2 : item.Name ∈ mapKeys (choices ++ [(b.Name, i)]) ++ pre.map ast.Identifier.Name := by
      simpa [mapKeys_append, mapKeys] using hmem
    have ih := compileEnumChoices_dup pre item post (i + 1) (choices ++ [(b.Name, i)]) s hnd2 hmem2
    have hhas : mapHas choices b.Name = false := (mapHas_eq_false_iff choices b.Name).mpr hkey
    simp only [List.cons_append, compileEnumChoices, bind_apply, hhas, Bool.false_eq_true,
      if_false, pure_apply, mapSet_of_not_mem choices b.Name i hkey]
    exact ih

/-- `putKind` on a name that is not yet bound in the innermost frame. -/
theorem putKind_fresh (m : Nat) (name : ast.Identifier) (k : KindRef) (s : Compiler)
    (md : Module) (fr : Scope) (rest : List Scope) (hm : s.modules[m]? = some md)
    (hs : md.scopes = fr :: rest) (hf : mapHas fr.kinds name.Name = false) :
    putKind m name k true s = .ok ()
      { s with modules := (s.modules.set m
          { md with scopes := ({ fr with kinds := mapSet fr.kinds name.Name k } : Scope) :: rest }) } := by
  simp [putKind, hm, hs, hf, setModule]

/-- C3: (1) for an enum declaration whose choice names are pairwise distinct, processed in
a module whose innermost frame does not yet bind the enum's name, `compileTEnumDecl`
completes; it allocates one cell holding a `TEnum` whose `Choices` map has exactly
the declared names as keys and sends the `i`-th declared name (from 0) to `i`, and
binds the enum's name to that cell in the module's scope;
(2) for an enum declaration in which a choice name repeats an earlier one,
`compileTEnumDecl` stops with the diagnostic "Duplicate item: " followed by the name,
at the position of the first repeated item, with the store unchanged. -/
theorem compileTEnumDecl_choices (m : Nat) (node : ast.TEnumDecl) (s : Compiler) :
    ((choiceNames node).Nodup →
      ∀ md fr rest, s.modules[m]? = some md → md.scopes = fr :: rest →
        mapHas fr.kinds node.Name.Name = false →
        ∃ s1 md1, compileTEnumDecl m node s = .ok () s1 ∧
          s1.kinds = s.kinds ++ [some (.TEnum (ordinals (choiceNames node)))] ∧
          s1.modules[m]? = some md1 ∧
          lookupKind md1.scopes node.Name.Name = some s.kinds.length ∧
          mapKeys (ordinals (choiceNames node)) = choiceNames node ∧
          (∀ (i : Nat) name, (choiceNames node)[i]? = some name →
            mapGet (ordinals (choiceNames node)) name = some i)) ∧
    (∀ pre item post, node.Choices = pre ++ item :: post →
      (pre.map ast.Identifier.Name).Nodup → item.Name ∈ pre.map ast.Identifier.Name →
      compileTEnumDecl m node s
        = .fail (.compileError item.Start ("Duplicate item: " ++ item.Name)) s) := by
  constructor
  · intro hnd md fr rest hm hs hf
    have hloop := compileEnumChoices_ok node.Choices 0 [] s (by simpa [mapKeys, choiceNames] using hnd)
    have hch : ([] : List (String × Nat)) ++
        (node.Choices.map ast.Identifier.Name).zip (List.range' 0 node.Choices.length)
        = ordinals (choiceNames node) := by
      simp [ordinals, choiceNames, List.range_eq_range']
    rw [hch] at hloop
    have hmlt : m < s.modules.length := by
      by_contra hc
      rw [List.getElem?_eq_none (by omega)] at hm
      simp at hm
    have hput := putKind_fresh m node.Name s.kinds.length
      (filled (allocated s) s.kinds.length (.TEnum (ordinals (choiceNames node)))) md fr rest
      (by simpa [filled, allocated] using hm) hs hf
    have hkinds := filled_allocated_kinds s (.TEnum (ordinals (choiceNames node)))
    have hfacts : mapKeys (ordinals (choiceNames node)) = choiceNames node ∧
        (∀ (i : Nat) name, (choiceNames node)[i]? = some name →
          mapGet (ordinals (choiceNames node)) name = some i) := by
      refine ⟨mapKeys_zip _ _ (by simp), ?_⟩
      intro i name hn
      refine mapGet_zip_of_nodup _ _ i name i hnd hn ?_
      have hi : i < (choiceNames node).length := by
        by_contra hc
        rw [List.getElem?_eq_none (by omega)] at hn
        simp at hn
      simp [List.getElem?_range hi]
    have hmd1 : ∀ (l : List Module) (x : Module), m < l.length → (l.set m x)[m]? = some x := by
      intro l x hl
      simp [hl]
    cases hpub : node.Pub with
    | false =>
      simp only [compileTEnumDecl, bind_apply, hloop, newKindRef_apply, setRef_apply, hput, hpub,
        Bool.false_eq_true, if_false, pure_apply]
      refine ⟨_, { md with scopes :=
          ({ fr with kinds := mapSet fr.kinds node.Name.Name s.kinds.length } : Scope) :: rest },
        rfl, ?_, ?_, ?_, hfacts⟩
      · simpa using hkinds
      · exact hmd1 _ _ (by simpa [filled, allocated] using hmlt)
      · simp [lookupKind, mapGet_mapSet_self]
    | true =>
      simp only [compileTEnumDecl, bind_apply, hloop, newKindRef_apply, setRef_apply, hput, hpub,
        if_true, exportsSetKind, getModule_apply, setModule]
      rw [hmd1 _ _ (by simpa [filled, allocated] using hmlt)]
      refine ⟨_, { md with
          scopes := ({ fr with kinds := mapSet fr.kinds node.Name.Name s.kinds.length } : Scope)
            :: rest,
          exports := { md.exports with
            kinds := mapSet md.exports.kinds node.Name.Name s.kinds.length } },
        rfl, ?_, ?_, ?_, hfacts⟩
      · simpa using hkinds
      · simp only [List.set_set]
        exact hmd1 _ _ (by simpa [filled, allocated] using hmlt)
      · simp [lookupKind, mapGet_mapSet_self]
  · intro pre item post hch hnd hmem
    have hloop := compileEnumChoices_dup pre item post 0 [] s (by simpa [mapKeys] using hnd)
      (by simpa [mapKeys] using hmem)
    rw [← hch] at hloop
    simp [compileTEnumDecl, hloop]

/-! ## Impl blocks -/

theorem mapGet_mapSet {β : Type} (mp : List (String × β)) (key : String) (v : β) (k : String) :
    mapGet (mapSet mp key v) k = if key = k then some v else mapGet mp k := by
  induction mp with
  | nil => simp [mapSet, mapGet]
  | cons kv rest ih =>
    obtain ⟨k0, w⟩ := kv
    by_cases h0 : k0 = key
    · subst h0
      by_cases h1 : k0 = k <;> simp [mapSet, mapGet, h1]
    · by_cases h1 : k0 = k
      · subst h1
        simp [mapSet, mapGet, h0, Ne.symm h0]
      · simp [mapSet, mapGet, h0, h1, ih]

theorem preserves_getImplOf {R : Compiler → Compiler → Prop} (hR : IsFrame R) (t : KindRef) :
    Preserves R (getImplOf t) := by
  unfold getImplOf
  repeat' first
    | exact preserves_pure hR _
    | exact preserves_abort hR _
    | exact preserves_getRef hR _
    | apply preserves_bind hR
    | intro _
    | split

/-- Precompiling or compiling a method of an impl block changes only the kind store. -/
theorem compileFuncDecl_method_frame (m : Nat) (d : ast.FuncDecl) (t : KindRef) (b : Bool) :
    Preserves KindsFrame (compileFuncDecl m d (some t) b) := by
  unfold compileFuncDecl
  repeat' first
    | exact preserves_pure kindsFrame_isFrame _
    | exact preserves_abort kindsFrame_isFrame _
    | exact preserves_unexpectedPos kindsFrame_isFrame _ _
    | exact preserves_getImplOf kindsFrame_isFrame _
    | exact compileKindExpr_frame _ _
    | exact setRef_frame _ _
    | apply preserves_bind kindsFrame_isFrame
    | intro _
    | split

theorem compileImplBody_frame (m : Nat) (t : KindRef) (b : Bool) : ∀ (l : List ast.Stmt)
    (vals : List (String × FuncValue)) (decls : List (String × ast.Stmt)),
    Preserves KindsFrame (compileImplBody m t b l vals decls)
  | [], vals, decls => by
    simp only [compileImplBody]
    exact preserves_pure kindsFrame_isFrame _
  | stmt :: more, vals, decls => by
    have ih := fun v d => compileImplBody_frame m t b more v d
    simp only [compileImplBody]
    repeat' first
      | exact preserves_pure kindsFrame_isFrame _
      | exact preserves_abort kindsFrame_isFrame _
      | exact compileFuncDecl_method_frame _ _ _ _
      | exact ih _ _
      | apply preserves_bind kindsFrame_isFrame
      | intro _
      | split

/-- A precompiled method is the function value named after the declaration whose kind
is the resolution of the declared signature. -/
theorem compileFuncDecl_method_ok (m : Nat) (d : ast.FuncDecl) (t : KindRef) (s : Compiler)
    (val : Option FuncValue) (s1 : Compiler)
    (h : compileFuncDecl m d (some t) true s = .ok val s1) :
    ∃ k s2, compileKindExpr m d.Kind s = .ok k s2 ∧ val = some ⟨d.Name.Name, k⟩ := by
  simp only [compileFuncDecl, if_true, bind_apply] at h
  cases hk : compileKindExpr m d.Kind s with
  | fail f s2 => rw [hk] at h; simp at h
  | ok k s2 =>
    rw [hk] at h
    simp only at h
    refine ⟨k, s2, rfl, ?_⟩
    cases h1 : getImplOf t s2 with
    | fail f s3 => rw [h1] at h; simp at h
    | ok ki s3 =>
      rw [h1] at h
      obtain ⟨tk, impl⟩ := ki
      simp only at h
      cases hh : Impl.hasFunc impl d.Name.Name with
      | true => rw [hh] at h; simp at h
      | false =>
        rw [hh] at h
        simp only [Bool.false_eq_true, if_false, bind_apply, pure_apply] at h
        cases h3 : getImplOf t s3 with
        | fail f s5 => rw [h3] at h; simp at h
        | ok ki2 s5 =>
          rw [h3] at h
          obtain ⟨tk2, impl2⟩ := ki2
          simp only [setRef_apply, pure_apply, Res.ok.injEq] at h
          exact h.1.symm

/-- What the method loop of an impl block collects: the names bound in `implValues`
are the names collected before together with the declared ones, every collected
value comes from a declaration of the body, and `implDecls` has the same names. -/
theorem compileImplBody_collects (m : Nat) (t : KindRef) : ∀ (l : List ast.Stmt)
    (vals0 : List (String × FuncValue)) (decls0 : List (String × ast.Stmt)) (s : Compiler)
    (vals : List (String × FuncValue)) (decls : List (String × ast.Stmt)) (s1 : Compiler),
    compileImplBody m t true l vals0 decls0 s = .ok (vals, decls) s1 →
    (∀ k, (mapGet vals k).isSome ↔ ((mapGet vals0 k).isSome ∨ declaresMethod l k)) ∧
    (∀ k v, mapGet vals k = some v → mapGet vals0 k = some v ∨
      ∃ stmt d b sa sb, stmt ∈ l ∧ stmt.Node = .FuncDecl d b ∧ d.Name.Name = k ∧ v.Name = k ∧
        compileKindExpr m d.Kind sa = .ok v.Kind sb) ∧
    ((∀ k, (mapGet vals0 k).isSome → (mapGet decls0 k).isSome) →
      ∀ k, (mapGet vals k).isSome → (mapGet decls k).isSome)
  | [], vals0, decls0, s, vals, decls, s1, h => by
    simp only [compileImplBody, pure_apply, Res.ok.injEq, Prod.mk.injEq] at h
    obtain ⟨⟨rfl, rfl⟩, _⟩ := h
    refine ⟨?_, ?_, ?_⟩
    · intro k
      simp [declaresMethod]
    · intro k v hv
      exact Or.inl hv
    · intro h0
      exact h0
  | stmt :: more, vals0, decls0, s, vals, decls, s1, h => by
    simp only [compileImplBody, bind_apply] at h
    cases hn : stmt.Node with
    | FuncDecl d fbody =>
      rw [hn] at h
      simp only [if_true, bind_apply] at h
      cases hf : compileFuncDecl m d (some t) true s with
      | fail f s2 => rw [hf] at h; simp at h
      | ok val s2 =>
        rw [hf] at h
        obtain ⟨kk, s3, hkk, rfl⟩ := compileFuncDecl_method_ok m d t s val s2 hf
        simp only at h
        obtain ⟨ih1, ih2, ih3⟩ := compileImplBody_collects m t more _ _ s2 vals decls s1 h
        refine ⟨?_, ?_, ?_⟩
        · intro k
          rw [ih1 k, mapGet_mapSet]
          by_cases hk : d.Name.Name = k
          · simp only [hk, if_true, Option.isSome_some, true_or, true_iff]
            exact Or.inr ⟨stmt, d, fbody, by simp, hn, hk⟩
          · simp only [hk, if_false]
            constructor
            · rintro (h1 | ⟨st, d1, b1, hm1, hn1, hd1⟩)
              · exact Or.inl h1
              · exact Or.inr ⟨st, d1, b1, by simp [hm1], hn1, hd1⟩
            · rintro (h1 | ⟨st, d1, b1, hm1, hn1, hd1⟩)
              · exact Or.inl h1
              · simp only [List.mem_cons] at hm1
                rcases hm1 with rfl | hm1
                · rw [hn] at hn1
                  simp only [ast.StmtNode.FuncDecl.injEq] at hn1
                  obtain ⟨hn1, _⟩ := hn1
                  subst hn1
                  exact absurd hd1 hk
                · exact Or.inr ⟨st, d1, b1, hm1, hn1, hd1⟩
        · intro k v hv
          rcases ih2 k v hv with h1 | ⟨st, d1, b1, sa, sb, hm1, hn1, hd1, hv1, hr1⟩
          · rw [mapGet_mapSet] at h1
            by_cases hk : d.Name.Name = k
            · simp only [hk, if_true, Option.some.injEq] at h1
              subst h1
              exact Or.inr ⟨stmt, d, fbody, s, s3, by simp, hn, hk, rfl, hkk⟩
            · simp only [hk, if_false] at h1
              exact Or.inl h1
          · exact Or.inr ⟨st, d1, b1, sa, sb, by simp [hm1], hn1, hd1, hv1, hr1⟩
        · intro h0
          apply ih3
          intro k
          rw [mapGet_mapSet, mapGet_mapSet]
          by_cases hk : d.Name.Name = k
          · simp [hk]
          · simpa [hk] using h0 k
    | _ => rw [hn] at h; simp at h

/-- The conformance loop when every required method is present and strictly equal. -/
theorem checkImplMethods_ok (pos : Nat) (vals : List (String × FuncValue))
    (decls : List (String × ast.Stmt)) (s : Compiler) : ∀ (props : List (String × KindRef)),
    (∀ p ∈ props, conformsTo s.kinds vals p = true) →
    checkImplMethods pos vals decls props s = .ok () s
  | [], _ => rfl
  | (key, kind) :: more, h => by
    have hhead := h (key, kind) (by simp)
    have ih := checkImplMethods_ok pos vals decls s more (fun p hp => h p (by simp [hp]))
    simp only [conformsTo] at hhead
    cases hv : mapGet vals key with
    | none => rw [hv] at hhead; simp at hhead
    | some v =>
      rw [hv] at hhead
      simp only at hhead
      simp [checkImplMethods, hv, compareKind, hhead, ih]

/-- The conformance loop when some required method is missing or not strictly equal:
the run stops with the diagnostic naming such a method. -/
theorem checkImplMethods_fail (pos : Nat) (vals : List (String × FuncValue))
    (decls : List (String × ast.Stmt)) (s : Compiler)
    (hd : ∀ k, (mapGet vals k).isSome → (mapGet decls k).isSome) :
    ∀ (props : List (String × KindRef)),
    (∃ p ∈ props, conformsTo s.kinds vals p = false) →
    ∃ k kind, (k, kind) ∈ props ∧ conformsTo s.kinds vals (k, kind) = false ∧
      ((mapGet vals k = none ∧
          checkImplMethods pos vals decls props s
            = .fail (.compileError pos ("No implement method: " ++ k)) s) ∨
       (∃ v d, mapGet vals k = some v ∧ mapGet decls k = some d ∧
          checkImplMethods pos vals decls props s
            = .fail (.compileError d.Start
                ("Unable to match interface method signature: " ++ k)) s))
  | [], h => by
    obtain ⟨p, hp, _⟩ := h
    simp at hp
  | (key, kind) :: more, h => by
    cases hc : conformsTo s.kinds vals (key, kind) with
    | false =>
      refine ⟨key, kind, by simp, hc, ?_⟩
      simp only [conformsTo] at hc
      cases hv : mapGet vals key with
      | none =>
        left
        simp [checkImplMethods, hv]
      | some v =>
        right
        rw [hv] at hc
        simp only at hc
        have hds := hd key (by simp [hv])
        cases hdd : mapGet decls key with
        | none => rw [hdd] at hds; simp at hds
        | some d =>
          refine ⟨v, d, rfl, rfl, ?_⟩
          simp [checkImplMethods, hv, compareKind, hc, hdd]
    | true =>
      have hex : ∃ p ∈ more, conformsTo s.kinds vals p = false := by
        obtain ⟨p, hp, hpf⟩ := h
        simp only [List.mem_cons] at hp
        rcases hp with rfl | hp
        · rw [hc] at hpf; simp at hpf
        · exact ⟨p, hp, hpf⟩
      obtain ⟨k, kd, hmem, hcf, hres⟩ := checkImplMethods_fail pos vals decls s hd more hex
      have hstep : checkImplMethods pos vals decls ((key, kind) :: more) s
          = checkImplMethods pos vals decls more s := by
        simp only [conformsTo] at hc
        cases hv : mapGet vals key with
        | none => rw [hv] at hc; simp at hc
        | some v =>
          rw [hv] at hc
          simp only at hc
          simp [checkImplMethods, hv, compareKind, hc]
      refine ⟨k, kd, by simp [hmem], hcf, ?_⟩
      rw [hstep]
      exact hres

theorem set_getElem?_self {α : Type} (l : List α) (i : Nat) (x : α) (h : i < l.length) :
    (l.set i x)[i]? = some x := by
  simp [h]

theorem lt_of_getElem?_some {α : Type} {l : List α} {i : Nat} {x : α} (h : l[i]? = some x) :
    i < l.length := by
  by_contra hc
  rw [List.getElem?_eq_none (by omega)] at h
  simp at h

/-- Opening the frame of an impl block and binding its self kind. -/
theorem implScope_run (m : Nat) (tref : KindRef) (s : Compiler) (md : Module)
    (hm : s.modules[m]? = some md) :
    (scopesPush m >>= fun _ => putSelfKind m tref) s = .ok () (implScope s m md tref) := by
  have hlt := lt_of_getElem?_some hm
  simp only [bind_apply, scopesPush, putSelfKind, getModule_apply, hm, setModule,
    set_getElem?_self _ _ _ hlt, List.set_set]
  rfl

/-- An impl block that declares conformance, whose target is legal, whose methods
register and whose interface expression resolves to an interface, reaches the
conformance check: the target is appended to the interface's `Refers`, the
required methods are checked, and the frame is closed. -/
theorem compileImplDecl_reaches_check (m : Nat) (target iface : ast.KindExpr)
    (body : List ast.Stmt) (s s1 s3 s4 : Compiler) (md : Module) (tref t : KindRef)
    (tk : Option Kind) (vals : List (String × FuncValue)) (decls : List (String × ast.Stmt))
    (props : List (String × KindRef)) (refers : List KindRef)
    (h_target : compileKindExpr m (some target) s = .ok tref s1)
    (h_module : s1.modules[m]? = some md)
    (h_tk : s1.kinds[tref]? = some tk) (h_legal : legalTarget tk)
    (h_body : compileImplBody m tref true body [] [] (implScope s1 m md tref)
      = .ok (vals, decls) s3)
    (h_iface : compileKindExpr m (some iface) s3 = .ok t s4)
    (h_kind : s4.kinds[t]? = some (some (.TInterface props refers))) :
    compileImplDecl m target (some iface) body true s
      = (checkImplMethods target.Start vals decls props >>= fun _ => scopesPop m)
          (filled s4 t (.TInterface props (refers ++ [tref]))) := by
  have hpush := implScope_run m tref s1 md h_module
  simp only [bind_apply] at hpush
  have htk2 : (implScope s1 m md tref).kinds[tref]? = some tk := h_tk
  simp only [compileImplDecl, bind_apply, h_target]
  cases hp : scopesPush m s1 with
  | fail f sx => rw [hp] at hpush; simp at hpush
  | ok u sx =>
    rw [hp] at hpush
    simp only at hpush
    simp only [hpush, getRef_apply, htk2]
    obtain ⟨h1, h2, h3⟩ := h_legal
    rcases tk with _ | k
    · simp only [pure_apply, bind_apply, h_body, h_iface, getRef_apply, h_kind, setRef_apply,
        ↓reduceIte]
    · cases k with
      | TInterface p r => exact absurd rfl (h1 p r)
      | TAny => exact absurd rfl h2
      | TSelf r => exact absurd rfl (h3 r)
      | _ =>
        simp only [pure_apply, bind_apply, h_body, h_iface, getRef_apply, h_kind, setRef_apply,
          ↓reduceIte]

/-- Closing the frame of an impl block after the conformance check. -/
theorem implScope_pop (m : Nat) (s1 s3 s4 : Compiler) (md : Module) (tref t : KindRef)
    (k : Kind) (h_module : s1.modules[m]? = some md)
    (h3 : KindsFrame (implScope s1 m md tref) s3) (h4 : KindsFrame s3 s4) :
    ∃ s6, scopesPop m (filled s4 t k) = .ok () s6 ∧ s6.kinds = (filled s4 t k).kinds := by
  have hlt := lt_of_getElem?_some h_module
  have hmods : (filled s4 t k).modules = (implScope s1 m md tref).modules := by
    simp only [filled]
    rw [h4.1, h3.1]
  have hm : (filled s4 t k).modules[m]? = some
      { md with scopes := ({ Scope.empty with self := some tref } : Scope) :: md.scopes } := by
    rw [hmods]
    exact set_getElem?_self _ _ _ hlt
  simp only [scopesPop, bind_apply, getModule_apply, hm, setModule]
  exact ⟨_, rfl, rfl⟩

/-- C1: for an impl block (precompile pass) that declares conformance to an interface,
whose target resolves to a legal kind, whose methods register (`implValues`,
`implDecls`) and whose interface expression resolves to an interface with the
required methods `props`:
(1) a name is bound in `implValues` exactly when a function of that name is declared
in the body, and the bound value carries the resolution of that declaration's signature;
(2) if every required method is present with a strictly equal signature
(`compareKind(_, _, true)`), `compileImplDecl` completes without error;
(3) if some required method is missing or has a signature that is not strictly equal,
`compileImplDecl` stops with a diagnostic naming such a method: "No implement method: k"
at the target when `k` is missing, "Unable to match interface method signature: k" at
the method's declaration otherwise. -/
theorem compileImplDecl_conformance (m : Nat) (target iface : ast.KindExpr)
    (body : List ast.Stmt) (s s1 s3 s4 : Compiler) (md : Module) (tref t : KindRef)
    (tk : Option Kind) (vals : List (String × FuncValue)) (decls : List (String × ast.Stmt))
    (props : List (String × KindRef)) (refers : List KindRef)
    (h_target : compileKindExpr m (some target) s = .ok tref s1)
    (h_module : s1.modules[m]? = some md)
    (h_tk : s1.kinds[tref]? = some tk) (h_legal : legalTarget tk)
    (h_body : compileImplBody m tref true body [] [] (implScope s1 m md tref)
      = .ok (vals, decls) s3)
    (h_iface : compileKindExpr m (some iface) s3 = .ok t s4)
    (h_kind : s4.kinds[t]? = some (some (.TInterface props refers))) :
    (∀ k, (mapGet vals k).isSome ↔ declaresMethod body k) ∧
    (∀ k v, mapGet vals k = some v →
      ∃ stmt d b sa sb, stmt ∈ body ∧ stmt.Node = .FuncDecl d b ∧ d.Name.Name = k ∧ v.Name = k ∧
        compileKindExpr m d.Kind sa = .ok v.Kind sb) ∧
    ((∀ p ∈ props,
        conformsTo (filled s4 t (.TInterface props (refers ++ [tref]))).kinds vals p = true) →
      (compileImplDecl m target (some iface) body true s).fault = none) ∧
    ((∃ p ∈ props,
        conformsTo (filled s4 t (.TInterface props (refers ++ [tref]))).kinds vals p = false) →
      ∃ k kind, (k, kind) ∈ props ∧
        conformsTo (filled s4 t (.TInterface props (refers ++ [tref]))).kinds vals (k, kind)
          = false ∧
        ((mapGet vals k = none ∧
            (compileImplDecl m target (some iface) body true s).fault
              = some (.compileError target.Start ("No implement method: " ++ k))) ∨
         (∃ v d, mapGet vals k = some v ∧ mapGet decls k = some d ∧
            (compileImplDecl m target (some iface) body true s).fault
              = some (.compileError d.Start
                  ("Unable to match interface method signature: " ++ k))))) := by
  have hrun := compileImplDecl_reaches_check m target iface body s s1 s3 s4 md tref t tk vals
    decls props refers h_target h_module h_tk h_legal h_body h_iface h_kind
  obtain ⟨hc1, hc2, hc3⟩ := compileImplBody_collects m tref body [] [] _ vals decls s3 h_body
  have h3 := (compileImplBody_frame m tref true body [] []).run (implScope s1 m md tref)
  rw [h_body] at h3
  have h4 := (compileKindExpr_frame m (some iface)).run s3
  rw [h_iface] at h4
  obtain ⟨s6, hpop, _⟩ := implScope_pop m s1 s3 s4 md tref t
    (.TInterface props (refers ++ [tref])) h_module h3 h4
  refine ⟨?_, ?_, ?_, ?_⟩
  · intro k
    rw [hc1 k]
    simp [mapGet]
  · intro k v hv
    rcases hc2 k v hv with h0 | h0
    · simp [mapGet] at h0
    · exact h0
  · intro hall
    rw [hrun]
    simp only [bind_apply, checkImplMethods_ok _ _ _ _ props hall, hpop, Res.fault]
  · intro hex
    have hd : ∀ k, (mapGet vals k).isSome → (mapGet decls k).isSome :=
      hc3 (by simp [mapGet])
    obtain ⟨k, kind, hmem, hcf, hres⟩ := checkImplMethods_fail target.Start vals decls
      (filled s4 t (.TInterface props (refers ++ [tref]))) hd props hex
    refine ⟨k, kind, hmem, hcf, ?_⟩
    rcases hres with ⟨hv, hr⟩ | ⟨v, d, hv, hdd, hr⟩
    · left
      refine ⟨hv, ?_⟩
      rw [hrun]
      simp only [bind_apply, hr, Res.fault]
    · right
      refine ⟨v, d, hv, hdd, ?_⟩
      rw [hrun]
      simp only [bind_apply, hr, Res.fault]

/-- C2, amended: for an impl block that declares conformance to an interface and
reaches the conformance check, the target is appended to the interface's `Refers`
exactly once, before the required methods are checked: in the store the run ends
in, whether the check succeeds or stops with a conformance error, the interface
cell holds the previous `Refers` list with the target appended. -/
theorem compileImplDecl_refers (m : Nat) (target iface : ast.KindExpr)
    (body : List ast.Stmt) (s s1 s3 s4 : Compiler) (md : Module) (tref t : KindRef)
    (tk : Option Kind) (vals : List (String × FuncValue)) (decls : List (String × ast.Stmt))
    (props : List (String × KindRef)) (refers : List KindRef)
    (h_target : compileKindExpr m (some target) s = .ok tref s1)
    (h_module : s1.modules[m]? = some md)
    (h_tk : s1.kinds[tref]? = some tk) (h_legal : legalTarget tk)
    (h_body : compileImplBody m tref true body [] [] (implScope s1 m md tref)
      = .ok (vals, decls) s3)
    (h_iface : compileKindExpr m (some iface) s3 = .ok t s4)
    (h_kind : s4.kinds[t]? = some (some (.TInterface props refers))) :
    (compileImplDecl m target (some iface) body true s).state.kinds[t]?
      = some (some (.TInterface props (refers ++ [tref]))) := by
  have hrun := compileImplDecl_reaches_check m target iface body s s1 s3 s4 md tref t tk vals
    decls props refers h_target h_module h_tk h_legal h_body h_iface h_kind
  have h3 := (compileImplBody_frame m tref true body [] []).run (implScope s1 m md tref)
  rw [h_body] at h3
  have h4 := (compileKindExpr_frame m (some iface)).run s3
  rw [h_iface] at h4
  obtain ⟨s6, hpop, hk6⟩ := implScope_pop m s1 s3 s4 md tref t
    (.TInterface props (refers ++ [tref])) h_module h3 h4
  have hcell : (filled s4 t (.TInterface props (refers ++ [tref]))).kinds[t]?
      = some (some (.TInterface props (refers ++ [tref]))) := by
    simp only [filled]
    exact set_getElem?_self _ _ _ (lt_of_getElem?_some h_kind)
  have hcheck : ∀ sx, (checkImplMethods target.Start vals decls props sx).state = sx := by
    intro sx
    have := (show Preserves (fun a b => b = a) (checkImplMethods target.Start vals decls props)
      from by
        have hR : IsFrame (fun a b : Compiler => b = a) :=
          ⟨fun _ => rfl, fun h1 h2 => h2.trans h1⟩
        generalize props = l
        induction l with
        | nil => exact preserves_pure hR _
        | cons p more ih =>
          obtain ⟨key, kind⟩ := p
          simp only [checkImplMethods]
          repeat' first
            | exact preserves_pure hR _
            | exact preserves_abort hR _
            | exact preserves_unexpectedPos hR _ _
            | exact preserves_compareKind hR _ _ _
            | exact ih
            | apply preserves_bind hR
            | intro _
            | split).run sx
    exact this
  rw [hrun]
  simp only [bind_apply]
  have hc := hcheck (filled s4 t (.TInterface props (refers ++ [tref])))
  cases hr : checkImplMethods target.Start vals decls props
      (filled s4 t (.TInterface props (refers ++ [tref]))) with
  | ok u sx =>
    rw [hr] at hc
    simp only [Res.state] at hc
    subst hc
    simp only [hpop, Res.state, hk6]
    exact hcell
  | fail f sx =>
    rw [hr] at hc
    simp only [Res.state] at hc
    subst hc
    exact hcell

theorem eq_some_getD {α : Type} {o : Option α} (d : α) (h : o.isSome = true) :
    o = some (o.getD d) := by
  cases o with
  | none => simp at h
  | some a => rfl

theorem Res.eq_ok_getD {α : Type} {r : Res α} (d : α) (h : r.val.isSome = true) :
    r = .ok (r.val.getD d) r.state := by
  cases r with
  | ok a s => rfl
  | fail f s => simp [Res.val] at h

theorem legalTarget_struct (e : List KindRef) (p : List (String × KindRef)) (i : Impl) :
    legalTarget (some (.TStruct e p i)) := by
  unfold legalTarget
  simp

theorem circle_target : compileKindExpr 0 (some circleExpr) shapesStore = .ok 4 circleStore :=
  Res.eq_ok_of_val (r := compileKindExpr 0 (some circleExpr) shapesStore) (by decide!)

theorem circle_module : circleStore.modules[0]? = some circleModule :=
  eq_some_getD (o := circleStore.modules[0]?) exampleModule (by decide!)

theorem circle_kind : circleStore.kinds[4]? = some (some (.TStruct [] [("r", 5)] [])) := by
  decide!

theorem circle_methods (body : List ast.Stmt) (h : (circleMethods body).val.isSome = true) :
    compileImplBody 0 4 true body [] [] (implScope circleStore 0 circleModule 4)
      = .ok (circleValues body, circleDecls body) (circleMethods body).state :=
  Res.eq_ok_getD (r := circleMethods body) ([], []) h

theorem shape_resolves (body : List ast.Stmt)
    (h : (compileKindExpr 0 (some shapeExpr) (circleMethods body).state).val = some 0) :
    compileKindExpr 0 (some shapeExpr) (circleMethods body).state = .ok 0 (shapeStore body) :=
  Res.eq_ok_of_val (r := compileKindExpr 0 (some shapeExpr) (circleMethods body).state) h


/-- C1 at `impl Shape for Circle` with `interface Shape { area: fn() -> Number }`: the body
`fn area() -> Number` conforms, the body `fn area() -> String` is reported as a signature
mismatch of `area`, and the empty body as a missing `area`. -/
theorem compileImplDecl_conformance_witness :
    (compileImplDecl 0 circleExpr (some shapeExpr) [areaDecl numberExpr] true shapesStore).fault
      = none ∧
    (∃ k kind, (k, kind) ∈ [("area", 2)] ∧
      conformsTo (filled (shapeStore [areaDecl stringExpr]) 0
        (.TInterface [("area", 2)] ([] ++ [4]))).kinds (circleValues [areaDecl stringExpr])
        (k, kind) = false ∧
      ((mapGet (circleValues [areaDecl stringExpr]) k = none ∧
          (compileImplDecl 0 circleExpr (some shapeExpr) [areaDecl stringExpr] true
            shapesStore).fault
            = some (.compileError circleExpr.Start ("No implement method: " ++ k))) ∨
       (∃ v d, mapGet (circleValues [areaDecl stringExpr]) k = some v ∧
          mapGet (circleDecls [areaDecl stringExpr]) k = some d ∧
          (compileImplDecl 0 circleExpr (some shapeExpr) [areaDecl stringExpr] true
            shapesStore).fault
            = some (.compileError d.Start
                ("Unable to match interface method signature: " ++ k))))) ∧
    (compileImplDecl 0 circleExpr (some shapeExpr) [areaDecl stringExpr] true shapesStore).fault
      = some (.compileError 97 "Unable to match interface method signature: area") ∧
    (compileImplDecl 0 circleExpr (some shapeExpr) [] true shapesStore).fault
      = some (.compileError 90 "No implement method: area") :=
  ⟨(compileImplDecl_conformance 0 circleExpr shapeExpr [areaDecl numberExpr] shapesStore
      circleStore (circleMethods [areaDecl numberExpr]).state (shapeStore [areaDecl numberExpr])
      circleModule 4 0 (some (.TStruct [] [("r", 5)] [])) (circleValues [areaDecl numberExpr])
      (circleDecls [areaDecl numberExpr]) [("area", 2)] []
      circle_target circle_module circle_kind (legalTarget_struct _ _ _)
      (circle_methods _ (by decide!)) (shape_resolves _ (by decide!)) (by decide!)).2.2.1
      (by decide!),
   (compileImplDecl_conformance 0 circleExpr shapeExpr [areaDecl stringExpr] shapesStore
      circleStore (circleMethods [areaDecl stringExpr]).state (shapeStore [areaDecl stringExpr])
      circleModule 4 0 (some (.TStruct [] [("r", 5)] [])) (circleValues [areaDecl stringExpr])
      (circleDecls [areaDecl stringExpr]) [("area", 2)] []
      circle_target circle_module circle_kind (legalTarget_struct _ _ _)
      (circle_methods _ (by decide!)) (shape_resolves _ (by decide!)) (by decide!)).2.2.2
      ⟨("area", 2), by decide!, by decide!⟩,
   by decide!, by decide!⟩

/-- C2, amended, at `impl Shape for Circle { fn area() -> Number }` and at the same
block with an empty body: in both final stores `Shape.Refers` is `[Circle]`. -/
theorem compileImplDecl_refers_witness :
    (compileImplDecl 0 circleExpr (some shapeExpr) [areaDecl numberExpr] true
      shapesStore).state.kinds[0]? = some (some (.TInterface [("area", 2)] ([] ++ [4]))) ∧
    (compileImplDecl 0 circleExpr (some shapeExpr) [] true
      shapesStore).state.kinds[0]? = some (some (.TInterface [("area", 2)] ([] ++ [4]))) :=
  ⟨compileImplDecl_refers 0 circleExpr shapeExpr [areaDecl numberExpr] shapesStore
      circleStore (circleMethods [areaDecl numberExpr]).state (shapeStore [areaDecl numberExpr])
      circleModule 4 0 (some (.TStruct [] [("r", 5)] [])) (circleValues [areaDecl numberExpr])
      (circleDecls [areaDecl numberExpr]) [("area", 2)] []
      circle_target circle_module circle_kind (legalTarget_struct _ _ _)
      (circle_methods _ (by decide!)) (shape_resolves _ (by decide!)) (by decide!),
   compileImplDecl_refers 0 circleExpr shapeExpr [] shapesStore
      circleStore (circleMethods []).state (shapeStore [])
      circleModule 4 0 (some (.TStruct [] [("r", 5)] [])) (circleValues [])
      (circleDecls []) [("area", 2)] []
      circle_target circle_module circle_kind (legalTarget_struct _ _ _)
      (circle_methods _ (by decide!)) (shape_resolves _ (by decide!)) (by decide!)⟩

/-- C2 as stated fails at `impl Shape for Circle {}` with
`interface Shape { area: fn() -> Number }`: the conformance check fails (`area` is
missing), yet `Shape.Refers`, empty before the block, holds `Circle` afterwards. -/
theorem compileImplDecl_refers_on_failure :
    (compileImplDecl 0 circleExpr (some shapeExpr) [] true shapesStore).fault
      = some (.compileError 90 "No implement method: area") ∧
    shapesStore.kinds[0]? = some (some (.TInterface [("area", 2)] [])) ∧
    (compileImplDecl 0 circleExpr (some shapeExpr) [] true shapesStore).state.kinds[0]?
      = some (some (.TInterface [("area", 2)] [4])) := by
  decide!

/-- C3 at `enum Color { Red, Green, Blue }`, bound with ordinals 0, 1, 2, and at
`enum Color { Red, Green, Red }`, rejected at the second `Red`. -/
theorem compileTEnumDecl_choices_witness :
    (∃ s1 md1, compileTEnumDecl 0 colorDecl exampleStore = .ok () s1 ∧
      s1.kinds = exampleStore.kinds ++ [some (.TEnum (ordinals (choiceNames colorDecl)))] ∧
      s1.modules[0]? = some md1 ∧
      lookupKind md1.scopes colorDecl.Name.Name = some exampleStore.kinds.length ∧
      mapKeys (ordinals (choiceNames colorDecl)) = choiceNames colorDecl ∧
      (∀ (i : Nat) name, (choiceNames colorDecl)[i]? = some name →
        mapGet (ordinals (choiceNames colorDecl)) name = some i)) ∧
    ordinals (choiceNames colorDecl) = [("Red", 0), ("Green", 1), ("Blue", 2)] ∧
    compileTEnumDecl 0 colorTwice exampleStore
      = .fail (.compileError 24 "Duplicate item: Red") exampleStore :=
  ⟨(compileTEnumDecl_choices 0 colorDecl exampleStore).1 (by decide) exampleModule Scope.empty []
      rfl rfl (by decide),
   by decide,
   (compileTEnumDecl_choices 0 colorTwice exampleStore).2 [⟨"Red", 12⟩, ⟨"Green", 17⟩] ⟨"Red", 24⟩ []
      rfl (by decide) (by decide)⟩

/-- C4 at `struct { a: Number, b: String }`, resolved to a struct kind with the two
properties, and at `struct { a: Number, a: String }`, rejected at the second `a`. -/
theorem compileStructKind_properties_witness :
    (compileStructKind 0 (.mk [] propsAB) exampleStore).state.kinds[0]?
      = some (some (.TStruct [] [("a", 1), ("b", 2)] [])) ∧
    compileStructKind 0 (.mk [] propsAA) exampleStore
      = .fail (.compileError 14 "Duplicate key: a")
          (resolveAll 0 [some numberExpr] (allocated exampleStore)).state ∧
    ¬ (∃ r s1, compileStructKind 0 (.mk [] propsAA) exampleStore = .ok r s1) :=
  ⟨by decide,
   (compileStructKind_properties 0 [] propsAA exampleStore).1
      [.mk ⟨"a", 3⟩ (some numberExpr) 3] (.mk ⟨"a", 14⟩ (some stringExpr) 14) [] [1] _ rfl
      (by decide) (by decide) (Res.eq_ok_of_val (by decide)),
   fun ⟨r, s1, h⟩ => absurd
      ((compileStructKind_properties 0 [] propsAA exampleStore).2.2 r s1 h) (by decide)⟩

/-- C8 at `fn(x: Number, ...y: String)`, resolved to a variadic function kind with two
arguments, and at `fn(...x: Number, y: String)`, rejected at the first parameter. -/
theorem compileFuncKind_rest_witness :
    (compileFuncKind 0 (.mk restLast none) exampleStore).state.kinds[0]?
      = some (some (.TFunc [1, 2] 3 true [])) ∧
    compileFuncKind 0 (.mk restFirst none) exampleStore
      = .fail (.compileError 4 "The rest arguments should be placed last")
          (allocated exampleStore) ∧
    ¬ (∃ r s1, compileFuncKind 0 (.mk restFirst none) exampleStore = .ok r s1) :=
  ⟨by decide,
   (compileFuncKind_rest 0 restFirst none exampleStore).1 [] (.mk (some numberExpr) true 4)
      [.mk (some stringExpr) false 15] [] _ rfl (List.cons_ne_nil _ _) rfl (by decide) rfl,
   fun ⟨r, s1, h⟩ => absurd
      ((compileFuncKind_rest 0 restFirst none exampleStore).2.2 r s1 h [] _ _ rfl (List.cons_ne_nil _ _))
      (by decide)⟩

/-! ## Module-level frames -/

theorem scopesOnly_isFrame (p : Nat) : IsFrame (ScopesOnly p) where
  refl := fun s => ⟨rfl, rfl, rfl, rfl, fun _ _ => rfl, fun md h => ⟨md, h, rfl, rfl, rfl, rfl, rfl⟩⟩
  trans := by
    intro a b c ⟨h1, h2, h3, h4, h5, h6⟩ ⟨g1, g2, g3, g4, g5, g6⟩
    refine ⟨g1.trans h1, g2.trans h2, g3.trans h3, g4.trans h4, ?_, ?_⟩
    · intro q hq
      rw [g5 q hq, h5 q hq]
    · intro md hmd
      obtain ⟨md1, hb, e1, e2, e3, e4, e5⟩ := h6 md hmd
      obtain ⟨md2, hc, f1, f2, f3, f4, f5⟩ := g6 md1 hb
      exact ⟨md2, hc, f1.trans e1, f2.trans e2, f3.trans e3, f4.trans e4, f5.trans e5⟩

theorem scopesOnly_of_kindsFrame (p : Nat) {s t : Compiler} (h : KindsFrame s t) :
    ScopesOnly p s t := by
  obtain ⟨h1, h2, h3, h4, _⟩ := h
  refine ⟨h2, h3, h4, by rw [h1], fun q _ => by rw [h1], ?_⟩
  intro md hmd
  exact ⟨md, by rw [h1]; exact hmd, rfl, rfl, rfl, rfl, rfl⟩

/-- Replacing the record of module `p` by one with the same tree, package, identifier
and marks. -/
theorem scopesOnly_set (p : Nat) (s : Compiler) (md md1 : Module) (h : s.modules[p]? = some md)
    (e1 : md1.Ast = md.Ast) (e2 : md1.packageName = md.packageName)
    (e3 : md1.moduleId = md.moduleId) (e4 : md1.compiled = md.compiled)
    (e5 : md1.runs = md.runs) :
    ScopesOnly p s { s with modules := s.modules.set p md1 } := by
  have hlt := lt_of_getElem?_some h
  refine ⟨rfl, rfl, rfl, by simp, ?_, ?_⟩
  · intro q hq
    simp [List.getElem?_set_ne (Ne.symm hq)]
  · intro md0 hmd0
    rw [h] at hmd0
    simp only [Option.some.injEq] at hmd0
    subst hmd0
    exact ⟨md1, set_getElem?_self _ _ _ hlt, e1, e2, e3, e4, e5⟩

theorem compileKindExpr_scopesOnly (p m : Nat) (e : Option ast.KindExpr) :
    Preserves (ScopesOnly p) (compileKindExpr m e) :=
  preserves_mono (fun _ _ h => scopesOnly_of_kindsFrame p h) (compileKindExpr_frame m e)

theorem newKindRef_scopesOnly (p : Nat) : Preserves (ScopesOnly p) newKindRef :=
  preserves_mono (fun _ _ h => scopesOnly_of_kindsFrame p h) newKindRef_frame

theorem setRef_scopesOnly (p : Nat) (r : KindRef) (k : Kind) :
    Preserves (ScopesOnly p) (setRef r k) :=
  preserves_mono (fun _ _ h => scopesOnly_of_kindsFrame p h) (setRef_frame r k)

theorem scopesPush_scopesOnly (p : Nat) : Preserves (ScopesOnly p) (scopesPush p) := by
  constructor
  intro s
  simp only [scopesPush, bind_apply, getModule_apply]
  cases hm : s.modules[p]? with
  | none => exact (scopesOnly_isFrame p).refl s
  | some md => exact scopesOnly_set p s md _ hm rfl rfl rfl rfl rfl

theorem scopesPop_scopesOnly (p : Nat) : Preserves (ScopesOnly p) (scopesPop p) := by
  constructor
  intro s
  simp only [scopesPop, bind_apply, getModule_apply]
  cases hm : s.modules[p]? with
  | none => exact (scopesOnly_isFrame p).refl s
  | some md =>
    simp only
    cases hs : md.scopes with
    | nil => exact (scopesOnly_isFrame p).refl s
    | cons fr rest => exact scopesOnly_set p s md _ hm rfl rfl rfl rfl rfl

theorem putValue_scopesOnly (p : Nat) (name : ast.Identifier) (v : Value) (required : Bool) :
    Preserves (ScopesOnly p) (putValue p name v required) := by
  constructor
  intro s
  simp only [putValue, bind_apply, getModule_apply]
  cases hm : s.modules[p]? with
  | none => exact (scopesOnly_isFrame p).refl s
  | some md =>
    simp only
    cases hs : md.scopes with
    | nil => exact (scopesOnly_isFrame p).refl s
    | cons fr rest =>
      simp only
      by_cases hh : mapHas fr.values name.Name = true
      · simp only [hh, if_true]
        cases required <;> exact (scopesOnly_isFrame p).refl s
      · simp only [hh, if_false]
        exact scopesOnly_set p s md _ hm rfl rfl rfl rfl rfl

theorem putKind_scopesOnly (p : Nat) (name : ast.Identifier) (k : KindRef) (required : Bool) :
    Preserves (ScopesOnly p) (putKind p name k required) := by
  constructor
  intro s
  simp only [putKind, bind_apply, getModule_apply]
  cases hm : s.modules[p]? with
  | none => exact (scopesOnly_isFrame p).refl s
  | some md =>
    simp only
    cases hs : md.scopes with
    | nil => exact (scopesOnly_isFrame p).refl s
    | cons fr rest =>
      simp only
      by_cases hh : mapHas fr.kinds name.Name = true
      · simp only [hh, if_true]
        cases required <;> exact (scopesOnly_isFrame p).refl s
      · simp only [hh, if_false]
        exact scopesOnly_set p s md _ hm rfl rfl rfl rfl rfl

theorem putSelfKind_scopesOnly (p : Nat) (k : KindRef) :
    Preserves (ScopesOnly p) (putSelfKind p k) := by
  constructor
  intro s
  simp only [putSelfKind, bind_apply, getModule_apply]
  cases hm : s.modules[p]? with
  | none => exact (scopesOnly_isFrame p).refl s
  | some md =>
    simp only
    cases hs : md.scopes with
    | nil => exact (scopesOnly_isFrame p).refl s
    | cons fr rest => exact scopesOnly_set p s md _ hm rfl rfl rfl rfl rfl

theorem exportsSetValue_scopesOnly (p : Nat) (name : String) (v : Value) :
    Preserves (ScopesOnly p) (exportsSetValue p name v) := by
  constructor
  intro s
  simp only [exportsSetValue, bind_apply, getModule_apply]
  cases hm : s.modules[p]? with
  | none => exact (scopesOnly_isFrame p).refl s
  | some md => exact scopesOnly_set p s md _ hm rfl rfl rfl rfl rfl

theorem exportsSetKind_scopesOnly (p : Nat) (name : String) (k : KindRef) :
    Preserves (ScopesOnly p) (exportsSetKind p name k) := by
  constructor
  intro s
  simp only [exportsSetKind, bind_apply, getModule_apply]
  cases hm : s.modules[p]? with
  | none => exact (scopesOnly_isFrame p).refl s
  | some md => exact scopesOnly_set p s md _ hm rfl rfl rfl rfl rfl

theorem compileFuncDecl_scopesOnly (p : Nat) (d : ast.FuncDecl) (t : Option KindRef) (b : Bool) :
    Preserves (ScopesOnly p) (compileFuncDecl p d t b) := by
  have hR := scopesOnly_isFrame p
  unfold compileFuncDecl
  repeat' first
    | exact preserves_pure hR _
    | exact preserves_abort hR _
    | exact preserves_unexpectedPos hR _ _
    | exact preserves_getImplOf hR _
    | exact preserves_findValue hR _ _
    | exact compileKindExpr_scopesOnly p _ _
    | exact setRef_scopesOnly p _ _
    | exact putValue_scopesOnly p _ _ _
    | exact exportsSetValue_scopesOnly p _ _
    | apply preserves_bind hR
    | intro _
    | split

theorem compileImplBody_scopesOnly (p : Nat) (t : KindRef) (b : Bool) (l : List ast.Stmt)
    (vals : List (String × FuncValue)) (decls : List (String × ast.Stmt)) :
    Preserves (ScopesOnly p) (compileImplBody p t b l vals decls) :=
  preserves_mono (fun _ _ h => scopesOnly_of_kindsFrame p h) (compileImplBody_frame p t b l vals decls)

theorem checkImplMethods_preserves {R : Compiler → Compiler → Prop} (hR : IsFrame R)
    (pos : Nat) (vals : List (String × FuncValue)) (decls : List (String × ast.Stmt)) :
    ∀ (props : List (String × KindRef)), Preserves R (checkImplMethods pos vals decls props)
  | [] => preserves_pure hR _
  | (key, kind) :: more => by
    have ih := checkImplMethods_preserves hR pos vals decls more
    simp only [checkImplMethods]
    repeat' first
      | exact preserves_pure hR _
      | exact preserves_abort hR _
      | exact preserves_unexpectedPos hR _ _
      | exact preserves_compareKind hR _ _ _
      | exact ih
      | apply preserves_bind hR
      | intro _
      | split

theorem compileImplDecl_scopesOnly (p : Nat) (target : ast.KindExpr)
    (iface : Option ast.KindExpr) (body : List ast.Stmt) (b : Bool) :
    Preserves (ScopesOnly p) (compileImplDecl p target iface body b) := by
  have hR := scopesOnly_isFrame p
  unfold compileImplDecl
  repeat' first
    | exact preserves_pure hR _
    | exact preserves_abort hR _
    | exact preserves_unexpectedPos hR _ _
    | exact preserves_getRef hR _
    | exact compileKindExpr_scopesOnly p _ _
    | exact compileImplBody_scopesOnly p _ _ _ _ _
    | exact checkImplMethods_preserves hR _ _ _ _
    | exact setRef_scopesOnly p _ _
    | exact scopesPush_scopesOnly p
    | exact scopesPop_scopesOnly p
    | exact putSelfKind_scopesOnly p _
    | apply preserves_bind hR
    | intro _
    | split

theorem compileVarDecl_scopesOnly (p : Nat) (d : ast.VarDecl) (b : Bool) :
    Preserves (ScopesOnly p) (compileVarDecl p d b) := by
  have hR := scopesOnly_isFrame p
  unfold compileVarDecl
  repeat' first
    | exact preserves_pure hR _
    | exact compileKindExpr_scopesOnly p _ _
    | exact putValue_scopesOnly p _ _ _
    | exact exportsSetValue_scopesOnly p _ _
    | apply preserves_bind hR
    | intro _
    | split

theorem compileTAliasDecl_scopesOnly (p : Nat) (d : ast.TAliasDecl) :
    Preserves (ScopesOnly p) (compileTAliasDecl p d) := by
  have hR := scopesOnly_isFrame p
  unfold compileTAliasDecl
  repeat' first
    | exact preserves_pure hR _
    | exact compileKindExpr_scopesOnly p _ _
    | exact newKindRef_scopesOnly p
    | exact setRef_scopesOnly p _ _
    | exact putKind_scopesOnly p _ _ _
    | exact exportsSetKind_scopesOnly p _ _
    | apply preserves_bind hR
    | intro _
    | split

theorem compileInterfaceProps_scopesOnly (p : Nat) (kind : KindRef) :
    ∀ (l : List ast.KindProperty), Preserves (ScopesOnly p) (compileInterfaceProps p kind l)
  | [] => preserves_pure (scopesOnly_isFrame p) _
  | pair :: more => by
    have hR := scopesOnly_isFrame p
    have ih := compileInterfaceProps_scopesOnly p kind more
    simp only [compileInterfaceProps]
    repeat' first
      | exact preserves_pure hR _
      | exact preserves_abort hR _
      | exact preserves_unexpectedPos hR _ _
      | exact preserves_getRef hR _
      | exact compileKindExpr_scopesOnly p _ _
      | exact setRef_scopesOnly p _ _
      | exact ih
      | apply preserves_bind hR
      | intro _
      | split

theorem compileTInterfaceDecl_scopesOnly (p : Nat) (d : ast.TInterfaceDecl) :
    Preserves (ScopesOnly p) (compileTInterfaceDecl p d) := by
  have hR := scopesOnly_isFrame p
  unfold compileTInterfaceDecl
  repeat' first
    | exact preserves_pure hR _
    | exact newKindRef_scopesOnly p
    | exact setRef_scopesOnly p _ _
    | exact scopesPush_scopesOnly p
    | exact scopesPop_scopesOnly p
    | exact putSelfKind_scopesOnly p _
    | exact compileInterfaceProps_scopesOnly p _ _
    | exact putKind_scopesOnly p _ _ _
    | exact exportsSetKind_scopesOnly p _ _
    | apply preserves_bind hR
    | intro _
    | split

theorem compileTStructDecl_scopesOnly (p : Nat) (d : ast.TStructDecl) :
    Preserves (ScopesOnly p) (compileTStructDecl p d) := by
  have hR := scopesOnly_isFrame p
  unfold compileTStructDecl
  repeat' first
    | exact preserves_pure hR _
    | exact preserves_abort hR _
    | exact preserves_mono (fun _ _ h => scopesOnly_of_kindsFrame p h) (compileStructKind_frame p _)
    | exact putKind_scopesOnly p _ _ _
    | exact exportsSetKind_scopesOnly p _ _
    | apply preserves_bind hR
    | intro _
    | split

theorem compileEnumChoices_preserves {R : Compiler → Compiler → Prop} (hR : IsFrame R) :
    ∀ (l : List ast.Identifier) (i : Nat) (choices : List (String × Nat)),
    Preserves R (compileEnumChoices l i choices)
  | [], _, _ => preserves_pure hR _
  | item :: more, i, choices => by
    have ih := fun c => compileEnumChoices_preserves hR more (i + 1) c
    simp only [compileEnumChoices]
    repeat' first
      | exact preserves_pure hR _
      | exact preserves_unexpectedPos hR _ _
      | exact ih _
      | apply preserves_bind hR
      | intro _
      | split

theorem compileTEnumDecl_scopesOnly (p : Nat) (d : ast.TEnumDecl) :
    Preserves (ScopesOnly p) (compileTEnumDecl p d) := by
  have hR := scopesOnly_isFrame p
  unfold compileTEnumDecl
  repeat' first
    | exact preserves_pure hR _
    | exact compileEnumChoices_preserves hR _ _ _
    | exact newKindRef_scopesOnly p
    | exact setRef_scopesOnly p _ _
    | exact putKind_scopesOnly p _ _ _
    | exact exportsSetKind_scopesOnly p _ _
    | apply preserves_bind hR
    | intro _
    | split

theorem compileFileBody_preserves {R : Compiler → Compiler → Prop} (hR : IsFrame R) (m : Nat) :
    ∀ (l : List ast.Stmt), Preserves R (compileFileBody m l)
  | [] => preserves_pure hR _
  | stmt :: more => by
    have ih := compileFileBody_preserves hR m more
    simp only [compileFileBody, compileStmt]
    exact preserves_bind hR (preserves_pure hR _) (fun _ => ih)

theorem compileFile_preserves {R : Compiler → Compiler → Prop} (hR : IsFrame R) (m : Nat) :
    Preserves R (compileFile m) := by
  unfold compileFile
  exact preserves_bind hR (preserves_getModule hR _) (fun _ => compileFileBody_preserves hR m _)

/-! ## Imports -/

/-- The cases of `compileImportDecl`: the importing module must exist and the local
name be determined; on a cache hit the cached module is bound and compiled; on a
miss the file is read, the module constructed and registered, then bound and compiled. -/
theorem compileImportDecl_cases (compile : Nat → M Unit) (m : Nat) (node : ast.ImportDecl)
    (s : Compiler) :
    compileImportDecl compile m node s =
      match s.modules[m]? with
      | none => .fail .nilDereference s
      | some md =>
        match importLocal node with
        | none => .fail .indexOutOfRange s
        | some loc =>
          match mapGet s.Modules (importModuleId md.packageName node) with
          | some p =>
            (putValue m loc (.Module ⟨loc.Name, p⟩) true >>= fun _ => compile p) s
          | none =>
            match mapGet s.VirtualFS.files (importPath s.VirtualFS.Root md.packageName node) with
            | none =>
              .fail (.readError (importPath s.VirtualFS.Root md.packageName node))
                { s with reads := s.reads ++ [importPath s.VirtualFS.Root md.packageName node] }
            | some code =>
              (putValue m loc (.Module ⟨loc.Name, s.modules.length⟩) true >>= fun _ =>
                compile s.modules.length)
                (registered s (importPath s.VirtualFS.Root md.packageName node) code
                  (importPackage md.packageName node) (importModuleId md.packageName node)) := by
  simp only [compileImportDecl, bind_apply, getModule_apply]
  cases hm : s.modules[m]? with
  | none => rfl
  | some md =>
    simp only [importLocal]
    cases hl : node.Local with
    | some l =>
      simp only [pure_apply, modulesGet]
      cases hc : mapGet s.Modules (importModuleId md.packageName node) with
      | some p =>
        simp only [importModuleId, importPackage] at hc
        simp only [hc, pure_apply]
      | none =>
        simp only [importModuleId, importPackage] at hc
        simp only [hc, bind_apply, readFile, importPath, importPackage]
        generalize mapGet s.VirtualFS.files _ = file
        cases file with
        | none => rfl
        | some code =>
          simp only [NewModule, modulesAdd, bind_apply, getModule_apply, List.getElem?_concat_length,
            pure_apply]
          rfl
    | none =>
      cases hp : node.Paths.getLast? with
      | none => simp only [abort_apply]
      | some l =>
        simp only [pure_apply, modulesGet]
        cases hc : mapGet s.Modules (importModuleId md.packageName node) with
        | some p =>
          simp only [importModuleId, importPackage] at hc
          simp only [hc, pure_apply]
        | none =>
          simp only [importModuleId, importPackage] at hc
          simp only [hc, bind_apply, readFile, importPath, importPackage]
          generalize mapGet s.VirtualFS.files _ = file
          cases file with
          | none => rfl
          | some code =>
            simp only [NewModule, modulesAdd, bind_apply, getModule_apply,
              List.getElem?_concat_length, pure_apply]
            rfl

/-! ## The module graph -/

theorem compileImportDecl_preserves {R : Compiler → Compiler → Prop} {m : Nat}
    (hR : ImportFrame R m) (compile : Nat → M Unit) (hrec : ∀ p, Preserves R (compile p))
    (node : ast.ImportDecl) : Preserves R (compileImportDecl compile m node) := by
  constructor
  intro s
  rw [compileImportDecl_cases]
  have hput : ∀ loc p, Preserves R
      (putValue m loc (.Module ⟨loc.Name, p⟩) true >>= fun _ => compile p) := by
    intro loc p
    exact preserves_bind hR.frame
      (preserves_mono hR.scopes (putValue_scopesOnly m _ _ _)) (fun _ => hrec p)
  cases hm : s.modules[m]? with
  | none => exact hR.frame.refl s
  | some md =>
    simp only
    cases hl : importLocal node with
    | none => exact hR.frame.refl s
    | some loc =>
      simp only
      cases hc : mapGet s.Modules (importModuleId md.packageName node) with
      | some p => exact (hput loc p).run s
      | none =>
        simp only
        cases hf : mapGet s.VirtualFS.files
            (importPath s.VirtualFS.Root md.packageName node) with
        | none => exact hR.reads s _
        | some code =>
          exact hR.frame.trans (hR.registered s _ code _ _ hc) ((hput loc _).run _)

theorem preCompileBody_preserves {R : Compiler → Compiler → Prop} {m : Nat}
    (hR : ImportFrame R m) (compile : Nat → M Unit) (hrec : ∀ p, Preserves R (compile p)) :
    ∀ (l : List ast.Stmt), Preserves R (preCompileBody compile m l)
  | [] => preserves_pure hR.frame _
  | stmt :: more => by
    have ih := preCompileBody_preserves hR compile hrec more
    simp only [preCompileBody]
    repeat' first
      | exact preserves_pure hR.frame _
      | exact ih
      | exact compileImportDecl_preserves hR compile hrec _
      | exact preserves_mono hR.scopes (compileFuncDecl_scopesOnly m _ _ _)
      | exact preserves_mono hR.scopes (compileImplDecl_scopesOnly m _ _ _ _)
      | exact preserves_mono hR.scopes (compileVarDecl_scopesOnly m _ _)
      | exact preserves_mono hR.scopes (compileTAliasDecl_scopesOnly m _)
      | exact preserves_mono hR.scopes (compileTInterfaceDecl_scopesOnly m _)
      | exact preserves_mono hR.scopes (compileTStructDecl_scopesOnly m _)
      | exact preserves_mono hR.scopes (compileTEnumDecl_scopesOnly m _)
      | apply preserves_bind hR.frame
      | intro _
      | split

theorem preCompile_preserves {R : Compiler → Compiler → Prop} {m : Nat}
    (hR : ImportFrame R m) (compile : Nat → M Unit) (hrec : ∀ p, Preserves R (compile p)) :
    Preserves R (preCompile compile m) := by
  unfold preCompile
  exact preserves_bind hR.frame (preserves_mono hR.scopes (scopesPush_scopesOnly m))
    (fun _ => preserves_bind hR.frame (preserves_getModule hR.frame _)
      (fun _ => preCompileBody_preserves hR compile hrec _))

/-- One unfolding of `Module.compile`. -/
theorem compile_succ (fuel m : Nat) (s : Compiler) :
    Module.compile (fuel + 1) m s =
      match s.modules[m]? with
      | none => .fail .nilDereference s
      | some md =>
        if md.compiled = true then .ok () s
        else (preCompile (Module.compile fuel) m >>= fun _ => compileFile m)
          { s with modules := s.modules.set m { md with compiled := true, runs := md.runs + 1 } } := by
  simp only [Module.compile, bind_apply, getModule_apply]
  cases hm : s.modules[m]? with
  | none => rfl
  | some md =>
    simp only
    by_cases hc : md.compiled = true
    · simp [hc]
    · simp only [hc, if_false, bind_apply, setModule]
      rfl

theorem compile_step_preserves {R : Compiler → Compiler → Prop} {m : Nat}
    (hR : ImportFrame R m) (fuel : Nat) (hrec : ∀ p, Preserves R (Module.compile fuel p)) :
    Preserves R (Module.compile (fuel + 1) m) := by
  constructor
  intro s
  rw [compile_succ]
  cases hm : s.modules[m]? with
  | none => exact hR.frame.refl s
  | some md =>
    simp only
    by_cases hc : md.compiled = true
    · simp only [hc, if_true]
      exact hR.frame.refl s
    · simp only [hc, if_false]
      have hrest : Preserves R (preCompile (Module.compile fuel) m >>= fun _ => compileFile m) :=
        preserves_bind hR.frame (preCompile_preserves hR (Module.compile fuel) hrec)
          (fun _ => compileFile_preserves hR.frame m)
      exact hR.frame.trans (hR.started s md hm (by simpa using hc)) (hrest.run _)

theorem later_isFrame : IsFrame Later where
  refl := fun s => ⟨rfl, fun _ _ h => h, fun p md h hc => ⟨md, h, hc⟩, fun h => h⟩
  trans := by
    intro a b c ⟨h1, h2, h3, h4⟩ ⟨g1, g2, g3, g4⟩
    refine ⟨g1.trans h1, fun id p h => g2 id p (h2 id p h), ?_, fun h => g4 (h4 h)⟩
    intro p md hmd hc
    obtain ⟨md1, hb, hc1⟩ := h3 p md hmd hc
    exact g3 p md1 hb hc1

theorem frozen_isFrame (q : Nat) : IsFrame (Frozen q) where
  refl := fun _ _ => rfl
  trans := by
    intro a b c h g hpre
    have hb := h hpre
    rw [← hb]
    exact g (by rw [hb]; exact hpre)

theorem getElem?_append_singleton_some {α : Type} (l : List α) (x : α) (p : Nat) (y : α)
    (h : (l ++ [x])[p]? = some y) : l[p]? = some y ∨ (p = l.length ∧ y = x) := by
  by_cases hp : p < l.length
  · left
    rw [List.getElem?_append_left hp] at h
    exact h
  · right
    have hlt := lt_of_getElem?_some h
    simp only [List.length_append, List.length_singleton] at hlt
    have hpe : p = l.length := by omega
    subst hpe
    simp only [List.getElem?_concat_length, Option.some.injEq] at h
    exact ⟨rfl, h.symm⟩

theorem later_of_scopesOnly (m : Nat) (s t : Compiler) (h : ScopesOnly m s t) : Later s t := by
  obtain ⟨h1, h2, _, h4, h5, h6⟩ := h
  have key : ∀ (p : Nat) (md1 : Module), t.modules[p]? = some md1 →
      ∃ md, s.modules[p]? = some md ∧ md1.compiled = md.compiled ∧ md1.runs = md.runs := by
    intro p md1 hp
    by_cases hpm : p = m
    · subst hpm
      have hlt : p < s.modules.length := by
        rw [← h4]
        exact lt_of_getElem?_some hp
      have hs : s.modules[p]? = some s.modules[p] := List.getElem?_eq_getElem hlt
      obtain ⟨md2, ht, _, _, _, e4, e5⟩ := h6 _ hs
      rw [hp] at ht
      simp only [Option.some.injEq] at ht
      subst ht
      exact ⟨_, hs, e4, e5⟩
    · rw [h5 p hpm] at hp
      exact ⟨md1, hp, rfl, rfl⟩
  refine ⟨h2, fun id _ h => by rw [h1]; exact h, ?_, ?_⟩
  · intro p md hmd hc
    by_cases hpm : p = m
    · subst hpm
      obtain ⟨md1, ht, _, _, _, e4, _⟩ := h6 md hmd
      exact ⟨md1, ht, by rw [e4]; exact hc⟩
    · exact ⟨md, by rw [h5 p hpm]; exact hmd, hc⟩
  · intro hcount p md1 hp
    obtain ⟨md, hs, e4, e5⟩ := key p md1 hp
    rw [e4, e5]
    exact hcount p md hs

theorem later_reads (s : Compiler) (path : String) :
    Later s { s with reads := s.reads ++ [path] } :=
  ⟨rfl, fun _ _ h => h, fun _ md h hc => ⟨md, h, hc⟩, fun h => h⟩

theorem later_registered (s : Compiler) (path : String) (code : ast.File) (pkg id : String)
    (hmiss : mapGet s.Modules id = none) : Later s (registered s path code pkg id) := by
  refine ⟨rfl, ?_, ?_, ?_⟩
  · intro id1 p h
    simp only [registered, mapGet_mapSet]
    by_cases hid : id = id1
    · subst hid
      rw [hmiss] at h
      simp at h
    · simp only [hid, if_false]
      exact h
  · intro p md hmd hc
    refine ⟨md, ?_, hc⟩
    simp only [registered]
    rw [List.getElem?_append_left (lt_of_getElem?_some hmd)]
    exact hmd
  · intro hcount p md hp
    simp only [registered] at hp
    rcases getElem?_append_singleton_some _ _ _ _ hp with h | ⟨_, h⟩
    · exact hcount p md h
    · subst h
      rfl

theorem later_started (m : Nat) (s : Compiler) (md : Module) (hm : s.modules[m]? = some md)
    (hc : md.compiled = false) :
    Later s { s with modules :=
      (s.modules.set m { md with compiled := true, runs := md.runs + 1 }) } := by
  have hlt := lt_of_getElem?_some hm
  refine ⟨rfl, fun _ _ h => h, ?_, ?_⟩
  · intro p md0 hp hc0
    by_cases hpm : m = p
    · subst hpm
      exact ⟨_, set_getElem?_self _ _ _ hlt, rfl⟩
    · refine ⟨md0, ?_, hc0⟩
      simp only [List.getElem?_set_ne hpm]
      exact hp
  · intro hcount p md1 hp
    by_cases hpm : m = p
    · subst hpm
      simp only [set_getElem?_self _ _ _ hlt, Option.some.injEq] at hp
      subst hp
      have := hcount m md hm
      simp only [hc, Bool.false_eq_true, if_false] at this
      simp [this]
    · simp only [List.getElem?_set_ne hpm] at hp
      exact hcount p md1 hp

theorem later_importFrame (m : Nat) : ImportFrame Later m where
  frame := later_isFrame
  scopes := later_of_scopesOnly m
  reads := later_reads
  registered := later_registered
  started := later_started m

theorem frozen_importFrame (q m : Nat) (h : m ≠ q) : ImportFrame (Frozen q) m where
  frame := frozen_isFrame q
  scopes := fun s t hs _ => hs.2.2.2.2.1 q (Ne.symm h)
  reads := fun _ _ _ => rfl
  registered := by
    intro s path code pkg id _ hpre
    obtain ⟨md, hmd, _⟩ := hpre
    simp only [registered]
    rw [List.getElem?_append_left (lt_of_getElem?_some hmd)]
  started := by
    intro s md _ _ _
    simp only [List.getElem?_set_ne h]

/-- Compiling a module leads to a later store. -/
theorem compile_later : ∀ (fuel p : Nat), Preserves Later (Module.compile fuel p)
  | 0, _ => preserves_abort later_isFrame _
  | fuel + 1, p => compile_step_preserves (later_importFrame p) fuel (compile_later fuel)

/-- Compiling a module leaves alone every module whose compilation has started. -/
theorem compile_frozen (q : Nat) : ∀ (fuel p : Nat), Preserves (Frozen q) (Module.compile fuel p)
  | 0, _ => preserves_abort (frozen_isFrame q) _
  | fuel + 1, p => by
    by_cases hpq : p = q
    · subst hpq
      constructor
      intro s hpre
      obtain ⟨md, hmd, hc⟩ := hpre
      rw [compile_succ]
      simp [hmd, hc, Res.state]
    · exact compile_step_preserves (frozen_importFrame q p hpq) fuel (compile_frozen q fuel)

/-- Processing an import declaration leads to a later store. -/
theorem compileImportDecl_later (fuel m : Nat) (node : ast.ImportDecl) :
    Preserves Later (compileImportDecl (Module.compile fuel) m node) :=
  compileImportDecl_preserves (later_importFrame m) _ (compile_later fuel) node

/-! ## Two imports of one module -/

theorem bind_ok_inv {α β : Type} {x : M α} {f : α → M β} {s t : Compiler} {b : β}
    (h : (x >>= f) s = .ok b t) : ∃ a s1, x s = .ok a s1 ∧ f a s1 = .ok b t := by
  simp only [bind_apply] at h
  cases hx : x s with
  | ok a s1 =>
    rw [hx] at h
    exact ⟨a, s1, rfl, h⟩
  | fail e s1 => rw [hx] at h; simp at h

/-- A successful `putValue` binds the name in the innermost frame of the module. -/
theorem putValue_ok (m : Nat) (loc : ast.Identifier) (v : Value) (s t : Compiler)
    (h : putValue m loc v true s = .ok () t) :
    ∃ md1, t.modules[m]? = some md1 ∧ lookupValue md1.scopes loc.Name = some v := by
  simp only [putValue, bind_apply, getModule_apply] at h
  cases hm : s.modules[m]? with
  | none => rw [hm] at h; simp at h
  | some md =>
    rw [hm] at h
    simp only at h
    have hlt := lt_of_getElem?_some hm
    cases hs : md.scopes with
    | nil => rw [hs] at h; simp at h
    | cons fr rest =>
      rw [hs] at h
      simp only at h
      by_cases hh : mapHas fr.values loc.Name = true
      · simp [hh] at h
      · have hf : mapHas fr.values loc.Name = false := by simpa using hh
        simp only [hf, Bool.false_eq_true, if_false, setModule, Res.ok.injEq, true_and] at h
        subst h
        exact ⟨_, set_getElem?_self _ _ _ hlt, by simp [lookupValue, mapGet_mapSet_self]⟩

/-- A completed `Module.compile` leaves the module marked as compiled. -/
theorem compile_ok_compiled (fuel p : Nat) (s t : Compiler)
    (h : Module.compile fuel p s = .ok () t) :
    ∃ mp, t.modules[p]? = some mp ∧ mp.compiled = true := by
  cases fuel with
  | zero => simp [Module.compile] at h
  | succ fuel =>
    rw [compile_succ] at h
    cases hm : s.modules[p]? with
    | none => rw [hm] at h; simp at h
    | some md =>
      rw [hm] at h
      simp only at h
      by_cases hc : md.compiled = true
      · simp only [hc, if_true, Res.ok.injEq, true_and] at h
        subst h
        exact ⟨md, hm, hc⟩
      · have hcf : md.compiled = false := by simpa using hc
        simp only [hcf, Bool.false_eq_true, if_false] at h
        have hrest : Preserves Later
            (preCompile (Module.compile fuel) p >>= fun _ => compileFile p) :=
          preserves_bind later_isFrame
            (preCompile_preserves (later_importFrame p) _ (compile_later fuel))
            (fun _ => compileFile_preserves later_isFrame p)
        have hl := hrest.run
          { s with modules := s.modules.set p { md with compiled := true, runs := md.runs + 1 } }
        rw [h] at hl
        exact hl.2.2.1 p _ (set_getElem?_self _ _ _ (lt_of_getElem?_some hm)) rfl

/-- `Module.compile` on a module whose compilation has started returns at once. -/
theorem compile_started (fuel p : Nat) (s : Compiler) (mp : Module)
    (hm : s.modules[p]? = some mp) (hc : mp.compiled = true) :
    Module.compile (fuel + 1) p s = .ok () s := by
  rw [compile_succ]
  simp [hm, hc]

/-- What a completed import leaves behind. -/
theorem compileImportDecl_ok (fuel m : Nat) (node : ast.ImportDecl) (s s1 : Compiler)
    (md : Module) (hm : s.modules[m]? = some md) (hc : md.compiled = true)
    (h : compileImportDecl (Module.compile fuel) m node s = .ok () s1) :
    ∃ p loc md1, importLocal node = some loc ∧
      mapGet s1.Modules (importModuleId md.packageName node) = some p ∧
      s1.modules[m]? = some md1 ∧
      lookupValue md1.scopes loc.Name = some (.Module ⟨loc.Name, p⟩) ∧
      (∃ mp, s1.modules[p]? = some mp ∧ mp.compiled = true) ∧
      (∀ p0 mp0, mapGet s.Modules (importModuleId md.packageName node) = some p0 →
        s.modules[p0]? = some mp0 → mp0.compiled = true →
        p = p0 ∧ s1.reads = s.reads ∧ s1.modules.length = s.modules.length) := by
  have hlater := (compileImportDecl_later fuel m node).run s
  rw [h] at hlater
  rw [compileImportDecl_cases, hm] at h
  simp only at h
  cases hl : importLocal node with
  | none => rw [hl] at h; simp at h
  | some loc =>
    rw [hl] at h
    simp only at h
    -- the part common to a hit and a miss: bind in `sB`, then compile
    have common : ∀ (p : Nat) (sB : Compiler),
        (putValue m loc (.Module ⟨loc.Name, p⟩) true >>= fun _ => Module.compile fuel p) sB
          = .ok () s1 →
        mapGet sB.Modules (importModuleId md.packageName node) = some p →
        (∃ mdB, sB.modules[m]? = some mdB ∧ mdB.compiled = true) →
        ∃ sC md1, putValue m loc (.Module ⟨loc.Name, p⟩) true sB = .ok () sC ∧
          Module.compile fuel p sC = .ok () s1 ∧
          mapGet s1.Modules (importModuleId md.packageName node) = some p ∧
          s1.modules[m]? = some md1 ∧
          lookupValue md1.scopes loc.Name = some (.Module ⟨loc.Name, p⟩) ∧
          (∃ mp, s1.modules[p]? = some mp ∧ mp.compiled = true) := by
      intro p sB hrun hcache hmB
      obtain ⟨u, sC, hput, hcomp⟩ := bind_ok_inv hrun
      obtain ⟨mdC, hmC, hlook⟩ := putValue_ok m loc _ sB sC hput
      have hso := (putValue_scopesOnly m loc (.Module ⟨loc.Name, p⟩) true).run sB
      rw [hput] at hso
      simp only [Res.state] at hso
      have hcacheC : mapGet sC.Modules (importModuleId md.packageName node) = some p := by
        rw [hso.1]; exact hcache
      obtain ⟨mdB, hmdB, hcB⟩ := hmB
      obtain ⟨mdC2, hmC2, _, _, _, e4, _⟩ := hso.2.2.2.2.2 mdB hmdB
      rw [hmC] at hmC2
      simp only [Option.some.injEq] at hmC2
      subst hmC2
      have hfr := (compile_frozen m fuel p).run sC
      rw [hcomp] at hfr
      have hm1 : s1.modules[m]? = some mdC := by
        have := hfr ⟨mdC, hmC, by rw [e4]; exact hcB⟩
        simp only [Res.state] at this
        rw [this]
        exact hmC
      have hl1 := (compile_later fuel p).run sC
      rw [hcomp] at hl1
      exact ⟨sC, mdC, hput, hcomp, hl1.2.1 _ _ hcacheC, hm1, hlook,
        compile_ok_compiled fuel p sC s1 hcomp⟩
    cases hcache : mapGet s.Modules (importModuleId md.packageName node) with
    | some p =>
      rw [hcache] at h
      simp only at h
      obtain ⟨sC, md1, hput, hcomp, hc1, hm1, hlook, hcomp1⟩ :=
        common p s h hcache ⟨md, hm, hc⟩
      refine ⟨p, loc, md1, rfl, hc1, hm1, hlook, hcomp1, ?_⟩
      intro p0 mp0 hp0 hmp0 hcp0
      simp only [Option.some.injEq] at hp0
      subst hp0
      have hso := (putValue_scopesOnly m loc (.Module ⟨loc.Name, p⟩) true).run s
      rw [hput] at hso
      simp only [Res.state] at hso
      -- the cached module is still marked in `sC`, so compiling it changes nothing
      have hpC : ∃ mpC, sC.modules[p]? = some mpC ∧ mpC.compiled = true := by
        have := (later_of_scopesOnly m s sC hso).2.2.1 p mp0 hmp0 hcp0
        exact this
      obtain ⟨mpC, hmpC, hcpC⟩ := hpC
      cases fuel with
      | zero => simp [Module.compile] at hcomp
      | succ fuel =>
        rw [compile_started fuel p sC mpC hmpC hcpC] at hcomp
        simp only [Res.ok.injEq, true_and] at hcomp
        subst hcomp
        exact ⟨rfl, hso.2.2.1, hso.2.2.2.1⟩
    | none =>
      rw [hcache] at h
      simp only at h
      cases hf : mapGet s.VirtualFS.files (importPath s.VirtualFS.Root md.packageName node) with
      | none => rw [hf] at h; simp at h
      | some code =>
        rw [hf] at h
        simp only at h
        have hmB : ∃ mdB, (registered s (importPath s.VirtualFS.Root md.packageName node) code
            (importPackage md.packageName node) (importModuleId md.packageName node)).modules[m]?
              = some mdB ∧ mdB.compiled = true := by
          refine ⟨md, ?_, hc⟩
          simp only [registered]
          rw [List.getElem?_append_left (lt_of_getElem?_some hm)]
          exact hm
        obtain ⟨sC, md1, hput, hcomp, hc1, hm1, hlook, hcomp1⟩ :=
          common s.modules.length _ h (by simp [registered, mapGet_mapSet_self]) hmB
        refine ⟨s.modules.length, loc, md1, rfl, hc1, hm1, hlook, hcomp1, ?_⟩
        intro p0 mp0 hp0
        simp at hp0

/-- C9: two imports that compute the same module identifier, each processed by
`compileImportDecl` in a module under compilation, the second in any store reached
later than the first: both bind a `ModuleValue` referring to one and the same
module object, which is the one the cache holds under the identifier; the
second import reads no file and constructs no module; and that module object has
been run through `Module.compile` exactly once. -/
theorem import_same_module (fuel1 fuel2 m1 m2 : Nat) (node1 node2 : ast.ImportDecl)
    (s s1 s2 s3 : Compiler) (md1 md2 : Module)
    (hcount : CountsOk s)
    (hm1 : s.modules[m1]? = some md1) (hc1 : md1.compiled = true)
    (h1 : compileImportDecl (Module.compile fuel1) m1 node1 s = .ok () s1)
    (hlater : Later s1 s2)
    (hm2 : s2.modules[m2]? = some md2) (hc2 : md2.compiled = true)
    (hid : importModuleId md1.packageName node1 = importModuleId md2.packageName node2)
    (h2 : compileImportDecl (Module.compile fuel2) m2 node2 s2 = .ok () s3) :
    ∃ p loc1 loc2 mdA mdB mp,
      (importLocal node1 = some loc1 ∧ importLocal node2 = some loc2) ∧
      s1.modules[m1]? = some mdA ∧
      lookupValue mdA.scopes loc1.Name = some (.Module ⟨loc1.Name, p⟩) ∧
      s3.modules[m2]? = some mdB ∧
      lookupValue mdB.scopes loc2.Name = some (.Module ⟨loc2.Name, p⟩) ∧
      mapGet s3.Modules (importModuleId md2.packageName node2) = some p ∧
      s3.reads = s2.reads ∧ s3.modules.length = s2.modules.length ∧
      s3.modules[p]? = some mp ∧ mp.compiled = true ∧ mp.runs = 1 := by
  obtain ⟨p, loc1, mdA, hl1, hcache1, hmA, hlookA, ⟨mp1, hmp1, hcp1⟩, _⟩ :=
    compileImportDecl_ok fuel1 m1 node1 s s1 md1 hm1 hc1 h1
  obtain ⟨q, loc2, mdB, hl2, hcache3, hmB, hlookB, ⟨mp3, hmp3, hcp3⟩, hhit⟩ :=
    compileImportDecl_ok fuel2 m2 node2 s2 s3 md2 hm2 hc2 h2
  have hcache2 : mapGet s2.Modules (importModuleId md2.packageName node2) = some p := by
    rw [← hid]
    exact hlater.2.1 _ _ hcache1
  obtain ⟨mp2, hmp2, hcp2⟩ := hlater.2.2.1 p mp1 hmp1 hcp1
  obtain ⟨hqp, hreads, hlen⟩ := hhit p mp2 hcache2 hmp2 hcp2
  subst hqp
  have hl01 := (compileImportDecl_later fuel1 m1 node1).run s
  rw [h1] at hl01
  have hl23 := (compileImportDecl_later fuel2 m2 node2).run s2
  rw [h2] at hl23
  have hcount3 : CountsOk s3 := hl23.2.2.2 (hlater.2.2.2 (hl01.2.2.2 hcount))
  have hruns := hcount3 q mp3 hmp3
  simp only [hcp3, if_true] at hruns
  exact ⟨q, loc1, loc2, mdA, mdB, mp3, ⟨hl1, hl2⟩, hmA, hlookA, hmB, hlookB, hcache3, hreads,
    hlen, hmp3, hcp3, hruns⟩

theorem cycleStore_counts : CountsOk cycleStore := by
  intro p md h
  cases p with
  | zero =>
    simp only [cycleStore, List.getElem?_cons_zero, Option.some.injEq] at h
    subst h
    rfl
  | succ p => simp [cycleStore] at h

theorem cycle_importA :
    compileImportDecl (Module.compile 3) 0 importA cycleStore = .ok () cycleStoreA :=
  Res.eq_ok_of_fault_none (r := compileImportDecl (Module.compile 3) 0 importA cycleStore)
    (by decide!)

theorem cycle_importX :
    compileImportDecl (Module.compile 1) 2 importAasX cycleStoreB = .ok () cycleStoreX :=
  Res.eq_ok_of_fault_none (r := compileImportDecl (Module.compile 1) 2 importAasX cycleStoreB)
    (by decide!)

theorem cycle_moduleB : cycleStoreB.modules[2]? = some cycleModuleB :=
  eq_some_getD (o := cycleStoreB.modules[2]?) mainModule (by decide!)

theorem import_same_module_witness :
    ∃ p loc1 loc2 mdA mdB mp,
      (importLocal importA = some loc1 ∧ importLocal importAasX = some loc2) ∧
      cycleStoreA.modules[0]? = some mdA ∧
      lookupValue mdA.scopes loc1.Name = some (.Module ⟨loc1.Name, p⟩) ∧
      cycleStoreX.modules[2]? = some mdB ∧
      lookupValue mdB.scopes loc2.Name = some (.Module ⟨loc2.Name, p⟩) ∧
      mapGet cycleStoreX.Modules (importModuleId cycleModuleB.packageName importAasX) = some p ∧
      cycleStoreX.reads = cycleStoreB.reads ∧
      cycleStoreX.modules.length = cycleStoreB.modules.length ∧
      cycleStoreX.modules[p]? = some mp ∧ mp.compiled = true ∧ mp.runs = 1 :=
  (import_same_module 3 1 0 2 importA importAasX cycleStore cycleStoreA cycleStoreB cycleStoreX
    mainModule cycleModuleB cycleStore_counts rfl rfl cycle_importA
    ((compileImportDecl_later 3 0 importB).run cycleStoreA)
    cycle_moduleB (by decide!) (by decide!) cycle_importX)

/-! ## No declaration compiler is cut off -/

theorem halts_pure {α : Type} (a : α) : Halts (pure a : M α) := ⟨fun s => by simp [Res.fault]⟩

theorem halts_abort {α : Type} (f : Fault) (h : f ≠ .diverges) : Halts (abort f : M α) :=
  ⟨fun s => by simpa [Res.fault] using h⟩

theorem halts_unexpectedPos (pos : Nat) (msg : String) : Halts (unexpectedPos pos msg) :=
  ⟨fun s => by simp [Res.fault]⟩

theorem halts_bind {α β : Type} {x : M α} {f : α → M β} (hx : Halts x)
    (hf : ∀ a, Halts (f a)) : Halts (x >>= f) := by
  constructor
  intro s
  have h1 := hx.run s
  simp only [bind_apply]
  cases hxs : x s with
  | ok a s1 => exact (hf a).run s1
  | fail e s1 =>
    rw [hxs] at h1
    exact h1

theorem halts_getModule (m : Nat) : Halts (getModule m) := by
  constructor
  intro s
  simp only [getModule_apply]
  cases s.modules[m]? <;> simp [Res.fault]

theorem halts_setModule (m : Nat) (md : Module) : Halts (setModule m md) :=
  ⟨fun s => by simp [setModule, Res.fault]⟩

theorem halts_getRef (r : Nat) : Halts (getRef r) := by
  constructor
  intro s
  simp only [getRef_apply]
  cases s.kinds[r]? <;> simp [Res.fault]

theorem newKindRef_halts : Halts newKindRef := ⟨fun s => by simp [Res.fault]⟩

theorem setRef_halts (r : Nat) (k : Kind) : Halts (setRef r k) :=
  ⟨fun s => by simp [Res.fault]⟩

theorem halts_compareKind (a b : KindRef) (strict : Bool) : Halts (compareKind a b strict) :=
  ⟨fun s => by simp [compareKind, Res.fault]⟩

theorem halts_findSelfKind (m pos : Nat) :
    Halts (findSelfKind m pos) := by
  unfold findSelfKind
  repeat' first
    | exact halts_pure _
    | exact halts_abort _ (by simp)
    | exact halts_getModule _
    | apply halts_bind
    | intro _
    | split

theorem halts_findIdentifierKind (m : Nat)
    (name : ast.Identifier) : Halts (findIdentifierKind m name) := by
  unfold findIdentifierKind
  repeat' first
    | exact halts_pure _
    | exact halts_abort _ (by simp)
    | exact halts_getModule _
    | apply halts_bind
    | intro _
    | split

theorem halts_findMemberKind (m : Nat)
    (o p : ast.Identifier) (pos : Nat) : Halts (findMemberKind m o p pos) := by
  unfold findMemberKind
  repeat' first
    | exact halts_pure _
    | exact halts_abort _ (by simp)
    | exact halts_getModule _
    | apply halts_bind
    | intro _
    | split

theorem halts_findValue (m : Nat)
    (name : ast.Identifier) : Halts (findValue m name) := by
  unfold findValue
  repeat' first
    | exact halts_pure _
    | exact halts_abort _ (by simp)
    | exact halts_getModule _
    | apply halts_bind
    | intro _
    | split

mutual
theorem compileKindExpr_halts (m : Nat) : ∀ (e : Option ast.KindExpr),
    Halts (compileKindExpr m e)
  | none => by
    simp only [compileKindExpr]
    exact newKindRef_halts
  | some e => by
    simp only [compileKindExpr]
    exact compileKindExprNode_halts m e
theorem compileKindExprNode_halts (m : Nat) : ∀ (e : ast.KindExpr),
    Halts (compileKindExprNode m e)
  | .mk .TNumber start | .mk .TByte start | .mk .TChar start | .mk .TString start
  | .mk .TBool start | .mk .TAny start | .mk .TSelf start | .mk (.TIdentifier _) start
  | .mk (.TMemberKind _ _) start => by
    simp only [compileKindExprNode]
    repeat' first
      | exact halts_pure _
      | exact newKindRef_halts
      | exact setRef_halts _ _
      | exact halts_findSelfKind _ _
      | exact halts_findIdentifierKind _ _
      | exact halts_findMemberKind _ _ _ _
      | apply halts_bind
      | intro _
  | .mk (.TArray t) start => by
    simp only [compileKindExprNode]
    exact halts_bind newKindRef_halts (fun _ => compileArrayKind_halts m t)
  | .mk (.TFuncKind t) start => by
    simp only [compileKindExprNode]
    exact halts_bind newKindRef_halts (fun _ => compileFuncKind_halts m t)
  | .mk (.TStructKind t) start => by
    simp only [compileKindExprNode]
    exact halts_bind newKindRef_halts
      (fun _ => compileStructKind_halts m t)
theorem compileArrayKind_halts (m : Nat) : ∀ (t : ast.TArray),
    Halts (compileArrayKind m t)
  | .mk elem len => by
    have ih := compileKindExpr_halts m elem
    simp only [compileArrayKind]
    repeat' first
      | exact halts_pure _
      | exact halts_abort _ (by simp)
      | exact halts_unexpectedPos _ _
      | exact newKindRef_halts
      | exact setRef_halts _ _
      | exact ih
      | apply halts_bind
      | intro _
      | split
theorem compileFuncKindArgs_halts (m n : Nat) : ∀ (l : List ast.Argument) (i : Nat) (rest : Bool)
    (acc : List KindRef), Halts (compileFuncKindArgs m n l i rest acc)
  | [], i, rest, acc => by
    simp only [compileFuncKindArgs]
    exact halts_pure _
  | (.mk argKind argRest argStart) :: more, i, rest, acc => by
    have ih1 := compileKindExpr_halts m argKind
    have ih2 := fun r a => compileFuncKindArgs_halts m n more (i + 1) r a
    simp only [compileFuncKindArgs]
    repeat' first
      | exact halts_pure _
      | exact halts_abort _ (by simp)
      | exact halts_unexpectedPos _ _
      | exact ih1
      | exact ih2 _ _
      | apply halts_bind
      | intro _
      | split
theorem compileFuncKind_halts (m : Nat) : ∀ (t : ast.TFuncKind),
    Halts (compileFuncKind m t)
  | .mk args ret => by
    have ih1 := compileKindExpr_halts m ret
    have ih2 := compileFuncKindArgs_halts m args.length args 0 false []
    simp only [compileFuncKind]
    repeat' first
      | exact halts_pure _
      | exact newKindRef_halts
      | exact setRef_halts _ _
      | exact ih1
      | exact ih2
      | apply halts_bind
      | intro _
theorem compileStructProps_halts (m : Nat) : ∀ (l : List ast.KindProperty)
    (props : List (String × KindRef)), Halts (compileStructProps m l props)
  | [], props => by
    simp only [compileStructProps]
    exact halts_pure _
  | (.mk key propKind start) :: more, props => by
    have ih1 := compileKindExpr_halts m propKind
    have ih2 := fun p => compileStructProps_halts m more p
    simp only [compileStructProps]
    repeat' first
      | exact halts_pure _
      | exact halts_unexpectedPos _ _
      | exact ih1
      | exact ih2 _
      | apply halts_bind
      | intro _
      | split
theorem compileStructExtends_halts (m : Nat) : ∀ (l : List ast.KindExpr) (exts : List KindRef),
    Halts (compileStructExtends m l exts)
  | [], exts => by
    simp only [compileStructExtends]
    exact halts_pure _
  | item :: more, exts => by
    have ih1 := compileKindExprNode_halts m item
    have ih2 := fun e => compileStructExtends_halts m more e
    simp only [compileStructExtends]
    repeat' first
      | exact halts_pure _
      | exact ih1
      | exact ih2 _
      | apply halts_bind
      | intro _
theorem compileStructKind_halts (m : Nat) : ∀ (t : ast.TStructKind),
    Halts (compileStructKind m t)
  | .mk exts props => by
    have ih1 := compileStructProps_halts m props []
    have ih2 := compileStructExtends_halts m exts []
    simp only [compileStructKind]
    repeat' first
      | exact halts_pure _
      | exact newKindRef_halts
      | exact setRef_halts _ _
      | exact ih1
      | exact ih2
      | apply halts_bind
      | intro _
end

theorem halts_getImplOf (t : KindRef) :
    Halts (getImplOf t) := by
  unfold getImplOf
  repeat' first
    | exact halts_pure _
    | exact halts_abort _ (by simp)
    | exact halts_getRef _
    | apply halts_bind
    | intro _
    | split

theorem compileFuncDecl_method_halts (m : Nat) (d : ast.FuncDecl) (t : KindRef) (b : Bool) :
    Halts (compileFuncDecl m d (some t) b) := by
  unfold compileFuncDecl
  repeat' first
    | exact halts_pure _
    | exact halts_abort _ (by simp)
    | exact halts_unexpectedPos _ _
    | exact halts_getImplOf _
    | exact compileKindExpr_halts _ _
    | exact setRef_halts _ _
    | apply halts_bind
    | intro _
    | split

theorem compileImplBody_halts (m : Nat) (t : KindRef) (b : Bool) : ∀ (l : List ast.Stmt)
    (vals : List (String × FuncValue)) (decls : List (String × ast.Stmt)),
    Halts (compileImplBody m t b l vals decls)
  | [], vals, decls => by
    simp only [compileImplBody]
    exact halts_pure _
  | stmt :: more, vals, decls => by
    have ih := fun v d => compileImplBody_halts m t b more v d
    simp only [compileImplBody]
    repeat' first
      | exact halts_pure _
      | exact halts_abort _ (by simp)
      | exact compileFuncDecl_method_halts _ _ _ _
      | exact ih _ _
      | apply halts_bind
      | intro _
      | split

theorem scopesPush_halts (p : Nat) : Halts (scopesPush p) := by
  unfold scopesPush
  repeat' first
    | exact halts_getModule _
    | exact halts_setModule _ _
    | apply halts_bind
    | intro _

theorem scopesPop_halts (p : Nat) : Halts (scopesPop p) := by
  unfold scopesPop
  repeat' first
    | exact halts_abort _ (by simp)
    | exact halts_getModule _
    | exact halts_setModule _ _
    | apply halts_bind
    | intro _
    | split

theorem putValue_halts (p : Nat) (name : ast.Identifier) (v : Value) (required : Bool) :
    Halts (putValue p name v required) := by
  unfold putValue
  repeat' first
    | exact halts_pure _
    | exact halts_abort _ (by simp)
    | exact halts_unexpectedPos _ _
    | exact halts_getModule _
    | exact halts_setModule _ _
    | apply halts_bind
    | intro _
    | split

theorem putKind_halts (p : Nat) (name : ast.Identifier) (k : KindRef) (required : Bool) :
    Halts (putKind p name k required) := by
  unfold putKind
  repeat' first
    | exact halts_pure _
    | exact halts_abort _ (by simp)
    | exact halts_unexpectedPos _ _
    | exact halts_getModule _
    | exact halts_setModule _ _
    | apply halts_bind
    | intro _
    | split

theorem putSelfKind_halts (p : Nat) (k : KindRef) : Halts (putSelfKind p k) := by
  unfold putSelfKind
  repeat' first
    | exact halts_abort _ (by simp)
    | exact halts_getModule _
    | exact halts_setModule _ _
    | apply halts_bind
    | intro _
    | split

theorem exportsSetValue_halts (p : Nat) (name : String) (v : Value) :
    Halts (exportsSetValue p name v) := by
  unfold exportsSetValue
  repeat' first
    | exact halts_getModule _
    | exact halts_setModule _ _
    | apply halts_bind
    | intro _

theorem exportsSetKind_halts (p : Nat) (name : String) (k : KindRef) :
    Halts (exportsSetKind p name k) := by
  unfold exportsSetKind
  repeat' first
    | exact halts_getModule _
    | exact halts_setModule _ _
    | apply halts_bind
    | intro _

theorem compileFuncDecl_halts (p : Nat) (d : ast.FuncDecl) (t : Option KindRef) (b : Bool) :
    Halts (compileFuncDecl p d t b) := by
  unfold compileFuncDecl
  repeat' first
    | exact halts_pure _
    | exact halts_abort _ (by simp)
    | exact halts_unexpectedPos _ _
    | exact halts_getImplOf _
    | exact halts_findValue _ _
    | exact compileKindExpr_halts _ _
    | exact setRef_halts _ _
    | exact putValue_halts _ _ _ _
    | exact exportsSetValue_halts _ _ _
    | apply halts_bind
    | intro _
    | split

theorem checkImplMethods_halts (pos : Nat) (vals : List (String × FuncValue)) (decls : List (String × ast.Stmt)) :
    ∀ (props : List (String × KindRef)), Halts (checkImplMethods pos vals decls props)
  | [] => halts_pure _
  | (key, kind) :: more => by
    have ih := checkImplMethods_halts pos vals decls more
    simp only [checkImplMethods]
    repeat' first
      | exact halts_pure _
      | exact halts_abort _ (by simp)
      | exact halts_unexpectedPos _ _
      | exact halts_compareKind _ _ _
      | exact ih
      | apply halts_bind
      | intro _
      | split

theorem compileImplDecl_halts (p : Nat) (target : ast.KindExpr)
    (iface : Option ast.KindExpr) (body : List ast.Stmt) (b : Bool) :
    Halts (compileImplDecl p target iface body b) := by
  unfold compileImplDecl
  repeat' first
    | exact halts_pure _
    | exact halts_abort _ (by simp)
    | exact halts_unexpectedPos _ _
    | exact halts_getRef _
    | exact compileKindExpr_halts _ _
    | exact compileImplBody_halts _ _ _ _ _ _
    | exact checkImplMethods_halts _ _ _ _
    | exact setRef_halts _ _
    | exact scopesPush_halts _
    | exact scopesPop_halts _
    | exact putSelfKind_halts _ _
    | apply halts_bind
    | intro _
    | split

theorem compileVarDecl_halts (p : Nat) (d : ast.VarDecl) (b : Bool) :
    Halts (compileVarDecl p d b) := by
  unfold compileVarDecl
  repeat' first
    | exact halts_pure _
    | exact compileKindExpr_halts _ _
    | exact putValue_halts _ _ _ _
    | exact exportsSetValue_halts _ _ _
    | apply halts_bind
    | intro _
    | split

theorem compileTAliasDecl_halts (p : Nat) (d : ast.TAliasDecl) :
    Halts (compileTAliasDecl p d) := by
  unfold compileTAliasDecl
  repeat' first
    | exact halts_pure _
    | exact compileKindExpr_halts _ _
    | exact newKindRef_halts
    | exact setRef_halts _ _
    | exact putKind_halts _ _ _ _
    | exact exportsSetKind_halts _ _ _
    | apply halts_bind
    | intro _
    | split

theorem compileInterfaceProps_halts (p : Nat) (kind : KindRef) :
    ∀ (l : List ast.KindProperty), Halts (compileInterfaceProps p kind l)
  | [] => halts_pure _
  | pair :: more => by
    have ih := compileInterfaceProps_halts p kind more
    simp only [compileInterfaceProps]
    repeat' first
      | exact halts_pure _
      | exact halts_abort _ (by simp)
      | exact halts_unexpectedPos _ _
      | exact halts_getRef _
      | exact compileKindExpr_halts _ _
      | exact setRef_halts _ _
      | exact ih
      | apply halts_bind
      | intro _
      | split

theorem compileTInterfaceDecl_halts (p : Nat) (d : ast.TInterfaceDecl) :
    Halts (compileTInterfaceDecl p d) := by
  unfold compileTInterfaceDecl
  repeat' first
    | exact halts_pure _
    | exact newKindRef_halts
    | exact setRef_halts _ _
    | exact scopesPush_halts _
    | exact scopesPop_halts _
    | exact putSelfKind_halts _ _
    | exact compileInterfaceProps_halts _ _ _
    | exact putKind_halts _ _ _ _
    | exact exportsSetKind_halts _ _ _
    | apply halts_bind
    | intro _
    | split

theorem compileTStructDecl_halts (p : Nat) (d : ast.TStructDecl) :
    Halts (compileTStructDecl p d) := by
  unfold compileTStructDecl
  repeat' first
    | exact halts_pure _
    | exact halts_abort _ (by simp)
    | exact compileStructKind_halts p _
    | exact putKind_halts _ _ _ _
    | exact exportsSetKind_halts _ _ _
    | apply halts_bind
    | intro _
    | split

theorem compileEnumChoices_halts :
    ∀ (l : List ast.Identifier) (i : Nat) (choices : List (String × Nat)),
    Halts (compileEnumChoices l i choices)
  | [], _, _ => halts_pure _
  | item :: more, i, choices => by
    have ih := fun c => compileEnumChoices_halts more (i + 1) c
    simp only [compileEnumChoices]
    repeat' first
      | exact halts_pure _
      | exact halts_unexpectedPos _ _
      | exact ih _
      | apply halts_bind
      | intro _
      | split

theorem compileTEnumDecl_halts (p : Nat) (d : ast.TEnumDecl) :
    Halts (compileTEnumDecl p d) := by
  unfold compileTEnumDecl
  repeat' first
    | exact halts_pure _
    | exact compileEnumChoices_halts _ _ _
    | exact newKindRef_halts
    | exact setRef_halts _ _
    | exact putKind_halts _ _ _ _
    | exact exportsSetKind_halts _ _ _
    | apply halts_bind
    | intro _
    | split

theorem compileFileBody_halts (m : Nat) :
    ∀ (l : List ast.Stmt), Halts (compileFileBody m l)
  | [] => halts_pure _
  | stmt :: more => by
    have ih := compileFileBody_halts m more
    simp only [compileFileBody, compileStmt]
    exact halts_bind (halts_pure _) (fun _ => ih)

theorem compileFile_halts (m : Nat) :
    Halts (compileFile m) := by
  unfold compileFile
  exact halts_bind (halts_getModule _) (fun _ => compileFileBody_halts m _)

/-! ## Compiling a module graph terminates -/

theorem safe_mk {I : Compiler → Prop} {R : Compiler → Compiler → Prop} {α : Type} {x : M α}
    (hI : ∀ s t, R s t → I s → I t) (hx : Preserves R x) (hh : Halts x) : Safe I x :=
  ⟨fun s hs => ⟨hI _ _ (hx.run s) hs, hh.run s⟩⟩

theorem safe_bind {I : Compiler → Prop} {α β : Type} {x : M α} {f : α → M β}
    (hx : Safe I x) (hf : ∀ a, Safe I (f a)) : Safe I (x >>= f) := by
  constructor
  intro s hs
  have h1 := hx.run s hs
  simp only [bind_apply]
  cases hxs : x s with
  | ok a s1 =>
    rw [hxs] at h1
    exact (hf a).run s1 h1.1
  | fail e s1 =>
    rw [hxs] at h1
    exact h1

theorem filter_length_le_of_imp (f g : String → Bool) (h : ∀ x, g x = true → f x = true) :
    ∀ (U : List String), (U.filter g).length ≤ (U.filter f).length
  | [] => by simp
  | x :: U => by
    have ih := filter_length_le_of_imp f g h U
    cases hg : g x with
    | true =>
      simp only [List.filter_cons, hg, h x hg, if_true, List.length_cons]
      omega
    | false =>
      cases hf : f x with
      | true =>
        simp only [List.filter_cons, hg, hf, if_true, Bool.false_eq_true, if_false,
          List.length_cons]
        omega
      | false =>
        simp only [List.filter_cons, hg, hf, Bool.false_eq_true, if_false]
        exact ih

theorem filter_length_lt_of_mem (f g : String → Bool) (h : ∀ x, g x = true → f x = true)
    (id : String) (hf : f id = true) (hg : g id = false) :
    ∀ (U : List String), id ∈ U → (U.filter g).length + 1 ≤ (U.filter f).length
  | [], hU => by simp at hU
  | x :: U, hU => by
    by_cases hx : x = id
    · subst hx
      have := filter_length_le_of_imp f g h U
      simp only [List.filter_cons, hg, hf, if_true, List.length_cons, Bool.false_eq_true,
        if_false]
      omega
    · have hU1 : id ∈ U := by
        cases hU with
        | head => exact absurd rfl hx
        | tail _ h1 => exact h1
      have ih := filter_length_lt_of_mem f g h id hf hg U hU1
      cases hgx : g x with
      | true =>
        simp only [List.filter_cons, hgx, h x hgx, if_true, List.length_cons]
        omega
      | false =>
        cases hfx : f x with
        | true =>
          simp only [List.filter_cons, hgx, hfx, if_true, Bool.false_eq_true, if_false,
            List.length_cons]
          omega
        | false =>
          simp only [List.filter_cons, hgx, hfx, Bool.false_eq_true, if_false]
          exact ih

theorem count_set_true : ∀ (l : List Bool) (i : Nat), l[i]? = some false →
    (l.set i true).count false + 1 = l.count false
  | [], i, h => by simp at h
  | b :: l, 0, h => by
    simp only [List.getElem?_cons_zero, Option.some.injEq] at h
    subst h
    simp
  | b :: l, i + 1, h => by
    simp only [List.getElem?_cons_succ] at h
    have ih := count_set_true l i h
    cases b <;> simp [List.count_cons] <;> omega

/-- The compiled marks of the modules are the same in two stores related by `ScopesOnly`. -/
theorem scopesOnly_marks (m : Nat) (s t : Compiler) (h : ScopesOnly m s t) :
    t.modules.map (fun md => md.compiled) = s.modules.map (fun md => md.compiled) := by
  obtain ⟨_, _, _, hlen, hne, hm⟩ := h
  apply List.ext_getElem?
  intro i
  simp only [List.getElem?_map]
  by_cases hi : i = m
  · subst hi
    cases hs : s.modules[i]? with
    | none =>
      have : t.modules[i]? = none := by
        rw [List.getElem?_eq_none_iff] at hs ⊢
        omega
      rw [this]
    | some md =>
      obtain ⟨md1, h1, _, _, _, e4, _⟩ := hm md hs
      rw [h1]
      simp [e4]
  · rw [hne i hi]

theorem bounded_of_scopesOnly (U P : List String) (B m : Nat) (s t : Compiler)
    (h : ScopesOnly m s t) (hs : Bounded U P B s) : Bounded U P B t := by
  have hmarks := scopesOnly_marks m s t h
  obtain ⟨hM, hV, _, hlen, hne, hm⟩ := h
  obtain ⟨⟨hc1, hc2⟩, hp⟩ := hs
  refine ⟨⟨?_, ?_⟩, ?_⟩
  · intro p md hp1
    by_cases hpm : p = m
    · subst hpm
      have hlt := lt_of_getElem?_some hp1
      have hlt2 : p < s.modules.length := by omega
      obtain ⟨md1, h1, e1, e2, _⟩ := hm _ (List.getElem?_eq_getElem hlt2)
      rw [hp1] at h1
      simp only [Option.some.injEq] at h1
      subst h1
      have := hc1 p _ (List.getElem?_eq_getElem hlt2)
      rw [e1, e2]
      exact this
    · rw [hne p hpm] at hp1
      exact hc1 p md hp1
  · intro path code hf
    rw [hV] at hf
    exact hc2 path code hf
  · simp only [pending, hM, hmarks]
    exact hp

theorem bounded_reads (U P : List String) (B : Nat) (s : Compiler) (path : String)
    (hs : Bounded U P B s) : Bounded U P B { s with reads := s.reads ++ [path] } := hs

theorem bounded_registered (U P : List String) (B : Nat) (s : Compiler) (path : String)
    (code : ast.File) (pkg id : String) (hs : Bounded U P B s)
    (hmiss : mapGet s.Modules id = none) (hid : id ∈ U) (hpkg : pkg ∈ P)
    (hcode : GoodFile U P code) : Bounded U P B (registered s path code pkg id) := by
  obtain ⟨⟨hc1, hc2⟩, hp⟩ := hs
  refine ⟨⟨?_, ?_⟩, ?_⟩
  · intro p md hp1
    simp only [registered] at hp1
    by_cases hlt : p < s.modules.length
    · rw [List.getElem?_append_left hlt] at hp1
      exact hc1 p md hp1
    · have hlen := lt_of_getElem?_some hp1
      simp only [List.length_append, List.length_singleton] at hlen
      have hpe : p = s.modules.length := by omega
      subst hpe
      simp only [List.getElem?_concat_length, Option.some.injEq] at hp1
      subst hp1
      exact ⟨hpkg, hcode⟩
  · intro p code1 hf
    exact hc2 p code1 hf
  · have h1 := filter_length_lt_of_mem (fun x => (mapGet s.Modules x).isNone)
      (fun x => (mapGet (mapSet s.Modules id s.modules.length) x).isNone)
      (by
        intro x hx
        simp only [mapGet_mapSet] at hx
        by_cases hxe : id = x
        · simp [hxe] at hx
        · simpa [hxe] using hx)
      id (by simp [hmiss]) (by simp [mapGet_mapSet]) U hid
    simp only [pending, registered, List.map_append, List.count_append, List.map_cons,
      List.map_nil, freshModule]
    simp only [pending] at hp
    simp only [List.count_singleton, beq_self_eq_true, if_true]
    omega

theorem bounded_started (U P : List String) (B m : Nat) (s : Compiler) (md : Module)
    (hm : s.modules[m]? = some md) (hc : md.compiled = false) (hs : Bounded U P B s) :
    1 ≤ B ∧ Bounded U P (B - 1)
      { s with modules := s.modules.set m { md with compiled := true, runs := md.runs + 1 } } := by
  obtain ⟨⟨hc1, hc2⟩, hp⟩ := hs
  have hlt := lt_of_getElem?_some hm
  have hcount := count_set_true (s.modules.map (fun md => md.compiled)) m
    (by simp [List.getElem?_map, hm, hc])
  have hmap : (s.modules.set m { md with compiled := true, runs := md.runs + 1 }).map
      (fun md => md.compiled) = (s.modules.map (fun md => md.compiled)).set m true := by
    simp [List.map_set]
  simp only [pending] at hp
  refine ⟨by omega, ⟨?_, ?_⟩, ?_⟩
  · intro p md1 hp1
    by_cases hpm : p = m
    · subst hpm
      rw [set_getElem?_self _ _ _ hlt] at hp1
      simp only [Option.some.injEq] at hp1
      subst hp1
      exact hc1 p md hm
    · simp only [List.getElem?_set_ne (Ne.symm hpm)] at hp1
      exact hc1 p md1 hp1
  · intro path code hf
    exact hc2 path code hf
  · simp only [pending, hmap]
    omega

theorem safe_compileImportDecl (U P : List String) (B m : Nat) (compile : Nat → M Unit)
    (hrec : ∀ p, Safe (Bounded U P B) (compile p)) (node : ast.ImportDecl)
    (hnode : GoodImport U P node) :
    Safe (Bounded U P B) (compileImportDecl compile m node) := by
  constructor
  intro s hs
  rw [compileImportDecl_cases]
  have hput : ∀ loc p, Safe (Bounded U P B)
      (putValue m loc (.Module ⟨loc.Name, p⟩) true >>= fun _ => compile p) := by
    intro loc p
    exact safe_bind
      (safe_mk (bounded_of_scopesOnly U P B m) (putValue_scopesOnly m _ _ _)
        (putValue_halts m _ _ _))
      (fun _ => hrec p)
  cases hm : s.modules[m]? with
  | none => exact ⟨hs, by simp [Res.fault]⟩
  | some md =>
    simp only
    cases hl : importLocal node with
    | none => exact ⟨hs, by simp [Res.fault]⟩
    | some loc =>
      simp only
      cases hc : mapGet s.Modules (importModuleId md.packageName node) with
      | some p => exact (hput loc p).run s hs
      | none =>
        simp only
        cases hf : mapGet s.VirtualFS.files
            (importPath s.VirtualFS.Root md.packageName node) with
        | none => exact ⟨bounded_reads U P B s _ hs, by simp [Res.fault]⟩
        | some code =>
          have hgood := hnode md.packageName (hs.1.1 m md hm).1
          exact (hput loc _).run _
            (bounded_registered U P B s _ code _ _ hs hc hgood.2 hgood.1 (hs.1.2 _ code hf))

theorem safe_preCompileBody (U P : List String) (B m : Nat) (compile : Nat → M Unit)
    (hrec : ∀ p, Safe (Bounded U P B) (compile p)) :
    ∀ (l : List ast.Stmt), (∀ d, d ∈ importsOf l → GoodImport U P d) →
      Safe (Bounded U P B) (preCompileBody compile m l)
  | [], _ => ⟨fun s hs => ⟨hs, by simp [preCompileBody, Res.fault]⟩⟩
  | stmt :: more, hl => by
    have hI := bounded_of_scopesOnly U P B m
    have hmore : ∀ d, d ∈ importsOf more → GoodImport U P d := by
      intro d hd
      apply hl d
      simp only [importsOf]
      split
      · exact List.mem_cons_of_mem _ hd
      · exact hd
    have ih := safe_preCompileBody U P B m compile hrec more hmore
    have hpure : Safe (Bounded U P B) (pure () : M Unit) :=
      ⟨fun s hs => ⟨hs, by simp [Res.fault]⟩⟩
    have hstmt : ∀ d, stmt.Node = .ImportDecl d → GoodImport U P d := by
      intro d hn
      apply hl d
      simp [importsOf, hn]
    simp only [preCompileBody]
    repeat' first
      | exact hpure
      | exact ih
      | exact safe_compileImportDecl U P B m compile hrec _ (hstmt _ (by assumption))
      | exact safe_mk hI (compileFuncDecl_scopesOnly m _ _ _) (compileFuncDecl_halts m _ _ _)
      | exact safe_mk hI (compileImplDecl_scopesOnly m _ _ _ _) (compileImplDecl_halts m _ _ _ _)
      | exact safe_mk hI (compileVarDecl_scopesOnly m _ _) (compileVarDecl_halts m _ _)
      | exact safe_mk hI (compileTAliasDecl_scopesOnly m _) (compileTAliasDecl_halts m _)
      | exact safe_mk hI (compileTInterfaceDecl_scopesOnly m _) (compileTInterfaceDecl_halts m _)
      | exact safe_mk hI (compileTStructDecl_scopesOnly m _) (compileTStructDecl_halts m _)
      | exact safe_mk hI (compileTEnumDecl_scopesOnly m _) (compileTEnumDecl_halts m _)
      | apply safe_bind
      | intro _
      | split

theorem safe_preCompile (U P : List String) (B m : Nat) (compile : Nat → M Unit)
    (hrec : ∀ p, Safe (Bounded U P B) (compile p)) :
    Safe (Bounded U P B) (preCompile compile m) := by
  unfold preCompile
  refine safe_bind (safe_mk (bounded_of_scopesOnly U P B m) (scopesPush_scopesOnly m)
    (scopesPush_halts m)) (fun _ => ?_)
  constructor
  intro s hs
  simp only [bind_apply, getModule_apply]
  cases hm : s.modules[m]? with
  | none => exact ⟨hs, by simp [Res.fault]⟩
  | some md =>
    exact (safe_preCompileBody U P B m compile hrec md.Ast.Body (hs.1.1 m md hm).2).run s hs

theorem safe_compileFile (U P : List String) (B m : Nat) :
    Safe (Bounded U P B) (compileFile m) :=
  safe_mk (fun _ _ h hs => by rw [← h]; exact hs)
    (compileFile_preserves ⟨fun _ => rfl, fun h1 h2 => h1.trans h2⟩ m) (compileFile_halts m)

/-- With more fuel than work left, `Module.compile` keeps the invariant and is not
cut off. -/
theorem safe_compile (U P : List String) : ∀ (fuel B : Nat), B < fuel → ∀ m,
    Safe (Bounded U P B) (Module.compile fuel m)
  | 0, _, h, _ => by omega
  | fuel + 1, B, h, m => by
    constructor
    intro s hs
    rw [compile_succ]
    cases hm : s.modules[m]? with
    | none => exact ⟨hs, by simp [Res.fault]⟩
    | some md =>
      simp only
      by_cases hc : md.compiled = true
      · simp only [hc, if_true]
        exact ⟨hs, by simp [Res.fault]⟩
      · have hcf : md.compiled = false := by simpa using hc
        simp only [hcf, Bool.false_eq_true, if_false]
        obtain ⟨hB, hs1⟩ := bounded_started U P B m s md hm hcf hs
        have hrec : ∀ p, Safe (Bounded U P (B - 1)) (Module.compile fuel p) :=
          fun p => safe_compile U P fuel (B - 1) (by omega) p
        have hrest : Safe (Bounded U P (B - 1))
            (preCompile (Module.compile fuel) m >>= fun _ => compileFile m) :=
          safe_bind (safe_preCompile U P (B - 1) m _ hrec) (fun _ => safe_compileFile U P _ m)
        obtain ⟨⟨h1, h2⟩, h3⟩ := hrest.run _ hs1
        exact ⟨⟨h1, by omega⟩, h3⟩

theorem mem_allImports (d : ast.ImportDecl) (code : ast.File) :
    ∀ (l : List ast.File), code ∈ l → d ∈ importsOf code.Body → d ∈ allImports l
  | [], h, _ => by simp at h
  | c :: l, h, hd => by
    simp only [allImports, List.mem_append]
    cases h with
    | head => exact Or.inl hd
    | tail _ h1 => exact Or.inr (mem_allImports d code l h1 hd)

theorem mem_namedPackages (d : ast.ImportDecl) (p : ast.Identifier) (hp : d.Package = some p) :
    ∀ (l : List ast.ImportDecl), d ∈ l → p.Name ∈ namedPackages l
  | [], h => by simp at h
  | c :: l, h => by
    cases h with
    | head =>
      simp [namedPackages, hp]
    | tail _ h1 =>
      have ih := mem_namedPackages d p hp l h1
      simp only [namedPackages]
      split
      · exact List.mem_cons_of_mem _ ih
      · exact ih

theorem mem_idsOf (ds : List ast.ImportDecl) (d : ast.ImportDecl) (hd : d ∈ ds) (pkg : String) :
    ∀ (l : List String), pkg ∈ l → importModuleId pkg d ∈ idsOf ds l
  | [], h => by simp at h
  | c :: l, h => by
    simp only [idsOf, List.mem_append]
    cases h with
    | head => exact Or.inl (List.mem_map_of_mem _ hd)
    | tail _ h1 => exact Or.inr (mem_idsOf ds d hd pkg l h1)

theorem mapGet_mem {β : Type} (k : String) (v : β) :
    ∀ (mp : List (String × β)), mapGet mp k = some v → v ∈ mp.map (fun kv => kv.2)
  | [], h => by simp [mapGet] at h
  | (k0, w) :: mp, h => by
    simp only [mapGet] at h
    by_cases hk : k0 = k
    · simp only [hk, if_true, Option.some.injEq] at h
      subst h
      simp
    · simp only [hk, if_false] at h
      have := mapGet_mem k v mp h
      simp only [List.map_cons, List.mem_cons]
      exact Or.inr this

/-- The packages and identifiers computed from a store cover it. -/
theorem closed_moduleIds (s : Compiler) : Closed (moduleIds s) (packages s) s := by
  have key : ∀ code, code ∈ allFiles s → GoodFile (moduleIds s) (packages s) code := by
    intro code hcode d hd pkg hpkg
    have hd1 := mem_allImports d code (allFiles s) hcode hd
    refine ⟨?_, mem_idsOf _ d hd1 pkg _ hpkg⟩
    simp only [importPackage]
    cases hp : d.Package with
    | none => exact hpkg
    | some p =>
      simp only [packages, List.mem_append]
      exact Or.inr (mem_namedPackages d p hp _ hd1)
  refine ⟨?_, ?_⟩
  · intro p md hp
    have hmem : md ∈ s.modules := List.mem_iff_getElem?.mpr ⟨p, hp⟩
    refine ⟨?_, key _ ?_⟩
    · simp only [packages, List.mem_append]
      exact Or.inl (List.mem_map_of_mem _ hmem)
    · simp only [allFiles, List.mem_append]
      exact Or.inl (List.mem_map_of_mem _ hmem)
  · intro path code hf
    apply key
    simp only [allFiles, List.mem_append]
    exact Or.inr (mapGet_mem path code _ hf)

/-- With more fuel than `workBound`, the compilation of a module is not cut off. -/
theorem compile_halts (s : Compiler) (m fuel : Nat) (h : workBound s < fuel) :
    (Module.compile fuel m s).fault ≠ some .diverges :=
  ((safe_compile (moduleIds s) (packages s) fuel (workBound s) h m).run s
    ⟨closed_moduleIds s, le_refl _⟩).2

/-! ## The bound on nested compilations does not change a completed run -/

theorem extends_refl {α : Type} (x : M α) : Extends x x := fun _ _ => rfl

theorem extends_bind {α β : Type} {x : M α} {f g : α → M β}
    (hf : ∀ a, Extends (g a) (f a)) : Extends (x >>= g) (x >>= f) := by
  intro s h
  simp only [bind_apply] at h ⊢
  cases hx : x s with
  | ok a s1 =>
    rw [hx] at h
    exact hf a s1 h
  | fail e s1 => rfl

theorem extends_bind_left {α β : Type} {x y : M α} {f g : α → M β} (hx : Extends y x)
    (hf : ∀ a, Extends (g a) (f a)) : Extends (y >>= g) (x >>= f) := by
  intro s h
  simp only [bind_apply] at h ⊢
  cases hxs : x s with
  | ok a s1 =>
    rw [hxs] at h
    rw [hx s (by simp [hxs, Res.fault]), hxs]
    exact hf a s1 h
  | fail e s1 =>
    rw [hxs] at h
    rw [hx s (by rw [hxs]; exact h), hxs]

theorem compileImportDecl_extends (rec1 rec2 : Nat → M Unit)
    (hrec : ∀ p, Extends (rec2 p) (rec1 p)) (m : Nat) (node : ast.ImportDecl) :
    Extends (compileImportDecl rec2 m node) (compileImportDecl rec1 m node) := by
  unfold compileImportDecl
  repeat' first
    | exact hrec _
    | apply extends_bind
    | intro _

theorem preCompileBody_extends (rec1 rec2 : Nat → M Unit)
    (hrec : ∀ p, Extends (rec2 p) (rec1 p)) (m : Nat) :
    ∀ (l : List ast.Stmt), Extends (preCompileBody rec2 m l) (preCompileBody rec1 m l)
  | [] => by
    simp only [preCompileBody]
    exact extends_refl _
  | stmt :: more => by
    have ih := preCompileBody_extends rec1 rec2 hrec m more
    simp only [preCompileBody]
    cases stmt.Node <;> simp only <;>
      repeat' first
        | exact ih
        | exact extends_bind_left (compileImportDecl_extends rec1 rec2 hrec m _) (fun _ => ih)
        | apply extends_bind
        | intro _

theorem preCompile_extends (rec1 rec2 : Nat → M Unit)
    (hrec : ∀ p, Extends (rec2 p) (rec1 p)) (m : Nat) :
    Extends (preCompile rec2 m) (preCompile rec1 m) := by
  unfold preCompile
  exact extends_bind (fun _ => extends_bind (fun _ => preCompileBody_extends rec1 rec2 hrec m _))

/-- One more unit of fuel does not change a run that was not cut off. -/
theorem compile_extends_succ : ∀ (fuel m : Nat),
    Extends (Module.compile (fuel + 1) m) (Module.compile fuel m)
  | 0, m => by
    intro s h
    simp [Module.compile, Res.fault] at h
  | fuel + 1, m => by
    intro s h
    rw [compile_succ] at h
    rw [compile_succ (fuel + 1), compile_succ fuel]
    cases hm : s.modules[m]? with
    | none => rfl
    | some md =>
      rw [hm] at h
      simp only at h ⊢
      by_cases hc : md.compiled = true
      · simp only [hc, if_true]
      · have hcf : md.compiled = false := by simpa using hc
        simp only [hcf, Bool.false_eq_true, if_false] at h ⊢
        exact extends_bind_left
          (preCompile_extends _ _ (fun p => compile_extends_succ fuel p) m)
          (fun _ => extends_refl _) _ h

/-- More fuel does not change a run that was not cut off. -/
theorem compile_extends (fuel m : Nat) : ∀ (k : Nat),
    Extends (Module.compile (fuel + k) m) (Module.compile fuel m)
  | 0 => extends_refl _
  | k + 1 => by
    intro s h
    have h1 := compile_extends fuel m k s h
    have h2 := compile_extends_succ (fuel + k) m s (by rw [h1]; exact h)
    rw [← h1, ← h2]
    rfl

/-- With more fuel than `workBound`, the run is the one with `workBound + 1`. -/
theorem compile_stable (s : Compiler) (m fuel : Nat) (h : workBound s < fuel) :
    Module.compile fuel m s = Module.compile (workBound s + 1) m s := by
  obtain ⟨k, rfl⟩ : ∃ k, fuel = workBound s + 1 + k := ⟨fuel - (workBound s + 1), by omega⟩
  exact compile_extends (workBound s + 1) m k s (compile_halts s m _ (by omega))

/-! ## Registration before compilation, and cyclic imports -/

/-- The import of a cached module whose compilation has started only binds the name. -/
theorem compileImportDecl_started (fuel m : Nat) (node : ast.ImportDecl) (s : Compiler)
    (md : Module) (loc : ast.Identifier) (p : Nat) (mp : Module)
    (hm : s.modules[m]? = some md) (hl : importLocal node = some loc)
    (hc : mapGet s.Modules (importModuleId md.packageName node) = some p)
    (hp : s.modules[p]? = some mp) (hcp : mp.compiled = true) :
    compileImportDecl (Module.compile (fuel + 1)) m node s
      = putValue m loc (.Module ⟨loc.Name, p⟩) true s := by
  rw [compileImportDecl_cases, hm]
  simp only [hl, hc, bind_apply]
  have hso := (putValue_scopesOnly m loc (.Module ⟨loc.Name, p⟩) true).run s
  cases hput : putValue m loc (.Module ⟨loc.Name, p⟩) true s with
  | fail e s1 => rfl
  | ok u sC =>
    rw [hput] at hso
    simp only [Res.state] at hso
    simp only
    have hstarted : ∃ mq, sC.modules[p]? = some mq ∧ mq.compiled = true := by
      by_cases hpm : p = m
      · subst hpm
        obtain ⟨md1, h1, _, _, _, e4, _⟩ := hso.2.2.2.2.2 mp hp
        exact ⟨md1, h1, by rw [e4]; exact hcp⟩
      · exact ⟨mp, by rw [hso.2.2.2.2.1 p hpm]; exact hp, hcp⟩
    obtain ⟨mq, hq, hcq⟩ := hstarted
    exact compile_started fuel p sC mq hq hcq

/-- On a cache miss the module is registered, not yet compiled, when `compile` is
invoked on it. -/
theorem compileImportDecl_miss (compile : Nat → M Unit) (m : Nat) (node : ast.ImportDecl)
    (s : Compiler) (md : Module) (loc : ast.Identifier) (code : ast.File)
    (hm : s.modules[m]? = some md) (hl : importLocal node = some loc)
    (hc : mapGet s.Modules (importModuleId md.packageName node) = none)
    (hf : mapGet s.VirtualFS.files (importPath s.VirtualFS.Root md.packageName node)
      = some code) :
    compileImportDecl compile m node s =
      (putValue m loc (.Module ⟨loc.Name, s.modules.length⟩) true >>= fun _ =>
        compile s.modules.length)
        (registered s (importPath s.VirtualFS.Root md.packageName node) code
          (importPackage md.packageName node) (importModuleId md.packageName node)) ∧
    ∀ sC, putValue m loc (.Module ⟨loc.Name, s.modules.length⟩) true
        (registered s (importPath s.VirtualFS.Root md.packageName node) code
          (importPackage md.packageName node) (importModuleId md.packageName node))
          = .ok () sC →
      compileImportDecl compile m node s = compile s.modules.length sC ∧
      mapGet sC.Modules (importModuleId md.packageName node) = some s.modules.length ∧
      sC.modules[s.modules.length]? = some (freshModule code
        (importPackage md.packageName node) (importModuleId md.packageName node)) := by
  have hcases : compileImportDecl compile m node s =
      (putValue m loc (.Module ⟨loc.Name, s.modules.length⟩) true >>= fun _ =>
        compile s.modules.length)
        (registered s (importPath s.VirtualFS.Root md.packageName node) code
          (importPackage md.packageName node) (importModuleId md.packageName node)) := by
    rw [compileImportDecl_cases, hm]
    simp only [hl, hc, hf]
  refine ⟨hcases, ?_⟩
  intro sC hput
  have hso := (putValue_scopesOnly m loc (.Module ⟨loc.Name, s.modules.length⟩) true).run
    (registered s (importPath s.VirtualFS.Root md.packageName node) code
      (importPackage md.packageName node) (importModuleId md.packageName node))
  rw [hput] at hso
  simp only [Res.state] at hso
  have hlt := lt_of_getElem?_some hm
  refine ⟨?_, ?_, ?_⟩
  · rw [hcases]
    simp only [bind_apply, hput]
  · rw [hso.1]
    simp [registered, mapGet_mapSet_self]
  · rw [hso.2.2.2.2.1 s.modules.length (by omega)]
    simp [registered]

/-- C10: on a cache miss `compileImportDecl` has registered the newly constructed
module in the cache, not yet compiled, at the moment it invokes the module's
compilation, whatever that compilation does; an import of a cached module whose
compilation has started only binds the local name and compiles nothing; and as a
result the compilation of any module graph, cyclic or not, terminates: with more
fuel than `workBound` gives, `Module.compile` is never cut off, and its result no
longer depends on the fuel. -/
theorem import_registers_before_compile :
    (∀ (compile : Nat → M Unit) (m : Nat) (node : ast.ImportDecl) (s sC : Compiler)
        (md : Module) (loc : ast.Identifier) (code : ast.File),
      s.modules[m]? = some md → importLocal node = some loc →
      mapGet s.Modules (importModuleId md.packageName node) = none →
      mapGet s.VirtualFS.files (importPath s.VirtualFS.Root md.packageName node) = some code →
      putValue m loc (.Module ⟨loc.Name, s.modules.length⟩) true
        (registered s (importPath s.VirtualFS.Root md.packageName node) code
          (importPackage md.packageName node) (importModuleId md.packageName node))
          = .ok () sC →
      compileImportDecl compile m node s = compile s.modules.length sC ∧
      mapGet sC.Modules (importModuleId md.packageName node) = some s.modules.length ∧
      sC.modules[s.modules.length]? = some (freshModule code
        (importPackage md.packageName node) (importModuleId md.packageName node))) ∧
    (∀ (fuel m : Nat) (node : ast.ImportDecl) (s : Compiler) (md : Module)
        (loc : ast.Identifier) (p : Nat) (mp : Module),
      s.modules[m]? = some md → importLocal node = some loc →
      mapGet s.Modules (importModuleId md.packageName node) = some p →
      s.modules[p]? = some mp → mp.compiled = true →
      compileImportDecl (Module.compile (fuel + 1)) m node s
        = putValue m loc (.Module ⟨loc.Name, p⟩) true s) ∧
    (∀ (s : Compiler) (m fuel : Nat), workBound s < fuel →
      (Module.compile fuel m s).fault ≠ some .diverges ∧
      Module.compile fuel m s = Module.compile (workBound s + 1) m s) :=
  ⟨fun compile m node s sC md loc code hm hl hc hf hput =>
      (compileImportDecl_miss compile m node s md loc code hm hl hc hf).2 sC hput,
    fun fuel m node s md loc p mp hm hl hc hp hcp =>
      compileImportDecl_started fuel m node s md loc p mp hm hl hc hp hcp,
    fun s m fuel h => ⟨compile_halts s m fuel h, compile_stable s m fuel h⟩⟩

theorem ringOuter_module : ringOuter.modules[0]? = some
    ((ringOuter.modules[0]?).getD mainModule) :=
  eq_some_getD (o := ringOuter.modules[0]?) mainModule (by decide!)

theorem ringInner_module : ringInner.modules[1]? = some
    ((ringInner.modules[1]?).getD mainModule) :=
  eq_some_getD (o := ringInner.modules[1]?) mainModule (by decide!)

theorem ringInner_target : ringInner.modules[0]? = some
    ((ringInner.modules[0]?).getD mainModule) :=
  eq_some_getD (o := ringInner.modules[0]?) mainModule (by decide!)

theorem ringOuter_file : mapGet ringOuter.VirtualFS.files
    (importPath ringOuter.VirtualFS.Root ((ringOuter.modules[0]?).getD mainModule).packageName
      (importB)) = some ⟨[.mk (.ImportDecl importA) 0]⟩ := by
  rfl

/-- The cycle `a` imports `b`, `b` imports `a`: as `a` processes `import b`, module `b`
is registered and uncompiled when its compilation is invoked; as `b` processes
`import a`, the import only binds `a`; and compiling `a` from the start with
fuel 3 is not cut off. -/
theorem import_registers_before_compile_witness :
    (∀ sC, putValue 0 ⟨"b", 7⟩ (.Module ⟨"b", 1⟩) true
        (registered ringOuter "root/b.noah" ⟨[.mk (.ImportDecl importA) 0]⟩ "" ":b")
          = .ok () sC →
      compileImportDecl (Module.compile 2) 0 importB ringOuter = Module.compile 2 1 sC ∧
      mapGet sC.Modules ":b" = some 1 ∧
      sC.modules[1]? = some (freshModule ⟨[.mk (.ImportDecl importA) 0]⟩ "" ":b")) ∧
    compileImportDecl (Module.compile 1) 1 importA ringInner
      = putValue 1 ⟨"a", 7⟩ (.Module ⟨"a", 0⟩) true ringInner ∧
    ((Module.compile 3 0 ringEntry).fault ≠ some .diverges ∧
      Module.compile 3 0 ringEntry = Module.compile (workBound ringEntry + 1) 0 ringEntry) :=
  ⟨fun sC hput => import_registers_before_compile.1 (Module.compile 2) 0 importB ringOuter sC
      _ ⟨"b", 7⟩ ⟨[.mk (.ImportDecl importA) 0]⟩ ringOuter_module (by decide!) (by decide!)
      ringOuter_file hput,
    (import_registers_before_compile.2.1 0 1 importA ringInner _ ⟨"a", 7⟩ 0 _
      ringInner_module (by decide!) (by decide!) ringInner_target (by decide!)),
    (import_registers_before_compile.2.2 ringEntry 0 3 (by decide!))⟩

/-! ## The module identifier of an import -/

theorem intercalate_go_names : ∀ (l : List ast.Identifier) (acc : String) (x : ast.Identifier),
    String.intercalate.go (acc ++ x.Name) "/" (l.map (fun i => i.Name))
      = acc ++ buildPathId (x :: l)
  | [], acc, x => by simp [String.intercalate.go, buildPathId]
  | y :: l, acc, x => by
    have ih := intercalate_go_names l (acc ++ x.Name ++ "/") y
    simp only [List.map_cons, String.intercalate.go, buildPathId]
    rw [ih]
    simp only [String.append_assoc]

/-- The `strings.Builder` loop joins the segment names with `/`. -/
theorem buildPathId_eq_intercalate (l : List ast.Identifier) :
    buildPathId l = "/".intercalate (l.map (fun i => i.Name)) := by
  cases l with
  | nil => rfl
  | cons x l =>
    have h := intercalate_go_names l "" x
    simp only [String.empty_append] at h
    simp only [List.map_cons, String.intercalate]
    exact h.symm

/-- C11, amended: for an import declaration with a non-empty path list, processed in
the module `md`, `compileImportDecl` is the import of the module identifier
`packageName + ":" + names joined by "/"`, where `packageName` is the explicitly
named package if one is given and the package name of the importing module
otherwise, bound under the explicit alias if given and under the last path
segment otherwise. -/
theorem compileImportDecl_moduleId (compile : Nat → M Unit) (m : Nat) (node : ast.ImportDecl)
    (s : Compiler) (md : Module) (hm : s.modules[m]? = some md) (hp : node.Paths ≠ []) :
    compileImportDecl compile m node s =
      (importAs compile m
        (match node.Package with
          | some p => p.Name
          | none => md.packageName)
        (pathNames node)
        (match node.Local with
          | some l => l
          | none => node.Paths.getLast hp)) s := by
  simp only [compileImportDecl, importAs, pathNames, bind_apply, getModule_apply, hm,
    buildPathId_eq_intercalate, List.getLast?_eq_getLast _ hp]
  cases node.Local <;> rfl

theorem libStore_module : libStore.modules[0]? = some ((libStore.modules[0]?).getD mainModule) :=
  eq_some_getD (o := libStore.modules[0]?) mainModule (by decide!)

/-- C11, amended, at `import a` processed in a module of the package `lib`: the identifier
is `lib:a`. -/
theorem compileImportDecl_moduleId_witness :
    compileImportDecl (Module.compile 1) 0 importA libStore =
      (importAs (Module.compile 1) 0 "lib" ["a"] ⟨"a", 7⟩) libStore :=
  compileImportDecl_moduleId (Module.compile 1) 0 importA libStore _ libStore_module
    (List.cons_ne_nil _ _)

/-- C11 as stated fails at `import a` processed in a module of the package `lib`: it
is not the import of `:a` (which the cache does not know and no file provides)
but completes, as the import of the cached `lib:a`. -/
theorem compileImportDecl_moduleId_current :
    (compileImportDecl (Module.compile 1) 0 importA libStore).fault = none ∧
    (importAs (Module.compile 1) 0 "" ["a"] ⟨"a", 7⟩ libStore).fault
      = some (.readError "root/a.noah") ∧
    (importAs (Module.compile 1) 0 "lib" ["a"] ⟨"a", 7⟩ libStore).fault = none := by
  decide!

/-! ## Module identifiers are injective on well-formed imports -/

theorem buildPathId_data : ∀ (l : List ast.Identifier),
    (buildPathId l).data = ['/'].intercalate (l.map (fun i => i.Name.data))
  | [] => by simp [buildPathId, List.intercalate]
  | [x] => by simp [buildPathId, List.intercalate]
  | x :: y :: l => by
    have ih := buildPathId_data (y :: l)
    simp only [buildPathId, String.data_append, ih]
    simp [List.intercalate, List.intersperse]

theorem map_data_injective : ∀ (a b : List String),
    a.map (fun n => n.data) = b.map (fun n => n.data) → a = b
  | [], [], _ => rfl
  | [], _ :: _, h => by simp at h
  | _ :: _, [], h => by simp at h
  | x :: a, y :: b, h => by
    simp only [List.map_cons, List.cons.injEq] at h
    rw [String.ext h.1, map_data_injective a b h.2]

/-- A list is cut in one way only at the first occurrence of `a`. -/
theorem append_cons_inj_first {α : Type} (a : α) : ∀ (x₁ x₂ z₁ z₂ : List α),
    a ∉ x₁ → a ∉ x₂ → x₁ ++ a :: z₁ = x₂ ++ a :: z₂ → x₁ = x₂ ∧ z₁ = z₂
  | [], [], z₁, z₂, _, _, h => by
    simp only [List.nil_append, List.cons.injEq, true_and] at h
    exact ⟨rfl, h⟩
  | [], b :: x₂, z₁, z₂, _, h2, h => by
    simp only [List.nil_append, List.cons_append, List.cons.injEq] at h
    exact absurd (by rw [h.1]; exact List.mem_cons_self _ _) h2
  | b :: x₁, [], z₁, z₂, h1, _, h => by
    simp only [List.nil_append, List.cons_append, List.cons.injEq] at h
    exact absurd (by rw [← h.1]; exact List.mem_cons_self _ _) h1
  | b :: x₁, c :: x₂, z₁, z₂, h1, h2, h => by
    simp only [List.cons_append, List.cons.injEq] at h
    obtain ⟨ih1, ih2⟩ := append_cons_inj_first a x₁ x₂ z₁ z₂
      (fun hm => h1 (List.mem_cons_of_mem _ hm)) (fun hm => h2 (List.mem_cons_of_mem _ hm)) h.2
    exact ⟨by rw [h.1, ih1], ih2⟩

/-- C19: two imports with non-empty path lists whose package names contain no `:`
and whose path segment names contain no `/` have the same module identifier
only if they have the same package name and the same path segment names. -/
theorem importModuleId_injective (pkgA pkgB : String) (nodeA nodeB : ast.ImportDecl)
    (hpA : nodeA.Paths ≠ []) (hpB : nodeB.Paths ≠ [])
    (hcA : ':' ∉ (importPackage pkgA nodeA).data) (hcB : ':' ∉ (importPackage pkgB nodeB).data)
    (hsA : ∀ n, n ∈ pathNames nodeA → '/' ∉ n.data)
    (hsB : ∀ n, n ∈ pathNames nodeB → '/' ∉ n.data)
    (h : importModuleId pkgA nodeA = importModuleId pkgB nodeB) :
    (importPackage pkgA nodeA = importPackage pkgB nodeB) ∧
      pathNames nodeA = pathNames nodeB := by
  have hd := congrArg String.data h
  simp only [importModuleId, String.data_append, List.append_assoc] at hd
  obtain ⟨hpkg, hpath⟩ := append_cons_inj_first ':' _ _ _ _ hcA hcB hd
  refine ⟨String.ext hpkg, ?_⟩
  rw [buildPathId_data, buildPathId_data] at hpath
  have hA := List.splitOn_intercalate (nodeA.Paths.map (fun i => i.Name.data)) '/'
    (by
      intro l hl
      simp only [List.mem_map] at hl
      obtain ⟨i, hi, rfl⟩ := hl
      exact hsA i.Name (List.mem_map_of_mem _ hi))
    (by simpa using hpA)
  have hB := List.splitOn_intercalate (nodeB.Paths.map (fun i => i.Name.data)) '/'
    (by
      intro l hl
      simp only [List.mem_map] at hl
      obtain ⟨i, hi, rfl⟩ := hl
      exact hsB i.Name (List.mem_map_of_mem _ hi))
    (by simpa using hpB)
  have hpath1 : ['/'].intercalate (nodeA.Paths.map (fun i => i.Name.data))
      = ['/'].intercalate (nodeB.Paths.map (fun i => i.Name.data)) := hpath
  rw [hpath1, hB] at hA
  apply map_data_injective
  simp only [pathNames, List.map_map]
  exact hA.symm

/-- C19 at `import a/b` and `import a/b as x` of the current package. -/
theorem importModuleId_injective_witness :
    (importPackage "" ⟨[⟨"a", 7⟩, ⟨"b", 9⟩], none, none⟩
      = importPackage "" ⟨[⟨"a", 20⟩, ⟨"b", 22⟩], some ⟨"x", 27⟩, none⟩) ∧
    pathNames ⟨[⟨"a", 7⟩, ⟨"b", 9⟩], none, none⟩
      = pathNames ⟨[⟨"a", 20⟩, ⟨"b", 22⟩], some ⟨"x", 27⟩, none⟩ :=
  (importModuleId_injective "" "" ⟨[⟨"a", 7⟩, ⟨"b", 9⟩], none, none⟩
    ⟨[⟨"a", 20⟩, ⟨"b", 22⟩], some ⟨"x", 27⟩, none⟩ (List.cons_ne_nil _ _) (List.cons_ne_nil _ _)
    (by decide) (by decide) (by decide) (by decide) (by decide))

/-! ## Type inference of literals -/

/-- C17: `inferKind` stores in the memo slot of a number, bool, string or char literal
whose slot is empty the Number, Bool, String or Char kind; a second call returns
the same kind as the first and leaves the node as the first call left it; a
node whose slot is set is returned as it is; and the call changes nothing of
the node but the slot. -/
theorem inferKind_memo (e : ast.Expr) :
    (∀ k, e.InferKind = none → literalKind e.Node = some k → (inferKind e).InferKind = some k) ∧
    inferKind (inferKind e) = inferKind e ∧
    (inferKind (inferKind e)).InferKind = (inferKind e).InferKind ∧
    (∀ k, e.InferKind = some k → inferKind e = e) ∧
    (inferKind e).Node = e.Node ∧ (inferKind e).Start = e.Start := by
  obtain ⟨node, start, memo⟩ := e
  cases memo with
  | some k0 =>
    refine ⟨?_, rfl, rfl, ?_, rfl, rfl⟩
    · intro k h
      simp [ast.Expr.InferKind] at h
    · intro k _
      rfl
  | none =>
    cases node <;>
      simp [inferKind, literalKind, ast.Expr.InferKind, ast.Expr.Node, ast.Expr.Start]

/-! ## Primitive type expressions -/

theorem getElem?_append_length {α : Type} (l : List α) (a : α) : (l ++ [a])[l.length]? = some a := by
  simp

/-- C18: for a primitive type expression (Number, Byte, Char, String, Bool, Any) whose
variant is `k`: `compileKindExpr` returns a new cell holding `k`; another
primitive type expression gives another variant; resolving the expression twice
gives two cells that `compareKind(_, _, true)` finds equal; and the nil
expression gives a new cell holding no kind. -/
theorem compileKindExpr_primitive (m : Nat) (node : ast.KindNode) (pos pos2 : Nat) (k : Kind)
    (s : Compiler) (hk : primitiveKind node = some k) :
    compileKindExpr m (some (.mk node pos)) s
      = .ok s.kinds.length (filled (allocated s) s.kinds.length k) ∧
    (filled (allocated s) s.kinds.length k).kinds[s.kinds.length]? = some (some k) ∧
    (∀ node2 k2 i j, primitiveKind node2 = some k2 → node2 ≠ node →
      k2.setImpl i ≠ k.setImpl j) ∧
    ((compileKindExpr m (some (.mk node pos)) >>= fun r1 =>
        compileKindExpr m (some (.mk node pos2)) >>= fun r2 => compareKind r1 r2 true) s).val
      = some true ∧
    compileKindExpr m none s = .ok s.kinds.length (allocated s) ∧
    (allocated s).kinds[s.kinds.length]? = some none := by
  have hrun : ∀ (p : Nat) (t : Compiler), compileKindExpr m (some (.mk node p)) t
      = .ok t.kinds.length (filled (allocated t) t.kinds.length k) := by
    intro p t
    cases node <;> simp [primitiveKind] at hk <;> subst hk <;>
      simp [compileKindExpr, compileKindExprNode]
  refine ⟨hrun pos s, ?_, ?_, ?_, rfl, ?_⟩
  · rw [filled_allocated_kinds]
    simp
  · intro node2 k2 i j hk2 hne
    cases node <;> simp [primitiveKind] at hk <;> subst hk <;>
      cases node2 <;> simp [primitiveKind] at hk2 hne <;> subst hk2 <;>
      simp [Kind.setImpl]
  · simp only [bind_apply, hrun, compareKind, Res.val, Option.some.injEq]
    have hk1 : (filled (allocated (filled (allocated s) s.kinds.length k))
        (filled (allocated s) s.kinds.length k).kinds.length k).kinds
        = s.kinds ++ [some k] ++ [some k] := by
      rw [filled_allocated_kinds, filled_allocated_kinds]
    rw [hk1, filled_allocated_kinds]
    have h1 : (s.kinds ++ [some k] ++ [some k])[s.kinds.length]? = some (some k) := by
      rw [List.append_assoc, List.getElem?_append_right (le_refl _)]
      simp
    have h2 : (s.kinds ++ [some k] ++ [some k])[(s.kinds ++ [some k]).length]? = some (some k) :=
      getElem?_append_length _ _
    simp only [compareDepth, compareKindFuel, h1, h2]
    cases node <;> simp [primitiveKind] at hk <;> subst hk <;> rfl
  · simp [allocated]

/-- C18 at the type expression `String`. -/
theorem compileKindExpr_primitive_witness :
    compileKindExpr 0 (some stringExpr) exampleStore
      = .ok exampleStore.kinds.length
        (filled (allocated exampleStore) exampleStore.kinds.length (.TString [])) ∧
    (filled (allocated exampleStore) exampleStore.kinds.length (.TString [])).kinds[
      exampleStore.kinds.length]? = some (some (.TString [])) ∧
    (∀ node2 k2 i j, primitiveKind node2 = some k2 →
      node2 ≠ .TString → k2.setImpl i ≠ (Kind.TString []).setImpl j) ∧
    ((compileKindExpr 0 (some stringExpr) >>= fun r1 =>
        compileKindExpr 0 (some (.mk .TString 40)) >>= fun r2 =>
          compareKind r1 r2 true) exampleStore).val = some true ∧
    compileKindExpr 0 none exampleStore = .ok exampleStore.kinds.length (allocated exampleStore) ∧
    (allocated exampleStore).kinds[exampleStore.kinds.length]? = some none :=
  compileKindExpr_primitive 0 .TString _ 40 (.TString []) exampleStore rfl

/-! ## The diagnostics of the interface position of an impl block -/

/-- A message that begins with `p` differs from a message `q` that does not. -/
theorem append_ne_of_take (p q x : String) (h : q.data.take p.data.length ≠ p.data) :
    p ++ x ≠ q := by
  intro he
  apply h
  rw [← he, String.data_append]
  simp

/-- An impl block up to the resolution of its declared interface expression. -/
theorem compileImplDecl_reaches_iface (m : Nat) (target iface : ast.KindExpr)
    (body : List ast.Stmt) (s s1 s3 s4 : Compiler) (md : Module) (tref t : KindRef)
    (tk ik : Option Kind) (vals : List (String × FuncValue)) (decls : List (String × ast.Stmt))
    (h_target : compileKindExpr m (some target) s = .ok tref s1)
    (h_module : s1.modules[m]? = some md)
    (h_tk : s1.kinds[tref]? = some tk) (h_legal : legalTarget tk)
    (h_body : compileImplBody m tref true body [] [] (implScope s1 m md tref)
      = .ok (vals, decls) s3)
    (h_iface : compileKindExpr m (some iface) s3 = .ok t s4)
    (h_kind : s4.kinds[t]? = some ik) :
    compileImplDecl m target (some iface) body true s
      = match ik with
        | some (.TInterface props refers) =>
          (checkImplMethods target.Start vals decls props >>= fun _ => scopesPop m)
            (filled s4 t (.TInterface props (refers ++ [tref])))
        | _ => .fail (.compileError iface.Start ("Cannot found: " ++ getKindExprId iface)) s4 := by
  have hpush := implScope_run m tref s1 md h_module
  simp only [bind_apply] at hpush
  have htk2 : (implScope s1 m md tref).kinds[tref]? = some tk := h_tk
  simp only [compileImplDecl, bind_apply, h_target]
  cases hp : scopesPush m s1 with
  | fail f sx => rw [hp] at hpush; simp at hpush
  | ok u sx =>
    rw [hp] at hpush
    simp only at hpush
    simp only [hpush, getRef_apply, htk2]
    obtain ⟨h1, h2, h3⟩ := h_legal
    rcases tk with _ | k
    · simp only [pure_apply, bind_apply, h_body, h_iface, getRef_apply, h_kind, ↓reduceIte]
      rcases ik with _ | k2
      · rfl
      · cases k2 <;> rfl
    · cases k with
      | TInterface p r => exact absurd rfl (h1 p r)
      | TAny => exact absurd rfl h2
      | TSelf r => exact absurd rfl (h3 r)
      | _ =>
        simp only [pure_apply, bind_apply, h_body, h_iface, getRef_apply, h_kind, ↓reduceIte]
        rcases ik with _ | k2
        · rfl
        · cases k2 <;> rfl

/-- C20, what the code does: for an impl block (precompile pass) whose target is legal,
whose methods register and whose declared interface expression resolves to a
cell that does not hold an interface, for example one that holds a struct or
an alias, the run stops with the diagnostic "Cannot found: <name>" at the
interface expression; "Expect be an interface type" is not reported. -/
theorem compileImplDecl_not_interface (m : Nat) (target iface : ast.KindExpr)
    (body : List ast.Stmt) (s s1 s3 s4 : Compiler) (md : Module) (tref t : KindRef)
    (tk ik : Option Kind) (vals : List (String × FuncValue)) (decls : List (String × ast.Stmt))
    (h_target : compileKindExpr m (some target) s = .ok tref s1)
    (h_module : s1.modules[m]? = some md)
    (h_tk : s1.kinds[tref]? = some tk) (h_legal : legalTarget tk)
    (h_body : compileImplBody m tref true body [] [] (implScope s1 m md tref)
      = .ok (vals, decls) s3)
    (h_iface : compileKindExpr m (some iface) s3 = .ok t s4)
    (h_kind : s4.kinds[t]? = some ik)
    (h_not : ∀ props refers, ik ≠ some (.TInterface props refers)) :
    compileImplDecl m target (some iface) body true s
      = .fail (.compileError iface.Start ("Cannot found: " ++ getKindExprId iface)) s4 ∧
    (compileImplDecl m target (some iface) body true s).fault
      ≠ some (.compileError iface.Start "Expect be an interface type") := by
  have hrun := compileImplDecl_reaches_iface m target iface body s s1 s3 s4 md tref t tk ik vals
    decls h_target h_module h_tk h_legal h_body h_iface h_kind
  have hfail : compileImplDecl m target (some iface) body true s
      = .fail (.compileError iface.Start ("Cannot found: " ++ getKindExprId iface)) s4 := by
    rw [hrun]
    rcases ik with _ | k2
    · rfl
    · cases k2 with
      | TInterface p r => exact absurd rfl (h_not p r)
      | _ => rfl
  refine ⟨hfail, ?_⟩
  rw [hfail]
  simp only [Res.fault, ne_eq, Option.some.injEq, Fault.compileError.injEq, true_and]
  exact append_ne_of_take _ _ _ (by decide)

theorem circleIface_resolves :
    compileKindExpr 0 (some circleIface) (circleMethods []).state = .ok 4 circleIfaceStore :=
  Res.eq_ok_of_val (r := compileKindExpr 0 (some circleIface) (circleMethods []).state)
    (by decide!)

/-- C20 at `impl Circle for Circle {}`, where `Circle` is a struct: the diagnostic is
"Cannot found: Circle" at the interface expression. -/
theorem compileImplDecl_not_interface_witness :
    compileImplDecl 0 circleExpr (some circleIface) [] true shapesStore
      = .fail (.compileError circleIface.Start ("Cannot found: " ++ getKindExprId circleIface))
          circleIfaceStore ∧
    (compileImplDecl 0 circleExpr (some circleIface) [] true shapesStore).fault
      ≠ some (.compileError circleIface.Start "Expect be an interface type") :=
  compileImplDecl_not_interface 0 circleExpr circleIface [] shapesStore circleStore
    (circleMethods []).state circleIfaceStore circleModule 4 4
    (some (.TStruct [] [("r", 5)] [])) (some (.TStruct [] [("r", 5)] []))
    (circleValues []) (circleDecls [])
    circle_target circle_module circle_kind (legalTarget_struct _ _ _)
    (circle_methods _ (by decide!)) circleIface_resolves (by decide!)
    (by intro p r; simp)

/-! ## What follows the target check of an impl block reports no illegal target -/

set_option linter.unusedTactic false
set_option linter.unreachableTactic false

/-- A message that begins with a text of eight characters or more other than
`Cannot i...` is not an illegal-target message. -/
theorem quiet_msg (p x : String) (h : 8 ≤ p.data.length)
    (hp : p.data.take 8 ≠ "Cannot i".data) : (p ++ x).data.take 8 ≠ "Cannot i".data := by
  rw [String.data_append, List.take_append_of_le_length h]
  exact hp

theorem quiet_pure {α : Type} (a : α) : Quiet (pure a : M α) :=
  ⟨fun s pos msg h => by simp [Res.fault] at h⟩

theorem quiet_abort {α : Type} (f : Fault)
    (h : ∀ pos msg, f = .compileError pos msg → msg.data.take 8 ≠ "Cannot i".data) :
    Quiet (abort f : M α) :=
  ⟨fun s pos msg hf => h pos msg (by simpa [Res.fault] using hf)⟩

theorem quiet_unexpectedPos (pos : Nat) (msg : String)
    (h : msg.data.take 8 ≠ "Cannot i".data) : Quiet (unexpectedPos pos msg) :=
  quiet_abort _ (fun p q hq => by
    simp only [Fault.compileError.injEq] at hq
    rw [← hq.2]
    exact h)

theorem quiet_bind {α β : Type} {x : M α} {f : α → M β} (hx : Quiet x)
    (hf : ∀ a, Quiet (f a)) : Quiet (x >>= f) := by
  constructor
  intro s pos msg h
  have h1 := hx.run s pos msg
  simp only [bind_apply] at h
  cases hxs : x s with
  | ok a s1 =>
    rw [hxs] at h
    exact (hf a).run s1 pos msg h
  | fail e s1 =>
    rw [hxs] at h h1
    exact h1 h

theorem quiet_getModule (m : Nat) : Quiet (getModule m) := by
  constructor
  intro s pos msg h
  simp only [getModule_apply] at h
  cases hm : s.modules[m]? <;> rw [hm] at h <;> simp [Res.fault] at h

theorem quiet_setModule (m : Nat) (md : Module) : Quiet (setModule m md) :=
  ⟨fun s pos msg h => by simp [setModule, Res.fault] at h⟩

theorem quiet_getRef (r : Nat) : Quiet (getRef r) := by
  constructor
  intro s pos msg h
  simp only [getRef_apply] at h
  cases hm : s.kinds[r]? <;> rw [hm] at h <;> simp [Res.fault] at h

theorem newKindRef_quiet : Quiet newKindRef := ⟨fun s pos msg h => by simp [Res.fault] at h⟩

theorem setRef_quiet (r : Nat) (k : Kind) : Quiet (setRef r k) :=
  ⟨fun s pos msg h => by simp [Res.fault] at h⟩

theorem quiet_compareKind (a b : KindRef) (strict : Bool) : Quiet (compareKind a b strict) :=
  ⟨fun s pos msg h => by simp [compareKind, Res.fault] at h⟩

theorem quiet_findSelfKind (m pos : Nat) :
    Quiet (findSelfKind m pos) := by
  unfold findSelfKind
  repeat' first
    | exact quiet_pure _
    | exact quiet_abort _ (by intro pos msg h; cases h <;> first | decide | (simp only [String.append_assoc]; exact quiet_msg _ _ (by decide) (by decide)))
    | exact quiet_getModule _
    | apply quiet_bind
    | intro _
    | split

theorem quiet_findIdentifierKind (m : Nat)
    (name : ast.Identifier) : Quiet (findIdentifierKind m name) := by
  unfold findIdentifierKind
  repeat' first
    | exact quiet_pure _
    | exact quiet_abort _ (by intro pos msg h; cases h <;> first | decide | (simp only [String.append_assoc]; exact quiet_msg _ _ (by decide) (by decide)))
    | exact quiet_getModule _
    | apply quiet_bind
    | intro _
    | split

theorem quiet_findMemberKind (m : Nat)
    (o p : ast.Identifier) (pos : Nat) : Quiet (findMemberKind m o p pos) := by
  unfold findMemberKind
  repeat' first
    | exact quiet_pure _
    | exact quiet_abort _ (by intro pos msg h; cases h <;> first | decide | (simp only [String.append_assoc]; exact quiet_msg _ _ (by decide) (by decide)))
    | exact quiet_getModule _
    | apply quiet_bind
    | intro _
    | split

theorem quiet_findValue (m : Nat)
    (name : ast.Identifier) : Quiet (findValue m name) := by
  unfold findValue
  repeat' first
    | exact quiet_pure _
    | exact quiet_abort _ (by intro pos msg h; cases h <;> first | decide | (simp only [String.append_assoc]; exact quiet_msg _ _ (by decide) (by decide)))
    | exact quiet_getModule _
    | apply quiet_bind
    | intro _
    | split

mutual
theorem compileKindExpr_quiet (m : Nat) : ∀ (e : Option ast.KindExpr),
    Quiet (compileKindExpr m e)
  | none => by
    simp only [compileKindExpr]
    exact newKindRef_quiet
  | some e => by
    simp only [compileKindExpr]
    exact compileKindExprNode_quiet m e
theorem compileKindExprNode_quiet (m : Nat) : ∀ (e : ast.KindExpr),
    Quiet (compileKindExprNode m e)
  | .mk .TNumber start | .mk .TByte start | .mk .TChar start | .mk .TString start
  | .mk .TBool start | .mk .TAny start | .mk .TSelf start | .mk (.TIdentifier _) start
  | .mk (.TMemberKind _ _) start => by
    simp only [compileKindExprNode]
    repeat' first
      | exact quiet_pure _
      | exact newKindRef_quiet
      | exact setRef_quiet _ _
      | exact quiet_findSelfKind _ _
      | exact quiet_findIdentifierKind _ _
      | exact quiet_findMemberKind _ _ _ _
      | apply quiet_bind
      | intro _
  | .mk (.TArray t) start => by
    simp only [compileKindExprNode]
    exact quiet_bind newKindRef_quiet (fun _ => compileArrayKind_quiet m t)
  | .mk (.TFuncKind t) start => by
    simp only [compileKindExprNode]
    exact quiet_bind newKindRef_quiet (fun _ => compileFuncKind_quiet m t)
  | .mk (.TStructKind t) start => by
    simp only [compileKindExprNode]
    exact quiet_bind newKindRef_quiet
      (fun _ => compileStructKind_quiet m t)
theorem compileArrayKind_quiet (m : Nat) : ∀ (t : ast.TArray),
    Quiet (compileArrayKind m t)
  | .mk elem len => by
    have ih := compileKindExpr_quiet m elem
    simp only [compileArrayKind]
    repeat' first
      | exact quiet_pure _
      | exact quiet_abort _ (by intro pos msg h; cases h <;> first | decide | (simp only [String.append_assoc]; exact quiet_msg _ _ (by decide) (by decide)))
      | exact quiet_unexpectedPos _ _ (by first | decide | (simp only [String.append_assoc]; exact quiet_msg _ _ (by decide) (by decide)))
      | exact newKindRef_quiet
      | exact setRef_quiet _ _
      | exact ih
      | apply quiet_bind
      | intro _
      | split
theorem compileFuncKindArgs_quiet (m n : Nat) : ∀ (l : List ast.Argument) (i : Nat) (rest : Bool)
    (acc : List KindRef), Quiet (compileFuncKindArgs m n l i rest acc)
  | [], i, rest, acc => by
    simp only [compileFuncKindArgs]
    exact quiet_pure _
  | (.mk argKind argRest argStart) :: more, i, rest, acc => by
    have ih1 := compileKindExpr_quiet m argKind
    have ih2 := fun r a => compileFuncKindArgs_quiet m n more (i + 1) r a
    simp only [compileFuncKindArgs]
    repeat' first
      | exact quiet_pure _
      | exact quiet_abort _ (by intro pos msg h; cases h <;> first | decide | (simp only [String.append_assoc]; exact quiet_msg _ _ (by decide) (by decide)))
      | exact quiet_unexpectedPos _ _ (by first | decide | (simp only [String.append_assoc]; exact quiet_msg _ _ (by decide) (by decide)))
      | exact ih1
      | exact ih2 _ _
      | apply quiet_bind
      | intro _
      | split
theorem compileFuncKind_quiet (m : Nat) : ∀ (t : ast.TFuncKind),
    Quiet (compileFuncKind m t)
  | .mk args ret => by
    have ih1 := compileKindExpr_quiet m ret
    have ih2 := compileFuncKindArgs_quiet m args.length args 0 false []
    simp only [compileFuncKind]
    repeat' first
      | exact quiet_pure _
      | exact newKindRef_quiet
      | exact setRef_quiet _ _
      | exact ih1
      | exact ih2
      | apply quiet_bind
      | intro _
theorem compileStructProps_quiet (m : Nat) : ∀ (l : List ast.KindProperty)
    (props : List (String × KindRef)), Quiet (compileStructProps m l props)
  | [], props => by
    simp only [compileStructProps]
    exact quiet_pure _
  | (.mk key propKind start) :: more, props => by
    have ih1 := compileKindExpr_quiet m propKind
    have ih2 := fun p => compileStructProps_quiet m more p
    simp only [compileStructProps]
    repeat' first
      | exact quiet_pure _
      | exact quiet_unexpectedPos _ _ (by first | decide | (simp only [String.append_assoc]; exact quiet_msg _ _ (by decide) (by decide)))
      | exact ih1
      | exact ih2 _
      | apply quiet_bind
      | intro _
      | split
theorem compileStructExtends_quiet (m : Nat) : ∀ (l : List ast.KindExpr) (exts : List KindRef),
    Quiet (compileStructExtends m l exts)
  | [], exts => by
    simp only [compileStructExtends]
    exact quiet_pure _
  | item :: more, exts => by
    have ih1 := compileKindExprNode_quiet m item
    have ih2 := fun e => compileStructExtends_quiet m more e
    simp only [compileStructExtends]
    repeat' first
      | exact quiet_pure _
      | exact ih1
      | exact ih2 _
      | apply quiet_bind
      | intro _
theorem compileStructKind_quiet (m : Nat) : ∀ (t : ast.TStructKind),
    Quiet (compileStructKind m t)
  | .mk exts props => by
    have ih1 := compileStructProps_quiet m props []
    have ih2 := compileStructExtends_quiet m exts []
    simp only [compileStructKind]
    repeat' first
      | exact quiet_pure _
      | exact newKindRef_quiet
      | exact setRef_quiet _ _
      | exact ih1
      | exact ih2
      | apply quiet_bind
      | intro _
end

theorem quiet_getImplOf (t : KindRef) :
    Quiet (getImplOf t) := by
  unfold getImplOf
  repeat' first
    | exact quiet_pure _
    | exact quiet_abort _ (by intro pos msg h; cases h <;> first | decide | (simp only [String.append_assoc]; exact quiet_msg _ _ (by decide) (by decide)))
    | exact quiet_getRef _
    | apply quiet_bind
    | intro _
    | split

theorem compileFuncDecl_method_quiet (m : Nat) (d : ast.FuncDecl) (t : KindRef) (b : Bool) :
    Quiet (compileFuncDecl m d (some t) b) := by
  unfold compileFuncDecl
  repeat' first
    | exact quiet_pure _
    | exact quiet_abort _ (by intro pos msg h; cases h <;> first | decide | (simp only [String.append_assoc]; exact quiet_msg _ _ (by decide) (by decide)))
    | exact quiet_unexpectedPos _ _ (by first | decide | (simp only [String.append_assoc]; exact quiet_msg _ _ (by decide) (by decide)))
    | exact quiet_getImplOf _
    | exact compileKindExpr_quiet _ _
    | exact setRef_quiet _ _
    | apply quiet_bind
    | intro _
    | split

theorem compileImplBody_quiet (m : Nat) (t : KindRef) (b : Bool) : ∀ (l : List ast.Stmt)
    (vals : List (String × FuncValue)) (decls : List (String × ast.Stmt)),
    Quiet (compileImplBody m t b l vals decls)
  | [], vals, decls => by
    simp only [compileImplBody]
    exact quiet_pure _
  | stmt :: more, vals, decls => by
    have ih := fun v d => compileImplBody_quiet m t b more v d
    simp only [compileImplBody]
    repeat' first
      | exact quiet_pure _
      | exact quiet_abort _ (by intro pos msg h; cases h <;> first | decide | (simp only [String.append_assoc]; exact quiet_msg _ _ (by decide) (by decide)))
      | exact compileFuncDecl_method_quiet _ _ _ _
      | exact ih _ _
      | apply quiet_bind
      | intro _
      | split

theorem scopesPop_quiet (p : Nat) : Quiet (scopesPop p) := by
  unfold scopesPop
  repeat' first
    | exact quiet_abort _ (by intro pos msg h; cases h)
    | exact quiet_getModule _
    | exact quiet_setModule _ _
    | apply quiet_bind
    | intro _
    | split

theorem checkImplMethods_quiet (pos : Nat) (vals : List (String × FuncValue)) (decls : List (String × ast.Stmt)) :
    ∀ (props : List (String × KindRef)), Quiet (checkImplMethods pos vals decls props)
  | [] => quiet_pure _
  | (key, kind) :: more => by
    have ih := checkImplMethods_quiet pos vals decls more
    simp only [checkImplMethods]
    repeat' first
      | exact quiet_pure _
      | exact quiet_abort _ (by intro pos msg h; cases h <;> first | decide | (simp only [String.append_assoc]; exact quiet_msg _ _ (by decide) (by decide)))
      | exact quiet_unexpectedPos _ _ (by first | decide | (simp only [String.append_assoc]; exact quiet_msg _ _ (by decide) (by decide)))
      | exact quiet_compareKind _ _ _
      | exact ih
      | apply quiet_bind
      | intro _
      | split


set_option linter.unusedTactic true
set_option linter.unreachableTactic true
/-! ## Illegal impl targets -/

/-- The part of `compileImplDecl` that follows the reading of the target cell: it stops
at an interface, Any or Self target with the matching diagnostic at the target
expression, and otherwise reports no illegal target. -/
theorem compileImplDecl_tail (m : Nat) (target : ast.KindExpr) (iface : Option ast.KindExpr)
    (body : List ast.Stmt) (isPrecompile : Bool) :
    ∃ K : KindRef → Option Kind → M Unit,
      compileImplDecl m target iface body isPrecompile =
        (compileKindExpr m (some target) >>= fun t => scopesPush m >>= fun _ =>
          putSelfKind m t >>= fun _ => getRef t >>= fun tk => K t tk) ∧
      (∀ t p r s, K t (some (.TInterface p r)) s
        = .fail (.compileError target.Start "Cannot implements for interface type") s) ∧
      (∀ t s, K t (some .TAny) s
        = .fail (.compileError target.Start "Cannot implements for any type") s) ∧
      (∀ t r s, K t (some (.TSelf r)) s
        = .fail (.compileError target.Start "Cannot implements for self type") s) ∧
      (∀ t tk, legalTarget tk → Quiet (K t tk)) := by
  refine ⟨_, rfl, ?_, ?_, ?_, ?_⟩
  · intro t p r s
    rfl
  · intro t s
    rfl
  · intro t r s
    rfl
  · intro t tk hlegal
    obtain ⟨h1, h2, h3⟩ := hlegal
    rcases tk with _ | k
    · simp only
      repeat' first
        | exact quiet_pure _
        | exact quiet_unexpectedPos _ _ (by first | decide | (simp only [String.append_assoc]; exact quiet_msg _ _ (by decide) (by decide)))
        | exact quiet_getRef _
        | exact setRef_quiet _ _
        | exact scopesPop_quiet _
        | exact compileKindExpr_quiet _ _
        | exact compileImplBody_quiet _ _ _ _ _ _
        | exact checkImplMethods_quiet _ _ _ _
        | apply quiet_bind
        | intro _
        | split
    · cases k with
      | TInterface p r => exact absurd rfl (h1 p r)
      | TAny => exact absurd rfl h2
      | TSelf r => exact absurd rfl (h3 r)
      | _ =>
        simp only
        repeat' first
          | exact quiet_pure _
          | exact quiet_unexpectedPos _ _ (by first | decide | (simp only [String.append_assoc]; exact quiet_msg _ _ (by decide) (by decide)))
          | exact quiet_getRef _
          | exact setRef_quiet _ _
          | exact scopesPop_quiet _
          | exact compileKindExpr_quiet _ _
          | exact compileImplBody_quiet _ _ _ _ _ _
          | exact checkImplMethods_quiet _ _ _ _
          | apply quiet_bind
          | intro _
          | split

/-- C12: for an impl declaration, in either pass, whose target type expression resolves
to the cell `tref` holding `tk`: if `tk` is an interface kind, the Any kind or
the Self kind, `compileImplDecl` stops with the compile error "Cannot implements
for interface type", "... any type" or "... self type" at the target
expression's position; if `tk` is any other kind (or no kind), the run reports
none of these errors, at any position. -/
theorem compileImplDecl_target (m : Nat) (target : ast.KindExpr) (iface : Option ast.KindExpr)
    (body : List ast.Stmt) (isPrecompile : Bool) (s s1 : Compiler) (md : Module)
    (tref : KindRef) (tk : Option Kind)
    (h_target : compileKindExpr m (some target) s = .ok tref s1)
    (h_module : s1.modules[m]? = some md)
    (h_tk : s1.kinds[tref]? = some tk) :
    (∀ p r, tk = some (.TInterface p r) →
      compileImplDecl m target iface body isPrecompile s
        = .fail (.compileError target.Start "Cannot implements for interface type")
            (implScope s1 m md tref)) ∧
    (tk = some .TAny →
      compileImplDecl m target iface body isPrecompile s
        = .fail (.compileError target.Start "Cannot implements for any type")
            (implScope s1 m md tref)) ∧
    (∀ r, tk = some (.TSelf r) →
      compileImplDecl m target iface body isPrecompile s
        = .fail (.compileError target.Start "Cannot implements for self type")
            (implScope s1 m md tref)) ∧
    (legalTarget tk → ∀ pos,
      (compileImplDecl m target iface body isPrecompile s).fault
        ≠ some (.compileError pos "Cannot implements for interface type") ∧
      (compileImplDecl m target iface body isPrecompile s).fault
        ≠ some (.compileError pos "Cannot implements for any type") ∧
      (compileImplDecl m target iface body isPrecompile s).fault
        ≠ some (.compileError pos "Cannot implements for self type")) := by
  obtain ⟨K, hK, hI, hA, hS, hQ⟩ := compileImplDecl_tail m target iface body isPrecompile
  have hpush := implScope_run m tref s1 md h_module
  have htk2 : (implScope s1 m md tref).kinds[tref]? = some tk := h_tk
  have hrun : compileImplDecl m target iface body isPrecompile s
      = K tref tk (implScope s1 m md tref) := by
    rw [hK]
    simp only [bind_apply] at hpush ⊢
    rw [h_target]
    simp only
    cases hp : scopesPush m s1 with
    | fail f sx => rw [hp] at hpush; simp at hpush
    | ok u sx =>
      rw [hp] at hpush
      simp only at hpush ⊢
      rw [hpush]
      simp only [getRef_apply, htk2]
  rw [hrun]
  refine ⟨?_, ?_, ?_, ?_⟩
  · intro p r h
    rw [h]
    exact hI _ _ _ _
  · intro h
    rw [h]
    exact hA _ _
  · intro r h
    rw [h]
    exact hS _ _ _
  · intro hlegal pos
    have hq := (hQ tref tk hlegal).run (implScope s1 m md tref) pos
    refine ⟨?_, ?_, ?_⟩ <;>
    · intro h
      exact hq _ h (by decide)

theorem shapeTarget_resolves :
    compileKindExpr 0 (some shapeTarget) shapesStore = .ok 0 shapeTargetStore :=
  Res.eq_ok_of_val (r := compileKindExpr 0 (some shapeTarget) shapesStore) (by decide!)

theorem shapeTarget_module : shapeTargetStore.modules[0]? = some shapeTargetModule :=
  eq_some_getD (o := shapeTargetStore.modules[0]?) exampleModule (by decide!)

/-- C12 at `impl Shape {}`, where `Shape` is an interface, and at `impl Circle {}`,
where `Circle` is a struct. -/
theorem compileImplDecl_target_witness :
    compileImplDecl 0 shapeTarget none [] true shapesStore
      = .fail (.compileError shapeTarget.Start "Cannot implements for interface type")
          (implScope shapeTargetStore 0 shapeTargetModule 0) ∧
    ((compileImplDecl 0 circleExpr none [] true shapesStore).fault
        ≠ some (.compileError 90 "Cannot implements for interface type") ∧
      (compileImplDecl 0 circleExpr none [] true shapesStore).fault
        ≠ some (.compileError 90 "Cannot implements for any type") ∧
      (compileImplDecl 0 circleExpr none [] true shapesStore).fault
        ≠ some (.compileError 90 "Cannot implements for self type")) :=
  ⟨(compileImplDecl_target 0 shapeTarget none [] true shapesStore shapeTargetStore
      shapeTargetModule 0 (some (.TInterface [("area", 2)] [])) shapeTarget_resolves
      shapeTarget_module (by decide!)).1 _ _ rfl,
   (compileImplDecl_target 0 circleExpr none [] true shapesStore circleStore
      circleModule 4 (some (.TStruct [] [("r", 5)] [])) circle_target circle_module
      circle_kind).2.2.2 (legalTarget_struct _ _ _) 90⟩

/-! ## The kind resolver leaves the cells it did not allocate alone -/

theorem kept_isFrame (n : Nat) : IsFrame (Kept n) where
  refl := fun _ h => ⟨h, fun _ _ => rfl⟩
  trans := by
    intro a b c h1 h2 ha
    obtain ⟨hb, e1⟩ := h1 ha
    obtain ⟨hc, e2⟩ := h2 hb
    exact ⟨hc, fun r hr => (e2 r hr).trans (e1 r hr)⟩

theorem newKindRef_kept (n : Nat) : Preserves (Kept n) newKindRef := by
  constructor
  intro s h
  simp only [newKindRef_apply, Res.state, allocated, List.length_append, List.length_singleton]
  refine ⟨by omega, fun r hr => ?_⟩
  rw [List.getElem?_append_left (by omega)]

theorem setRef_kept (n : Nat) (r : KindRef) (k : Kind) (h : n ≤ r) :
    Preserves (Kept n) (setRef r k) := by
  constructor
  intro s hs
  simp only [setRef_apply, Res.state, filled, List.length_set]
  refine ⟨hs, fun q hq => ?_⟩
  rw [List.getElem?_set_ne (by omega)]

/-- A computation that allocates a cell and then keeps the cells below `n`, given that
the new cell is not one of them. -/
theorem alloc_kept (n : Nat) {α : Type} (body : KindRef → M α)
    (h : ∀ kind, n ≤ kind → Preserves (Kept n) (body kind)) :
    Preserves (Kept n) (newKindRef >>= body) := by
  constructor
  intro s hs
  simp only [bind_apply, newKindRef_apply]
  exact (kept_isFrame n).trans ((newKindRef_kept n).run s) ((h s.kinds.length hs).run _) hs

mutual
theorem compileKindExpr_kept (n m : Nat) : ∀ (e : Option ast.KindExpr),
    Preserves (Kept n) (compileKindExpr m e)
  | none => by
    simp only [compileKindExpr]
    exact newKindRef_kept n
  | some e => by
    simp only [compileKindExpr]
    exact compileKindExprNode_kept n m e
theorem compileKindExprNode_kept (n m : Nat) : ∀ (e : ast.KindExpr),
    Preserves (Kept n) (compileKindExprNode m e)
  | .mk .TNumber start | .mk .TByte start | .mk .TChar start | .mk .TString start
  | .mk .TBool start | .mk .TAny start | .mk .TSelf start | .mk (.TIdentifier _) start
  | .mk (.TMemberKind _ _) start => by
    simp only [compileKindExprNode]
    repeat' first
      | exact preserves_pure (kept_isFrame n) _
      | exact newKindRef_kept n
      | exact setRef_kept n _ _ (by assumption)
      | exact preserves_findSelfKind (kept_isFrame n) _ _
      | exact preserves_findIdentifierKind (kept_isFrame n) _ _
      | exact preserves_findMemberKind (kept_isFrame n) _ _ _ _
      | (apply alloc_kept n; intro _ _)
      | apply preserves_bind (kept_isFrame n)
      | intro _
  | .mk (.TArray t) start => by
    simp only [compileKindExprNode]
    exact alloc_kept n _ (fun _ _ => compileArrayKind_kept n m t)
  | .mk (.TFuncKind t) start => by
    simp only [compileKindExprNode]
    exact alloc_kept n _ (fun _ _ => compileFuncKind_kept n m t)
  | .mk (.TStructKind t) start => by
    simp only [compileKindExprNode]
    exact alloc_kept n _
      (fun _ _ => compileStructKind_kept n m t)
theorem compileArrayKind_kept (n m : Nat) : ∀ (t : ast.TArray),
    Preserves (Kept n) (compileArrayKind m t)
  | .mk elem len => by
    have ih := compileKindExpr_kept n m elem
    simp only [compileArrayKind]
    repeat' first
      | exact preserves_pure (kept_isFrame n) _
      | exact preserves_abort (kept_isFrame n) _
      | exact preserves_unexpectedPos (kept_isFrame n) _ _
      | exact newKindRef_kept n
      | exact setRef_kept n _ _ (by assumption)
      | exact ih
      | (apply alloc_kept n; intro _ _)
      | apply preserves_bind (kept_isFrame n)
      | intro _
      | split
theorem compileFuncKindArgs_kept (n m cnt : Nat) : ∀ (l : List ast.Argument) (i : Nat) (rest : Bool)
    (acc : List KindRef), Preserves (Kept n) (compileFuncKindArgs m cnt l i rest acc)
  | [], i, rest, acc => by
    simp only [compileFuncKindArgs]
    exact preserves_pure (kept_isFrame n) _
  | (.mk argKind argRest argStart) :: more, i, rest, acc => by
    have ih1 := compileKindExpr_kept n m argKind
    have ih2 := fun r a => compileFuncKindArgs_kept n m cnt more (i + 1) r a
    simp only [compileFuncKindArgs]
    repeat' first
      | exact preserves_pure (kept_isFrame n) _
      | exact preserves_abort (kept_isFrame n) _
      | exact preserves_unexpectedPos (kept_isFrame n) _ _
      | exact ih1
      | exact ih2 _ _
      | apply preserves_bind (kept_isFrame n)
      | intro _
      | split
theorem compileFuncKind_kept (n m : Nat) : ∀ (t : ast.TFuncKind),
    Preserves (Kept n) (compileFuncKind m t)
  | .mk args ret => by
    have ih1 := compileKindExpr_kept n m ret
    have ih2 := compileFuncKindArgs_kept n m args.length args 0 false []
    simp only [compileFuncKind]
    repeat' first
      | exact preserves_pure (kept_isFrame n) _
      | exact newKindRef_kept n
      | exact setRef_kept n _ _ (by assumption)
      | exact ih1
      | exact ih2
      | (apply alloc_kept n; intro _ _)
      | apply preserves_bind (kept_isFrame n)
      | intro _
theorem compileStructProps_kept (n m : Nat) : ∀ (l : List ast.KindProperty)
    (props : List (String × KindRef)), Preserves (Kept n) (compileStructProps m l props)
  | [], props => by
    simp only [compileStructProps]
    exact preserves_pure (kept_isFrame n) _
  | (.mk key propKind start) :: more, props => by
    have ih1 := compileKindExpr_kept n m propKind
    have ih2 := fun p => compileStructProps_kept n m more p
    simp only [compileStructProps]
    repeat' first
      | exact preserves_pure (kept_isFrame n) _
      | exact preserves_unexpectedPos (kept_isFrame n) _ _
      | exact ih1
      | exact ih2 _
      | apply preserves_bind (kept_isFrame n)
      | intro _
      | split
theorem compileStructExtends_kept (n m : Nat) : ∀ (l : List ast.KindExpr) (exts : List KindRef),
    Preserves (Kept n) (compileStructExtends m l exts)
  | [], exts => by
    simp only [compileStructExtends]
    exact preserves_pure (kept_isFrame n) _
  | item :: more, exts => by
    have ih1 := compileKindExprNode_kept n m item
    have ih2 := fun e => compileStructExtends_kept n m more e
    simp only [compileStructExtends]
    repeat' first
      | exact preserves_pure (kept_isFrame n) _
      | exact ih1
      | exact ih2 _
      | apply preserves_bind (kept_isFrame n)
      | intro _
theorem compileStructKind_kept (n m : Nat) : ∀ (t : ast.TStructKind),
    Preserves (Kept n) (compileStructKind m t)
  | .mk exts props => by
    have ih1 := compileStructProps_kept n m props []
    have ih2 := compileStructExtends_kept n m exts []
    simp only [compileStructKind]
    repeat' first
      | exact preserves_pure (kept_isFrame n) _
      | exact newKindRef_kept n
      | exact setRef_kept n _ _ (by assumption)
      | exact ih1
      | exact ih2
      | (apply alloc_kept n; intro _ _)
      | apply preserves_bind (kept_isFrame n)
      | intro _
end

/-! ## What binding and exporting a name leaves in the module -/

/-- Binding a kind name and exporting it if public: the run completes exactly when the
name is new in the innermost frame, and leaves `withKind`. -/
theorem declareKind_ok (m : Nat) (name : ast.Identifier) (k : KindRef) (pub : Bool)
    (s s1 : Compiler) (md : Module) (hm : s.modules[m]? = some md)
    (h : (putKind m name k true >>= fun _ =>
      if pub then exportsSetKind m name.Name k else pure ()) s = .ok () s1) :
    freshKind md name.Name ∧
    s1 = { s with modules := s.modules.set m (withKind md name.Name k pub) } := by
  have hlt := lt_of_getElem?_some hm
  simp only [bind_apply, putKind, getModule_apply, hm] at h
  cases hs : md.scopes with
  | nil => rw [hs] at h; simp at h
  | cons fr rest =>
    rw [hs] at h
    simp only at h
    cases hh : mapHas fr.kinds name.Name with
    | true => rw [hh] at h; simp at h
    | false =>
      rw [hh] at h
      simp only [Bool.false_eq_true, if_false, setModule] at h
      refine ⟨⟨fr, rest, hs, hh⟩, ?_⟩
      cases pub with
      | false =>
        simp only [Bool.false_eq_true, if_false, pure_apply, Res.ok.injEq, true_and] at h
        rw [← h]
        simp [withKind, hs]
      | true =>
        simp only [if_true, exportsSetKind, bind_apply, getModule_apply,
          set_getElem?_self _ _ _ hlt, setModule, List.set_set, Res.ok.injEq, true_and] at h
        rw [← h]
        simp [withKind, hs]

/-- Binding a value name and exporting it if public: the run completes exactly when the
name is new in the innermost frame, and leaves `withValue`. -/
theorem declareValue_ok (m : Nat) (name : ast.Identifier) (v : Value) (pub : Bool)
    (s s1 : Compiler) (md : Module) (hm : s.modules[m]? = some md)
    (h : (putValue m name v true >>= fun _ =>
      if pub then exportsSetValue m name.Name v else pure ()) s = .ok () s1) :
    freshValue md name.Name ∧
    s1 = { s with modules := s.modules.set m (withValue md name.Name v pub) } := by
  have hlt := lt_of_getElem?_some hm
  simp only [bind_apply, putValue, getModule_apply, hm] at h
  cases hs : md.scopes with
  | nil => rw [hs] at h; simp at h
  | cons fr rest =>
    rw [hs] at h
    simp only at h
    cases hh : mapHas fr.values name.Name with
    | true => rw [hh] at h; simp at h
    | false =>
      rw [hh] at h
      simp only [Bool.false_eq_true, if_false, setModule] at h
      refine ⟨⟨fr, rest, hs, hh⟩, ?_⟩
      cases pub with
      | false =>
        simp only [Bool.false_eq_true, if_false, pure_apply, Res.ok.injEq, true_and] at h
        rw [← h]
        simp [withValue, hs]
      | true =>
        simp only [if_true, exportsSetValue, bind_apply, getModule_apply,
          set_getElem?_self _ _ _ hlt, setModule, List.set_set, Res.ok.injEq, true_and] at h
        rw [← h]
        simp [withValue, hs]

/-- What `withKind` leaves: the name bound in the frames, the exports table extended by
the name exactly when public, and everything else of the record. -/
theorem withKind_spec (md : Module) (name : String) (k : KindRef) (pub : Bool)
    (h : freshKind md name) :
    lookupKind (withKind md name k pub).scopes name = some k ∧
    (withKind md name k pub).exports
      = (if pub then { md.exports with kinds := mapSet md.exports.kinds name k }
          else md.exports) ∧
    (∀ x, lookupValue (withKind md name k pub).scopes x = lookupValue md.scopes x) ∧
    (∀ x, x ≠ name → lookupKind (withKind md name k pub).scopes x = lookupKind md.scopes x) ∧
    (withKind md name k pub).Ast = md.Ast ∧
    (withKind md name k pub).compiled = md.compiled := by
  obtain ⟨fr, rest, hs, _⟩ := h
  refine ⟨?_, ?_, ?_, ?_, ?_, ?_⟩
  · simp [withKind, hs, lookupKind, mapGet_mapSet_self]
  · simp [withKind, hs]
  · intro x
    simp [withKind, hs, lookupValue]
  · intro x hx
    simp [withKind, hs, lookupKind, mapGet_mapSet, Ne.symm hx]
  · simp [withKind, hs]
  · simp [withKind, hs]

/-- What `withValue` leaves: the name bound in the frames, the exports table extended
by the name exactly when public, and everything else of the record. -/
theorem withValue_spec (md : Module) (name : String) (v : Value) (pub : Bool)
    (h : freshValue md name) :
    lookupValue (withValue md name v pub).scopes name = some v ∧
    (withValue md name v pub).exports
      = (if pub then { md.exports with values := mapSet md.exports.values name v }
          else md.exports) ∧
    (∀ x, lookupKind (withValue md name v pub).scopes x = lookupKind md.scopes x) ∧
    (∀ x, x ≠ name → lookupValue (withValue md name v pub).scopes x = lookupValue md.scopes x) ∧
    (withValue md name v pub).Ast = md.Ast ∧
    (withValue md name v pub).compiled = md.compiled := by
  obtain ⟨fr, rest, hs, _⟩ := h
  refine ⟨?_, ?_, ?_, ?_, ?_, ?_⟩
  · simp [withValue, hs, lookupValue, mapGet_mapSet_self]
  · simp [withValue, hs]
  · intro x
    simp [withValue, hs, lookupKind]
  · intro x hx
    simp [withValue, hs, lookupValue, mapGet_mapSet, Ne.symm hx]
  · simp [withValue, hs]
  · simp [withValue, hs]

/-! ## Interface declarations -/

/-- The loop of `compileTInterfaceDecl` is a sequence of `interfaceStep`s. -/
theorem compileInterfaceProps_cons (m : Nat) (kind : KindRef) (pair : ast.KindProperty)
    (more : List ast.KindProperty) (s : Compiler) :
    compileInterfaceProps m kind (pair :: more) s
      = (interfaceStep m kind pair >>= fun _ => compileInterfaceProps m kind more) s := by
  simp only [compileInterfaceProps, interfaceStep, bind_apply, getRef_apply]
  cases s.kinds[kind]? with
  | none => rfl
  | some c =>
    simp only
    rcases c with _ | k
    · rfl
    · cases k with
      | TInterface props refers =>
        simp only
        cases mapHas props pair.Key.Name with
        | true => rfl
        | false =>
          simp only [Bool.false_eq_true, if_false]
          cases pair.Key.Name.data with
          | nil => rfl
          | cons c0 rest =>
            simp only
            by_cases hc : c0 = '_'
            · simp [hc]
            · simp only [hc, if_false, pure_apply, bind_apply, getRef_apply]
              cases compileKindExpr m pair.Kind s with
              | fail f s2 => rfl
              | ok k s2 =>
                simp only
                cases s2.kinds[kind]? with
                | none => rfl
                | some c1 =>
                  simp only
                  rcases c1 with _ | k1
                  · rfl
                  · cases k1 <;> rfl
      | _ => rfl

/-- The loop over a list in two parts. -/
theorem compileInterfaceProps_append (m : Nat) (kind : KindRef) :
    ∀ (pre rest : List ast.KindProperty) (s : Compiler),
    compileInterfaceProps m kind (pre ++ rest) s
      = (compileInterfaceProps m kind pre >>= fun _ => compileInterfaceProps m kind rest) s
  | [], rest, s => by simp [compileInterfaceProps]
  | p :: pre, rest, s => by
    rw [List.cons_append, compileInterfaceProps_cons]
    simp only [bind_apply]
    rw [compileInterfaceProps_cons]
    simp only [bind_apply]
    cases interfaceStep m kind p s with
    | fail f s2 => rfl
    | ok u s2 =>
      simp only
      rw [compileInterfaceProps_append m kind pre rest s2]
      simp only [bind_apply]

/-- A turn of the loop at a name that is already a key of the interface. -/
theorem interfaceStep_dup (m : Nat) (kind : KindRef) (pair : ast.KindProperty) (s : Compiler)
    (props : List (String × KindRef)) (refers : List KindRef)
    (hc : s.kinds[kind]? = some (some (.TInterface props refers)))
    (hdup : propName pair ∈ mapKeys props) :
    interfaceStep m kind pair s
      = .fail (.compileError pair.Key.Start ("Duplicate key: " ++ propName pair)) s := by
  have hhas : mapHas props pair.Key.Name = true := (mapHas_eq_true_iff props _).mpr hdup
  simp [interfaceStep, hc, hhas, propName]

/-- A turn of the loop at a new name that begins with `_`. -/
theorem interfaceStep_private (m : Nat) (kind : KindRef) (pair : ast.KindProperty)
    (s : Compiler) (props : List (String × KindRef)) (refers : List KindRef)
    (hc : s.kinds[kind]? = some (some (.TInterface props refers)))
    (hnew : propName pair ∉ mapKeys props) (hp : isPrivate (propName pair) = true) :
    interfaceStep m kind pair s
      = .fail (.compileError pair.Key.Start ("Should not be private method: " ++ propName pair))
          s := by
  have hhas : mapHas props pair.Key.Name = false := (mapHas_eq_false_iff props _).mpr hnew
  simp only [isPrivate, propName] at hp
  cases hd : pair.Key.Name.data with
  | nil => rw [hd] at hp; simp at hp
  | cons c0 rest =>
    rw [hd] at hp
    simp only [List.head?_cons, beq_iff_eq, Option.some.injEq] at hp
    simp [interfaceStep, hc, hhas, hd, hp, propName]

/-- A completed turn of the loop: the name was new and not private, and the interface
has it as a key, mapped to the resolution of its type expression. -/
theorem interfaceStep_ok (m : Nat) (kind : KindRef) (pair : ast.KindProperty)
    (s s1 : Compiler) (props : List (String × KindRef)) (refers : List KindRef)
    (hc : s.kinds[kind]? = some (some (.TInterface props refers)))
    (h : interfaceStep m kind pair s = .ok () s1) :
    propName pair ∉ mapKeys props ∧ isPrivate (propName pair) = false ∧
    ∃ k s2, compileKindExpr m pair.Kind s = .ok k s2 ∧
      s1 = filled s2 kind (.TInterface (mapSet props (propName pair) k) refers) ∧
      s1.kinds[kind]? = some (some (.TInterface (mapSet props (propName pair) k) refers)) := by
  simp only [interfaceStep, bind_apply, getRef_apply, hc] at h
  cases hhas : mapHas props pair.Key.Name with
  | true => rw [hhas] at h; simp at h
  | false =>
    rw [hhas] at h
    simp only [Bool.false_eq_true, if_false] at h
    cases hd : pair.Key.Name.data with
    | nil => rw [hd] at h; simp at h
    | cons c0 rest =>
      rw [hd] at h
      simp only at h
      by_cases hc0 : c0 = '_'
      · simp [hc0] at h
      · simp only [hc0, if_false, pure_apply, bind_apply, getRef_apply] at h
        have hkept := (compileKindExpr_kept (kind + 1) m pair.Kind).run s
          (Nat.succ_le_of_lt (lt_of_getElem?_some hc))
        cases hk : compileKindExpr m pair.Kind s with
        | fail f s2 => rw [hk] at h; simp at h
        | ok k s2 =>
          rw [hk] at h hkept
          simp only [Res.state] at hkept
          have hc2 : s2.kinds[kind]? = some (some (.TInterface props refers)) := by
            rw [hkept.2 kind (Nat.lt_succ_self _)]
            exact hc
          simp only [hc2, setRef_apply, Res.ok.injEq, true_and] at h
          refine ⟨(mapHas_eq_false_iff props _).mp hhas, ?_, k, s2, rfl, ?_, ?_⟩
          · simp [isPrivate, propName, hd, hc0]
          · rw [← h]
            rfl
          · rw [← h]
            simp only [filled]
            exact set_getElem?_self _ _ _ (lt_of_getElem?_some hc2)

/-- A completed loop: the interface cell has gained exactly the names of the list, all
new and none private, and the modules are as before. -/
theorem compileInterfaceProps_ok (m : Nat) (kind : KindRef) : ∀ (l : List ast.KindProperty)
    (s s1 : Compiler) (props : List (String × KindRef)) (refers : List KindRef),
    s.kinds[kind]? = some (some (.TInterface props refers)) →
    (mapKeys props).Nodup → (∀ x, x ∈ mapKeys props → isPrivate x = false) →
    compileInterfaceProps m kind l s = .ok () s1 →
    ∃ props1, s1.kinds[kind]? = some (some (.TInterface props1 refers)) ∧
      mapKeys props1 = mapKeys props ++ l.map propName ∧ (mapKeys props1).Nodup ∧
      (∀ x, x ∈ mapKeys props1 → isPrivate x = false) ∧ s1.modules = s.modules
  | [], s, s1, props, refers, hc, hnd, hpriv, h => by
    simp only [compileInterfaceProps, pure_apply, Res.ok.injEq, true_and] at h
    subst h
    exact ⟨props, hc, by simp, hnd, hpriv, rfl⟩
  | p :: more, s, s1, props, refers, hc, hnd, hpriv, h => by
    rw [compileInterfaceProps_cons] at h
    obtain ⟨u, s2, hstep, hrest⟩ := bind_ok_inv h
    obtain ⟨hnew, hnp, k, s3, hk, hs2, hc2⟩ := interfaceStep_ok m kind p s s2 props refers hc hstep
    have hfr := (compileKindExpr_frame m p.Kind).run s
    rw [hk] at hfr
    have hmods : s2.modules = s.modules := by
      rw [hs2]
      exact hfr.1
    rw [mapSet_of_not_mem props _ k hnew] at hc2
    have hkeys : mapKeys (props ++ [(propName p, k)]) = mapKeys props ++ [propName p] := by
      simp [mapKeys]
    have hnd2 : (mapKeys (props ++ [(propName p, k)])).Nodup := by
      rw [hkeys]
      refine List.Nodup.append hnd (by simp) ?_
      intro a ha hb
      simp only [List.mem_singleton] at hb
      exact hnew (hb ▸ ha)
    have hpriv2 : ∀ x, x ∈ mapKeys (props ++ [(propName p, k)]) → isPrivate x = false := by
      intro x hx
      rw [hkeys, List.mem_append, List.mem_singleton] at hx
      rcases hx with hx | hx
      · exact hpriv x hx
      · rw [hx]
        exact hnp
    obtain ⟨props1, h1, h2, h3, h4, h5⟩ :=
      compileInterfaceProps_ok m kind more s2 s1 _ refers hc2 hnd2 hpriv2 hrest
    refine ⟨props1, h1, ?_, h3, h4, by rw [h5, hmods]⟩
    rw [h2, hkeys]
    simp

theorem set_eq_self {α : Type} (l : List α) (i : Nat) (x : α) (h : l[i]? = some x) :
    l.set i x = l := by
  apply List.ext_getElem?
  intro j
  by_cases hj : i = j
  · subst hj
    rw [set_getElem?_self _ _ _ (lt_of_getElem?_some h), h]
  · rw [List.getElem?_set_ne hj]

/-- Closing the frame opened for an interface or impl body gives back the modules of
before the frame. -/
theorem scopesPop_implScope (m : Nat) (s0 s2 : Compiler) (md : Module) (tref : KindRef)
    (hm : s0.modules[m]? = some md) (h2 : s2.modules = (implScope s0 m md tref).modules) :
    scopesPop m s2 = .ok () { s2 with modules := s0.modules } := by
  have hlt := lt_of_getElem?_some hm
  have hm2 : s2.modules[m]? = some
      { md with scopes := ({ Scope.empty with self := some tref } : Scope) :: md.scopes } := by
    rw [h2]
    exact set_getElem?_self _ _ _ hlt
  simp only [scopesPop, bind_apply, getModule_apply, hm2, setModule, Res.ok.injEq, true_and]
  rw [h2]
  simp only [implScope, List.set_set]
  congr 1
  exact set_eq_self _ _ _ hm

/-- An interface declaration from the frame it opens on. -/
theorem compileTInterfaceDecl_run (m : Nat) (node : ast.TInterfaceDecl) (s : Compiler)
    (md : Module) (hm : s.modules[m]? = some md) :
    compileTInterfaceDecl m node s =
      (compileInterfaceProps m s.kinds.length node.Properties >>= fun _ =>
        scopesPop m >>= fun _ =>
        putKind m node.Name s.kinds.length true >>= fun _ =>
        if node.Pub then exportsSetKind m node.Name.Name s.kinds.length else pure ())
        (implScope (filled (allocated s) s.kinds.length (.TInterface [] [])) m md
          s.kinds.length) := by
  have hm0 : (filled (allocated s) s.kinds.length (.TInterface [] [])).modules[m]? = some md := hm
  have hpush := implScope_run m s.kinds.length _ md hm0
  simp only [bind_apply] at hpush
  simp only [compileTInterfaceDecl, bind_apply, newKindRef_apply, setRef_apply]
  cases hp : scopesPush m (filled (allocated s) s.kinds.length (.TInterface [] [])) with
  | fail f sx => rw [hp] at hpush; simp at hpush
  | ok u sx =>
    rw [hp] at hpush
    simp only at hpush ⊢
    rw [hpush]

/-- A completed interface declaration: the cell allocated for it holds the declared
methods, and the declared name is bound to it in the frame of before. -/
theorem compileTInterfaceDecl_ok (m : Nat) (node : ast.TInterfaceDecl) (s s1 : Compiler)
    (md : Module) (hm : s.modules[m]? = some md)
    (h : compileTInterfaceDecl m node s = .ok () s1) :
    ∃ props, s1.kinds[s.kinds.length]? = some (some (.TInterface props [])) ∧
      mapKeys props = node.Properties.map propName ∧
      (node.Properties.map propName).Nodup ∧
      (∀ x, x ∈ node.Properties.map propName → isPrivate x = false) ∧
      freshKind md node.Name.Name ∧
      s1.modules = s.modules.set m (withKind md node.Name.Name s.kinds.length node.Pub) ∧
      lookupKind (withKind md node.Name.Name s.kinds.length node.Pub).scopes node.Name.Name
        = some s.kinds.length := by
  have hrun := compileTInterfaceDecl_run m node s md hm
  have hc0 : (implScope (filled (allocated s) s.kinds.length (.TInterface [] [])) m md
      s.kinds.length).kinds[s.kinds.length]? = some (some (.TInterface [] [])) := by
    simp only [implScope]
    rw [filled_allocated_kinds]
    simp
  rw [hrun] at h
  obtain ⟨u, s2, hloop, hrest⟩ := bind_ok_inv h
  obtain ⟨props1, h1, h2, h3, h4, h5⟩ := compileInterfaceProps_ok m s.kinds.length
    node.Properties _ s2 [] [] hc0 (by simp [mapKeys]) (by simp [mapKeys]) hloop
  have hkeys : mapKeys props1 = node.Properties.map propName := by simpa [mapKeys] using h2
  have hm0 : (filled (allocated s) s.kinds.length (.TInterface [] [])).modules[m]? = some md :=
    hm
  have hpop := scopesPop_implScope m _ s2 md s.kinds.length hm0 h5
  obtain ⟨u2, s3, hpop2, hdecl⟩ := bind_ok_inv hrest
  rw [hpop] at hpop2
  simp only [Res.ok.injEq, true_and] at hpop2
  subst hpop2
  obtain ⟨hfresh, hs1⟩ := declareKind_ok m node.Name s.kinds.length node.Pub
    { s2 with modules := (filled (allocated s) s.kinds.length (.TInterface [] [])).modules }
    s1 md hm0 hdecl
  refine ⟨props1, ?_, hkeys, by rw [← hkeys]; exact h3, ?_, hfresh, ?_,
    (withKind_spec md _ _ _ hfresh).1⟩
  · rw [hs1]
    exact h1
  · intro x hx
    exact h4 x (by rw [hkeys]; exact hx)
  · rw [hs1]
    rfl

/-- C13: for an interface declaration processed in the module `md`, with `c` the cell
allocated for the interface: (1) if a method name repeats an earlier one, or is
new and begins with `_`, and the pairs before it are processed without error,
`compileTInterfaceDecl` stops with the compile error "Duplicate key: name",
respectively "Should not be private method: name", at the position of the
method key; (2) if the run completes, the cell `c` holds a `TInterface` whose
`Properties` has exactly the declared method names as keys, pairwise distinct
and none beginning with `_`, and whose `Refers` is empty, and the declared name
is bound to `c` in the innermost frame (and exported if public). -/
theorem compileTInterfaceDecl_methods (m : Nat) (node : ast.TInterfaceDecl) (s : Compiler)
    (md : Module) (hm : s.modules[m]? = some md) :
    (∀ pre p post s1, node.Properties = pre ++ p :: post →
      compileInterfaceProps m s.kinds.length pre
        (implScope (filled (allocated s) s.kinds.length (.TInterface [] [])) m md
          s.kinds.length) = .ok () s1 →
      (propName p ∈ pre.map propName →
        compileTInterfaceDecl m node s
          = .fail (.compileError p.Key.Start ("Duplicate key: " ++ propName p)) s1) ∧
      (propName p ∉ pre.map propName → isPrivate (propName p) = true →
        compileTInterfaceDecl m node s
          = .fail (.compileError p.Key.Start
              ("Should not be private method: " ++ propName p)) s1)) ∧
    (∀ s1, compileTInterfaceDecl m node s = .ok () s1 →
      ∃ props, s1.kinds[s.kinds.length]? = some (some (.TInterface props [])) ∧
        mapKeys props = node.Properties.map propName ∧
        (node.Properties.map propName).Nodup ∧
        (∀ x, x ∈ node.Properties.map propName → isPrivate x = false) ∧
        freshKind md node.Name.Name ∧
        s1.modules = s.modules.set m (withKind md node.Name.Name s.kinds.length node.Pub) ∧
        lookupKind (withKind md node.Name.Name s.kinds.length node.Pub).scopes node.Name.Name
          = some s.kinds.length) := by
  have hrun := compileTInterfaceDecl_run m node s md hm
  have hc0 : (implScope (filled (allocated s) s.kinds.length (.TInterface [] [])) m md
      s.kinds.length).kinds[s.kinds.length]? = some (some (.TInterface [] [])) := by
    simp only [implScope]
    rw [filled_allocated_kinds]
    simp
  refine ⟨?_, ?_⟩
  · intro pre p post s1 hprops hpre
    obtain ⟨props1, h1, h2, _, _, _⟩ := compileInterfaceProps_ok m s.kinds.length pre _ s1 [] []
      hc0 (by simp [mapKeys]) (by simp [mapKeys]) hpre
    have hkeys : mapKeys props1 = pre.map propName := by simpa [mapKeys] using h2
    have hloop : ∀ f, interfaceStep m s.kinds.length p s1 = .fail f s1 →
        compileTInterfaceDecl m node s = .fail f s1 := by
      intro f hf
      rw [hrun, hprops]
      simp only [bind_apply]
      rw [compileInterfaceProps_append]
      simp only [bind_apply, hpre]
      rw [compileInterfaceProps_cons]
      simp only [bind_apply, hf]
    refine ⟨?_, ?_⟩
    · intro hdup
      exact hloop _ (interfaceStep_dup m _ p s1 props1 [] h1 (by rw [hkeys]; exact hdup))
    · intro hnew hp
      exact hloop _ (interfaceStep_private m _ p s1 props1 [] h1 (by rw [hkeys]; exact hnew) hp)
  · intro s1 h
    exact compileTInterfaceDecl_ok m node s s1 md hm h

theorem twiceStore_run :
    compileInterfaceProps 0 exampleStore.kinds.length
      [.mk ⟨"area", 20⟩ (some (fnReturning numberExpr)) 20]
      (implScope (filled (allocated exampleStore) exampleStore.kinds.length (.TInterface [] []))
        0 exampleModule exampleStore.kinds.length) = .ok () twiceStore :=
  Res.eq_ok_of_fault_none (r := compileInterfaceProps 0 0
    [.mk ⟨"area", 20⟩ (some (fnReturning numberExpr)) 20]
    (implScope (filled (allocated exampleStore) 0 (.TInterface [] [])) 0 exampleModule 0))
    (by decide!)

theorem shapeDecl_run : compileTInterfaceDecl 0 shapeDecl exampleStore
    = .ok () (compileTInterfaceDecl 0 shapeDecl exampleStore).state :=
  Res.eq_ok_of_fault_none (r := compileTInterfaceDecl 0 shapeDecl exampleStore) (by decide!)

/-- C13 at `interface Twice { area: ..., area: ... }`, at `interface Hidden { _area: ... }`
and at `interface Shape { area: fn() -> Number }`. -/
theorem compileTInterfaceDecl_methods_witness :
    compileTInterfaceDecl 0 twiceDecl exampleStore
      = .fail (.compileError 45 ("Duplicate key: " ++ "area")) twiceStore ∧
    compileTInterfaceDecl 0 hiddenDecl exampleStore
      = .fail (.compileError 20 ("Should not be private method: " ++ "_area"))
          (implScope (filled (allocated exampleStore) exampleStore.kinds.length
            (.TInterface [] [])) 0 exampleModule exampleStore.kinds.length) ∧
    (∃ props, (compileTInterfaceDecl 0 shapeDecl exampleStore).state.kinds[
        exampleStore.kinds.length]? = some (some (.TInterface props [])) ∧
      mapKeys props = shapeDecl.Properties.map propName ∧
      (shapeDecl.Properties.map propName).Nodup ∧
      (∀ x, x ∈ shapeDecl.Properties.map propName → isPrivate x = false) ∧
      freshKind exampleModule shapeDecl.Name.Name ∧
      (compileTInterfaceDecl 0 shapeDecl exampleStore).state.modules
        = exampleStore.modules.set 0
            (withKind exampleModule shapeDecl.Name.Name exampleStore.kinds.length
              shapeDecl.Pub) ∧
      lookupKind (withKind exampleModule shapeDecl.Name.Name exampleStore.kinds.length
        shapeDecl.Pub).scopes shapeDecl.Name.Name = some exampleStore.kinds.length) :=
  ⟨((compileTInterfaceDecl_methods 0 twiceDecl exampleStore exampleModule rfl).1
      [.mk ⟨"area", 20⟩ (some (fnReturning numberExpr)) 20]
      (.mk ⟨"area", 45⟩ (some (fnReturning stringExpr)) 45) [] twiceStore rfl
      twiceStore_run).1 (by decide),
   ((compileTInterfaceDecl_methods 0 hiddenDecl exampleStore exampleModule rfl).1
      [] (.mk ⟨"_area", 20⟩ (some (fnReturning numberExpr)) 20) [] _ rfl rfl).2
      (by decide) (by decide),
   (compileTInterfaceDecl_methods 0 shapeDecl exampleStore exampleModule rfl).2 _
      shapeDecl_run⟩

/-! ## What each top-level declaration leaves in its module -/

/-- A completed precompilation of a top-level function declaration. -/
theorem compileFuncDecl_top_ok (m : Nat) (d : ast.FuncDecl) (s s1 : Compiler) (md : Module)
    (r : Option FuncValue) (hm : s.modules[m]? = some md)
    (h : compileFuncDecl m d none true s = .ok r s1) :
    ∃ k s2, compileKindExpr m d.Kind s = .ok k s2 ∧ r = some ⟨d.Name.Name, k⟩ ∧
      freshValue md d.Name.Name ∧
      s1 = { s2 with modules :=
        (s.modules.set m (withValue md d.Name.Name (.Func ⟨d.Name.Name, k⟩) d.Pub)) } := by
  simp only [compileFuncDecl, if_true, bind_apply] at h
  have hfr := (compileKindExpr_frame m d.Kind).run s
  cases hk : compileKindExpr m d.Kind s with
  | fail f s2 => rw [hk] at h; simp at h
  | ok k s2 =>
    rw [hk] at h hfr
    simp only [Res.state] at hfr
    have hm2 : s2.modules[m]? = some md := by rw [hfr.1]; exact hm
    have hdecl : (putValue m d.Name (.Func ⟨d.Name.Name, k⟩) true >>= fun _ =>
        if d.Pub then exportsSetValue m d.Name.Name (.Func ⟨d.Name.Name, k⟩) else pure ()) s2
        = .ok () s1 ∧ r = some ⟨d.Name.Name, k⟩ := by
      simp only [bind_apply]
      simp only at h
      cases hp : putValue m d.Name (.Func ⟨d.Name.Name, k⟩) true s2 with
      | fail f s3 => rw [hp] at h; simp at h
      | ok u s3 =>
        rw [hp] at h
        simp only at h ⊢
        cases hpub : d.Pub with
        | false =>
          rw [hpub] at h
          simp only [Bool.false_eq_true, if_false, bind_apply, pure_apply, Res.ok.injEq,
            true_and] at h ⊢
          exact ⟨h.2, h.1.symm⟩
        | true =>
          rw [hpub] at h
          simp only [if_true, bind_apply] at h ⊢
          cases he : exportsSetValue m d.Name.Name (.Func ⟨d.Name.Name, k⟩) s3 with
          | fail f s4 => rw [he] at h; simp at h
          | ok u2 s4 =>
            rw [he] at h
            simp only [pure_apply, Res.ok.injEq, true_and] at h ⊢
            exact ⟨h.2, h.1.symm⟩
    obtain ⟨hfresh, hs1⟩ := declareValue_ok m d.Name _ d.Pub s2 s1 md hm2 hdecl.1
    exact ⟨k, s2, rfl, hdecl.2, hfresh, by rw [hs1, hfr.1]⟩

/-- A completed precompilation of a variable declaration. -/
theorem compileVarDecl_ok (m : Nat) (d : ast.VarDecl) (s s1 : Compiler) (md : Module)
    (hm : s.modules[m]? = some md) (h : compileVarDecl m d true s = .ok () s1) :
    ∃ k s2, compileKindExpr m d.Kind s = .ok k s2 ∧ freshValue md d.Id.Name ∧
      s1 = { s2 with modules :=
        (s.modules.set m (withValue md d.Id.Name (.Var ⟨d.Id.Name, k, d.Const⟩) d.Pub)) } := by
  simp only [compileVarDecl, if_true] at h
  obtain ⟨k, s2, hk, hdecl⟩ := bind_ok_inv h
  have hfr := (compileKindExpr_frame m d.Kind).run s
  rw [hk] at hfr
  simp only [Res.state] at hfr
  have hm2 : s2.modules[m]? = some md := by rw [hfr.1]; exact hm
  obtain ⟨hfresh, hs1⟩ := declareValue_ok m d.Id _ d.Pub s2 s1 md hm2 hdecl
  exact ⟨k, s2, hk, hfresh, by rw [hs1, hfr.1]⟩

/-- A completed precompilation of a type alias declaration. -/
theorem compileTAliasDecl_ok (m : Nat) (d : ast.TAliasDecl) (s s1 : Compiler) (md : Module)
    (hm : s.modules[m]? = some md) (h : compileTAliasDecl m d s = .ok () s1) :
    ∃ inner s2, compileKindExpr m d.Kind s = .ok inner s2 ∧ freshKind md d.Name.Name ∧
      s1 = { filled (allocated s2) s2.kinds.length (.TCustom inner []) with
        modules := (s.modules.set m (withKind md d.Name.Name s2.kinds.length d.Pub)) } := by
  simp only [compileTAliasDecl] at h
  obtain ⟨inner, s2, hk, h2⟩ := bind_ok_inv h
  have hfr := (compileKindExpr_frame m d.Kind).run s
  rw [hk] at hfr
  simp only [Res.state] at hfr
  simp only [bind_apply, newKindRef_apply, setRef_apply] at h2
  have hm2 : (filled (allocated s2) s2.kinds.length (.TCustom inner [])).modules[m]? = some md := by
    show s2.modules[m]? = some md
    rw [hfr.1]; exact hm
  obtain ⟨hfresh, hs1⟩ := declareKind_ok m d.Name _ d.Pub _ s1 md hm2 (by
    simp only [bind_apply]
    exact h2)
  refine ⟨inner, s2, hk, hfresh, ?_⟩
  rw [hs1]
  show _ = _
  simp only [filled, allocated, hfr.1]

/-- A completed precompilation of a struct declaration. -/
theorem compileTStructDecl_ok (m : Nat) (d : ast.TStructDecl) (s s1 : Compiler) (md : Module)
    (hm : s.modules[m]? = some md) (h : compileTStructDecl m d s = .ok () s1) :
    ∃ t k s2, d.Kind.Node = .TStructKind t ∧ compileStructKind m t s = .ok k s2 ∧
      freshKind md d.Name.Name ∧
      s1 = { s2 with modules := (s.modules.set m (withKind md d.Name.Name k d.Pub)) } := by
  simp only [compileTStructDecl] at h
  obtain ⟨k, s2, hk, hdecl⟩ := bind_ok_inv h
  cases hn : d.Kind.Node with
  | TStructKind t =>
    rw [hn] at hk
    simp only at hk
    have hfr := (compileStructKind_frame m t).run s
    rw [hk] at hfr
    simp only [Res.state] at hfr
    have hm2 : s2.modules[m]? = some md := by rw [hfr.1]; exact hm
    obtain ⟨hfresh, hs1⟩ := declareKind_ok m d.Name _ d.Pub s2 s1 md hm2 hdecl
    exact ⟨t, k, s2, rfl, hk, hfresh, by rw [hs1, hfr.1]⟩
  | _ => rw [hn] at hk; simp at hk

/-- A completed precompilation of an enum declaration. -/
theorem compileTEnumDecl_ok (m : Nat) (d : ast.TEnumDecl) (s s1 : Compiler) (md : Module)
    (hm : s.modules[m]? = some md) (h : compileTEnumDecl m d s = .ok () s1) :
    ∃ choices, compileEnumChoices d.Choices 0 [] s = .ok choices s ∧
      freshKind md d.Name.Name ∧
      s1 = { filled (allocated s) s.kinds.length (.TEnum choices) with
        modules := (s.modules.set m (withKind md d.Name.Name s.kinds.length d.Pub)) } := by
  simp only [compileTEnumDecl] at h
  obtain ⟨choices, s2, hk, h2⟩ := bind_ok_inv h
  have hfr := (compileEnumChoices_preserves (R := fun a b => b = a)
    ⟨fun _ => rfl, fun h1 h2 => h2.trans h1⟩ d.Choices 0 []).run s
  rw [hk] at hfr
  simp only [Res.state] at hfr
  subst hfr
  simp only [bind_apply, newKindRef_apply, setRef_apply] at h2
  have hm2 : (filled (allocated s2) s2.kinds.length (.TEnum choices)).modules[m]? = some md := hm
  obtain ⟨hfresh, hs1⟩ := declareKind_ok m d.Name _ d.Pub _ s1 md hm2 (by
    simp only [bind_apply]
    exact h2)
  exact ⟨choices, hk, hfresh, hs1⟩

/-! ## Exports of public declarations -/

/-- The record of module `m` after a declaration that left `s.modules.set m md1`. -/
theorem getElem?_of_modules_set (s s1 : Compiler) (m : Nat) (md md1 : Module)
    (hm : s.modules[m]? = some md) (h : s1.modules = s.modules.set m md1) :
    s1.modules[m]? = some md1 := by
  rw [h]
  exact set_getElem?_self _ _ _ (lt_of_getElem?_some hm)

/-- C16: for a top-level declaration processed by `preCompile` without error in the
module `md`: a function or variable declaration binds its name to a value in the
scope, a type alias, interface, struct or enum declaration binds its name to a
kind in the scope; the exports table afterwards is the one of before with that
binding added if the declaration is public, and is unchanged if it is not. A
function declared in an impl body changes neither the scope nor the exports of
any module, in either pass. -/
theorem preCompile_exports (compile : Nat → M Unit) (m : Nat) (stmt : ast.Stmt)
    (s s1 : Compiler) (md : Module) (hm : s.modules[m]? = some md)
    (h : preCompileBody compile m [stmt] s = .ok () s1) :
    (∀ name pub, declaredValue stmt.Node = some (name, pub) →
      ∃ v md1, s1.modules[m]? = some md1 ∧ lookupValue md1.scopes name.Name = some v ∧
        md1.exports = (if pub then
            { md.exports with values := mapSet md.exports.values name.Name v }
          else md.exports)) ∧
    (∀ name pub, declaredKind stmt.Node = some (name, pub) →
      ∃ k md1, s1.modules[m]? = some md1 ∧ lookupKind md1.scopes name.Name = some k ∧
        md1.exports = (if pub then
            { md.exports with kinds := mapSet md.exports.kinds name.Name k }
          else md.exports)) ∧
    (∀ d t b s0, (compileFuncDecl m d (some t) b s0).state.modules = s0.modules) := by
  have hvalue : ∀ (name : String) (v : Value) (pub : Bool) (s2 : Compiler),
      freshValue md name →
      s1 = { s2 with modules := (s.modules.set m (withValue md name v pub)) } →
      ∃ v md1, s1.modules[m]? = some md1 ∧ lookupValue md1.scopes name = some v ∧
        md1.exports = (if pub then { md.exports with values := mapSet md.exports.values name v }
          else md.exports) := by
    intro name v pub s2 hfresh hs1
    have hspec := withValue_spec md name v pub hfresh
    exact ⟨v, _, getElem?_of_modules_set s s1 m md _ hm (by rw [hs1]), hspec.1, hspec.2.1⟩
  have hkind : ∀ (name : String) (k : KindRef) (pub : Bool),
      freshKind md name → s1.modules = s.modules.set m (withKind md name k pub) →
      ∃ k md1, s1.modules[m]? = some md1 ∧ lookupKind md1.scopes name = some k ∧
        md1.exports = (if pub then { md.exports with kinds := mapSet md.exports.kinds name k }
          else md.exports) := by
    intro name k pub hfresh hs1
    have hspec := withKind_spec md name k pub hfresh
    exact ⟨k, _, getElem?_of_modules_set s s1 m md _ hm hs1, hspec.1, hspec.2.1⟩
  refine ⟨?_, ?_, ?_⟩
  · intro name pub hd
    obtain ⟨node, pos⟩ := stmt
    cases node with
    | FuncDecl d fbody =>
      simp only [ast.Stmt.Node, declaredValue, Option.some.injEq, Prod.mk.injEq] at hd
      obtain ⟨rfl, rfl⟩ := hd
      simp only [preCompileBody, ast.Stmt.Node] at h
      obtain ⟨r, s2, h2, h3⟩ := bind_ok_inv h
      simp only [bind_apply, pure_apply, Res.ok.injEq, true_and] at h3
      subst h3
      obtain ⟨k, sk, _, _, hfresh, hs1⟩ := compileFuncDecl_top_ok m d s _ md r hm h2
      exact hvalue _ _ _ sk hfresh hs1
    | VarDecl d =>
      simp only [ast.Stmt.Node, declaredValue, Option.some.injEq, Prod.mk.injEq] at hd
      obtain ⟨rfl, rfl⟩ := hd
      simp only [preCompileBody, ast.Stmt.Node] at h
      obtain ⟨u, s2, h2, h3⟩ := bind_ok_inv h
      simp only [pure_apply, Res.ok.injEq, true_and] at h3
      subst h3
      obtain ⟨k, sk, _, hfresh, hs1⟩ := compileVarDecl_ok m d s _ md hm h2
      exact hvalue _ _ _ sk hfresh hs1
    | _ => simp [ast.Stmt.Node, declaredValue] at hd
  · intro name pub hd
    obtain ⟨node, pos⟩ := stmt
    cases node with
    | TAliasDecl d =>
      simp only [ast.Stmt.Node, declaredKind, Option.some.injEq, Prod.mk.injEq] at hd
      obtain ⟨rfl, rfl⟩ := hd
      simp only [preCompileBody, ast.Stmt.Node] at h
      obtain ⟨u, s2, h2, h3⟩ := bind_ok_inv h
      simp only [pure_apply, Res.ok.injEq, true_and] at h3
      subst h3
      obtain ⟨inner, sk, _, hfresh, hs1⟩ := compileTAliasDecl_ok m d s _ md hm h2
      exact hkind _ _ _ hfresh (by rw [hs1])
    | TInterfaceDecl d =>
      simp only [ast.Stmt.Node, declaredKind, Option.some.injEq, Prod.mk.injEq] at hd
      obtain ⟨rfl, rfl⟩ := hd
      simp only [preCompileBody, ast.Stmt.Node] at h
      obtain ⟨u, s2, h2, h3⟩ := bind_ok_inv h
      simp only [pure_apply, Res.ok.injEq, true_and] at h3
      subst h3
      obtain ⟨props, _, _, _, _, hfresh, hs1, _⟩ := compileTInterfaceDecl_ok m d s _ md hm h2
      exact hkind _ _ _ hfresh hs1
    | TStructDecl d =>
      simp only [ast.Stmt.Node, declaredKind, Option.some.injEq, Prod.mk.injEq] at hd
      obtain ⟨rfl, rfl⟩ := hd
      simp only [preCompileBody, ast.Stmt.Node] at h
      obtain ⟨u, s2, h2, h3⟩ := bind_ok_inv h
      simp only [pure_apply, Res.ok.injEq, true_and] at h3
      subst h3
      obtain ⟨t, k, sk, _, _, hfresh, hs1⟩ := compileTStructDecl_ok m d s _ md hm h2
      exact hkind _ _ _ hfresh (by rw [hs1])
    | TEnumDecl d =>
      simp only [ast.Stmt.Node, declaredKind, Option.some.injEq, Prod.mk.injEq] at hd
      obtain ⟨rfl, rfl⟩ := hd
      simp only [preCompileBody, ast.Stmt.Node] at h
      obtain ⟨u, s2, h2, h3⟩ := bind_ok_inv h
      simp only [pure_apply, Res.ok.injEq, true_and] at h3
      subst h3
      obtain ⟨choices, _, hfresh, hs1⟩ := compileTEnumDecl_ok m d s _ md hm h2
      exact hkind _ _ _ hfresh (by rw [hs1])
    | _ => simp [ast.Stmt.Node, declaredKind] at hd
  · intro d t b s0
    exact ((compileFuncDecl_method_frame m d t b).run s0).1

theorem pubVar_run : preCompileBody (Module.compile 0) 0 [pubVar] exampleStore
    = .ok () (preCompileBody (Module.compile 0) 0 [pubVar] exampleStore).state :=
  Res.eq_ok_of_fault_none (r := preCompileBody (Module.compile 0) 0 [pubVar] exampleStore)
    (by decide!)

theorem circleStmt_run : preCompileBody (Module.compile 0) 0 [circleStmt] exampleStore
    = .ok () (preCompileBody (Module.compile 0) 0 [circleStmt] exampleStore).state :=
  Res.eq_ok_of_fault_none (r := preCompileBody (Module.compile 0) 0 [circleStmt] exampleStore)
    (by decide!)

/-- C16 at `pub let x: Number` and at the non-public `struct Circle { r: Number }`. -/
theorem preCompile_exports_witness :
    (∃ v md1, (preCompileBody (Module.compile 0) 0 [pubVar] exampleStore).state.modules[0]?
        = some md1 ∧ lookupValue md1.scopes "x" = some v ∧
      md1.exports = (if true then
          { exampleModule.exports with values := mapSet exampleModule.exports.values "x" v }
        else exampleModule.exports)) ∧
    (∃ k md1, (preCompileBody (Module.compile 0) 0 [circleStmt] exampleStore).state.modules[0]?
        = some md1 ∧ lookupKind md1.scopes "Circle" = some k ∧
      md1.exports = (if false then
          { exampleModule.exports with kinds := mapSet exampleModule.exports.kinds "Circle" k }
        else exampleModule.exports)) :=
  ⟨(preCompile_exports (Module.compile 0) 0 pubVar exampleStore _ exampleModule rfl
      pubVar_run).1 ⟨"x", 8⟩ true rfl,
   (preCompile_exports (Module.compile 0) 0 circleStmt exampleStore _ exampleModule rfl
      circleStmt_run).2.1 ⟨"Circle", 50⟩ false rfl⟩

/-! ## A type expression resolves only if the names it refers to are bound -/

theorem bound_of_frame (m : Nat) (names : List String) (s t : Compiler) (h : KindsFrame s t)
    (ht : Bound m names t) : Bound m names s := by
  intro md hm
  exact ht md (by rw [h.1]; exact hm)

theorem needs_nil (m : Nat) {α : Type} (x : M α) : Needs (Bound m []) x :=
  ⟨fun _ _ _ _ _ _ _ h => by simp at h⟩

theorem needs_first {P : Compiler → Prop} {α β : Type} {x : M α} {f : α → M β}
    (h : Needs P x) : Needs P (x >>= f) := by
  constructor
  intro s b t hrun
  obtain ⟨a, s1, hx, _⟩ := bind_ok_inv hrun
  exact h.run s a s1 hx

theorem needs_skip (m : Nat) (names : List String) {α β : Type} {x : M α} {f : α → M β}
    (hx : Preserves KindsFrame x) (hf : ∀ a, Needs (Bound m names) (f a)) :
    Needs (Bound m names) (x >>= f) := by
  constructor
  intro s b t hrun
  obtain ⟨a, s1, h1, h2⟩ := bind_ok_inv hrun
  have hfr := hx.run s
  rw [h1] at hfr
  exact bound_of_frame m names s s1 hfr ((hf a).run s1 b t h2)

theorem needs_both (m : Nat) (n1 n2 : List String) {α β : Type} {x : M α} {f : α → M β}
    (h1 : Needs (Bound m n1) x) (hx : Preserves KindsFrame x)
    (hf : ∀ a, Needs (Bound m n2) (f a)) : Needs (Bound m (n1 ++ n2)) (x >>= f) := by
  constructor
  intro s b t hrun md hm name hname
  rw [List.mem_append] at hname
  rcases hname with hname | hname
  · exact (needs_first h1).run s b t hrun md hm name hname
  · exact (needs_skip m n2 hx hf).run s b t hrun md hm name hname

theorem findIdentifierKind_needs (m : Nat) (name : ast.Identifier) :
    Needs (Bound m [name.Name]) (findIdentifierKind m name) := by
  constructor
  intro s r t hrun md hm x hx
  simp only [List.mem_singleton] at hx
  subst hx
  simp only [findIdentifierKind, bind_apply, getModule_apply, hm] at hrun
  intro hnone
  rw [hnone] at hrun
  simp at hrun

mutual
theorem compileKindExpr_needs (m : Nat) : ∀ (e : Option ast.KindExpr),
    Needs (Bound m (optNames e)) (compileKindExpr m e)
  | none => needs_nil m _
  | some e => by
    simp only [compileKindExpr, optNames]
    exact compileKindExprNode_needs m e
theorem compileKindExprNode_needs (m : Nat) : ∀ (e : ast.KindExpr),
    Needs (Bound m (kindExprNames e)) (compileKindExprNode m e)
  | .mk .TNumber start | .mk .TByte start | .mk .TChar start | .mk .TString start
  | .mk .TBool start | .mk .TAny start | .mk .TSelf start
  | .mk (.TMemberKind _ _) start => by
    simp only [kindExprNames, kindNodeNames]
    exact needs_nil m _
  | .mk (.TIdentifier name) start => by
    simp only [compileKindExprNode, kindExprNames, kindNodeNames]
    exact needs_skip m _ newKindRef_frame (fun _ => findIdentifierKind_needs m name)
  | .mk (.TArray t) start => by
    simp only [compileKindExprNode, kindExprNames, kindNodeNames]
    exact needs_skip m _ newKindRef_frame (fun _ => compileArrayKind_needs m t)
  | .mk (.TFuncKind t) start => by
    simp only [compileKindExprNode, kindExprNames, kindNodeNames]
    exact needs_skip m _ newKindRef_frame (fun _ => compileFuncKind_needs m t)
  | .mk (.TStructKind t) start => by
    simp only [compileKindExprNode, kindExprNames, kindNodeNames]
    exact needs_skip m _ newKindRef_frame (fun _ => compileStructKind_needs m t)
theorem compileArrayKind_needs (m : Nat) : ∀ (t : ast.TArray),
    Needs (Bound m (arrayNames t)) (compileArrayKind m t)
  | .mk none len => by
    simp only [arrayNames]
    exact needs_nil m _
  | .mk (some e) len => by
    have ih := compileKindExprNode_needs m e
    simp only [compileArrayKind, arrayNames, compileKindExpr]
    refine needs_skip m _ newKindRef_frame (fun _ => needs_skip m _ ?_ (fun _ => needs_first ih))
    repeat' first
      | exact preserves_pure kindsFrame_isFrame _
      | exact preserves_abort kindsFrame_isFrame _
      | exact preserves_unexpectedPos kindsFrame_isFrame _ _
      | apply preserves_bind kindsFrame_isFrame
      | intro _
      | split
theorem compileFuncKindArgs_needs (m n : Nat) : ∀ (l : List ast.Argument) (i : Nat) (rest : Bool)
    (acc : List KindRef), Needs (Bound m (argsNames l)) (compileFuncKindArgs m n l i rest acc)
  | [], i, rest, acc => by
    simp only [argsNames]
    exact needs_nil m _
  | (.mk none argRest argStart) :: more, i, rest, acc => by
    have ih2 := fun r a => compileFuncKindArgs_needs m n more (i + 1) r a
    simp only [compileFuncKindArgs, argsNames]
    refine needs_skip m _ ?_ (fun _ => needs_skip m _ (compileKindExpr_frame m none)
      (fun _ => ih2 _ _))
    repeat' first
      | exact preserves_pure kindsFrame_isFrame _
      | exact preserves_unexpectedPos kindsFrame_isFrame _ _
      | apply preserves_bind kindsFrame_isFrame
      | intro _
      | split
  | (.mk (some e) argRest argStart) :: more, i, rest, acc => by
    have ih1 := compileKindExprNode_needs m e
    have ih2 := fun r a => compileFuncKindArgs_needs m n more (i + 1) r a
    simp only [compileFuncKindArgs, argsNames, compileKindExpr]
    refine needs_skip m _ ?_ (fun _ => needs_both m _ _ ih1 (compileKindExprNode_frame m e)
      (fun _ => ih2 _ _))
    repeat' first
      | exact preserves_pure kindsFrame_isFrame _
      | exact preserves_unexpectedPos kindsFrame_isFrame _ _
      | apply preserves_bind kindsFrame_isFrame
      | intro _
      | split
theorem compileFuncKind_needs (m : Nat) : ∀ (t : ast.TFuncKind),
    Needs (Bound m (funcNames t)) (compileFuncKind m t)
  | .mk args none => by
    have ih1 := compileFuncKindArgs_needs m args.length args 0 false []
    simp only [compileFuncKind, funcNames]
    exact needs_skip m _ newKindRef_frame (fun _ => needs_first ih1)
  | .mk args (some ret) => by
    have ih1 := compileFuncKindArgs_needs m args.length args 0 false []
    have ih2 := compileKindExprNode_needs m ret
    simp only [compileFuncKind, funcNames, compileKindExpr]
    refine needs_skip m _ newKindRef_frame (fun _ => needs_both m _ _ ih1
      (compileFuncKindArgs_frame m args.length args 0 false []) ?_)
    rintro ⟨rest, arguments⟩
    exact needs_first ih2
theorem compileStructProps_needs (m : Nat) : ∀ (l : List ast.KindProperty)
    (props : List (String × KindRef)), Needs (Bound m (propsNames l)) (compileStructProps m l props)
  | [], props => by
    simp only [propsNames]
    exact needs_nil m _
  | (.mk key none start) :: more, props => by
    have ih2 := fun p => compileStructProps_needs m more p
    simp only [compileStructProps, propsNames]
    split
    · exact needs_skip m _ (preserves_unexpectedPos kindsFrame_isFrame _ _)
        (fun _ => needs_skip m _ (compileKindExpr_frame m none) (fun _ => ih2 _))
    · exact needs_skip m _ (preserves_pure kindsFrame_isFrame _)
        (fun _ => needs_skip m _ (compileKindExpr_frame m none) (fun _ => ih2 _))
  | (.mk key (some e) start) :: more, props => by
    have ih1 := compileKindExprNode_needs m e
    have ih2 := fun p => compileStructProps_needs m more p
    simp only [compileStructProps, propsNames, compileKindExpr]
    split
    · exact needs_skip m _ (preserves_unexpectedPos kindsFrame_isFrame _ _)
        (fun _ => needs_both m _ _ ih1 (compileKindExprNode_frame m e) (fun _ => ih2 _))
    · exact needs_skip m _ (preserves_pure kindsFrame_isFrame _)
        (fun _ => needs_both m _ _ ih1 (compileKindExprNode_frame m e) (fun _ => ih2 _))
theorem compileStructExtends_needs (m : Nat) : ∀ (l : List ast.KindExpr) (exts : List KindRef),
    Needs (Bound m (extsNames l)) (compileStructExtends m l exts)
  | [], exts => by
    simp only [extsNames]
    exact needs_nil m _
  | item :: more, exts => by
    have ih1 := compileKindExprNode_needs m item
    have ih2 := fun e => compileStructExtends_needs m more e
    simp only [compileStructExtends, extsNames]
    exact needs_both m _ _ ih1 (compileKindExprNode_frame m item) (fun _ => ih2 _)
theorem compileStructKind_needs (m : Nat) : ∀ (t : ast.TStructKind),
    Needs (Bound m (structNames t)) (compileStructKind m t)
  | .mk exts props => by
    have ih1 := compileStructProps_needs m props []
    have ih2 := compileStructExtends_needs m exts []
    simp only [compileStructKind, structNames]
    exact needs_skip m _ newKindRef_frame (fun _ => needs_both m _ _ ih1
      (compileStructProps_frame m props []) (fun _ => needs_first ih2))
end

/-! ## References between top-level declarations -/

/-- A type name resolves to the cell it is bound to, and to a lookup error if it is
not bound. -/
theorem compileKindExpr_identifier (m : Nat) (name : ast.Identifier) (pos : Nat) (s : Compiler)
    (md : Module) (hm : s.modules[m]? = some md) :
    compileKindExpr m (some (.mk (.TIdentifier name) pos)) s =
      match lookupKind md.scopes name.Name with
      | some r => .ok r (allocated s)
      | none => .fail (.compileError name.Start ("Cannot found: " ++ name.Name)) (allocated s) := by
  have hm1 : (allocated s).modules[m]? = some md := hm
  simp only [compileKindExpr, compileKindExprNode, bind_apply, newKindRef_apply,
    findIdentifierKind, getModule_apply, hm1]
  cases lookupKind md.scopes name.Name <;> rfl

/-- The loop of `preCompile`: the first statement, then the others. -/
theorem preCompileBody_cons (compile : Nat → M Unit) (m : Nat) (stmt : ast.Stmt)
    (more : List ast.Stmt) (s : Compiler) :
    preCompileBody compile m (stmt :: more) s
      = (preCompileBody compile m [stmt] >>= fun _ => preCompileBody compile m more) s := by
  obtain ⟨node, pos⟩ := stmt
  cases node with
  | ImportDecl d =>
    simp only [preCompileBody, ast.Stmt.Node, bind_apply, pure_apply]
    cases compileImportDecl compile m d s <;> rfl
  | FuncDecl d b =>
    simp only [preCompileBody, ast.Stmt.Node, bind_apply, pure_apply]
    cases compileFuncDecl m d none true s <;> rfl
  | ImplDecl t i b =>
    simp only [preCompileBody, ast.Stmt.Node, bind_apply, pure_apply]
    cases compileImplDecl m t i b true s <;> rfl
  | VarDecl d =>
    simp only [preCompileBody, ast.Stmt.Node, bind_apply, pure_apply]
    cases compileVarDecl m d true s <;> rfl
  | TAliasDecl d =>
    simp only [preCompileBody, ast.Stmt.Node, bind_apply, pure_apply]
    cases compileTAliasDecl m d s <;> rfl
  | TInterfaceDecl d =>
    simp only [preCompileBody, ast.Stmt.Node, bind_apply, pure_apply]
    cases compileTInterfaceDecl m d s <;> rfl
  | TStructDecl d =>
    simp only [preCompileBody, ast.Stmt.Node, bind_apply, pure_apply]
    cases compileTStructDecl m d s <;> rfl
  | TEnumDecl d =>
    simp only [preCompileBody, ast.Stmt.Node, bind_apply, pure_apply]
    cases compileTEnumDecl m d s <;> rfl
  | _ => rfl

/-- A declaration whose own step completes has resolved its type expression. -/
theorem preCompileBody_resolves (compile : Nat → M Unit) (m : Nat) (stmt : ast.Stmt)
    (s s1 : Compiler) (md : Module) (e : Option ast.KindExpr)
    (hm : s.modules[m]? = some md) (hd : declaredType stmt.Node = some e)
    (h : preCompileBody compile m [stmt] s = .ok () s1) : Bound m (optNames e) s := by
  obtain ⟨node, pos⟩ := stmt
  cases node with
  | FuncDecl d fbody =>
    simp only [ast.Stmt.Node, declaredType, Option.some.injEq] at hd
    subst hd
    simp only [preCompileBody, ast.Stmt.Node] at h
    obtain ⟨r, s2, h2, _⟩ := bind_ok_inv h
    obtain ⟨k, sk, hk, _⟩ := compileFuncDecl_top_ok m d s _ md r hm h2
    exact (compileKindExpr_needs m d.Kind).run s k sk hk
  | VarDecl d =>
    simp only [ast.Stmt.Node, declaredType, Option.some.injEq] at hd
    subst hd
    simp only [preCompileBody, ast.Stmt.Node] at h
    obtain ⟨u, s2, h2, _⟩ := bind_ok_inv h
    obtain ⟨k, sk, hk, _⟩ := compileVarDecl_ok m d s _ md hm h2
    exact (compileKindExpr_needs m d.Kind).run s k sk hk
  | TAliasDecl d =>
    simp only [ast.Stmt.Node, declaredType, Option.some.injEq] at hd
    subst hd
    simp only [preCompileBody, ast.Stmt.Node] at h
    obtain ⟨u, s2, h2, _⟩ := bind_ok_inv h
    obtain ⟨k, sk, hk, _⟩ := compileTAliasDecl_ok m d s _ md hm h2
    exact (compileKindExpr_needs m d.Kind).run s k sk hk
  | TStructDecl d =>
    simp only [ast.Stmt.Node, declaredType, Option.some.injEq] at hd
    subst hd
    simp only [preCompileBody, ast.Stmt.Node] at h
    obtain ⟨u, s2, h2, _⟩ := bind_ok_inv h
    obtain ⟨t, k, sk, hn, hk, _⟩ := compileTStructDecl_ok m d s _ md hm h2
    have hnames : optNames (some d.Kind) = structNames t := by
      cases hk0 : d.Kind with
      | mk dn dp =>
      rw [hk0] at hn
      simp only [ast.KindExpr.Node] at hn
      subst hn
      simp [optNames, kindExprNames, kindNodeNames]
    rw [hnames]
    exact (compileStructKind_needs m t).run s k sk hk
  | _ => simp [ast.Stmt.Node, declaredType] at hd

/-- Binding a kind name that is new in the innermost frame completes. -/
theorem declareKind_run (m : Nat) (name : ast.Identifier) (k : KindRef) (pub : Bool)
    (s : Compiler) (md : Module) (hm : s.modules[m]? = some md)
    (hfresh : freshKind md name.Name) :
    (putKind m name k true >>= fun _ =>
      if pub then exportsSetKind m name.Name k else pure ()) s
      = .ok () { s with modules := s.modules.set m (withKind md name.Name k pub) } := by
  have hlt := lt_of_getElem?_some hm
  obtain ⟨fr, rest, hs, hh⟩ := hfresh
  simp only [bind_apply, putKind, getModule_apply, hm, hs, hh, Bool.false_eq_true, if_false,
    setModule]
  cases pub with
  | false => simp [withKind, hs]
  | true =>
    simp only [if_true, exportsSetKind, bind_apply, getModule_apply,
      set_getElem?_self _ _ _ hlt, setModule, List.set_set]
    simp [withKind, hs]

/-- An alias of a bound type name, declared under a new name: the declaration
completes and leaves a new cell that refers to the cell the name is bound to. -/
theorem compileTAliasDecl_bound (m : Nat) (d : ast.TAliasDecl) (name : ast.Identifier)
    (pos : Nat) (r : KindRef) (s : Compiler) (md : Module) (hm : s.modules[m]? = some md)
    (hk : d.Kind = some (.mk (.TIdentifier name) pos))
    (hr : lookupKind md.scopes name.Name = some r) (hfresh : freshKind md d.Name.Name) :
    compileTAliasDecl m d s
      = .ok () { filled (allocated (allocated s)) (s.kinds.length + 1) (.TCustom r []) with
          modules := (s.modules.set m (withKind md d.Name.Name (s.kinds.length + 1) d.Pub)) } := by
  have h1 := compileKindExpr_identifier m name pos s md hm
  rw [hr] at h1
  have hm2 : (filled (allocated (allocated s)) (s.kinds.length + 1) (.TCustom r [])).modules[m]?
      = some md := hm
  have h2 := declareKind_run m d.Name (s.kinds.length + 1) d.Pub _ md hm2 hfresh
  simp only [bind_apply] at h2
  simp only [compileTAliasDecl, bind_apply, hk, h1, newKindRef_apply, setRef_apply]
  have hlen : (allocated s).kinds.length = s.kinds.length + 1 := by simp [allocated]
  rw [hlen]
  exact h2

/-- A function, variable or alias declaration whose type expression is an unbound
name stops with the lookup error of that name. -/
theorem preCompileBody_unbound (compile : Nat → M Unit) (m : Nat) (stmt : ast.Stmt)
    (more : List ast.Stmt) (s : Compiler) (md : Module) (name : ast.Identifier) (pos : Nat)
    (hm : s.modules[m]? = some md)
    (hd : directType stmt.Node = some (some (.mk (.TIdentifier name) pos)))
    (hr : lookupKind md.scopes name.Name = none) :
    preCompileBody compile m (stmt :: more) s
      = .fail (.compileError name.Start ("Cannot found: " ++ name.Name)) (allocated s) := by
  have h1 := compileKindExpr_identifier m name pos s md hm
  rw [hr] at h1
  obtain ⟨node, p⟩ := stmt
  cases node with
  | FuncDecl d fbody =>
    simp only [ast.Stmt.Node, directType, Option.some.injEq] at hd
    simp only [preCompileBody, ast.Stmt.Node, compileFuncDecl, bind_apply, if_true, hd, h1]
  | VarDecl d =>
    simp only [ast.Stmt.Node, directType, Option.some.injEq] at hd
    simp only [preCompileBody, ast.Stmt.Node, compileVarDecl, bind_apply, if_true, hd, h1]
  | TAliasDecl d =>
    simp only [ast.Stmt.Node, directType, Option.some.injEq] at hd
    simp only [preCompileBody, ast.Stmt.Node, compileTAliasDecl, bind_apply, hd, h1]
  | _ => simp [ast.Stmt.Node, directType] at hd

/-- C14, amended: a type expression of a top-level declaration is resolved against
the names bound so far, that is by the declarations textually before it. (1) If the
type expression of a function, variable, alias or struct declaration names a type
that is not bound yet (as one declared only by a later declaration), `preCompile`
does not complete, whatever follows; (2) if the type expression of a function,
variable or alias declaration is such a name itself, the run stops with
"Cannot found: name" at the name; (3) a name that is bound resolves without
error to the cell it is bound to; (4) an alias, under a new name, of a bound type
name is precompiled without error, and its kind is a new cell that refers to the
cell of the earlier declaration. -/
theorem preCompile_forward_reference (compile : Nat → M Unit) (m : Nat) (stmt : ast.Stmt)
    (more : List ast.Stmt) (s : Compiler) (md : Module) (hm : s.modules[m]? = some md) :
    (∀ e name, declaredType stmt.Node = some e → name ∈ optNames e →
      lookupKind md.scopes name = none →
      ∀ s1, preCompileBody compile m (stmt :: more) s ≠ .ok () s1) ∧
    (∀ name pos, directType stmt.Node = some (some (.mk (.TIdentifier name) pos)) →
      lookupKind md.scopes name.Name = none →
      preCompileBody compile m (stmt :: more) s
        = .fail (.compileError name.Start ("Cannot found: " ++ name.Name)) (allocated s)) ∧
    (∀ name pos r, lookupKind md.scopes name.Name = some r →
      compileKindExpr m (some (.mk (.TIdentifier name) pos)) s = .ok r (allocated s)) ∧
    (∀ d name pos r, stmt.Node = .TAliasDecl d → d.Kind = some (.mk (.TIdentifier name) pos) →
      lookupKind md.scopes name.Name = some r → freshKind md d.Name.Name →
      ∃ s1 md1, preCompileBody compile m [stmt] s = .ok () s1 ∧
        s1.modules[m]? = some md1 ∧
        lookupKind md1.scopes d.Name.Name = some (s.kinds.length + 1) ∧
        s1.kinds[s.kinds.length + 1]? = some (some (.TCustom r []))) := by
  refine ⟨?_, ?_, ?_, ?_⟩
  · intro e name hd hn hr s1 h
    rw [preCompileBody_cons] at h
    obtain ⟨u, s2, h2, _⟩ := bind_ok_inv h
    exact preCompileBody_resolves compile m stmt s s2 md e hm hd h2 md hm name hn hr
  · intro name pos hd hr
    exact preCompileBody_unbound compile m stmt more s md name pos hm hd hr
  · intro name pos r hr
    have h1 := compileKindExpr_identifier m name pos s md hm
    rw [hr] at h1
    exact h1
  · intro d name pos r hd hk hr hfresh
    obtain ⟨node, p⟩ := stmt
    simp only [ast.Stmt.Node] at hd
    subst hd
    have h1 := compileTAliasDecl_bound m d name pos r s md hm hk hr hfresh
    refine ⟨{ filled (allocated (allocated s)) (s.kinds.length + 1) (.TCustom r []) with
        modules := (s.modules.set m (withKind md d.Name.Name (s.kinds.length + 1) d.Pub)) },
      withKind md d.Name.Name (s.kinds.length + 1) d.Pub, ?_, ?_, ?_, ?_⟩
    · simp only [preCompileBody, ast.Stmt.Node, bind_apply, h1, pure_apply]
    · exact set_getElem?_self _ _ _ (lt_of_getElem?_some hm)
    · exact (withKind_spec md d.Name.Name _ d.Pub hfresh).1
    · show (((s.kinds ++ [none]) ++ [none]).set (s.kinds.length + 1) _)[s.kinds.length + 1]? = _
      rw [List.getElem?_set_self (by simp)]

/-- The record of module 0 in `circleDeclared`. -/
theorem circleDeclared_module : circleDeclared.modules[0]? = some circleDeclaredModule :=
  eq_some_getD _ (by decide!)

/-- A name that the innermost frame does not hold is new. -/
theorem freshKind_of_head (md : Module) (name : String)
    (h : md.scopes.head?.map (fun fr => mapHas fr.kinds name) = some false) :
    freshKind md name := by
  cases hs : md.scopes with
  | nil => rw [hs] at h; simp at h
  | cons fr rest =>
    rw [hs] at h
    simp only [List.head?_cons, Option.map_some', Option.some.injEq] at h
    exact ⟨fr, rest, hs, h⟩

/-- C14 as stated fails: in the module `type Round = Circle; struct Circle { r: Number }`
the alias names the type of the later declaration, and `preCompile` stops with
the lookup error at the name `Circle`; nothing has been bound. -/
theorem preCompile_forward_reference_fails :
    declaredType roundStmt.Node = some (some circleExpr) ∧
    kindExprNames circleExpr = ["Circle"] ∧
    Option.map (fun p => p.1.Name) (declaredKind circleStmt.Node) = some "Circle" ∧
    (preCompile (Module.compile 1) 0 forwardStore).fault
      = some (.compileError 90 "Cannot found: Circle") ∧
    (∀ fuel, ¬ ∃ s1, preCompile (Module.compile fuel) 0 forwardStore = .ok () s1) := by
  refine ⟨rfl, by decide, by decide, by decide!, ?_⟩
  rintro fuel ⟨s1, h⟩
  have hf : preCompile (Module.compile fuel) 0 forwardStore
      = .fail (.compileError 90 "Cannot found: Circle") (allocated
          { forwardStore with modules :=
            [{ exampleModule with Ast := ⟨[roundStmt, circleStmt]⟩, scopes := [Scope.empty] }] }) :=
    preCompileBody_unbound (Module.compile fuel) 0 roundStmt [circleStmt]
      { forwardStore with modules :=
        [{ exampleModule with Ast := ⟨[roundStmt, circleStmt]⟩, scopes := [Scope.empty] }] }
      { exampleModule with Ast := ⟨[roundStmt, circleStmt]⟩, scopes := [Scope.empty] }
      ⟨"Circle", 90⟩ 90 rfl rfl rfl
  rw [hf] at h
  cases h

/-- C14, amended, at `type Round = Circle` after `struct Circle { r: Number }`: the
alias is precompiled without error and its cell refers to the cell of `Circle`. -/
theorem preCompile_forward_reference_witness :
    lookupKind circleDeclaredModule.scopes "Circle" = some 0 ∧
    ∃ s1 md1, preCompileBody (Module.compile 0) 0 [roundStmt] circleDeclared = .ok () s1 ∧
      s1.modules[0]? = some md1 ∧
      lookupKind md1.scopes "Round" = some (circleDeclared.kinds.length + 1) ∧
      s1.kinds[circleDeclared.kinds.length + 1]? = some (some (.TCustom 0 [])) :=
  ⟨by decide!,
   (preCompile_forward_reference (Module.compile 0) 0 roundStmt [] circleDeclared
      circleDeclaredModule circleDeclared_module).2.2.2
      { Name := ⟨"Round", 5⟩, Kind := some circleExpr, Pub := false } ⟨"Circle", 90⟩ 90 0
      rfl rfl (by decide!) (freshKind_of_head _ _ (by decide!))⟩
/-! ## Completed runs -/

theorem leads_bind {P Q R : Compiler → Prop} {α β : Type} {x : M α} {f : α → M β}
    (hx : Leads P x Q) (hf : ∀ a, Leads Q (f a) R) : Leads P (x >>= f) R := by
  constructor
  intro s b t hP h
  obtain ⟨a, s1, h1, h2⟩ := bind_ok_inv h
  exact (hf a).run s1 b t (hx.run s a s1 hP h1) h2

/-- A run that never completes leads anywhere. -/
theorem leads_abort {P Q : Compiler → Prop} {α : Type} (f : Fault) :
    Leads P (abort f : M α) Q := by
  constructor
  intro s a t _ h
  simp at h

theorem leads_unexpectedPos {P Q : Compiler → Prop} (pos : Nat) (msg : String) :
    Leads P (unexpectedPos pos msg) Q := by
  constructor
  intro s a t _ h
  simp at h

/-- A run of the kind resolver's frame leaves the module records as they are. -/
theorem leads_kinds (ms : List Module) {α : Type} {x : M α} (hx : Preserves KindsFrame x) :
    Leads (fun s => s.modules = ms) x (fun s => s.modules = ms) := by
  constructor
  intro s a t hP h
  have hfr := hx.run s
  rw [h] at hfr
  exact hfr.1.trans hP

theorem leads_scopesPush (m : Nat) (ms : List Module) (md : Module) (hm : ms[m]? = some md) :
    Leads (fun s => s.modules = ms) (scopesPush m)
      (fun s => s.modules = ms.set m { md with scopes := Scope.empty :: md.scopes }) := by
  constructor
  intro s a t hP h
  have hm1 : s.modules[m]? = some md := by rw [hP]; exact hm
  simp only [scopesPush, bind_apply, getModule_apply, hm1, setModule, Res.ok.injEq, true_and] at h
  rw [← h, ← hP]

theorem leads_putSelfKind (m : Nat) (ms : List Module) (md : Module) (t : KindRef)
    (hm : ms[m]? = some md) :
    Leads (fun s => s.modules = ms.set m { md with scopes := Scope.empty :: md.scopes })
      (putSelfKind m t)
      (fun s => s.modules
        = ms.set m { md with scopes := ({ Scope.empty with self := some t } : Scope) :: md.scopes })
      := by
  constructor
  intro s a s1 hP h
  have hlt := lt_of_getElem?_some hm
  have hm1 : s.modules[m]? = some { md with scopes := Scope.empty :: md.scopes } := by
    rw [hP]; exact set_getElem?_self _ _ _ hlt
  simp only [putSelfKind, bind_apply, getModule_apply, hm1, setModule, Res.ok.injEq, true_and] at h
  rw [← h]
  simp only [hP, List.set_set]

theorem leads_scopesPop (m : Nat) (ms : List Module) (md : Module) (fr : Scope)
    (hm : ms[m]? = some md) :
    Leads (fun s => s.modules = ms.set m { md with scopes := fr :: md.scopes }) (scopesPop m)
      (fun s => s.modules = ms) := by
  constructor
  intro s a s1 hP h
  have hlt := lt_of_getElem?_some hm
  have hm1 : s.modules[m]? = some { md with scopes := fr :: md.scopes } := by
    rw [hP]; exact set_getElem?_self _ _ _ hlt
  simp only [scopesPop, bind_apply, getModule_apply, hm1, setModule, Res.ok.injEq, true_and] at h
  rw [← h]
  simp only [hP, List.set_set]
  exact set_eq_self _ _ _ hm

/-- A completed impl block leaves every module record as it found it: the frame it
opens is closed again, and nothing is bound in between. -/
theorem compileImplDecl_restores (m : Nat) (target : ast.KindExpr) (iface : Option ast.KindExpr)
    (body : List ast.Stmt) (b : Bool) (ms : List Module) (md : Module) (hm : ms[m]? = some md) :
    Leads (fun s => s.modules = ms) (compileImplDecl m target iface body b)
      (fun s => s.modules = ms) := by
  have hR := kindsFrame_isFrame
  unfold compileImplDecl
  repeat' first
    | exact leads_abort _
    | exact leads_unexpectedPos _ _
    | exact leads_scopesPush m ms md hm
    | exact leads_putSelfKind m ms md _ hm
    | exact leads_scopesPop m ms md _ hm
    | exact leads_kinds _ (preserves_pure hR _)
    | exact leads_kinds _ (preserves_getRef hR _)
    | exact leads_kinds _ (compileKindExpr_frame m _)
    | exact leads_kinds _ (compileImplBody_frame m _ _ _ _ _)
    | exact leads_kinds _ (checkImplMethods_preserves hR _ _ _ _)
    | exact leads_kinds _ (setRef_frame _ _)
    | apply leads_bind
    | intro _
    | split

/-! ## Bindings of the module frame -/

/-- A binding of module `m` is seen in every store with the same record of `m`. -/
theorem holds_of_module (m : Nat) (name : String) (v : Value) (s t : Compiler)
    (h : t.modules[m]? = s.modules[m]?) (hs : Holds m name v s) : Holds m name v t := by
  obtain ⟨md, fr, rest, hm, hc, hsc, hg⟩ := hs
  exact ⟨md, fr, rest, by rw [h]; exact hm, hc, hsc, hg⟩

/-- Declaring a new value keeps the bindings of the frame, which are of other names. -/
theorem holds_withValue (m : Nat) (name n : String) (v w : Value) (pub : Bool)
    (s t : Compiler) (md : Module) (hm : s.modules[m]? = some md) (hfresh : freshValue md n)
    (ht : t.modules = s.modules.set m (withValue md n w pub)) (hs : Holds m name v s) :
    Holds m name v t ∧ name ≠ n := by
  obtain ⟨md0, fr, rest, hm0, hc, hsc, hg⟩ := hs
  rw [hm] at hm0
  cases hm0
  obtain ⟨fr1, rest1, hsc1, hh⟩ := hfresh
  rw [hsc] at hsc1
  cases hsc1
  have hne : n ≠ name := by
    intro he
    subst he
    simp [mapHas, hg] at hh
  refine ⟨⟨withValue md n w pub, { fr with values := mapSet fr.values n w }, rest, ?_, ?_, ?_, ?_⟩,
    fun he => hne he.symm⟩
  · rw [ht]; exact set_getElem?_self _ _ _ (lt_of_getElem?_some hm)
  · simp only [withValue, hsc]; exact hc
  · simp only [withValue, hsc]
  · simp only [mapGet_mapSet, hne, if_false]; exact hg

/-- The value a declaration binds is held by the frame. -/
theorem holds_withValue_self (m : Nat) (n : String) (w : Value) (pub : Bool)
    (s t : Compiler) (md : Module) (hm : s.modules[m]? = some md) (hc : md.compiled = true)
    (hfresh : freshValue md n) (ht : t.modules = s.modules.set m (withValue md n w pub)) :
    Holds m n w t := by
  obtain ⟨fr, rest, hsc, hh⟩ := hfresh
  refine ⟨withValue md n w pub, { fr with values := mapSet fr.values n w }, rest, ?_, ?_, ?_, ?_⟩
  · rw [ht]; exact set_getElem?_self _ _ _ (lt_of_getElem?_some hm)
  · simp only [withValue, hsc]; exact hc
  · simp only [withValue, hsc]
  · exact mapGet_mapSet_self _ _ _

/-- Declaring a kind keeps the value bindings of the frame. -/
theorem holds_withKind (m : Nat) (name n : String) (v : Value) (k : KindRef) (pub : Bool)
    (s t : Compiler) (md : Module) (hm : s.modules[m]? = some md)
    (ht : t.modules = s.modules.set m (withKind md n k pub)) (hs : Holds m name v s) :
    Holds m name v t := by
  obtain ⟨md0, fr, rest, hm0, hc, hsc, hg⟩ := hs
  rw [hm] at hm0
  cases hm0
  refine ⟨withKind md n k pub, { fr with kinds := mapSet fr.kinds n k }, rest, ?_, ?_, ?_, hg⟩
  · rw [ht]; exact set_getElem?_self _ _ _ (lt_of_getElem?_some hm)
  · simp only [withKind, hsc]; exact hc
  · simp only [withKind, hsc]

/-- A completed `putValue` keeps the bindings of the frame. -/
theorem putValue_holds (m : Nat) (name : String) (v : Value) (loc : ast.Identifier) (w : Value)
    (required : Bool) :
    Leads (Holds m name v) (putValue m loc w required) (Holds m name v) := by
  constructor
  intro s a t hs h
  obtain ⟨md, fr, rest, hm, hc, hsc, hg⟩ := hs
  simp only [putValue, bind_apply, getModule_apply, hm, hsc] at h
  cases hh : mapHas fr.values loc.Name with
  | true =>
    rw [hh] at h
    cases required with
    | true => simp at h
    | false =>
      simp only [if_true, Bool.false_eq_true, if_false, pure_apply, Res.ok.injEq, true_and] at h
      subst h
      exact ⟨md, fr, rest, hm, hc, hsc, hg⟩
  | false =>
    rw [hh] at h
    simp only [Bool.false_eq_true, if_false, setModule, Res.ok.injEq, true_and] at h
    subst h
    have hne : loc.Name ≠ name := by
      intro he
      rw [he] at hh
      simp [mapHas, hg] at hh
    refine ⟨_, { fr with values := mapSet fr.values loc.Name w }, rest,
      set_getElem?_self _ _ _ (lt_of_getElem?_some hm), hc, rfl, ?_⟩
    simp only [mapGet_mapSet, hne, if_false]; exact hg

/-- Compiling a module keeps the bindings of a module whose compilation has started. -/
theorem compile_holds (m : Nat) (name : String) (v : Value) (fuel p : Nat) :
    Leads (Holds m name v) (Module.compile fuel p) (Holds m name v) := by
  constructor
  intro s a t hs h
  have hfr := (compile_frozen m fuel p).run s
  rw [h] at hfr
  obtain ⟨md, fr, rest, hm, hc, hsc, hg⟩ := hs
  exact holds_of_module m name v s t (hfr ⟨md, hm, hc⟩) ⟨md, fr, rest, hm, hc, hsc, hg⟩

/-- A completed import keeps the bindings of the importing module's frame. -/
theorem compileImportDecl_holds (m : Nat) (name : String) (v : Value) (fuel : Nat)
    (node : ast.ImportDecl) :
    Leads (Holds m name v) (compileImportDecl (Module.compile fuel) m node) (Holds m name v) := by
  constructor
  intro s a t hs h
  have hput : ∀ loc p, Leads (Holds m name v)
      (putValue m loc (.Module ⟨loc.Name, p⟩) true >>= fun _ => Module.compile fuel p)
      (Holds m name v) :=
    fun loc p => leads_bind (putValue_holds m name v loc _ true)
      (fun _ => compile_holds m name v fuel p)
  rw [compileImportDecl_cases] at h
  obtain ⟨md, fr, rest, hm, hc, hsc, hg⟩ := hs
  rw [hm] at h
  simp only at h
  cases hl : importLocal node with
  | none => rw [hl] at h; simp at h
  | some loc =>
    rw [hl] at h
    simp only at h
    cases hcache : mapGet s.Modules (importModuleId md.packageName node) with
    | some p =>
      rw [hcache] at h
      exact (hput loc p).run s a t ⟨md, fr, rest, hm, hc, hsc, hg⟩ h
    | none =>
      rw [hcache] at h
      simp only at h
      cases hf : mapGet s.VirtualFS.files (importPath s.VirtualFS.Root md.packageName node) with
      | none => rw [hf] at h; simp at h
      | some code =>
        rw [hf] at h
        refine (hput loc _).run _ a t ⟨md, fr, rest, ?_, hc, hsc, hg⟩ h
        simp only [registered]
        rw [List.getElem?_append_left (lt_of_getElem?_some hm)]
        exact hm

/-- One completed turn of the loop of `preCompile` keeps the bindings of the frame. -/
theorem preCompileBody_step_holds (m : Nat) (name : String) (v : Value) (fuel : Nat)
    (stmt : ast.Stmt) :
    Leads (Holds m name v) (preCompileBody (Module.compile fuel) m [stmt]) (Holds m name v) := by
  constructor
  intro s a s1 hs h
  have hs0 := hs
  obtain ⟨md, fr, rest, hm, hc, hsc, hg⟩ := hs
  obtain ⟨node, pos⟩ := stmt
  cases node with
  | ImportDecl d =>
    simp only [preCompileBody, ast.Stmt.Node] at h
    obtain ⟨u, s2, h2, h3⟩ := bind_ok_inv h
    simp only [pure_apply, Res.ok.injEq, true_and] at h3
    subst h3
    exact (compileImportDecl_holds m name v fuel d).run s u _ hs0 h2
  | FuncDecl d fbody =>
    simp only [preCompileBody, ast.Stmt.Node] at h
    obtain ⟨r, s2, h2, h3⟩ := bind_ok_inv h
    simp only [bind_apply, pure_apply, Res.ok.injEq, true_and] at h3
    subst h3
    obtain ⟨k, sk, _, _, hfresh, hs1⟩ := compileFuncDecl_top_ok m d s _ md r hm h2
    exact (holds_withValue m name _ v _ d.Pub s _ md hm hfresh (by rw [hs1]) hs0).1
  | ImplDecl t i b =>
    simp only [preCompileBody, ast.Stmt.Node] at h
    obtain ⟨u, s2, h2, h3⟩ := bind_ok_inv h
    simp only [pure_apply, Res.ok.injEq, true_and] at h3
    subst h3
    have hms := (compileImplDecl_restores m t i b true s.modules md hm).run s u _ rfl h2
    exact holds_of_module m name v s _ (by rw [hms]) hs0
  | VarDecl d =>
    simp only [preCompileBody, ast.Stmt.Node] at h
    obtain ⟨u, s2, h2, h3⟩ := bind_ok_inv h
    simp only [pure_apply, Res.ok.injEq, true_and] at h3
    subst h3
    obtain ⟨k, sk, _, hfresh, hs1⟩ := compileVarDecl_ok m d s _ md hm h2
    exact (holds_withValue m name _ v _ d.Pub s _ md hm hfresh (by rw [hs1]) hs0).1
  | TAliasDecl d =>
    simp only [preCompileBody, ast.Stmt.Node] at h
    obtain ⟨u, s2, h2, h3⟩ := bind_ok_inv h
    simp only [pure_apply, Res.ok.injEq, true_and] at h3
    subst h3
    obtain ⟨k, sk, _, _, hs1⟩ := compileTAliasDecl_ok m d s _ md hm h2
    exact holds_withKind m name _ v _ d.Pub s _ md hm (by rw [hs1]) hs0
  | TInterfaceDecl d =>
    simp only [preCompileBody, ast.Stmt.Node] at h
    obtain ⟨u, s2, h2, h3⟩ := bind_ok_inv h
    simp only [pure_apply, Res.ok.injEq, true_and] at h3
    subst h3
    obtain ⟨props, _, _, _, _, _, hs1, _⟩ := compileTInterfaceDecl_ok m d s _ md hm h2
    exact holds_withKind m name _ v _ d.Pub s _ md hm hs1 hs0
  | TStructDecl d =>
    simp only [preCompileBody, ast.Stmt.Node] at h
    obtain ⟨u, s2, h2, h3⟩ := bind_ok_inv h
    simp only [pure_apply, Res.ok.injEq, true_and] at h3
    subst h3
    obtain ⟨t, k, sk, _, _, _, hs1⟩ := compileTStructDecl_ok m d s _ md hm h2
    exact holds_withKind m name _ v _ d.Pub s _ md hm (by rw [hs1]) hs0
  | TEnumDecl d =>
    simp only [preCompileBody, ast.Stmt.Node] at h
    obtain ⟨u, s2, h2, h3⟩ := bind_ok_inv h
    simp only [pure_apply, Res.ok.injEq, true_and] at h3
    subst h3
    obtain ⟨choices, _, _, hs1⟩ := compileTEnumDecl_ok m d s _ md hm h2
    exact holds_withKind m name _ v _ d.Pub s _ md hm (by rw [hs1]) hs0
  | _ =>
    simp only [preCompileBody, ast.Stmt.Node, bind_apply, pure_apply, Res.ok.injEq,
      true_and] at h
    subst h
    exact hs0

/-- A completed run of the loop of `preCompile` keeps the bindings of the frame. -/
theorem preCompileBody_holds (m : Nat) (name : String) (v : Value) (fuel : Nat) :
    ∀ (body : List ast.Stmt),
    Leads (Holds m name v) (preCompileBody (Module.compile fuel) m body) (Holds m name v)
  | [] => by
    constructor
    intro s a t hs h
    simp only [preCompileBody, pure_apply, Res.ok.injEq, true_and] at h
    subst h
    exact hs
  | stmt :: more => by
    constructor
    intro s a t hs h
    rw [preCompileBody_cons] at h
    obtain ⟨u, s2, h2, h3⟩ := bind_ok_inv h
    exact (preCompileBody_holds m name v fuel more).run s2 a t
      ((preCompileBody_step_holds m name v fuel stmt).run s u s2 hs h2) h3
/-! ## Functions are bound before any body is resolved -/

/-- The loop of `preCompile` over two lists, one after the other. -/
theorem preCompileBody_append (compile : Nat → M Unit) (m : Nat) :
    ∀ (pre rest : List ast.Stmt) (s : Compiler),
    preCompileBody compile m (pre ++ rest) s
      = (preCompileBody compile m pre >>= fun _ => preCompileBody compile m rest) s
  | [], rest, s => by simp [preCompileBody]
  | stmt :: pre, rest, s => by
    have h1 := preCompileBody_cons compile m stmt (pre ++ rest) s
    have h2 := preCompileBody_cons compile m stmt pre s
    have ih := fun s1 => preCompileBody_append compile m pre rest s1
    simp only [bind_apply] at h1 h2 ih ⊢
    rw [List.cons_append, h1, h2]
    cases preCompileBody compile m [stmt] s with
    | fail f s1 => rfl
    | ok u s1 => exact ih s1

/-- `preCompile` opens a frame and runs the loop on the body of the module. -/
theorem preCompile_run (compile : Nat → M Unit) (m : Nat) (s : Compiler) (md : Module)
    (hm : s.modules[m]? = some md) :
    preCompile compile m s = preCompileBody compile m md.Ast.Body (opened s m md) := by
  have hlt := lt_of_getElem?_some hm
  simp only [preCompile, scopesPush, bind_apply, getModule_apply, hm, setModule,
    set_getElem?_self _ _ _ hlt]
  rfl

/-- The turn of the loop for a function declaration: the signature is resolved and
the name, new in the frame, is bound to the function value. -/
theorem preCompileBody_func (fuel m : Nat) (d : ast.FuncDecl) (b : List ast.Stmt) (p : Nat)
    (s s1 : Compiler) (md : Module) (hm : s.modules[m]? = some md) (hc : md.compiled = true)
    (h : preCompileBody (Module.compile fuel) m [.mk (.FuncDecl d b) p] s = .ok () s1) :
    ∃ k s2, compileKindExpr m d.Kind s = .ok k s2 ∧
      Holds m d.Name.Name (.Func ⟨d.Name.Name, k⟩) s1 ∧
      ∀ name v, Holds m name v s → name ≠ d.Name.Name := by
  simp only [preCompileBody, ast.Stmt.Node] at h
  obtain ⟨r, s2, h2, h3⟩ := bind_ok_inv h
  simp only [bind_apply, pure_apply, Res.ok.injEq, true_and] at h3
  subst h3
  obtain ⟨k, sk, hk, _, hfresh, hs1⟩ := compileFuncDecl_top_ok m d s _ md r hm h2
  have hms : s2.modules
      = s.modules.set m (withValue md d.Name.Name (.Func ⟨d.Name.Name, k⟩) d.Pub) := by
    rw [hs1]
  refine ⟨k, sk, hk, holds_withValue_self m _ _ d.Pub s s2 md hm hc hfresh hms, ?_⟩
  intro name v hs
  exact (holds_withValue m name _ v (.Func ⟨d.Name.Name, k⟩) d.Pub s s2 md hm hfresh hms hs).2

/-- A completed run of the loop of `preCompile` in a module under compilation: the
function names are new in the frame and pairwise distinct, and each is bound, at
the end, to the function value of its resolved signature. -/
theorem preCompileBody_funcs (fuel m : Nat) : ∀ (body : List ast.Stmt) (s s1 : Compiler)
    (md : Module), s.modules[m]? = some md → md.compiled = true →
    preCompileBody (Module.compile fuel) m body s = .ok () s1 →
    (∀ name v, Holds m name v s → name ∉ funcDeclNames body) ∧
    (funcDeclNames body).Nodup ∧
    (∀ pre d b p post, body = pre ++ ast.Stmt.mk (.FuncDecl d b) p :: post →
      ∃ s0 k s2, preCompileBody (Module.compile fuel) m pre s = .ok () s0 ∧
        compileKindExpr m d.Kind s0 = .ok k s2 ∧
        Holds m d.Name.Name (.Func ⟨d.Name.Name, k⟩) s1)
  | [], s, s1, md, _, _, _ => by
    refine ⟨fun _ _ _ => by simp [funcDeclNames], by simp [funcDeclNames], ?_⟩
    intro pre d b p post he
    simp at he
  | stmt :: more, s, s1, md, hm, hc, h => by
    rw [preCompileBody_cons] at h
    obtain ⟨u, s2, h2, h3⟩ := bind_ok_inv h
    have hlater := (preCompileBody_preserves (later_importFrame m) _ (compile_later fuel)
      [stmt]).run s
    rw [h2] at hlater
    obtain ⟨md2, hm2, hc2⟩ := hlater.2.2.1 m md hm hc
    obtain ⟨ih1, ih2, ih3⟩ := preCompileBody_funcs fuel m more s2 s1 md2 hm2 hc2 h3
    have hkeep : ∀ name v, Holds m name v s → Holds m name v s2 := fun name v hs =>
      (preCompileBody_step_holds m name v fuel stmt).run s u s2 hs h2
    have hrest : ∀ name v, Holds m name v s2 → Holds m name v s1 := fun name v hs =>
      (preCompileBody_holds m name v fuel more).run s2 () s1 hs h3
    obtain ⟨node, pos⟩ := stmt
    have hthird : ∀ pre d b p post,
        ast.Stmt.mk node pos :: more = pre ++ ast.Stmt.mk (.FuncDecl d b) p :: post →
        (pre = [] → ∃ s0 k s2, preCompileBody (Module.compile fuel) m pre s = .ok () s0 ∧
          compileKindExpr m d.Kind s0 = .ok k s2 ∧
          Holds m d.Name.Name (.Func ⟨d.Name.Name, k⟩) s1) →
        ∃ s0 k s2, preCompileBody (Module.compile fuel) m pre s = .ok () s0 ∧
          compileKindExpr m d.Kind s0 = .ok k s2 ∧
          Holds m d.Name.Name (.Func ⟨d.Name.Name, k⟩) s1 := by
      intro pre d b p post he hnil
      cases pre with
      | nil => exact hnil rfl
      | cons x pre1 =>
        simp only [List.cons_append, List.cons.injEq] at he
        obtain ⟨hx, hmore⟩ := he
        obtain ⟨s0, k, sk, hpre, hk, hh⟩ := ih3 pre1 d b p post hmore
        refine ⟨s0, k, sk, ?_, hk, hh⟩
        rw [preCompileBody_cons, ← hx]
        simp only [bind_apply, h2]
        exact hpre
    cases node with
    | FuncDecl d fbody =>
      obtain ⟨k, sk, hk, hself, hother⟩ := preCompileBody_func fuel m d fbody pos s s2 md hm hc h2
      refine ⟨?_, ?_, ?_⟩
      · intro name v hs
        simp only [funcDeclNames, ast.Stmt.Node, List.mem_cons, not_or]
        exact ⟨hother name v hs, ih1 name v (hkeep name v hs)⟩
      · simp only [funcDeclNames, ast.Stmt.Node, List.nodup_cons]
        exact ⟨ih1 _ _ hself, ih2⟩
      · intro pre d1 b p post he
        refine hthird pre d1 b p post he ?_
        intro hnil
        subst hnil
        simp only [List.nil_append, List.cons.injEq, ast.Stmt.mk.injEq,
          ast.StmtNode.FuncDecl.injEq] at he
        obtain ⟨⟨⟨hd, _⟩, _⟩, _⟩ := he
        subst hd
        exact ⟨s, k, sk, rfl, hk, hrest _ _ hself⟩
    | _ =>
      refine ⟨?_, ?_, ?_⟩
      · intro name v hs
        simp only [funcDeclNames, ast.Stmt.Node]
        exact ih1 name v (hkeep name v hs)
      · simp only [funcDeclNames, ast.Stmt.Node]
        exact ih2
      · intro pre d1 b p post he
        refine hthird pre d1 b p post he ?_
        intro hnil
        subst hnil
        simp at he

/-- A value held by the frame of the module is what the lookups of the compile pass
find. -/
theorem holds_findValue (m : Nat) (name : ast.Identifier) (v : Value) (s : Compiler)
    (hs : Holds m name.Name v s) :
    (∃ md, s.modules[m]? = some md ∧ lookupValue md.scopes name.Name = some v) ∧
    findValue m name s = .ok v s := by
  obtain ⟨md, fr, rest, hm, _, hsc, hg⟩ := hs
  have hl : lookupValue md.scopes name.Name = some v := by
    rw [hsc]
    simp only [lookupValue, hg]
  exact ⟨⟨md, hm, hl⟩, by simp only [findValue, bind_apply, getModule_apply, hm, hl, pure_apply]⟩

/-- C15: let `preCompile` complete in a module under compilation. Then (1) the
names of its top-level function declarations are pairwise distinct; (2) every
top-level function declaration, wherever it stands in the body, is bound in the
module scope to the function value whose kind is the resolution of its signature
in the store the loop had reached, the compile-pass lookup `findValue` of its
name succeeds with that value, and so does the compile pass of the declaration;
(3) the run of the loop does not depend on the body of any function. -/
theorem preCompile_functions (fuel m : Nat) (s s1 : Compiler) (md : Module)
    (hm : s.modules[m]? = some md) (hc : md.compiled = true)
    (h : preCompile (Module.compile fuel) m s = .ok () s1) :
    (funcDeclNames md.Ast.Body).Nodup ∧
    (∀ pre d b p post, md.Ast.Body = pre ++ ast.Stmt.mk (.FuncDecl d b) p :: post →
      ∃ s0 k s2 md1,
        preCompileBody (Module.compile fuel) m pre (opened s m md) = .ok () s0 ∧
        compileKindExpr m d.Kind s0 = .ok k s2 ∧
        s1.modules[m]? = some md1 ∧
        lookupValue md1.scopes d.Name.Name = some (.Func ⟨d.Name.Name, k⟩) ∧
        findValue m d.Name s1 = .ok (.Func ⟨d.Name.Name, k⟩) s1 ∧
        compileFuncDecl m d none false s1 = .ok (some ⟨d.Name.Name, k⟩) s1) ∧
    (∀ pre d b b2 p post s0,
      preCompileBody (Module.compile fuel) m (pre ++ ast.Stmt.mk (.FuncDecl d b) p :: post) s0
        = preCompileBody (Module.compile fuel) m
            (pre ++ ast.Stmt.mk (.FuncDecl d b2) p :: post) s0) := by
  rw [preCompile_run _ m s md hm] at h
  have hm0 : (opened s m md).modules[m]? = some { md with scopes := Scope.empty :: md.scopes } :=
    set_getElem?_self _ _ _ (lt_of_getElem?_some hm)
  obtain ⟨_, h2, h3⟩ := preCompileBody_funcs fuel m md.Ast.Body (opened s m md) s1 _ hm0 hc h
  refine ⟨h2, ?_, ?_⟩
  · intro pre d b p post he
    obtain ⟨s0, k, sk, hpre, hk, hh⟩ := h3 pre d b p post he
    obtain ⟨⟨md1, hm1, hl⟩, hf⟩ := holds_findValue m d.Name _ s1 hh
    refine ⟨s0, k, sk, md1, hpre, hk, hm1, hl, hf, ?_⟩
    simp only [compileFuncDecl, Bool.false_eq_true, if_false, bind_apply, hf, pure_apply]
  · intro pre d b b2 p post s0
    rw [preCompileBody_append, preCompileBody_append]
    simp only [bind_apply]
    cases preCompileBody (Module.compile fuel) m pre s0 with
    | fail f t => rfl
    | ok u t =>
      simp only
      rw [preCompileBody_cons, preCompileBody_cons (Module.compile fuel) m (.mk (.FuncDecl d b2) p)]
      rfl

theorem callStore_run : preCompile (Module.compile 0) 0 callStore
    = .ok () (preCompile (Module.compile 0) 0 callStore).state :=
  Res.eq_ok_of_fault_none (r := preCompile (Module.compile 0) 0 callStore) (by decide!)

/-- C15 at the module `fn f() -> Number { g() }  fn g() -> Number { ... }`: after
`preCompile` the callee `g`, declared after its caller, is found by `findValue`. -/
theorem preCompile_functions_witness :
    ∃ k, findValue 0 ⟨"g", 43⟩ (preCompile (Module.compile 0) 0 callStore).state
      = .ok (.Func ⟨"g", k⟩) (preCompile (Module.compile 0) 0 callStore).state :=
  match (preCompile_functions 0 0 callStore _ callModule rfl rfl callStore_run).2.1
    [callerDecl] { Name := ⟨"g", 43⟩, Kind := some (fnReturning numberExpr), Pub := false }
    [.mk .ReturnStmt 60] 40 [] rfl with
  | ⟨_, k, _, _, _, _, _, _, hf, _⟩ => ⟨k, hf⟩
end Noah
